import Mathlib

/-!
# MeshDOG: curvature estimation and mesh difference-of-Gaussians detection

A shallow embedding of `QualityViewer.cc` (weights, curvatures, triangle
quality, MeshDoG detection).

## Number model

`Mesh::Scalar` is `float`.  A scalar is modelled by `Flt α`: either a number of
an ordered field `α` or one of the IEEE special values NaN, +inf, -inf, which
the source relies on (`isnan` guards, division by a zero area or a zero
valence).  Signed zeros are not distinguished: a zero divisor counts as `+0`.

There are two evaluations of the source.  The exact one (`calc_weights`,
`detect_meshdog`, `smooth`, ...) computes in the field `α` without rounding
and without overflow; the libm functions (`sqrt`, `acos`, `tan`, `exp`) are
fields of `MathFns α`, and theorems that need their analytic properties are
stated for `α = ℝ` with Mathlib's functions (`realMath`).  It carries the
properties that do not depend on rounding: the order of the loops, which
array an instruction reads, signs, and bounds with a margin.  The binary32
one (namespace `F32`, scalars `Flt ℚ`) rounds every operation to `float` or
`double` as the source does; it carries the numerical properties of the
vertex weights, the triangle quality and the uniform smoothing, which depend
on underflow, overflow and rounding.

## Mesh model

OpenMesh handles are natural numbers; the circulators of a vertex, face or
edge are the lists they enumerate.
-/

namespace MeshDOG

/-! ## Scalars -/

/-- A `float` value: NaN, minus infinity, a finite number, or plus infinity. -/
inductive Flt (α : Type) where
  | nan : Flt α
  | ninf : Flt α
  | fin (x : α) : Flt α
  | pinf : Flt α
deriving DecidableEq, Repr

namespace Flt

variable {α : Type} [LinearOrderedField α]

/-- Unary minus. -/
def neg : Flt α → Flt α
  | nan => nan
  | ninf => pinf
  | fin x => fin (-x)
  | pinf => ninf

/-- IEEE addition: NaN is absorbing, `inf + -inf` is NaN. -/
def add : Flt α → Flt α → Flt α
  | nan, _ => nan
  | ninf, nan => nan
  | ninf, ninf => ninf
  | ninf, fin _ => ninf
  | ninf, pinf => nan
  | fin _, nan => nan
  | fin _, ninf => ninf
  | fin x, fin y => fin (x + y)
  | fin _, pinf => pinf
  | pinf, nan => nan
  | pinf, ninf => nan
  | pinf, fin _ => pinf
  | pinf, pinf => pinf

/-- Sign-directed infinity: the product or quotient of an infinity with a
number of the given sign (`pos = true` for a positive infinity). -/
def signedInf (pos : Bool) (x : α) : Flt α :=
  if 0 < x then (if pos then pinf else ninf) else (if pos then ninf else pinf)

/-- IEEE multiplication: `0 * inf` is NaN. -/
def mul : Flt α → Flt α → Flt α
  | nan, _ => nan
  | ninf, nan => nan
  | ninf, ninf => pinf
  | ninf, fin y => if y = 0 then nan else signedInf false y
  | ninf, pinf => ninf
  | fin _, nan => nan
  | fin x, ninf => if x = 0 then nan else signedInf false x
  | fin x, fin y => fin (x * y)
  | fin x, pinf => if x = 0 then nan else signedInf true x
  | pinf, nan => nan
  | pinf, ninf => ninf
  | pinf, fin y => if y = 0 then nan else signedInf true y
  | pinf, pinf => pinf

/-- IEEE division: `0 / 0` and `inf / inf` are NaN, a non-zero number over
zero is an infinity, a number over an infinity is zero. -/
def div : Flt α → Flt α → Flt α
  | nan, _ => nan
  | ninf, nan => nan
  | ninf, ninf => nan
  | ninf, fin y => if 0 ≤ y then ninf else pinf
  | ninf, pinf => nan
  | fin _, nan => nan
  | fin _, ninf => fin 0
  | fin x, fin y =>
      if y = 0 then (if x = 0 then nan else signedInf true x) else fin (x / y)
  | fin _, pinf => fin 0
  | pinf, nan => nan
  | pinf, ninf => nan
  | pinf, fin y => if 0 ≤ y then pinf else ninf
  | pinf, pinf => nan

instance : Neg (Flt α) := ⟨neg⟩
instance : Add (Flt α) := ⟨add⟩
instance : Sub (Flt α) := ⟨fun a b => add a (neg b)⟩
instance : Mul (Flt α) := ⟨mul⟩
instance : Div (Flt α) := ⟨div⟩

/-- The test `isnan(x)`. -/
def isnan : Flt α → Bool
  | nan => true
  | _ => false

/-- The comparison `a < b`; false when an operand is NaN. -/
def lt : Flt α → Flt α → Bool
  | nan, _ => false
  | ninf, nan => false
  | ninf, ninf => false
  | ninf, fin _ => true
  | ninf, pinf => true
  | fin _, nan => false
  | fin _, ninf => false
  | fin x, fin y => decide (x < y)
  | fin _, pinf => true
  | pinf, _ => false

/-- The comparison `a <= b`; false when an operand is NaN. -/
def le : Flt α → Flt α → Bool
  | nan, _ => false
  | ninf, nan => false
  | ninf, ninf => true
  | ninf, fin _ => true
  | ninf, pinf => true
  | fin _, nan => false
  | fin _, ninf => false
  | fin x, fin y => decide (x ≤ y)
  | fin _, pinf => true
  | pinf, nan => false
  | pinf, ninf => false
  | pinf, fin _ => false
  | pinf, pinf => true

/-- The order `std::sort` arranges scalars in: `a` may stand before `b` when
`b < a` is false.  On NaN, where `operator<` is no strict weak order and the
behaviour of `std::sort` is undefined, the model puts NaN first; the claims
on the threshold assume that no sorted value is NaN. -/
def sort_le : Flt α → Flt α → Bool
  | nan, _ => true
  | ninf, nan => false
  | fin _, nan => false
  | pinf, nan => false
  | a, b => !(lt b a)

/-- The comparison `a >= b`. -/
def ge (a b : Flt α) : Bool := le b a

/-- The function `std::max(a, b)`, which is `(a < b) ? b : a`. -/
def max (a b : Flt α) : Flt α := if lt a b then b else a

/-- The function `std::min(a, b)`, which is `(b < a) ? b : a`. -/
def min (a b : Flt α) : Flt α := if lt b a then b else a

/-- A scalar is finite when it is a number. -/
def isFinite : Flt α → Bool
  | fin _ => true
  | _ => false

/-- The number a finite scalar holds (`0` for the special values). -/
def toNum : Flt α → α
  | fin x => x
  | _ => 0

end Flt

/-- The libm functions and constants the source calls, on finite arguments:
`sqrt`, `acos`, `tan`, `exp`, the constant `M_PI` and the value of
`pow(2, 1.0/3.0)`.  The tangent has a scalar result, so that it can be
infinite at a pole. -/
structure MathFns (α : Type) where
  sqrt : α → α
  acos : α → α
  tan : α → Flt α
  exp : α → α
  pi : α
  cbrt2 : α

namespace Flt

variable {α : Type} [LinearOrderedField α]

/-- The call `sqrt(x)`: NaN on a negative argument. -/
def sqrt (M : MathFns α) : Flt α → Flt α
  | nan => nan
  | ninf => nan
  | fin x => if x < 0 then nan else fin (M.sqrt x)
  | pinf => pinf

/-- The call `acos(x)`: NaN outside `[-1, 1]`. -/
def acos (M : MathFns α) : Flt α → Flt α
  | fin x => if x < -1 ∨ 1 < x then nan else fin (M.acos x)
  | _ => nan

/-- The call `tan(x)`: NaN on an infinite argument. -/
def tan (M : MathFns α) : Flt α → Flt α
  | fin x => M.tan x
  | _ => nan

/-- The call `exp(x)`: `exp(-inf) = 0`, `exp(inf) = inf`. -/
def exp (M : MathFns α) : Flt α → Flt α
  | nan => nan
  | ninf => fin 0
  | fin x => fin (M.exp x)
  | pinf => pinf

end Flt

/-! ## Vectors (`OpenMesh::Vec3f`) -/

/-- A point or vector with three `float` coordinates. -/
structure Vec3 (α : Type) where
  x : Flt α
  y : Flt α
  z : Flt α
deriving DecidableEq

namespace Vec3

variable {α : Type} [LinearOrderedField α]

/-- Component-wise sum, `a + b`. -/
def add (a b : Vec3 α) : Vec3 α := ⟨a.x + b.x, a.y + b.y, a.z + b.z⟩

/-- Component-wise difference, `a - b`. -/
def sub (a b : Vec3 α) : Vec3 α := ⟨a.x - b.x, a.y - b.y, a.z - b.z⟩

/-- Scalar multiple, `s * a`. -/
def smul (s : Flt α) (a : Vec3 α) : Vec3 α := ⟨s * a.x, s * a.y, s * a.z⟩

/-- Division by a scalar, `a / s`. -/
def sdiv (a : Vec3 α) (s : Flt α) : Vec3 α := ⟨a.x / s, a.y / s, a.z / s⟩

/-- Dot product, `a | b`. -/
def dot (a b : Vec3 α) : Flt α := a.x * b.x + a.y * b.y + a.z * b.z

/-- Cross product, `a % b`. -/
def cross (a b : Vec3 α) : Vec3 α :=
  ⟨a.y * b.z - a.z * b.y, a.z * b.x - a.x * b.z, a.x * b.y - a.y * b.x⟩

/-- Euclidean length, `a.norm()`. -/
def norm (M : MathFns α) (a : Vec3 α) : Flt α :=
  Flt.sqrt M (a.x * a.x + a.y * a.y + a.z * a.z)

/-- Unit vector, `a.normalize()`: division by the length. -/
def normalize (M : MathFns α) (a : Vec3 α) : Vec3 α := sdiv a (norm M a)

/-- The vector with the three given finite coordinates. -/
def ofNums (a b c : α) : Vec3 α := ⟨Flt.fin a, Flt.fin b, Flt.fin c⟩

/-- The vector `(0, 0, 0)`. -/
def zero : Vec3 α := ofNums 0 0 0

/-- A vector is finite when its three coordinates are numbers. -/
def isFinite (a : Vec3 α) : Bool := a.x.isFinite && a.y.isFinite && a.z.isFinite

end Vec3

/-! ## Mesh and viewer state -/

/-- What the edge loop of `calc_weights` reads of an edge `e`: the end points
`to_vertex(halfedge(e,0))` and `to_vertex(halfedge(e,1))`, and the vertices
the two following halfedges point to. -/
structure EdgeRec where
  v0 : Nat
  v1 : Nat
  o0 : Nat
  o1 : Nat
deriving DecidableEq, Repr

/-- The triangle mesh `mesh_`: element counts, vertex positions, and the
sequences the OpenMesh circulators enumerate. -/
structure Mesh (α : Type) where
  n_vertices : Nat
  n_edges : Nat
  n_faces : Nat
  point : Nat → Vec3 α
  voh : Nat → List (Nat × Nat)
  vf : Nat → List Nat
  fv : Nat → Nat × Nat × Nat
  edge : Nat → EdgeRec

/-- The one-ring `vv_iter(v)`: the targets of the outgoing halfedges. -/
def Mesh.vv {α : Type} (m : Mesh α) (v : Nat) : List Nat := (m.voh v).map Prod.fst

/-- The state of a `QualityViewer`: the mesh, its property arrays, the
feature list and the exported point mesh. -/
structure Viewer (α : Type) where
  mesh : Mesh α
  vweight_ : Nat → Flt α
  vunicurvature_ : Nat → Flt α
  vcurvature_ : Nat → Flt α
  vgausscurvature_ : Nat → Flt α
  eweight_ : Nat → Flt α
  tshape_ : Nat → Flt α
  vmeshdog_f_ : Nat → Flt α
  vmeshdog_dog_ : Nat → Flt α
  veavg_ : Nat → Flt α
  _dog_feature_points : List Nat
  _dog_feature_handles : List Nat
  new_mesh : List (Vec3 α)

section Examples

variable {α : Type} [LinearOrderedField α]

/-- A viewer right after construction and `open_mesh`'s load: every property
array holds `0`, the feature list and the point mesh are empty. -/
def Viewer.init (m : Mesh α) : Viewer α where
  mesh := m
  vweight_ := fun _ => Flt.fin 0
  vunicurvature_ := fun _ => Flt.fin 0
  vcurvature_ := fun _ => Flt.fin 0
  vgausscurvature_ := fun _ => Flt.fin 0
  eweight_ := fun _ => Flt.fin 0
  tshape_ := fun _ => Flt.fin 0
  vmeshdog_f_ := fun _ => Flt.fin 0
  vmeshdog_dog_ := fun _ => Flt.fin 0
  veavg_ := fun _ => Flt.fin 0
  _dog_feature_points := []
  _dog_feature_handles := []
  new_mesh := []

/-- The mesh of one triangle `(0, 1, 2)` with the given corners: three
vertices, three edges (`0-1`, `1-2`, `2-0`), one face. -/
def triangle_mesh (p0 p1 p2 : Vec3 α) : Mesh α where
  n_vertices := 3
  n_edges := 3
  n_faces := 1
  point := fun v => match v with
    | 0 => p0
    | 1 => p1
    | _ => p2
  voh := fun v => match v with
    | 0 => [(2, 2), (1, 0)]
    | 1 => [(0, 0), (2, 1)]
    | 2 => [(1, 1), (0, 2)]
    | _ => []
  vf := fun v => if v < 3 then [0] else []
  fv := fun _ => (0, 1, 2)
  edge := fun e => match e with
    | 0 => ⟨1, 0, 2, 2⟩
    | 1 => ⟨2, 1, 0, 0⟩
    | _ => ⟨0, 2, 1, 1⟩

/-- The mesh of one vertex without any face (a point cloud of one point). -/
def point_mesh (p : Vec3 α) : Mesh α where
  n_vertices := 1
  n_edges := 0
  n_faces := 0
  point := fun _ => p
  voh := fun _ => []
  vf := fun _ => []
  fv := fun _ => (0, 0, 0)
  edge := fun _ => ⟨0, 0, 0, 0⟩

/-- The mesh without any vertex. -/
def empty_mesh : Mesh α where
  n_vertices := 0
  n_edges := 0
  n_faces := 0
  point := fun _ => Vec3.zero
  voh := fun _ => []
  vf := fun _ => []
  fv := fun _ => (0, 0, 0)
  edge := fun _ => ⟨0, 0, 0, 0⟩

/-- The equilateral triangle with corners `(t,0,0)`, `(0,t,0)`, `(0,0,t)`, of
side `t * sqrt 2`. -/
def corner_triangle (t : α) : Mesh α :=
  triangle_mesh (Vec3.ofNums t 0 0) (Vec3.ofNums 0 t 0) (Vec3.ofNums 0 0 t)

/-- The degenerate triangle with the collinear corners `(0,0,0)`, `(1,0,0)`,
`(2,0,0)`. -/
def flat_triangle : Mesh α :=
  triangle_mesh (Vec3.ofNums 0 0 0) (Vec3.ofNums 1 0 0) (Vec3.ofNums 2 0 0)

/-- The right triangle with corners `(0,0,0)`, `(1,0,0)`, `(0,1,0)`. -/
def right_triangle : Mesh α :=
  triangle_mesh (Vec3.ofNums 0 0 0) (Vec3.ofNums 1 0 0) (Vec3.ofNums 0 1 0)

/-- A viewer on `m` whose edge weights are all `1` (the weights `smooth`
reads; the other property arrays as after construction). -/
def unit_weights (m : Mesh α) : Viewer α :=
  { Viewer.init m with eweight_ := fun _ => Flt.fin 1 }

/-- A viewer on the right triangle whose feature list holds vertex 1 and whose
exported point mesh is still empty. -/
def one_feature_state : Viewer α :=
  { Viewer.init right_triangle with _dog_feature_points := [1], _dog_feature_handles := [1] }

/-- The triangle `(0, 2, 1)` with corners `(0,0,0)`, `(2,0,0)`, `(0,1,0)` and a
degenerate second face `(2, 0, 3)` on its edge `0-2`, whose third corner
`(1,0,0)` is the midpoint of that edge: four vertices, five edges (`0-2`,
`2-1`, `1-0`, `0-3`, `3-2`), two faces. -/
def flap_mesh : Mesh α where
  n_vertices := 4
  n_edges := 5
  n_faces := 2
  point := fun v => match v with
    | 0 => Vec3.ofNums 0 0 0
    | 1 => Vec3.ofNums 0 1 0
    | 2 => Vec3.ofNums 2 0 0
    | _ => Vec3.ofNums 1 0 0
  voh := fun v => match v with
    | 0 => [(1, 2), (2, 0), (3, 3)]
    | 1 => [(2, 1), (0, 2)]
    | 2 => [(3, 4), (0, 0), (1, 1)]
    | 3 => [(0, 3), (2, 4)]
    | _ => []
  vf := fun v => match v with
    | 0 => [0, 1]
    | 1 => [0]
    | 2 => [1, 0]
    | 3 => [1]
    | _ => []
  fv := fun f => match f with
    | 0 => (0, 2, 1)
    | _ => (2, 0, 3)
  edge := fun e => match e with
    | 0 => ⟨2, 0, 1, 3⟩
    | 1 => ⟨1, 2, 0, 3⟩
    | 2 => ⟨0, 1, 2, 2⟩
    | 3 => ⟨3, 0, 2, 1⟩
    | _ => ⟨2, 3, 0, 0⟩

/-- The state `s` with the response `0` at every vertex. -/
def zero_response (s : Viewer α) : Viewer α :=
  { s with vmeshdog_f_ := fun _ => Flt.fin 0 }

end Examples

/-- The libm functions on the real numbers.  At a pole of the tangent (a zero
of the cosine) the value is `+inf`, so that `1.0 / tan(x)` is `0` there. -/
noncomputable def realMath : MathFns ℝ where
  sqrt := Real.sqrt
  acos := Real.arccos
  tan := fun x => if Real.cos x = 0 then Flt.pinf else Flt.fin (Real.tan x)
  exp := Real.exp
  pi := Real.pi
  cbrt2 := (2 : ℝ) ^ ((1 : ℝ) / 3)

/-- The libm functions on the real numbers with the underflow of the double
`exp`: for an argument below `-746` (where `e^x` is less than half the
smallest positive double, `2^-1075`) the value is `0`. -/
noncomputable def underflowMath : MathFns ℝ :=
  { realMath with exp := fun x => if x < -746 then 0 else Real.exp x }

section Weights

variable {α : Type} [LinearOrderedField α]

/-- One term of the edge weight: `1.0 / tan(acos(min(0.99f, max(-0.99f, d0|d1))))`
for the unit vectors from `p2` to `p0` and to `p1`.  The literal `0.99f` is the
binary32 number `16609444 / 2^24 = 0.9900000095...`, not the decimal `0.99`. -/
def cot_term (M : MathFns α) (p0 p1 p2 : Vec3 α) : Flt α :=
  let d0 := Vec3.normalize M (Vec3.sub p0 p2)
  let d1 := Vec3.normalize M (Vec3.sub p1 p2)
  Flt.fin 1 / Flt.tan M (Flt.acos M
    (Flt.min (Flt.fin (16609444 / 16777216))
      (Flt.max (Flt.fin (-(16609444 / 16777216))) (Vec3.dot d0 d1))))

/-- The body of the edge loop of `calc_weights`: the value stored in
`eweight_` for edge `e`. -/
def edge_weight (M : MathFns α) (m : Mesh α) (e : Nat) : Flt α :=
  let w : Flt α := Flt.fin 0
  let p0 := m.point (m.edge e).v0
  let p1 := m.point (m.edge e).v1
  let w := w + cot_term M p0 p1 (m.point (m.edge e).o0)
  let w := w + cot_term M p0 p1 (m.point (m.edge e).o1)
  Flt.max (Flt.fin 0) w

/-- The area share one incident face adds in the vertex loop:
`((Q-P)%(R-P)).norm() * 0.5f * 0.3333f`. -/
def face_area_share (M : MathFns α) (m : Mesh α) (f : Nat) : Flt α :=
  let P := m.point (m.fv f).1
  let Q := m.point (m.fv f).2.1
  let R := m.point (m.fv f).2.2
  Vec3.norm M (Vec3.cross (Vec3.sub Q P) (Vec3.sub R P)) * Flt.fin (1 / 2) * Flt.fin (3333 / 10000)

/-- The body of the vertex loop of `calc_weights`: the value stored in
`vweight_` for vertex `v`, in exact arithmetic (`F32.vertex_weight` rounds as
the source does). -/
def vertex_weight (M : MathFns α) (m : Mesh α) (v : Nat) : Flt α :=
  let area := (m.vf v).foldl (fun area f => area + face_area_share M m f) (Flt.fin 0)
  Flt.fin 1 / (Flt.fin 2 * area)

/-- The store `mesh_.property(eweight_, e_it) = w` of the edge loop. -/
def store_eweight (M : MathFns α) (st : Viewer α) (e : Nat) : Viewer α :=
  { st with eweight_ := Function.update st.eweight_ e (edge_weight M st.mesh e) }

/-- The store `mesh_.property(vweight_, v_it) = 1.0 / (2.0 * area)` of the
vertex loop. -/
def store_vweight (M : MathFns α) (st : Viewer α) (v : Nat) : Viewer α :=
  { st with vweight_ := Function.update st.vweight_ v (vertex_weight M st.mesh v) }

/-- The function `QualityViewer::calc_weights`: the edge loop, then the
vertex loop. -/
def calc_weights (M : MathFns α) (s : Viewer α) : Viewer α :=
  let s := (List.range s.mesh.n_edges).foldl (store_eweight M) s
  (List.range s.mesh.n_vertices).foldl (store_vweight M) s

end Weights

section Curvature

variable {α : Type} [LinearOrderedField α]

/-- The inner loop of `calc_mean_curvature` at vertex `v`: the sum over the
outgoing halfedges of `eweight_(e) * (point(vi) - point(v))`. -/
def lb_laplace (s : Viewer α) (v : Nat) : Vec3 α :=
  (s.mesh.voh v).foldl
    (fun laplace h =>
      Vec3.add laplace (Vec3.smul (s.eweight_ h.2) (Vec3.sub (s.mesh.point h.1) (s.mesh.point v))))
    Vec3.zero

/-- The value `calc_mean_curvature` stores in `vcurvature_` for vertex `v`:
`(vweight_ * laplace).norm() / 2`. -/
def mean_curvature_at (M : MathFns α) (s : Viewer α) (v : Nat) : Flt α :=
  Vec3.norm M (Vec3.smul (s.vweight_ v) (lb_laplace s v)) / Flt.fin 2

/-- The store into `vcurvature_` of the vertex loop of `calc_mean_curvature`. -/
def store_vcurvature (M : MathFns α) (st : Viewer α) (v : Nat) : Viewer α :=
  { st with vcurvature_ := Function.update st.vcurvature_ v (mean_curvature_at M st v) }

/-- The function `QualityViewer::calc_mean_curvature`. -/
def calc_mean_curvature (M : MathFns α) (s : Viewer α) : Viewer α :=
  (List.range s.mesh.n_vertices).foldl (store_vcurvature M) s

/-- The inner loop of `calc_uniform_mean_curvature` at vertex `v`: the sum of
the neighbour positions and the neighbour counter. -/
def ring_sum (m : Mesh α) (v : Nat) : Vec3 α × Flt α :=
  (m.vv v).foldl (fun acc u => (Vec3.add acc.1 (m.point u), acc.2 + Flt.fin 1))
    (Vec3.zero, Flt.fin 0)

/-- The value `calc_uniform_mean_curvature` stores in `vunicurvature_` for
vertex `v`: half the length of `laplace / counter - point(v)`. -/
def uniform_mean_curvature_at (M : MathFns α) (m : Mesh α) (v : Nat) : Flt α :=
  let acc := ring_sum m v
  let laplace := Vec3.sub (Vec3.sdiv acc.1 acc.2) (m.point v)
  Vec3.norm M laplace / Flt.fin 2

/-- The store into `vunicurvature_` of the vertex loop of
`calc_uniform_mean_curvature`. -/
def store_vunicurvature (M : MathFns α) (st : Viewer α) (v : Nat) : Viewer α :=
  { st with vunicurvature_ :=
      Function.update st.vunicurvature_ v (uniform_mean_curvature_at M st.mesh v) }

/-- The function `QualityViewer::calc_uniform_mean_curvature`. -/
def calc_uniform_mean_curvature (M : MathFns α) (s : Viewer α) : Viewer α :=
  (List.range s.mesh.n_vertices).foldl (store_vunicurvature M) s

/-- The pairs `(vv_it2, vv_it)` the loop of `calc_gauss_curvature` visits:
each neighbour with its successor in the circulation, the last one with the
first. -/
def ring_pairs (l : List Nat) : List (Nat × Nat) := l.zip (l.rotate 1)

/-- The clamp of `calc_gauss_curvature`:
`if (c < -1.0) c = -1.0; else if (c > 1.0) c = 1.0;`. -/
def clamp_unit (c : Flt α) : Flt α :=
  if Flt.lt c (Flt.fin (-1)) then Flt.fin (-1)
  else if Flt.lt (Flt.fin 1) c then Flt.fin 1 else c

/-- The angle the loop body of `calc_gauss_curvature` adds for the pair of
neighbours `(u0, u1)` of the vertex at `d2`. -/
def corner_angle (M : MathFns α) (m : Mesh α) (d2 : Vec3 α) (pr : Nat × Nat) : Flt α :=
  let d0 := Vec3.sub (m.point pr.1) d2
  let d1 := Vec3.sub (m.point pr.2) d2
  let cos_angle := (d0.x * d1.x + d0.y * d1.y + d0.z * d1.z) / (Vec3.norm M d0 * Vec3.norm M d1)
  Flt.acos M (clamp_unit cos_angle)

/-- The accumulated `angles` of `calc_gauss_curvature` at vertex `v`. -/
def angle_sum (M : MathFns α) (m : Mesh α) (v : Nat) : Flt α :=
  (ring_pairs (m.vv v)).foldl (fun angles pr => angles + corner_angle M m (m.point v) pr)
    (Flt.fin 0)

/-- The value `calc_gauss_curvature` stores in `vgausscurvature_` for vertex
`v`: `2 * vert_weight * (2 * 3.1415926 - angles)`. -/
def gauss_curvature_at (M : MathFns α) (s : Viewer α) (v : Nat) : Flt α :=
  Flt.fin 2 * s.vweight_ v * (Flt.fin 2 * Flt.fin (31415926 / 10000000) - angle_sum M s.mesh v)

/-- The store into `vgausscurvature_` of the vertex loop of
`calc_gauss_curvature`. -/
def store_vgausscurvature (M : MathFns α) (st : Viewer α) (v : Nat) : Viewer α :=
  { st with vgausscurvature_ :=
      Function.update st.vgausscurvature_ v (gauss_curvature_at M st v) }

/-- The function `QualityViewer::calc_gauss_curvature`. -/
def calc_gauss_curvature (M : MathFns α) (s : Viewer α) : Viewer α :=
  (List.range s.mesh.n_vertices).foldl (store_vgausscurvature M) s

end Curvature

section Quality

variable {α : Type} [LinearOrderedField α]

/-- The constant `FLT_MIN` of `<float.h>`: `2^-126`. -/
def FLT_MIN : α := 1 / 2 ^ 126

/-- The constant `FLT_MAX` of `<float.h>`: `(2 - 2^-23) * 2^127`. -/
def FLT_MAX : α := 2 ^ 128 - 2 ^ 104

/-- What the loop body of `calc_triangle_quality` does for one face: the value
it stores in `tshape_` and the number of divisions it executes. -/
structure QualityStep (α : Type) where
  tshape : Flt α
  divisions : Nat
deriving DecidableEq

/-- The loop body of `calc_triangle_quality` for a face with corners `v0`,
`v1`, `v2`, in exact arithmetic (`F32.triangle_quality` rounds as the source
does). -/
def triangle_quality (M : MathFns α) (v0 v1 v2 : Vec3 α) : QualityStep α :=
  let v0v1 := Vec3.sub v1 v0
  let a := Vec3.norm M v0v1
  let v0v2 := Vec3.sub v2 v0
  let b := Vec3.norm M v0v2
  let v1v2 := Vec3.sub v1 v2
  let c := Vec3.norm M v1v2
  let min_length_sq : Flt α := Flt.fin FLT_MAX
  let min_length_sq := Flt.min a min_length_sq
  let min_length_sq := Flt.min b min_length_sq
  let min_length_sq := Flt.min c min_length_sq
  let t0 := v0v1.y * v0v2.z - v0v1.z * v0v2.y
  let t1 := v0v1.z * v0v2.x - v0v1.x * v0v2.z
  let t2 := v0v1.x * v0v2.y - v0v1.y * v0v2.x
  let denom := Flt.sqrt M (t0 * t0 + t1 * t1 + t2 * t2)
  if Flt.lt denom (Flt.fin FLT_MIN) then
    ⟨Flt.fin FLT_MAX, 0⟩
  else
    let circum_radius_sq := (a * b * c) / (Flt.fin 2 * denom)
    ⟨circum_radius_sq / min_length_sq, 2⟩

/-- The loop body of `calc_triangle_quality` for face `f` of a mesh. -/
def face_quality (M : MathFns α) (m : Mesh α) (f : Nat) : QualityStep α :=
  triangle_quality M (m.point (m.fv f).1) (m.point (m.fv f).2.1) (m.point (m.fv f).2.2)

/-- The store into `tshape_` of the face loop of `calc_triangle_quality`. -/
def store_tshape (M : MathFns α) (st : Viewer α) (f : Nat) : Viewer α :=
  { st with tshape_ := Function.update st.tshape_ f (face_quality M st.mesh f).tshape }

/-- The function `QualityViewer::calc_triangle_quality`. -/
def calc_triangle_quality (M : MathFns α) (s : Viewer α) : Viewer α :=
  (List.range s.mesh.n_faces).foldl (store_tshape M) s

end Quality

section Detect

variable {α : Type} [LinearOrderedField α]

/-- The neighbour loop of `init_meshdog` at vertex `v`: the valence counter
and the sum `eavg` of the distances to the neighbours. -/
def edge_length_sum (M : MathFns α) (m : Mesh α) (v : Nat) : Nat × Flt α :=
  (m.vv v).foldl
    (fun acc u => (acc.1 + 1, acc.2 + Vec3.norm M (Vec3.sub (m.point v) (m.point u))))
    (0, Flt.fin 0)

/-- The body of the vertex loop of `init_meshdog`: the response is set to the
uniform mean curvature; the average edge length is stored only when the
valence is not zero. -/
def init_meshdog_vertex (M : MathFns α) (st : Viewer α) (v : Nat) : Viewer α :=
  let st := { st with vmeshdog_f_ := Function.update st.vmeshdog_f_ v (st.vunicurvature_ v) }
  let acc := edge_length_sum M st.mesh v
  if acc.1 = 0 then st
  else { st with veavg_ := Function.update st.veavg_ v (acc.2 / Flt.fin (acc.1 : α)) }

/-- The function `QualityViewer::init_meshdog`. -/
def init_meshdog (M : MathFns α) (s : Viewer α) : Viewer α :=
  (List.range s.mesh.n_vertices).foldl (init_meshdog_vertex M) s

/-- The function `QualityViewer::gaussian_conv`:
`exp(-pow(len, 2) / (2 * pow(theta, 2))) / (theta * sqrt(2 * M_PI))`, in exact
arithmetic with the libm functions of `M` (the `exp` of `M` may underflow to
`0`, as `underflowMath` does). -/
def gaussian_conv (M : MathFns α) (_edge_length _theta : Flt α) : Flt α :=
  Flt.exp M (-(_edge_length * _edge_length) / (Flt.fin 2 * (_theta * _theta)))
    / (_theta * Flt.sqrt M (Flt.fin 2 * Flt.fin M.pi))

/-- The kernel weight `k` the convolution of vertex `v` uses for neighbour `u`. -/
def kernel (M : MathFns α) (m : Mesh α) (veavg : Nat → Flt α) (v u : Nat) : Flt α :=
  gaussian_conv M (Vec3.norm M (Vec3.sub (m.point v) (m.point u))) (Flt.fin M.cbrt2 * veavg v)

/-- The neighbour loop of `detect_meshdog` at vertex `v`, reading the
response field `f`: the pair `(f1, K)` of the weighted sum and the weight sum. -/
def conv_sums (M : MathFns α) (m : Mesh α) (veavg f : Nat → Flt α) (v : Nat) : Flt α × Flt α :=
  (m.vv v).foldl
    (fun acc u => (acc.1 + f u * kernel M m veavg v u, acc.2 + kernel M m veavg v u))
    (Flt.fin 0, Flt.fin 0)

/-- The new response `f1 / K` of vertex `v` computed from the field `f`, in
exact arithmetic with the libm functions of `M`. -/
def conv_value (M : MathFns α) (m : Mesh α) (veavg f : Nat → Flt α) (v : Nat) : Flt α :=
  (conv_sums M m veavg f v).1 / (conv_sums M m veavg f v).2

/-- The body of the vertex loop of a convolution round: a vertex whose
`vcurvature_` is not NaN gets its DoG delta and its new response stored at
once, in the arrays the following vertices read. -/
def conv_vertex (M : MathFns α) (st : Viewer α) (v : Nat) : Viewer α :=
  if Flt.isnan (st.vcurvature_ v) = false then
    let f0 := st.vmeshdog_f_ v
    let f1 := conv_value M st.mesh st.veavg_ st.vmeshdog_f_ v
    { st with
      vmeshdog_dog_ := Function.update st.vmeshdog_dog_ v (f1 - f0)
      vmeshdog_f_ := Function.update st.vmeshdog_f_ v f1 }
  else st

/-- One convolution round: the vertex loop, in index order. -/
def conv_round (M : MathFns α) (s : Viewer α) : Viewer α :=
  (List.range s.mesh.n_vertices).foldl (conv_vertex M) s

/-- The convolution loop of `detect_meshdog`: `_iters` rounds (none when
`_iters <= 0`). -/
def convolve (M : MathFns α) (s : Viewer α) (_iters : Int) : Viewer α :=
  (conv_round M)^[_iters.toNat] s

/-- The value of `int(mesh_.n_vertices() * 0.95)`: the double product,
truncated.  It is `floor(19 * n / 20)` for every vertex count an `int` holds
(the rounding of `0.95` and of the product never crosses an integer). -/
def thresh_index (n : Nat) : Nat := n * 95 / 100

/-- The vector `vec_dog`: the DoG deltas of all vertices, in index order. -/
def vec_dog (s : Viewer α) : List (Flt α) :=
  (List.range s.mesh.n_vertices).map s.vmeshdog_dog_

/-- The call `std::sort(vec_dog.begin(), vec_dog.end())`: ascending with
respect to `<` (no element is less than an earlier one). -/
def sort_ascending (l : List (Flt α)) : List (Flt α) :=
  l.insertionSort (fun a b => Flt.sort_le a b = true)

/-- The feature test of `detect_meshdog` for vertex `v`. -/
def is_feature (s : Viewer α) (threshold : Flt α) (v : Nat) : Bool :=
  !(Flt.isnan (s.vcurvature_ v)) && Flt.ge (s.vmeshdog_dog_ v) threshold

/-- The thresholding part of `detect_meshdog`; `none` when
`vec_dog[thresh_index]` is read out of range. -/
def threshold_features (s : Viewer α) : Option (Viewer α) :=
  match (sort_ascending (vec_dog s))[thresh_index s.mesh.n_vertices]? with
  | none => none
  | some threshold =>
    let feats := (List.range s.mesh.n_vertices).filter (is_feature s threshold)
    some { s with _dog_feature_points := feats, _dog_feature_handles := feats }

/-- The function `QualityViewer::detect_meshdog`. -/
def detect_meshdog (M : MathFns α) (s : Viewer α) (_iters : Int) : Option (Viewer α) :=
  threshold_features (convolve M s _iters)

/-- The computations of `open_mesh` on a loaded mesh, up to the call of
`detect_meshdog`: weights, the three curvatures, the triangle quality and
`init_meshdog`. -/
def open_mesh_prepare (M : MathFns α) (s : Viewer α) : Viewer α :=
  init_meshdog M (calc_triangle_quality M (calc_gauss_curvature M
    (calc_uniform_mean_curvature M (calc_mean_curvature M (calc_weights M s)))))

/-- A viewer on mesh `m` that holds the average edge lengths `eavg` and the
response field `f`, with every other property array at `0`. -/
def dog_state (m : Mesh α) (eavg f : Nat → α) : Viewer α :=
  { Viewer.init m with
    veavg_ := fun v => Flt.fin (eavg v)
    vmeshdog_f_ := fun v => Flt.fin (f v) }

/-- The equilateral triangle with corners `(1,0,0)`, `(0,1,0)`, `(0,0,1)`, the
average edge length `e` at every vertex and the response field `(4, 0, 0)`. -/
def spike_state (e : α) : Viewer α :=
  dog_state (corner_triangle 1) (fun _ => e) (fun v => if v = 0 then 4 else 0)

/-- The equilateral triangle of `spike_state` with the DoG deltas `0, 1, 2`
left by an earlier detection, and every other property array at `0`. -/
def ramp_state : Viewer α :=
  { Viewer.init (corner_triangle 1) with vmeshdog_dog_ := fun v => Flt.fin (v : α) }

/-- One round of the synchronous (double-buffered) update of the ordering
guarantee: every vertex reads the field of the previous round, and the new
values are stored after the round. -/
def conv_round_sync (M : MathFns α) (s : Viewer α) : Viewer α :=
  { s with
    vmeshdog_dog_ := fun v =>
      if v < s.mesh.n_vertices ∧ Flt.isnan (s.vcurvature_ v) = false then
        conv_value M s.mesh s.veavg_ s.vmeshdog_f_ v - s.vmeshdog_f_ v
      else s.vmeshdog_dog_ v
    vmeshdog_f_ := fun v =>
      if v < s.mesh.n_vertices ∧ Flt.isnan (s.vcurvature_ v) = false then
        conv_value M s.mesh s.veavg_ s.vmeshdog_f_ v
      else s.vmeshdog_f_ v }

/-- The detection with synchronous rounds in place of the vertex loop. -/
def detect_meshdog_sync (M : MathFns α) (s : Viewer α) (_iters : Int) : Option (Viewer α) :=
  threshold_features ((conv_round_sync M)^[_iters.toNat] s)

/-- The number of divisions the body of the vertex loop of `init_meshdog`
executes at vertex `v`: none in the branch `valence == 0`, the division
`eavg / valence` in the other. -/
def init_meshdog_divisions (M : MathFns α) (st : Viewer α) (v : Nat) : Nat :=
  if (edge_length_sum M st.mesh v).1 = 0 then 0 else 1

/-- The function `QualityViewer::save_meshdog`: every feature handle adds its
position as a vertex to the member `new_mesh`, which is then written to
`dog_points.ply`. -/
def save_meshdog (s : Viewer α) : Viewer α :=
  s._dog_feature_handles.foldl
    (fun st vh => { st with new_mesh := st.new_mesh ++ [st.mesh.point vh] }) s

/-- The positions of the current feature vertices, in feature-list order. -/
def feature_positions (s : Viewer α) : List (Vec3 α) :=
  s._dog_feature_handles.map s.mesh.point

end Detect

/-! ## Smoothing (`SmoothingViewer.cc`) -/

section Smoothing

variable {α : Type} [LinearOrderedField α]

/-- The inner loop of `smooth` at vertex `v`: the weighted sum `laplace` of
the edge vectors and the sum `ww` of the edge weights. -/
def lb_sums (m : Mesh α) (eweight : Nat → Flt α) (v : Nat) : Vec3 α × Flt α :=
  (m.voh v).foldl
    (fun acc h =>
      (Vec3.add acc.1 (Vec3.smul (eweight h.2) (Vec3.sub (m.point h.1) (m.point v))),
        acc.2 + eweight h.2))
    (Vec3.zero, Flt.fin 0)

/-- The position `smooth` assigns to vertex `v`, read from the mesh as it is:
`point(v) + (laplace / ww) / 2`. -/
def smooth_point (m : Mesh α) (eweight : Nat → Flt α) (v : Nat) : Vec3 α :=
  let acc := lb_sums m eweight v
  let laplace := Vec3.sdiv acc.1 acc.2
  Vec3.add (m.point v) (Vec3.sdiv laplace (Flt.fin 2))

/-- The body of the vertex loop of `smooth`: the new position is stored in
the mesh at once. -/
def smooth_vertex (st : Viewer α) (v : Nat) : Viewer α :=
  { st with mesh :=
      { st.mesh with point := Function.update st.mesh.point v (smooth_point st.mesh st.eweight_ v) } }

/-- One iteration of `smooth`: the vertex loop, in index order (the normals
`update_normals` recomputes are not part of the state). -/
def smooth_round (s : Viewer α) : Viewer α :=
  (List.range s.mesh.n_vertices).foldl smooth_vertex s

/-- The function `SmoothingViewer::smooth`. -/
def smooth (s : Viewer α) (_iters : Nat) : Viewer α :=
  smooth_round^[_iters] s

/-- The position `uniform_smooth` assigns to vertex `v`, read from the mesh
as it is: `point(v) + (centroid / counter - point(v)) / 2`, in exact
arithmetic (`F32.uniform_smooth_point` rounds as the source does). -/
def uniform_smooth_point (m : Mesh α) (v : Nat) : Vec3 α :=
  let acc := ring_sum m v
  let centroid := Vec3.sub (Vec3.sdiv acc.1 acc.2) (m.point v)
  Vec3.add (m.point v) (Vec3.sdiv centroid (Flt.fin 2))

/-- The body of the vertex loop of `uniform_smooth`: the new position is
stored in the mesh at once. -/
def uniform_smooth_vertex (st : Viewer α) (v : Nat) : Viewer α :=
  { st with mesh :=
      { st.mesh with point := Function.update st.mesh.point v (uniform_smooth_point st.mesh v) } }

/-- One iteration of `uniform_smooth`: the vertex loop, in index order. -/
def uniform_smooth_round (s : Viewer α) : Viewer α :=
  (List.range s.mesh.n_vertices).foldl uniform_smooth_vertex s

/-- The function `SmoothingViewer::uniform_smooth`. -/
def uniform_smooth (s : Viewer α) (_iters : Nat) : Viewer α :=
  uniform_smooth_round^[_iters] s

/-- One iteration of the whole-mesh synchronous Laplace-Beltrami update: all
new positions are computed from the old mesh, then stored. -/
def smooth_round_sync (s : Viewer α) : Viewer α :=
  { s with mesh :=
      { s.mesh with point := fun v =>
          if v < s.mesh.n_vertices then smooth_point s.mesh s.eweight_ v else s.mesh.point v } }

/-- One iteration of the whole-mesh synchronous uniform update. -/
def uniform_smooth_round_sync (s : Viewer α) : Viewer α :=
  { s with mesh :=
      { s.mesh with point := fun v =>
          if v < s.mesh.n_vertices then uniform_smooth_point s.mesh v else s.mesh.point v } }

/-- The mesh `m` with the positions `pos`. -/
def Mesh.withPoints (m : Mesh α) (pos : Nat → Vec3 α) : Mesh α := { m with point := pos }

/-- A point lies in the box with the corners `lo` and `hi`: its coordinates
are numbers between the coordinates of the corners. -/
def in_box (lo hi : α × α × α) (p : Vec3 α) : Prop :=
  ∃ a b c : α, p = Vec3.ofNums a b c ∧ lo.1 ≤ a ∧ a ≤ hi.1 ∧ lo.2.1 ≤ b ∧ b ≤ hi.2.1 ∧
    lo.2.2 ≤ c ∧ c ≤ hi.2.2

end Smoothing

/-! ## Quantities the claims are stated with -/

section SpecSide

variable {α : Type} [LinearOrderedField α]

/-- The squared length of the cross product `(Q-P) % (R-P)` of two edge
vectors of the triangle `P Q R` with finite corners. -/
def cross_sq (P Q R : Vec3 α) : α :=
  let ux := Q.x.toNum - P.x.toNum
  let uy := Q.y.toNum - P.y.toNum
  let uz := Q.z.toNum - P.z.toNum
  let vx := R.x.toNum - P.x.toNum
  let vy := R.y.toNum - P.y.toNum
  let vz := R.z.toNum - P.z.toNum
  (uy * vz - uz * vy) * (uy * vz - uz * vy) + (uz * vx - ux * vz) * (uz * vx - ux * vz)
    + (ux * vy - uy * vx) * (ux * vy - uy * vx)

/-- The area of the triangle `P Q R`: half the norm of the cross product of
two edge vectors. -/
def triangle_area (M : MathFns α) (P Q R : Vec3 α) : α := M.sqrt (cross_sq P Q R) / 2

/-- The area of face `f` of a mesh. -/
def face_area (M : MathFns α) (m : Mesh α) (f : Nat) : α :=
  triangle_area M (m.point (m.fv f).1) (m.point (m.fv f).2.1) (m.point (m.fv f).2.2)

/-- The sum of the areas of the triangles incident to vertex `v`. -/
def incident_area (M : MathFns α) (m : Mesh α) (v : Nat) : α :=
  ((m.vf v).map (face_area M m)).sum

/-- The vertex weight as the data model words it: `1 / (2 * A)` with `A` one
third of the sum of the incident triangle areas. -/
def third_area_weight (M : MathFns α) (m : Mesh α) (v : Nat) : Flt α :=
  Flt.fin 1 / (Flt.fin 2 * Flt.fin (incident_area M m v / 3))

/-- The vertex weight with the factor the source multiplies by: `1 / (2 * A)`
with `A` the sum of the incident triangle areas times `0.3333`. -/
def scaled_area_weight (M : MathFns α) (m : Mesh α) (v : Nat) : Flt α :=
  Flt.fin 1 / (Flt.fin 2 * Flt.fin (3333 / 10000 * incident_area M m v))

/-- The squared distance between two finite points. -/
def dist_sq (P Q : Vec3 α) : α :=
  (Q.x.toNum - P.x.toNum) * (Q.x.toNum - P.x.toNum)
    + (Q.y.toNum - P.y.toNum) * (Q.y.toNum - P.y.toNum)
    + (Q.z.toNum - P.z.toNum) * (Q.z.toNum - P.z.toNum)

/-- The length of the side between two finite points. -/
def side_length (M : MathFns α) (P Q : Vec3 α) : α := M.sqrt (dist_sq P Q)

/-- The magnitude `D` of the cross product `(Q-P) % (R-P)`. -/
def cross_norm (M : MathFns α) (P Q R : Vec3 α) : α := M.sqrt (cross_sq P Q R)

/-- Three finite points are collinear: `Q` coincides with `P`, or `R` lies on
the line through `P` and `Q`. -/
def collinear (P Q R : Vec3 α) : Prop :=
  (Q.x.toNum = P.x.toNum ∧ Q.y.toNum = P.y.toNum ∧ Q.z.toNum = P.z.toNum) ∨
  ∃ t : α, R.x.toNum - P.x.toNum = t * (Q.x.toNum - P.x.toNum) ∧
    R.y.toNum - P.y.toNum = t * (Q.y.toNum - P.y.toNum) ∧
    R.z.toNum - P.z.toNum = t * (Q.z.toNum - P.z.toNum)

/-- The Gaussian kernel on numbers:
`exp(-d^2 / (2 * theta^2)) / (theta * sqrt(2 * pi))`. -/
def gauss_kernel (M : MathFns α) (d theta : α) : α :=
  M.exp (-(d * d) / (2 * (theta * theta))) / (theta * M.sqrt (2 * M.pi))

/-- The kernel weight of neighbour `u` in the convolution at vertex `v`, for
finite positions and the average edge length `e` at `v`. -/
def kernel_num (M : MathFns α) (m : Mesh α) (e : α) (v u : Nat) : α :=
  gauss_kernel M (side_length M (m.point u) (m.point v)) (M.cbrt2 * e)

/-- The weighted mean `(sum of k * g(u)) / (sum of k)` over the one-ring of
`v`, with the kernel weights for the average edge length `e`. -/
def weighted_mean (M : MathFns α) (m : Mesh α) (e : α) (g : Nat → α) (v : Nat) : α :=
  ((m.vv v).map (fun u => g u * kernel_num M m e v u)).sum
    / ((m.vv v).map (kernel_num M m e v)).sum

/-- The sum of one coordinate (`sel` is `Vec3.x`, `Vec3.y` or `Vec3.z`) over
the finite positions of the vertices of a list. -/
def coord_sum (m : Mesh α) (sel : Vec3 α → Flt α) (l : List Nat) : α :=
  (l.map (fun u => (sel (m.point u)).toNum)).sum

/-- The midpoint of a coordinate `p` and the mean of that coordinate over the
one-ring of `v`, in the form the source computes it. -/
def half_step (m : Mesh α) (sel : Vec3 α → Flt α) (v : Nat) : α :=
  (sel (m.point v)).toNum
    + (coord_sum m sel (m.vv v) / ((m.vv v).length : α) - (sel (m.point v)).toNum) / 2

/-- The dot product of the unit vectors from `p` to `a` and from `p` to `b`
(finite points). -/
def unit_dot (M : MathFns α) (p a b : Vec3 α) : α :=
  let d0x := a.x.toNum - p.x.toNum
  let d0y := a.y.toNum - p.y.toNum
  let d0z := a.z.toNum - p.z.toNum
  let d1x := b.x.toNum - p.x.toNum
  let d1y := b.y.toNum - p.y.toNum
  let d1z := b.z.toNum - p.z.toNum
  let n0 := M.sqrt (d0x * d0x + d0y * d0y + d0z * d0z)
  let n1 := M.sqrt (d1x * d1x + d1y * d1y + d1z * d1z)
  d0x / n0 * (d1x / n1) + d0y / n0 * (d1y / n1) + d0z / n0 * (d1z / n1)

/-- The sum `S` of the claim on the Gaussian curvature: over the pairs of
consecutive one-ring neighbours of `v`, the inverse cosine of the dot product
of the unit vectors from `v` to the two neighbours, clamped to `[-1, 1]`. -/
def clamped_angle_sum (M : MathFns α) (m : Mesh α) (v : Nat) : α :=
  ((ring_pairs (m.vv v)).map (fun pr =>
    M.acos (max (-1) (min 1 (unit_dot M (m.point v) (m.point pr.1) (m.point pr.2)))))).sum

/-- The Gaussian curvature as the claim states it:
`2 * vweight_(v) * (2 * pi - S)`. -/
def gauss_curvature_pi (M : MathFns α) (s : Viewer α) (v : Nat) : Flt α :=
  Flt.fin 2 * s.vweight_ v * Flt.fin (2 * M.pi - clamped_angle_sum M s.mesh v)

/-- The Gaussian curvature with the literal of the source:
`2 * vweight_(v) * (2 * 3.1415926 - S)`. -/
def gauss_curvature_literal (M : MathFns α) (s : Viewer α) (v : Nat) : Flt α :=
  Flt.fin 2 * s.vweight_ v * Flt.fin (2 * (31415926 / 10000000) - clamped_angle_sum M s.mesh v)

/-- The arithmetic mean of the distances from vertex `v` to its one-ring
neighbours, for finite positions. -/
def mean_edge_length (M : MathFns α) (m : Mesh α) (v : Nat) : α :=
  ((m.vv v).map (fun u => side_length M (m.point u) (m.point v))).sum / ((m.vv v).length : α)

/-- The minimum of one coordinate over the vertex positions of a mesh. -/
def coord_min (m : Mesh α) (sel : Vec3 α → Flt α) : α :=
  ((List.range m.n_vertices).map (fun u => (sel (m.point u)).toNum)).foldr min
    (sel (m.point 0)).toNum

/-- The maximum of one coordinate over the vertex positions of a mesh. -/
def coord_max (m : Mesh α) (sel : Vec3 α → Flt α) : α :=
  ((List.range m.n_vertices).map (fun u => (sel (m.point u)).toNum)).foldr max
    (sel (m.point 0)).toNum

/-- The bound of one cotangent term: `c / sqrt(1 - c^2)` for the value
`c = 16609444 / 2^24` of the literal `0.99f`. -/
def cot_bound (M : MathFns α) : α :=
  (16609444 / 16777216) / M.sqrt (1 - (16609444 / 16777216) ^ 2)

end SpecSide

/-! ## Binary floating point (`float` and `double`)

The functions below evaluate the source in IEEE 754 arithmetic: a scalar is a
`Flt ℚ` whose number is a value of the format, and every operation (`+`, `-`,
`*`, `/`, `sqrt`) is the exact operation followed by rounding to nearest, ties
to even, with gradual underflow and overflow to an infinity.  Each operation
is rounded on its own, in the type C++ gives it: `float` for the operators of
`OpenMesh::Vec3f` and between `float` operands, `double` where an operand is a
`double` literal and for `std::pow(x, 2)`, whose results a store into a
`Mesh::Scalar` rounds to `float`.  The operators of `Vec3f` work component by
component (`a / s` divides each component by `s`), `norm()` is the square
root of `sqrnorm()`, the sum from left to right of the three squares.  The
definitions in the namespace `F32` embed `calc_weights`,
`calc_triangle_quality` and `uniform_smooth` in this arithmetic; the only libm
function they evaluate is `sqrt` (the edge weights of `calc_weights`, which
need `acos` and `tan`, are a parameter).  Signed zeros are not distinguished
here either: in these three functions a divisor that is zero is `+0`. -/

/-- A binary floating-point format: the precision in bits, the exponent of
the least positive number `2^emin`, and the exponent `emax` of the top binade
(every number of the format is below `2^(emax+1)`). -/
structure Fmt where
  prec : Nat
  emin : Int
  emax : Int

/-- The format of `float` (IEEE 754 binary32). -/
def binary32 : Fmt := ⟨24, -149, 127⟩

/-- The format of `double` (IEEE 754 binary64). -/
def binary64 : Fmt := ⟨53, -1074, 1023⟩

/-- The number of binary digits of `n`, by repeated halving (`fuel` bounds the
number of halvings). -/
def bitsAux : Nat → Nat → Nat
  | 0, _ => 0
  | fuel + 1, n => if n = 0 then 0 else bitsAux fuel (n / 2) + 1

/-- The number of binary digits of `n` (`0` for `n = 0`). -/
def bitLength (n : Nat) : Nat := bitsAux n n

/-- The power `2^k` of two for an integer exponent `k`, from the power of two
of a natural number. -/
def pow2 (k : Int) : ℚ :=
  if 0 ≤ k then ((2 ^ k.toNat : Nat) : ℚ) else 1 / ((2 ^ (-k).toNat : Nat) : ℚ)

/-- The binary exponent of a non-zero rational: the `k` with
`2^k <= |q| < 2^(k+1)`. -/
def flog2 (q : ℚ) : Int :=
  let k0 : Int := (bitLength q.num.natAbs : Int) - (bitLength q.den : Int)
  if pow2 k0 ≤ |q| then k0 else k0 - 1

/-- The integer nearest to `x`, the even one of the two when `x` lies half way. -/
def rne (x : ℚ) : Int :=
  let f := ⌊x⌋
  let t := x - f
  if t < 1 / 2 then f else if 1 / 2 < t then f + 1 else if f % 2 = 0 then f else f + 1

/-- The exponent of the last place of the format `F` at a non-zero rational
`q`: `prec - 1` below the binary exponent of `q`, but not below `emin`. -/
def lastPlace (F : Fmt) (q : ℚ) : Int := max (flog2 q - (F.prec - 1 : Nat)) F.emin

/-- Rounding of a rational to the format `F`, to nearest and ties to even: a
multiple of `2^e` for the exponent `e` of the last place, an infinity when the
rounded magnitude reaches `2^(emax+1)`. -/
def roundQ (F : Fmt) (q : ℚ) : Flt ℚ :=
  if q = 0 then Flt.fin 0 else
  let e := lastPlace F q
  let r : ℚ := (rne (|q| / pow2 e) : ℚ) * pow2 e
  if pow2 (F.emax + 1) ≤ r then (if 0 < q then Flt.pinf else Flt.ninf)
  else Flt.fin (if 0 < q then r else -r)

/-- The numbers of the format `F`, written out: an integer of at most `prec`
bits times a power of two not below `2^emin`, of magnitude below
`2^(emax+1)`. -/
def Fmt.Rep (F : Fmt) (b : ℚ) : Prop :=
  ∃ m e : Int, F.emin ≤ e ∧ |m| ≤ 2 ^ F.prec ∧ b = m * 2 ^ e ∧ |b| < 2 ^ (F.emax + 1)

/-- The digit-by-digit integer square root: `r` is raised by `2^k`, for `k`
from `fuel - 1` down to `0`, whenever the square stays at most `n`. -/
def isqrtAux : Nat → Nat → Nat → Nat
  | 0, _, r => r
  | k + 1, n, r => if (r + 2 ^ k) * (r + 2 ^ k) ≤ n then isqrtAux k n (r + 2 ^ k) else isqrtAux k n r

/-- The integer square root of `n`. -/
def isqrt (n : Nat) : Nat := isqrtAux ((bitLength n + 1) / 2) n 0

/-- The square root of a positive rational, correctly rounded to the format
`F` (to nearest, ties to even). -/
def sqrtQ (F : Fmt) (q : ℚ) : ℚ :=
  let e := max (flog2 q / 2 - (F.prec - 1 : Nat)) F.emin
  let x : ℚ := q / pow2 (2 * e)
  let n := isqrt ⌊x⌋.toNat
  let c : ℚ := ((2 * n + 1 : ℚ) / 2) ^ 2
  let k := if x < c then n else if c < x then n + 1 else if n % 2 = 0 then n else n + 1
  (k : ℚ) * pow2 e

namespace Flt

/-- The conversion of a scalar to the format `F` (the store of a `double`
into a `float`, or the rounding of an exact result). -/
def round (F : Fmt) : Flt ℚ → Flt ℚ
  | fin q => roundQ F q
  | x => x

/-- The sum `a + b` computed in the format `F`. -/
def fadd (F : Fmt) (a b : Flt ℚ) : Flt ℚ := round F (a + b)

/-- The difference `a - b` computed in the format `F`. -/
def fsub (F : Fmt) (a b : Flt ℚ) : Flt ℚ := round F (a - b)

/-- The product `a * b` computed in the format `F`. -/
def fmul (F : Fmt) (a b : Flt ℚ) : Flt ℚ := round F (a * b)

/-- The quotient `a / b` computed in the format `F`. -/
def fdiv (F : Fmt) (a b : Flt ℚ) : Flt ℚ := round F (a / b)

/-- The call `sqrt(a)` computed in the format `F`. -/
def fsqrt (F : Fmt) : Flt ℚ → Flt ℚ
  | nan => nan
  | ninf => nan
  | fin x => if x < 0 then nan else if x = 0 then fin 0 else fin (sqrtQ F x)
  | pinf => pinf

end Flt

namespace Vec3

/-- Component-wise sum in the format `F`. -/
def fadd (F : Fmt) (a b : Vec3 ℚ) : Vec3 ℚ :=
  ⟨Flt.fadd F a.x b.x, Flt.fadd F a.y b.y, Flt.fadd F a.z b.z⟩

/-- Component-wise difference in the format `F`. -/
def fsub (F : Fmt) (a b : Vec3 ℚ) : Vec3 ℚ :=
  ⟨Flt.fsub F a.x b.x, Flt.fsub F a.y b.y, Flt.fsub F a.z b.z⟩

/-- Division by a scalar in the format `F`, component by component. -/
def fsdiv (F : Fmt) (a : Vec3 ℚ) (s : Flt ℚ) : Vec3 ℚ :=
  ⟨Flt.fdiv F a.x s, Flt.fdiv F a.y s, Flt.fdiv F a.z s⟩

/-- Cross product in the format `F`: each component is the rounded difference
of two rounded products. -/
def fcross (F : Fmt) (a b : Vec3 ℚ) : Vec3 ℚ :=
  ⟨Flt.fsub F (Flt.fmul F a.y b.z) (Flt.fmul F a.z b.y),
    Flt.fsub F (Flt.fmul F a.z b.x) (Flt.fmul F a.x b.z),
    Flt.fsub F (Flt.fmul F a.x b.y) (Flt.fmul F a.y b.x)⟩

/-- Euclidean length in the format `F`: the square root of the sum, from left
to right, of the rounded squares. -/
def fnorm (F : Fmt) (a : Vec3 ℚ) : Flt ℚ :=
  Flt.fsqrt F (Flt.fadd F (Flt.fadd F (Flt.fmul F a.x a.x) (Flt.fmul F a.y a.y)) (Flt.fmul F a.z a.z))

end Vec3

namespace F32

/-- The area share one incident face adds in the vertex loop of
`calc_weights`, `((Q-P)%(R-P)).norm() * 0.5f * 0.3333f`, in `float`. -/
def face_area_share (m : Mesh ℚ) (f : Nat) : Flt ℚ :=
  let P := m.point (m.fv f).1
  let Q := m.point (m.fv f).2.1
  let R := m.point (m.fv f).2.2
  Flt.fmul binary32
    (Flt.fmul binary32
      (Vec3.fnorm binary32 (Vec3.fcross binary32 (Vec3.fsub binary32 Q P) (Vec3.fsub binary32 R P)))
      (Flt.fin (1 / 2)))
    (roundQ binary32 (3333 / 10000))

/-- The variable `area` of the vertex loop of `calc_weights` after the face
loop of vertex `v`, accumulated in `float`. -/
def vertex_area (m : Mesh ℚ) (v : Nat) : Flt ℚ :=
  (m.vf v).foldl (fun area f => Flt.fadd binary32 area (face_area_share m f)) (Flt.fin 0)

/-- The value stored in `vweight_` for vertex `v`: `1.0 / (2.0 * area)` is
computed in `double` and stored as a `float`. -/
def vertex_weight (m : Mesh ℚ) (v : Nat) : Flt ℚ :=
  Flt.round binary32 (Flt.fdiv binary64 (Flt.fin 1) (Flt.fmul binary64 (Flt.fin 2) (vertex_area m v)))

/-- The store `mesh_.property(vweight_, v_it) = 1.0 / (2.0 * area)`. -/
def store_vweight (st : Viewer ℚ) (v : Nat) : Viewer ℚ :=
  { st with vweight_ := Function.update st.vweight_ v (vertex_weight st.mesh v) }

/-- The store `mesh_.property(eweight_, e_it) = w` of the edge loop: `ew e`
stands for the `float` value `w` the source computes for edge `e` with `acos`
and `tan`, whose results IEEE 754 does not fix. -/
def store_eweight (ew : Nat → Flt ℚ) (st : Viewer ℚ) (e : Nat) : Viewer ℚ :=
  { st with eweight_ := Function.update st.eweight_ e (ew e) }

/-- The function `QualityViewer::calc_weights` in `float`, whatever the edge
weights `ew` are: the edge loop, then the vertex loop. -/
def calc_weights (ew : Nat → Flt ℚ) (s : Viewer ℚ) : Viewer ℚ :=
  let s := (List.range s.mesh.n_edges).foldl (store_eweight ew) s
  (List.range s.mesh.n_vertices).foldl store_vweight s

/-- The variable `denom` of `calc_triangle_quality` for the edge vectors
`v0v1` and `v0v2`: the three cross-product components are `float`
expressions, `std::pow(., 2)`, the sum and `std::sqrt` are computed in
`double`, and the result is stored as a `float`. -/
def quality_denom (v0v1 v0v2 : Vec3 ℚ) : Flt ℚ :=
  let t0 := Flt.fsub binary32 (Flt.fmul binary32 v0v1.y v0v2.z) (Flt.fmul binary32 v0v1.z v0v2.y)
  let t1 := Flt.fsub binary32 (Flt.fmul binary32 v0v1.z v0v2.x) (Flt.fmul binary32 v0v1.x v0v2.z)
  let t2 := Flt.fsub binary32 (Flt.fmul binary32 v0v1.x v0v2.y) (Flt.fmul binary32 v0v1.y v0v2.x)
  Flt.round binary32
    (Flt.fsqrt binary64
      (Flt.fadd binary64 (Flt.fadd binary64 (Flt.fmul binary64 t0 t0) (Flt.fmul binary64 t1 t1))
        (Flt.fmul binary64 t2 t2)))

/-- The loop body of `calc_triangle_quality` for a face with corners `v0`,
`v1`, `v2`, in `float`. -/
def triangle_quality (v0 v1 v2 : Vec3 ℚ) : QualityStep ℚ :=
  let v0v1 := Vec3.fsub binary32 v1 v0
  let a := Vec3.fnorm binary32 v0v1
  let v0v2 := Vec3.fsub binary32 v2 v0
  let b := Vec3.fnorm binary32 v0v2
  let v1v2 := Vec3.fsub binary32 v1 v2
  let c := Vec3.fnorm binary32 v1v2
  let min_length_sq : Flt ℚ := Flt.fin FLT_MAX
  let min_length_sq := Flt.min a min_length_sq
  let min_length_sq := Flt.min b min_length_sq
  let min_length_sq := Flt.min c min_length_sq
  let denom := quality_denom v0v1 v0v2
  if Flt.lt denom (Flt.fin FLT_MIN) then
    ⟨Flt.fin FLT_MAX, 0⟩
  else
    let circum_radius_sq :=
      Flt.fdiv binary32 (Flt.fmul binary32 (Flt.fmul binary32 a b) c)
        (Flt.fmul binary32 (Flt.fin 2) denom)
    ⟨Flt.fdiv binary32 circum_radius_sq min_length_sq, 2⟩

/-- The loop body of `calc_triangle_quality` for face `f` of a mesh. -/
def face_quality (m : Mesh ℚ) (f : Nat) : QualityStep ℚ :=
  triangle_quality (m.point (m.fv f).1) (m.point (m.fv f).2.1) (m.point (m.fv f).2.2)

/-- The store into `tshape_` of the face loop of `calc_triangle_quality`. -/
def store_tshape (st : Viewer ℚ) (f : Nat) : Viewer ℚ :=
  { st with tshape_ := Function.update st.tshape_ f (face_quality st.mesh f).tshape }

/-- The function `QualityViewer::calc_triangle_quality`, in `float`. -/
def calc_triangle_quality (s : Viewer ℚ) : Viewer ℚ :=
  (List.range s.mesh.n_faces).foldl store_tshape s

/-- The inner loop of `uniform_smooth` at vertex `v`: the `float` sum of the
neighbour positions and the neighbour counter. -/
def ring_sum (m : Mesh ℚ) (v : Nat) : Vec3 ℚ × Flt ℚ :=
  (m.vv v).foldl
    (fun acc u => (Vec3.fadd binary32 acc.1 (m.point u), Flt.fadd binary32 acc.2 (Flt.fin 1)))
    (Vec3.zero, Flt.fin 0)

/-- The position `uniform_smooth` assigns to vertex `v`, in `float`:
`point(v) + (centroid / counter - point(v)) / 2`. -/
def uniform_smooth_point (m : Mesh ℚ) (v : Nat) : Vec3 ℚ :=
  let acc := ring_sum m v
  let centroid := Vec3.fsub binary32 (Vec3.fsdiv binary32 acc.1 acc.2) (m.point v)
  Vec3.fadd binary32 (m.point v) (Vec3.fsdiv binary32 centroid (Flt.fin 2))

/-- The body of the vertex loop of `uniform_smooth`: the new position is
stored in the mesh at once. -/
def uniform_smooth_vertex (st : Viewer ℚ) (v : Nat) : Viewer ℚ :=
  { st with mesh :=
      { st.mesh with point := Function.update st.mesh.point v (uniform_smooth_point st.mesh v) } }

/-- One iteration of `uniform_smooth`: the vertex loop, in index order. -/
def uniform_smooth_round (s : Viewer ℚ) : Viewer ℚ :=
  (List.range s.mesh.n_vertices).foldl uniform_smooth_vertex s

/-- The function `SmoothingViewer::uniform_smooth`, in `float`. -/
def uniform_smooth (s : Viewer ℚ) (_iters : Nat) : Viewer ℚ :=
  uniform_smooth_round^[_iters] s

/-- The side length between two corners as the code computes it in `float`:
the norm of the rounded difference. -/
def side_length (P Q : Vec3 ℚ) : Flt ℚ := Vec3.fnorm binary32 (Vec3.fsub binary32 Q P)

/-- The cross-product magnitude `D` of the triangle `P Q R` as the code
computes it: the components of `(Q-P) x (R-P)` in `float`, their squares, the
sum and the square root in `double`, the result stored as a `float`. -/
def cross_norm (P Q R : Vec3 ℚ) : Flt ℚ :=
  let c := Vec3.fcross binary32 (Vec3.fsub binary32 Q P) (Vec3.fsub binary32 R P)
  Flt.round binary32
    (Flt.fsqrt binary64
      (Flt.fadd binary64 (Flt.fadd binary64 (Flt.fmul binary64 c.x c.x) (Flt.fmul binary64 c.y c.y))
        (Flt.fmul binary64 c.z c.z)))

/-- One coordinate of the update of `uniform_smooth`, from the coordinate `p`
of the vertex and the coordinates `qs` of its neighbours, in `float`. -/
def smooth_coord (p : Flt ℚ) (qs : List (Flt ℚ)) : Flt ℚ :=
  let centroid := qs.foldl (Flt.fadd binary32) (Flt.fin 0)
  let counter := qs.foldl (fun n _ => Flt.fadd binary32 n (Flt.fin 1)) (Flt.fin 0)
  Flt.fadd binary32 p
    (Flt.fdiv binary32 (Flt.fsub binary32 (Flt.fdiv binary32 centroid counter) p) (Flt.fin 2))

/-- A `float` scalar that is not negative: NaN, `+inf`, or a number `>= 0` of
the format. -/
def NotNeg (x : Flt ℚ) : Prop :=
  x = Flt.nan ∨ x = Flt.pinf ∨ ∃ r : ℚ, x = Flt.fin r ∧ 0 ≤ r ∧ binary32.Rep r

/-- A `float` scalar that is not positive: NaN, `-inf`, or a number `<= 0` of
the format. -/
def NotPos (x : Flt ℚ) : Prop := NotNeg (-x)

end F32

/-- A scalar is a number of magnitude at most `B`. -/
def Flt.within (B : ℚ) : Flt ℚ → Bool
  | Flt.fin x => decide (|x| ≤ B)
  | _ => false

/-- The three coordinates of a vector are numbers of magnitude at most `B`. -/
def Vec3.within (B : ℚ) (a : Vec3 ℚ) : Bool :=
  Flt.within B a.x && Flt.within B a.y && Flt.within B a.z

/-- A wheel of five triangles around vertex 0, all six vertices at height
`z`: the centre `(0,0,z)` and the rim `(2,0,z)`, `(1,2,z)`, `(-2,1,z)`,
`(-2,-1,z)`, `(1,-2,z)`; ten edges (the spokes `0-1` .. `0-5`, then the rim
`1-2`, `2-3`, `3-4`, `4-5`, `5-1`), five faces `(0, i, i+1)`. -/
def fan_mesh {α : Type} [LinearOrderedField α] (z : α) : Mesh α where
  n_vertices := 6
  n_edges := 10
  n_faces := 5
  point := fun v => match v with
    | 0 => Vec3.ofNums 0 0 z
    | 1 => Vec3.ofNums 2 0 z
    | 2 => Vec3.ofNums 1 2 z
    | 3 => Vec3.ofNums (-2) 1 z
    | 4 => Vec3.ofNums (-2) (-1) z
    | _ => Vec3.ofNums 1 (-2) z
  voh := fun v => match v with
    | 0 => [(1, 0), (2, 1), (3, 2), (4, 3), (5, 4)]
    | 1 => [(5, 9), (0, 0), (2, 5)]
    | 2 => [(1, 5), (0, 1), (3, 6)]
    | 3 => [(2, 6), (0, 2), (4, 7)]
    | 4 => [(3, 7), (0, 3), (5, 8)]
    | 5 => [(4, 8), (0, 4), (1, 9)]
    | _ => []
  vf := fun v => match v with
    | 0 => [0, 1, 2, 3, 4]
    | 1 => [4, 0]
    | 2 => [0, 1]
    | 3 => [1, 2]
    | 4 => [2, 3]
    | 5 => [3, 4]
    | _ => []
  fv := fun f => match f with
    | 0 => (0, 1, 2)
    | 1 => (0, 2, 3)
    | 2 => (0, 3, 4)
    | 3 => (0, 4, 5)
    | _ => (0, 5, 1)
  edge := fun e => match e with
    | 0 => ⟨1, 0, 2, 5⟩
    | 1 => ⟨2, 0, 3, 1⟩
    | 2 => ⟨3, 0, 4, 2⟩
    | 3 => ⟨4, 0, 5, 3⟩
    | 4 => ⟨5, 0, 1, 4⟩
    | 5 => ⟨2, 1, 0, 5⟩
    | 6 => ⟨3, 2, 0, 1⟩
    | 7 => ⟨4, 3, 0, 2⟩
    | 8 => ⟨5, 4, 0, 3⟩
    | _ => ⟨1, 5, 0, 4⟩

/-! ## Arithmetic on finite scalars -/

namespace Flt

variable {α : Type} [LinearOrderedField α]

@[simp] theorem fin_add_fin (a b : α) : (fin a + fin b : Flt α) = fin (a + b) := rfl

@[simp] theorem fin_sub_fin (a b : α) : (fin a - fin b : Flt α) = fin (a - b) := by
  show add (fin a) (neg (fin b)) = fin (a - b)
  simp [add, neg, sub_eq_add_neg]

@[simp] theorem fin_mul_fin (a b : α) : (fin a * fin b : Flt α) = fin (a * b) := rfl

@[simp] theorem neg_fin (a : α) : (-(fin a) : Flt α) = fin (-a) := rfl

theorem fin_div_fin (a b : α) (hb : b ≠ 0) : (fin a / fin b : Flt α) = fin (a / b) := by
  show div (fin a) (fin b) = fin (a / b)
  simp [div, hb]

@[simp] theorem lt_fin_fin (a b : α) : lt (fin a) (fin b) = decide (a < b) := rfl

@[simp] theorem le_fin_fin (a b : α) : le (fin a) (fin b) = decide (a ≤ b) := rfl

theorem sqrt_fin (M : MathFns α) (x : α) (hx : 0 ≤ x) : sqrt M (fin x) = fin (M.sqrt x) := by
  simp [sqrt, not_lt.mpr hx]

@[simp] theorem nan_add (a : Flt α) : (nan + a : Flt α) = nan := rfl

@[simp] theorem add_nan (a : Flt α) : (a + nan : Flt α) = nan := by cases a <;> rfl

@[simp] theorem nan_sub (a : Flt α) : (nan - a : Flt α) = nan := rfl

@[simp] theorem sub_nan (a : Flt α) : (a - nan : Flt α) = nan := by cases a <;> rfl

@[simp] theorem nan_mul (a : Flt α) : (nan * a : Flt α) = nan := rfl

@[simp] theorem mul_nan (a : Flt α) : (a * nan : Flt α) = nan := by cases a <;> rfl

@[simp] theorem nan_div (a : Flt α) : (nan / a : Flt α) = nan := rfl

@[simp] theorem div_nan (a : Flt α) : (a / nan : Flt α) = nan := by cases a <;> rfl

@[simp] theorem sqrt_nan (M : MathFns α) : sqrt M (nan : Flt α) = nan := rfl

@[simp] theorem zero_div_zero : (fin 0 / fin 0 : Flt α) = nan := by
  show div (fin 0) (fin 0) = nan
  simp [div]

@[simp] theorem one_div_zero : (fin 1 / fin 0 : Flt α) = pinf := by
  show div (fin 1) (fin 0) = pinf
  simp [div, signedInf]

@[simp] theorem pinf_mul_zero : (pinf * fin 0 : Flt α) = nan := by
  show mul pinf (fin 0) = nan
  simp [mul]

@[simp] theorem le_nan (a : Flt α) : le a nan = false := by cases a <;> rfl

/-- The result of `std::max(0.0f, w)` is a number `>= 0` or `+inf`, never NaN. -/
theorem zero_le_max_zero (w : Flt α) : le (fin 0) (max (fin 0) w) = true := by
  cases w <;> simp [max, lt, le]
  rename_i x
  by_cases h : (0 : α) < x <;> simp [h, le_of_lt]

end Flt

/-! ## Finite vectors -/

namespace Vec3

variable {α : Type} [LinearOrderedField α]

omit [LinearOrderedField α] in
theorem isFinite_iff (a : Vec3 α) : a.isFinite = true ↔ ∃ x y z, a = ofNums x y z := by
  constructor
  · intro h
    obtain ⟨ax, ay, az⟩ := a
    cases ax <;> cases ay <;> cases az <;> simp [isFinite, Flt.isFinite] at h
    exact ⟨_, _, _, rfl⟩
  · rintro ⟨x, y, z, rfl⟩
    rfl

@[simp] theorem sub_ofNums (a b c d e f : α) :
    sub (ofNums a b c) (ofNums d e f) = ofNums (a - d) (b - e) (c - f) := by
  simp [sub, ofNums]

@[simp] theorem add_ofNums (a b c d e f : α) :
    add (ofNums a b c) (ofNums d e f) = ofNums (a + d) (b + e) (c + f) := by
  simp [add, ofNums]

@[simp] theorem smul_ofNums (t a b c : α) :
    smul (Flt.fin t) (ofNums a b c) = ofNums (t * a) (t * b) (t * c) := by
  simp [smul, ofNums]

@[simp] theorem cross_ofNums (a b c d e f : α) :
    cross (ofNums a b c) (ofNums d e f)
      = ofNums (b * f - c * e) (c * d - a * f) (a * e - b * d) := by
  simp [cross, ofNums]

@[simp] theorem dot_ofNums (a b c d e f : α) :
    dot (ofNums a b c) (ofNums d e f) = Flt.fin (a * d + b * e + c * f) := by
  simp [dot, ofNums]

theorem norm_ofNums (M : MathFns α) (a b c : α) :
    norm M (ofNums a b c) = Flt.fin (M.sqrt (a * a + b * b + c * c)) := by
  simp only [norm, ofNums, Flt.fin_mul_fin, Flt.fin_add_fin]
  exact Flt.sqrt_fin M _
    (add_nonneg (add_nonneg (mul_self_nonneg a) (mul_self_nonneg b)) (mul_self_nonneg c))

theorem sdiv_ofNums (a b c t : α) (ht : t ≠ 0) :
    sdiv (ofNums a b c) (Flt.fin t) = ofNums (a / t) (b / t) (c / t) := by
  simp [sdiv, ofNums, Flt.fin_div_fin _ _ ht]

end Vec3

/-! ## Property loops -/

section Loops

variable {σ β : Type}

/-- A loop over the handles of a list that stores `val v` in one property at
each handle `v`, and keeps an invariant `P` under which the stored values do
not depend on the state: afterwards the property holds `val` on the handles
of the list and its old content elsewhere. -/
theorem foldl_store (get : σ → Nat → β) (body : σ → Nat → σ) (val : Nat → β) (P : σ → Prop)
    (hP : ∀ st v, P st → P (body st v))
    (hget : ∀ st v w, P st → get (body st v) w = if w = v then val v else get st w) :
    ∀ (l : List Nat) (s : σ), P s →
      P (l.foldl body s) ∧ ∀ w, get (l.foldl body s) w = if w ∈ l then val w else get s w := by
  intro l
  induction l with
  | nil => intro s hs; exact ⟨hs, fun w => by simp⟩
  | cons v l ih =>
    intro s hs
    obtain ⟨h1, h2⟩ := ih (body s v) (hP s v hs)
    refine ⟨h1, fun w => ?_⟩
    rw [List.foldl_cons, h2 w, hget s v w hs]
    by_cases hw : w = v
    · subst hw; simp
    · by_cases hl : w ∈ l <;> simp [hw, hl]

/-- A loop whose body leaves a component of the state alone leaves it alone. -/
theorem foldl_frame {γ : Type} (get : σ → γ) (body : σ → Nat → σ)
    (h : ∀ st v, get (body st v) = get st) (l : List Nat) (s : σ) :
    get (l.foldl body s) = get s := by
  induction l generalizing s with
  | nil => rfl
  | cons a l ih => rw [List.foldl_cons, ih, h]

/-- A loop over the handles `0 .. n-1` that overwrites one array in place,
entry `v` with a value `F` computed from the array as it is when `v` is
reached: in the result, entry `v` is `F` of the array that holds the new
entries before `v` and the old entries from `v` on. -/
theorem sweep_in_place (get : σ → Nat → β) (body : σ → Nat → σ) (F : (Nat → β) → Nat → β)
    (P : σ → Prop) (hP : ∀ st v, P st → P (body st v))
    (hget : ∀ st v w, P st → get (body st v) w = if w = v then F (get st) v else get st w)
    (n : Nat) (s : σ) (hs : P s) (v : Nat) :
    get ((List.range n).foldl body s) v
      = if v < n then
          F (fun u => if u < v then get ((List.range n).foldl body s) u else get s u) v
        else get s v := by
  have hloop : ∀ (l : List Nat) (t : σ), P t →
      P (l.foldl body t) ∧ ∀ w, w ∉ l → get (l.foldl body t) w = get t w := by
    intro l
    induction l with
    | nil => intro t ht; exact ⟨ht, fun _ _ => rfl⟩
    | cons a l ih =>
      intro t ht
      obtain ⟨h1, h2⟩ := ih (body t a) (hP t a ht)
      refine ⟨h1, fun w hw => ?_⟩
      rw [List.foldl_cons, h2 w (fun h => hw (List.mem_cons_of_mem _ h)), hget t a w ht,
        if_neg (fun h : w = a => hw (h ▸ List.mem_cons_self _ _))]
  have hfinal : ∀ m w, w < m →
      get ((List.range m).foldl body s) w = get ((List.range (w + 1)).foldl body s) w := by
    intro m w hw
    obtain ⟨d, rfl⟩ : ∃ d, m = (w + 1) + d := ⟨m - (w + 1), by omega⟩
    rw [List.range_add, List.foldl_append]
    apply (hloop _ _ (hloop _ s hs).1).2
    simp only [List.mem_map, List.mem_range, not_exists, not_and]
    intro x _ hx
    omega
  by_cases hv : v < n
  · rw [if_pos hv, hfinal n v hv, List.range_succ, List.foldl_append]
    show get (body ((List.range v).foldl body s) v) v = _
    rw [hget _ v v (hloop _ s hs).1, if_pos rfl]
    congr 1
    funext u
    by_cases hu : u < v
    · rw [if_pos hu, hfinal v u hu, hfinal n u (by omega)]
    · rw [if_neg hu]
      exact (hloop _ s hs).2 u (by simpa using hu)
  · rw [if_neg hv]
    exact (hloop _ s hs).2 v (by simpa using hv)

end Loops

/-! ## Edge and vertex weights -/

section WeightFacts

variable {α : Type} [LinearOrderedField α]

theorem edge_loop (M : MathFns α) (s : Viewer α) (l : List Nat) :
    (l.foldl (store_eweight M) s).mesh = s.mesh ∧
    ∀ e, (l.foldl (store_eweight M) s).eweight_ e
        = if e ∈ l then edge_weight M s.mesh e else s.eweight_ e := by
  refine foldl_store (fun st => st.eweight_) (store_eweight M) (edge_weight M s.mesh)
    (fun st => st.mesh = s.mesh) (fun st v h => h) ?_ l s rfl
  intro st v w h
  simp only [store_eweight, Function.update_apply, h]

theorem vertex_loop (M : MathFns α) (s : Viewer α) (l : List Nat) :
    ((l.foldl (store_vweight M) s).mesh = s.mesh ∧
      (l.foldl (store_vweight M) s).eweight_ = s.eweight_) ∧
    ∀ v, (l.foldl (store_vweight M) s).vweight_ v
        = if v ∈ l then vertex_weight M s.mesh v else s.vweight_ v := by
  refine foldl_store (fun st => st.vweight_) (store_vweight M) (vertex_weight M s.mesh)
    (fun st => st.mesh = s.mesh ∧ st.eweight_ = s.eweight_) (fun st v h => h) ?_ l s ⟨rfl, rfl⟩
  intro st v w h
  simp only [store_vweight, Function.update_apply, h.1]

theorem calc_weights_mesh (M : MathFns α) (s : Viewer α) : (calc_weights M s).mesh = s.mesh := by
  unfold calc_weights
  rw [(vertex_loop M _ _).1.1, (edge_loop M s _).1]

theorem calc_weights_eweight (M : MathFns α) (s : Viewer α) (e : Nat) :
    (calc_weights M s).eweight_ e
      = if e < s.mesh.n_edges then edge_weight M s.mesh e else s.eweight_ e := by
  unfold calc_weights
  rw [(vertex_loop M _ _).1.2, (edge_loop M s _).2 e]
  simp

theorem calc_weights_vweight (M : MathFns α) (s : Viewer α) (v : Nat) :
    (calc_weights M s).vweight_ v
      = if v < s.mesh.n_vertices then vertex_weight M s.mesh v else s.vweight_ v := by
  unfold calc_weights
  have hm := (edge_loop M s (List.range s.mesh.n_edges)).1
  have hv : (List.foldl (store_eweight M) s (List.range s.mesh.n_edges)).vweight_ = s.vweight_ :=
    foldl_frame (fun st : Viewer α => st.vweight_) (store_eweight M) (fun _ _ => rfl) _ s
  rw [(vertex_loop M _ _).2 v, hm, hv]
  simp

theorem face_area_share_finite (M : MathFns α) (m : Mesh α) (f : Nat)
    (hfin : ∀ u, (m.point u).isFinite = true) :
    face_area_share M m f = Flt.fin (3333 / 10000 * face_area M m f) := by
  obtain ⟨px, py, pz, hP⟩ := (Vec3.isFinite_iff _).1 (hfin (m.fv f).1)
  obtain ⟨qx, qy, qz, hQ⟩ := (Vec3.isFinite_iff _).1 (hfin (m.fv f).2.1)
  obtain ⟨rx, ry, rz, hR⟩ := (Vec3.isFinite_iff _).1 (hfin (m.fv f).2.2)
  have hl : face_area_share M m f
      = Flt.fin (M.sqrt (cross_sq (Vec3.ofNums px py pz) (Vec3.ofNums qx qy qz)
          (Vec3.ofNums rx ry rz)) * (1 / 2) * (3333 / 10000)) := by
    simp only [face_area_share, hP, hQ, hR, Vec3.sub_ofNums, Vec3.cross_ofNums,
      Vec3.norm_ofNums, Flt.fin_mul_fin]
    rfl
  rw [hl, face_area, triangle_area, hP, hQ, hR]
  congr 1
  ring

theorem area_loop (M : MathFns α) (m : Mesh α) (hfin : ∀ u, (m.point u).isFinite = true)
    (l : List Nat) (a0 : α) :
    l.foldl (fun area f => area + face_area_share M m f) (Flt.fin a0)
      = Flt.fin (a0 + 3333 / 10000 * (l.map (face_area M m)).sum) := by
  induction l generalizing a0 with
  | nil => simp
  | cons f l ih =>
    rw [List.foldl_cons, face_area_share_finite M m f hfin, Flt.fin_add_fin, ih]
    congr 1
    simp only [List.map_cons, List.sum_cons]
    ring

/-- On a mesh with finite positions the stored vertex weight is
`1 / (2 * (0.3333 * sum of the incident triangle areas))`. -/
theorem vertex_weight_finite (M : MathFns α) (m : Mesh α) (v : Nat)
    (hfin : ∀ u, (m.point u).isFinite = true) :
    vertex_weight M m v = scaled_area_weight M m v := by
  simp only [vertex_weight, scaled_area_weight, incident_area, area_loop M m hfin, zero_add]

end WeightFacts

section RealFacts

theorem face_area_nonneg (m : Mesh ℝ) (f : Nat) : 0 ≤ face_area realMath m f :=
  div_nonneg (Real.sqrt_nonneg _) (by norm_num)

theorem sum_pos_of_mem (g : Nat → ℝ) (l : List Nat) (h0 : ∀ x ∈ l, 0 ≤ g x)
    (h1 : ∃ x ∈ l, 0 < g x) : 0 < (l.map g).sum := by
  induction l with
  | nil => simp at h1
  | cons a l ih =>
    simp only [List.map_cons, List.sum_cons]
    have hl : 0 ≤ (l.map g).sum :=
      List.sum_nonneg (by
        intro x hx
        obtain ⟨y, hy, rfl⟩ := List.mem_map.1 hx
        exact h0 y (List.mem_cons_of_mem _ hy))
    obtain ⟨x, hx, hpos⟩ := h1
    rcases List.mem_cons.1 hx with rfl | hx
    · linarith
    · have := ih (fun y hy => h0 y (List.mem_cons_of_mem _ hy)) ⟨x, hx, hpos⟩
      linarith [h0 a (List.mem_cons_self _ _)]

theorem triangle_mesh_finite {α : Type} [LinearOrderedField α] (p0 p1 p2 : Vec3 α)
    (h0 : p0.isFinite = true) (h1 : p1.isFinite = true) (h2 : p2.isFinite = true) (u : Nat) :
    ((triangle_mesh p0 p1 p2).point u).isFinite = true := by
  simp only [triangle_mesh]
  split <;> assumption

theorem right_triangle_finite {α : Type} [LinearOrderedField α] (u : Nat) :
    ((right_triangle : Mesh α).point u).isFinite = true :=
  triangle_mesh_finite (Vec3.ofNums 0 0 0) (Vec3.ofNums 1 0 0) (Vec3.ofNums 0 1 0) rfl rfl rfl u

theorem right_triangle_area : face_area realMath (right_triangle : Mesh ℝ) 0 = 1 / 2 := by
  simp [face_area, triangle_area, cross_sq, right_triangle, triangle_mesh, Vec3.ofNums,
    Flt.toNum, realMath]

theorem right_triangle_incident_area :
    incident_area realMath (right_triangle : Mesh ℝ) 0 = 1 / 2 := by
  have hvf : (right_triangle : Mesh ℝ).vf 0 = [0] := rfl
  rw [incident_area, hvf]
  simp [right_triangle_area]

theorem right_triangle_vweight :
    (calc_weights realMath (Viewer.init right_triangle)).vweight_ 0 = Flt.fin (10000 / 3333) := by
  rw [calc_weights_vweight, if_pos (by decide)]
  show vertex_weight realMath right_triangle 0 = _
  rw [vertex_weight_finite _ _ _ right_triangle_finite, scaled_area_weight,
    right_triangle_incident_area, Flt.fin_mul_fin, Flt.fin_div_fin _ _ (by norm_num)]
  norm_num

theorem right_triangle_distances :
    ∀ u ∈ (right_triangle : Mesh ℝ).vv 0,
      Vec3.norm realMath (Vec3.sub ((right_triangle : Mesh ℝ).point u)
        ((right_triangle : Mesh ℝ).point 0)) ≠ Flt.fin 0 := by
  intro u hu
  have hvv : (right_triangle : Mesh ℝ).vv 0 = [2, 1] := rfl
  rw [hvv] at hu
  simp only [List.mem_cons, List.mem_singleton, List.not_mem_nil, or_false] at hu
  rcases hu with rfl | rfl
  · show Vec3.norm realMath (Vec3.sub (Vec3.ofNums 0 1 0) (Vec3.ofNums 0 0 0)) ≠ Flt.fin 0
    rw [Vec3.sub_ofNums, Vec3.norm_ofNums]
    simp [realMath]
  · show Vec3.norm realMath (Vec3.sub (Vec3.ofNums 1 0 0) (Vec3.ofNums 0 0 0)) ≠ Flt.fin 0
    rw [Vec3.sub_ofNums, Vec3.norm_ofNums]
    simp [realMath]

theorem right_triangle_angle_sum :
    clamped_angle_sum realMath (right_triangle : Mesh ℝ) 0 = Real.pi := by
  have hvv : ring_pairs ((right_triangle : Mesh ℝ).vv 0) = [(2, 1), (1, 2)] := rfl
  rw [clamped_angle_sum, hvv]
  have h1 : unit_dot realMath ((right_triangle : Mesh ℝ).point 0)
      ((right_triangle : Mesh ℝ).point 2) ((right_triangle : Mesh ℝ).point 1) = 0 := by
    simp [unit_dot, right_triangle, triangle_mesh, Vec3.ofNums, Flt.toNum]
  have h2 : unit_dot realMath ((right_triangle : Mesh ℝ).point 0)
      ((right_triangle : Mesh ℝ).point 1) ((right_triangle : Mesh ℝ).point 2) = 0 := by
    simp [unit_dot, right_triangle, triangle_mesh, Vec3.ofNums, Flt.toNum]
  simp only [List.map_cons, List.map_nil, List.sum_cons, List.sum_nil, h1, h2]
  have h3 : realMath.acos (max (-1) (min 1 0)) = Real.pi / 2 := by
    rw [min_eq_right (by norm_num), max_eq_right (by norm_num)]
    exact Real.arccos_zero
  rw [h3]
  ring

end RealFacts

/-! ## Mean curvatures -/

section CurvatureFacts

variable {α : Type} [LinearOrderedField α]

theorem calc_uniform_mean_curvature_at (M : MathFns α) (s : Viewer α) (v : Nat) :
    (calc_uniform_mean_curvature M s).vunicurvature_ v
      = if v < s.mesh.n_vertices then uniform_mean_curvature_at M s.mesh v
        else s.vunicurvature_ v := by
  have h := (foldl_store (fun st : Viewer α => st.vunicurvature_) (store_vunicurvature M)
    (uniform_mean_curvature_at M s.mesh) (fun st => st.mesh = s.mesh) (fun st v h => h)
    (fun st v w h => by simp only [store_vunicurvature, Function.update_apply, h])
    (List.range s.mesh.n_vertices) s rfl).2 v
  simpa [calc_uniform_mean_curvature] using h

theorem mean_curvature_at_congr (M : MathFns α) (s t : Viewer α) (v : Nat)
    (hm : t.mesh = s.mesh) (he : t.eweight_ = s.eweight_) (hw : t.vweight_ = s.vweight_) :
    mean_curvature_at M t v = mean_curvature_at M s v := by
  simp only [mean_curvature_at, lb_laplace, hm, he, hw]

theorem calc_mean_curvature_at (M : MathFns α) (s : Viewer α) (v : Nat) :
    (calc_mean_curvature M s).vcurvature_ v
      = if v < s.mesh.n_vertices then mean_curvature_at M s v else s.vcurvature_ v := by
  have h := (foldl_store (fun st : Viewer α => st.vcurvature_) (store_vcurvature M)
    (mean_curvature_at M s)
    (fun st => st.mesh = s.mesh ∧ st.eweight_ = s.eweight_ ∧ st.vweight_ = s.vweight_)
    (fun st v h => h)
    (fun st v w h => by
      simp only [store_vcurvature, Function.update_apply,
        mean_curvature_at_congr M s st v h.1 h.2.1 h.2.2])
    (List.range s.mesh.n_vertices) s ⟨rfl, rfl, rfl⟩).2 v
  simpa [calc_mean_curvature] using h

/-- The neighbour loop of the uniform curvature on finite positions: a finite
sum and the number of neighbours. -/
theorem ring_sum_finite (m : Mesh α) (hfin : ∀ u, (m.point u).isFinite = true) (l : List Nat)
    (a b c : α) (k : Nat) :
    ∃ x y z, l.foldl (fun acc u => (Vec3.add acc.1 (m.point u), acc.2 + Flt.fin 1))
        (Vec3.ofNums a b c, Flt.fin (k : α))
      = (Vec3.ofNums x y z, Flt.fin ((k + l.length : Nat) : α)) := by
  induction l generalizing a b c k with
  | nil => exact ⟨a, b, c, rfl⟩
  | cons u l ih =>
    obtain ⟨px, py, pz, hp⟩ := (Vec3.isFinite_iff _).1 (hfin u)
    obtain ⟨x, y, z, h⟩ := ih (a + px) (b + py) (c + pz) (k + 1)
    refine ⟨x, y, z, ?_⟩
    rw [List.foldl_cons]
    simp only [hp, Vec3.add_ofNums, Flt.fin_add_fin]
    have hk : (k : α) + 1 = ((k + 1 : Nat) : α) := by push_cast; ring
    rw [hk, h]
    congr 3
    simp only [List.length_cons]
    omega

/-- The halfedge loop of the Laplace-Beltrami curvature on finite positions
and finite edge weights: a finite vector. -/
theorem lb_laplace_finite (s : Viewer α) (v : Nat) (hfin : ∀ u, (s.mesh.point u).isFinite = true)
    (l : List (Nat × Nat)) (he : ∀ h ∈ l, (s.eweight_ h.2).isFinite = true) (a b c : α) :
    ∃ x y z, l.foldl
        (fun laplace h => Vec3.add laplace
          (Vec3.smul (s.eweight_ h.2) (Vec3.sub (s.mesh.point h.1) (s.mesh.point v))))
        (Vec3.ofNums a b c) = Vec3.ofNums x y z := by
  induction l generalizing a b c with
  | nil => exact ⟨a, b, c, rfl⟩
  | cons h l ih =>
    obtain ⟨px, py, pz, hp⟩ := (Vec3.isFinite_iff _).1 (hfin h.1)
    obtain ⟨qx, qy, qz, hq⟩ := (Vec3.isFinite_iff _).1 (hfin v)
    have hw := he h (List.mem_cons_self _ _)
    rw [List.foldl_cons]
    cases hwe : s.eweight_ h.2 with
    | fin w =>
      have hstep : Vec3.add (Vec3.ofNums a b c)
          (Vec3.smul (Flt.fin w) (Vec3.sub (s.mesh.point h.1) (s.mesh.point v)))
          = Vec3.ofNums (a + w * (px - qx)) (b + w * (py - qy)) (c + w * (pz - qz)) := by
        rw [hp, hq, Vec3.sub_ofNums, Vec3.smul_ofNums, Vec3.add_ofNums]
      rw [hstep]
      exact ih (fun h' hh => he h' (List.mem_cons_of_mem _ hh)) _ _ _
    | nan => rw [hwe] at hw; exact absurd hw (by simp [Flt.isFinite])
    | ninf => rw [hwe] at hw; exact absurd hw (by simp [Flt.isFinite])
    | pinf => rw [hwe] at hw; exact absurd hw (by simp [Flt.isFinite])

theorem gauss_curvature_at_congr (M : MathFns α) (s t : Viewer α) (v : Nat)
    (hm : t.mesh = s.mesh) (hw : t.vweight_ = s.vweight_) :
    gauss_curvature_at M t v = gauss_curvature_at M s v := by
  simp only [gauss_curvature_at, hm, hw]

theorem calc_gauss_curvature_at (M : MathFns α) (s : Viewer α) (v : Nat) :
    (calc_gauss_curvature M s).vgausscurvature_ v
      = if v < s.mesh.n_vertices then gauss_curvature_at M s v else s.vgausscurvature_ v := by
  have h := (foldl_store (fun st : Viewer α => st.vgausscurvature_) (store_vgausscurvature M)
    (gauss_curvature_at M s)
    (fun st => st.mesh = s.mesh ∧ st.vweight_ = s.vweight_)
    (fun st v h => h)
    (fun st v w h => by
      simp only [store_vgausscurvature, Function.update_apply,
        gauss_curvature_at_congr M s st v h.1 h.2])
    (List.range s.mesh.n_vertices) s ⟨rfl, rfl⟩).2 v
  simpa [calc_gauss_curvature] using h

theorem clamp_unit_fin (c : α) : clamp_unit (Flt.fin c) = Flt.fin (max (-1) (min 1 c)) := by
  unfold clamp_unit
  simp only [Flt.lt_fin_fin, decide_eq_true_eq]
  by_cases h1 : c < -1
  · rw [if_pos h1]
    congr 1
    rw [min_eq_right (by linarith), max_eq_left h1.le]
  · rw [if_neg h1]
    push_neg at h1
    by_cases h2 : 1 < c
    · rw [if_pos h2, min_eq_left h2.le, max_eq_right (by norm_num)]
    · rw [if_neg h2]
      push_neg at h2
      rw [min_eq_right h2, max_eq_right h1]

theorem acos_fin (M : MathFns α) (c : α) (h1 : -1 ≤ c) (h2 : c ≤ 1) :
    Flt.acos M (Flt.fin c) = Flt.fin (M.acos c) := by
  simp [Flt.acos, not_lt.mpr h1, not_lt.mpr h2]

/-- The angle of one corner on finite points at non-zero distances. -/
theorem corner_angle_finite (M : MathFns α) (m : Mesh α) (v : Nat) (pr : Nat × Nat)
    (hfin : ∀ u, (m.point u).isFinite = true)
    (h0 : Vec3.norm M (Vec3.sub (m.point pr.1) (m.point v)) ≠ Flt.fin 0)
    (h1 : Vec3.norm M (Vec3.sub (m.point pr.2) (m.point v)) ≠ Flt.fin 0) :
    corner_angle M m (m.point v) pr
      = Flt.fin (M.acos (max (-1) (min 1 (unit_dot M (m.point v) (m.point pr.1) (m.point pr.2))))) := by
  obtain ⟨px, py, pz, hp⟩ := (Vec3.isFinite_iff _).1 (hfin v)
  obtain ⟨ax, ay, az, ha⟩ := (Vec3.isFinite_iff _).1 (hfin pr.1)
  obtain ⟨bx, b_y, bz, hb⟩ := (Vec3.isFinite_iff _).1 (hfin pr.2)
  rw [hp, ha, Vec3.sub_ofNums, Vec3.norm_ofNums] at h0
  rw [hp, hb, Vec3.sub_ofNums, Vec3.norm_ofNums] at h1
  have h0' : M.sqrt ((ax - px) * (ax - px) + (ay - py) * (ay - py) + (az - pz) * (az - pz)) ≠ 0 :=
    fun h => h0 (by rw [h])
  have h1' : M.sqrt ((bx - px) * (bx - px) + (b_y - py) * (b_y - py) + (bz - pz) * (bz - pz)) ≠ 0 :=
    fun h => h1 (by rw [h])
  have hcos : corner_angle M m (m.point v) pr = Flt.acos M (clamp_unit (Flt.fin
      (((ax - px) * (bx - px) + (ay - py) * (b_y - py) + (az - pz) * (bz - pz)) /
        (M.sqrt ((ax - px) * (ax - px) + (ay - py) * (ay - py) + (az - pz) * (az - pz)) *
         M.sqrt ((bx - px) * (bx - px) + (b_y - py) * (b_y - py) + (bz - pz) * (bz - pz)))))) := by
    simp only [corner_angle, hp, ha, hb, Vec3.sub_ofNums, Vec3.norm_ofNums, Flt.fin_mul_fin]
    rw [← Flt.fin_div_fin _ _ (mul_ne_zero h0' h1')]
    rfl
  rw [hcos, clamp_unit_fin, acos_fin M _ (le_max_left _ _) (max_le (by norm_num) (min_le_left _ _))]
  congr 4
  simp only [unit_dot, hp, ha, hb, Vec3.ofNums, Flt.toNum]
  field_simp

theorem angle_loop (M : MathFns α) (m : Mesh α) (v : Nat) (g : Nat × Nat → α)
    (l : List (Nat × Nat)) (hl : ∀ pr ∈ l, corner_angle M m (m.point v) pr = Flt.fin (g pr))
    (a0 : α) :
    l.foldl (fun angles pr => angles + corner_angle M m (m.point v) pr) (Flt.fin a0)
      = Flt.fin (a0 + (l.map g).sum) := by
  induction l generalizing a0 with
  | nil => simp
  | cons pr l ih =>
    rw [List.foldl_cons, hl pr (List.mem_cons_self _ _), Flt.fin_add_fin,
      ih (fun q hq => hl q (List.mem_cons_of_mem _ hq))]
    simp only [List.map_cons, List.sum_cons, add_assoc]

theorem mem_ring_pairs (l : List Nat) (pr : Nat × Nat) (h : pr ∈ ring_pairs l) :
    pr.1 ∈ l ∧ pr.2 ∈ l := by
  obtain ⟨a, b⟩ := pr
  have := List.of_mem_zip h
  exact ⟨this.1, List.mem_rotate.1 this.2⟩

/-- On finite positions with every neighbour of `v` at a non-zero distance,
the stored Gaussian curvature is `2 * vweight_ * (2 * 3.1415926 - S)`. -/
theorem gauss_curvature_at_finite (M : MathFns α) (s : Viewer α) (v : Nat)
    (hfin : ∀ u, (s.mesh.point u).isFinite = true)
    (hd : ∀ u ∈ s.mesh.vv v,
      Vec3.norm M (Vec3.sub (s.mesh.point u) (s.mesh.point v)) ≠ Flt.fin 0) :
    gauss_curvature_at M s v = gauss_curvature_literal M s v := by
  have h := angle_loop M s.mesh v
    (fun pr => M.acos (max (-1) (min 1
      (unit_dot M (s.mesh.point v) (s.mesh.point pr.1) (s.mesh.point pr.2)))))
    (ring_pairs (s.mesh.vv v))
    (fun pr hpr => corner_angle_finite M s.mesh v pr hfin
      (hd _ (mem_ring_pairs _ _ hpr).1) (hd _ (mem_ring_pairs _ _ hpr).2)) 0
  simp only [gauss_curvature_at, gauss_curvature_literal, angle_sum, clamped_angle_sum, h,
    zero_add, Flt.fin_mul_fin, Flt.fin_sub_fin]

end CurvatureFacts

/-! ## Triangle quality -/

section QualityFacts

variable {α : Type} [LinearOrderedField α]

theorem calc_triangle_quality_at (M : MathFns α) (s : Viewer α) (f : Nat) :
    (calc_triangle_quality M s).tshape_ f
      = if f < s.mesh.n_faces then (face_quality M s.mesh f).tshape else s.tshape_ f := by
  have h := (foldl_store (fun st : Viewer α => st.tshape_) (store_tshape M)
    (fun f => (face_quality M s.mesh f).tshape) (fun st => st.mesh = s.mesh) (fun st v h => h)
    (fun st v w h => by simp only [store_tshape, Function.update_apply, h])
    (List.range s.mesh.n_faces) s rfl).2 f
  simpa [calc_triangle_quality] using h

theorem min_fin_fin (x y : α) : Flt.min (Flt.fin x) (Flt.fin y) = Flt.fin (min x y) := by
  unfold Flt.min
  simp only [Flt.lt_fin_fin, decide_eq_true_eq]
  by_cases h : y < x
  · rw [if_pos h, min_eq_right h.le]
  · rw [if_neg h, min_eq_left (not_lt.1 h)]

/-- The loop body of `calc_triangle_quality` on finite corners, in terms of
the side lengths and the cross-product magnitude. -/
theorem triangle_quality_finite (M : MathFns α) (P Q R : Vec3 α)
    (hP : P.isFinite = true) (hQ : Q.isFinite = true) (hR : R.isFinite = true) :
    triangle_quality M P Q R
      = if cross_norm M P Q R < FLT_MIN then ⟨Flt.fin FLT_MAX, 0⟩
        else ⟨Flt.fin (side_length M P Q * side_length M P R * side_length M R Q)
                / Flt.fin (2 * cross_norm M P Q R)
                / Flt.fin (min (side_length M R Q)
                    (min (side_length M P R) (min (side_length M P Q) FLT_MAX))), 2⟩ := by
  obtain ⟨px, py, pz, rfl⟩ := (Vec3.isFinite_iff _).1 hP
  obtain ⟨qx, qy, qz, rfl⟩ := (Vec3.isFinite_iff _).1 hQ
  obtain ⟨rx, ry, rz, rfl⟩ := (Vec3.isFinite_iff _).1 hR
  have hden : Flt.sqrt M (Flt.fin
      ((qy - py) * (rz - pz) - (qz - pz) * (ry - py)) * Flt.fin
      ((qy - py) * (rz - pz) - (qz - pz) * (ry - py)) + Flt.fin
      ((qz - pz) * (rx - px) - (qx - px) * (rz - pz)) * Flt.fin
      ((qz - pz) * (rx - px) - (qx - px) * (rz - pz)) + Flt.fin
      ((qx - px) * (ry - py) - (qy - py) * (rx - px)) * Flt.fin
      ((qx - px) * (ry - py) - (qy - py) * (rx - px)))
      = Flt.fin (cross_norm M (Vec3.ofNums px py pz) (Vec3.ofNums qx qy qz)
          (Vec3.ofNums rx ry rz)) := by
    simp only [Flt.fin_mul_fin, Flt.fin_add_fin]
    rw [Flt.sqrt_fin M _ (add_nonneg (add_nonneg (mul_self_nonneg _) (mul_self_nonneg _))
      (mul_self_nonneg _))]
    rfl
  simp only [triangle_quality, Vec3.sub_ofNums, Vec3.norm_ofNums]
  simp only [Vec3.ofNums, Flt.fin_sub_fin, Flt.fin_mul_fin, min_fin_fin] at hden ⊢
  rw [hden]
  simp only [Flt.lt_fin_fin, decide_eq_true_eq, Flt.fin_mul_fin]
  rfl

/-- The squared cross product in terms of the squared side lengths (Lagrange
identity and polarisation). -/
theorem four_cross_sq (P Q R : Vec3 α) :
    4 * cross_sq P Q R
      = 4 * dist_sq P Q * dist_sq P R - (dist_sq P Q + dist_sq P R - dist_sq R Q) ^ 2 := by
  simp only [cross_sq, dist_sq]
  ring

theorem dist_sq_nonneg (P Q : Vec3 α) : 0 ≤ dist_sq P Q :=
  add_nonneg (add_nonneg (mul_self_nonneg _) (mul_self_nonneg _)) (mul_self_nonneg _)

theorem cross_sq_nonneg (P Q R : Vec3 α) : 0 ≤ cross_sq P Q R :=
  add_nonneg (add_nonneg (mul_self_nonneg _) (mul_self_nonneg _)) (mul_self_nonneg _)

theorem cross_sq_of_collinear (P Q R : Vec3 α) (h : collinear P Q R) : cross_sq P Q R = 0 := by
  rcases h with ⟨hx, hy, hz⟩ | ⟨t, hx, hy, hz⟩
  · simp only [cross_sq, hx, hy, hz]
    ring
  · simp only [cross_sq, hx, hy, hz]
    ring

theorem FLT_MIN_pos : (0 : α) < FLT_MIN := by
  unfold FLT_MIN
  positivity

theorem FLT_MAX_large : (16777215 : α) ≤ FLT_MAX := by
  unfold FLT_MAX
  have h : (2 : α) ^ 128 = 2 ^ 104 * 2 ^ 24 := by rw [← pow_add]
  have h1 : (1 : α) ≤ 2 ^ 104 := one_le_pow₀ (by norm_num)
  have h2 : (2 : α) ^ 24 = 16777216 := by norm_num
  rw [h, h2]
  linarith

theorem FLT_MAX_gt_one : (1 : α) < FLT_MAX :=
  lt_of_lt_of_le (by norm_num) FLT_MAX_large

end QualityFacts

section QualityReal

theorem quality_core (x y z H w : ℝ) (hx : 0 ≤ x) (hy : 0 ≤ y) (hz : 0 ≤ z) (hH : 0 ≤ H)
    (hid : 4 * H = 4 * x * y - (x + y - z) ^ 2)
    (hwx : w ≤ x) (hwy : w ≤ y) (hwz : w ≤ z) : 4 * H * w ≤ 3 * x * y * z := by
  have key : ∀ m p q : ℝ, 0 ≤ m → 0 ≤ p → 0 ≤ q →
      0 ≤ m * (m ^ 2 + (m + p) ^ 2 + (m + q) ^ 2 + (m + p) * (m + q) - 2 * m * (m + p)
        - 2 * m * (m + q)) := by
    intro m p q hm hp hq
    apply mul_nonneg hm
    nlinarith [mul_nonneg hm hp, mul_nonneg hm hq, mul_nonneg hp hq, sq_nonneg p, sq_nonneg q]
  have hmin : ∃ m, 0 ≤ m ∧ w ≤ m ∧ 4 * H * m ≤ 3 * x * y * z := by
    rcases le_total x y with hxy | hxy
    · rcases le_total x z with hxz | hxz
      · refine ⟨x, hx, hwx, ?_⟩
        have := key x (y - x) (z - x) hx (by linarith) (by linarith)
        nlinarith [this]
      · refine ⟨z, hz, hwz, ?_⟩
        have := key z (x - z) (y - z) hz (by linarith) (by linarith)
        nlinarith [this]
    · rcases le_total y z with hyz | hyz
      · refine ⟨y, hy, hwy, ?_⟩
        have := key y (x - y) (z - y) hy (by linarith) (by linarith)
        nlinarith [this]
      · refine ⟨z, hz, hwz, ?_⟩
        have := key z (x - z) (y - z) hz (by linarith) (by linarith)
        nlinarith [this]
  obtain ⟨m, hm, hwm, h⟩ := hmin
  have : 4 * H * w ≤ 4 * H * m := mul_le_mul_of_nonneg_left hwm (by linarith)
  linarith

theorem sides_pos (x y z H : ℝ) (hx : 0 ≤ x) (hy : 0 ≤ y) (hz : 0 ≤ z) (hH : 0 < H)
    (hid : 4 * H = 4 * x * y - (x + y - z) ^ 2) : 0 < x ∧ 0 < y ∧ 0 < z := by
  have hxy : 0 < x * y := by nlinarith [sq_nonneg (x + y - z)]
  have hx' : 0 < x := by
    rcases hx.lt_or_eq with h | h
    · exact h
    · rw [← h] at hxy; simp at hxy
  have hy' : 0 < y := by
    rcases hy.lt_or_eq with h | h
    · exact h
    · rw [← h] at hxy; simp at hxy
  refine ⟨hx', hy', ?_⟩
  rcases hz.lt_or_eq with h | h
  · exact h
  · rw [← h] at hid
    nlinarith [sq_nonneg (x - y)]

theorem quality_bound (x y z H F : ℝ) (hx : 0 ≤ x) (hy : 0 ≤ y) (hz : 0 ≤ z)
    (hid : 4 * H = 4 * x * y - (x + y - z) ^ 2) (hD : 0 < Real.sqrt H) (hF : 0 < F) :
    1 / Real.sqrt 3 ≤ Real.sqrt x * Real.sqrt y * Real.sqrt z / (2 * Real.sqrt H)
      / min (Real.sqrt z) (min (Real.sqrt y) (min (Real.sqrt x) F)) := by
  have hH : 0 < H := Real.sqrt_pos.1 hD
  obtain ⟨hx', hy', hz'⟩ := sides_pos x y z H hx hy hz hH hid
  have ha : 0 < Real.sqrt x := Real.sqrt_pos.2 hx'
  have hb : 0 < Real.sqrt y := Real.sqrt_pos.2 hy'
  have hc : 0 < Real.sqrt z := Real.sqrt_pos.2 hz'
  set m := min (Real.sqrt z) (min (Real.sqrt y) (min (Real.sqrt x) F)) with hm
  have hm0 : 0 < m := lt_min hc (lt_min hb (lt_min ha hF))
  have hmc : m ≤ Real.sqrt z := min_le_left _ _
  have hmb : m ≤ Real.sqrt y := (min_le_right _ _).trans (min_le_left _ _)
  have hma : m ≤ Real.sqrt x :=
    (min_le_right _ _).trans ((min_le_right _ _).trans (min_le_left _ _))
  have sx := Real.mul_self_sqrt hx
  have sy := Real.mul_self_sqrt hy
  have sz := Real.mul_self_sqrt hz
  have sH := Real.mul_self_sqrt hH.le
  have s3 := Real.mul_self_sqrt (show (0:ℝ) ≤ 3 by norm_num)
  have h3 : 0 < Real.sqrt 3 := Real.sqrt_pos.2 (by norm_num)
  have hcore := quality_core x y z H (m * m) hx hy hz hH.le hid
    (by nlinarith) (by nlinarith) (by nlinarith)
  have hsq : (2 * Real.sqrt H * m) * (2 * Real.sqrt H * m)
      ≤ (Real.sqrt x * Real.sqrt y * Real.sqrt z * Real.sqrt 3)
        * (Real.sqrt x * Real.sqrt y * Real.sqrt z * Real.sqrt 3) := by
    have e1 : (2 * Real.sqrt H * m) * (2 * Real.sqrt H * m)
        = 4 * (Real.sqrt H * Real.sqrt H) * (m * m) := by ring
    have e2 : (Real.sqrt x * Real.sqrt y * Real.sqrt z * Real.sqrt 3)
        * (Real.sqrt x * Real.sqrt y * Real.sqrt z * Real.sqrt 3)
        = (Real.sqrt 3 * Real.sqrt 3) * (Real.sqrt x * Real.sqrt x) * (Real.sqrt y * Real.sqrt y)
          * (Real.sqrt z * Real.sqrt z) := by ring
    rw [e1, e2, sx, sy, sz, sH, s3]
    linarith
  have hle : 2 * Real.sqrt H * m ≤ Real.sqrt x * Real.sqrt y * Real.sqrt z * Real.sqrt 3 :=
    le_of_not_lt (fun hlt => by
      have hpos : 0 ≤ Real.sqrt x * Real.sqrt y * Real.sqrt z * Real.sqrt 3 := by positivity
      nlinarith [mul_lt_mul'' hlt hlt hpos hpos])
  rw [div_div, div_le_div_iff₀ h3 (by positivity)]
  linarith

theorem sqrt_three_quarters (s : ℝ) :
    Real.sqrt (3 * s ^ 4 / 4) = Real.sqrt 3 * s ^ 2 / 2 := by
  rw [Real.sqrt_eq_iff_mul_self_eq (by positivity) (by positivity)]
  have := Real.mul_self_sqrt (show (0:ℝ) ≤ 3 by norm_num)
  nlinarith [this]

theorem FLT_MIN_le_one : (FLT_MIN : ℝ) ≤ 1 := by
  unfold FLT_MIN
  rw [div_le_one (by positivity)]
  exact one_le_pow₀ (by norm_num)

/-- The quality of an equilateral triangle of side `s` that passes the guard
`denom < FLT_MIN`: `1 / sqrt 3`. -/
theorem equilateral_quality (P Q R : Vec3 ℝ)
    (hP : P.isFinite = true) (hQ : Q.isFinite = true) (hR : R.isFinite = true)
    (hD : FLT_MIN ≤ cross_norm realMath P Q R) (s : ℝ) (hs : 0 < s) (hsF : s ≤ FLT_MAX)
    (h1 : dist_sq P Q = s ^ 2) (h2 : dist_sq P R = s ^ 2) (h3 : dist_sq R Q = s ^ 2) :
    (triangle_quality realMath P Q R).tshape = Flt.fin (1 / Real.sqrt 3) := by
  have hH : cross_sq P Q R = 3 * s ^ 4 / 4 := by
    have := four_cross_sq P Q R
    rw [h1, h2, h3] at this
    linarith
  have hcn : cross_norm realMath P Q R = Real.sqrt 3 * s ^ 2 / 2 := by
    show Real.sqrt (cross_sq P Q R) = _
    rw [hH, sqrt_three_quarters]
  have hside : ∀ A B : Vec3 ℝ, dist_sq A B = s ^ 2 → side_length realMath A B = s := by
    intro A B h
    show Real.sqrt (dist_sq A B) = s
    rw [h, Real.sqrt_sq hs.le]
  have h3pos : 0 < Real.sqrt 3 := Real.sqrt_pos.2 (by norm_num)
  rw [triangle_quality_finite realMath P Q R hP hQ hR, if_neg (not_lt.2 hD)]
  simp only [hside _ _ h1, hside _ _ h2, hside _ _ h3, hcn, min_eq_left hsF, min_self]
  rw [Flt.fin_div_fin _ _ (by positivity), Flt.fin_div_fin _ _ hs.ne']
  congr 1
  field_simp
  ring

/-- The quality of a triangle that passes the guard `denom < FLT_MIN` is a
number, at least `1 / sqrt 3`. -/
theorem quality_ge_equilateral (P Q R : Vec3 ℝ)
    (hP : P.isFinite = true) (hQ : Q.isFinite = true) (hR : R.isFinite = true)
    (hD : FLT_MIN ≤ cross_norm realMath P Q R) :
    ∃ q : ℝ, (triangle_quality realMath P Q R).tshape = Flt.fin q ∧ 1 / Real.sqrt 3 ≤ q := by
  have hDpos : 0 < Real.sqrt (cross_sq P Q R) := lt_of_lt_of_le FLT_MIN_pos hD
  have hF : (0 : ℝ) < FLT_MAX := lt_trans one_pos FLT_MAX_gt_one
  have hb := quality_bound (dist_sq P Q) (dist_sq P R) (dist_sq R Q) (cross_sq P Q R) FLT_MAX
    (dist_sq_nonneg _ _) (dist_sq_nonneg _ _) (dist_sq_nonneg _ _) (four_cross_sq P Q R) hDpos hF
  obtain ⟨hx, hy, hz⟩ := sides_pos _ _ _ _ (dist_sq_nonneg P Q) (dist_sq_nonneg P R)
    (dist_sq_nonneg R Q) (Real.sqrt_pos.1 hDpos) (four_cross_sq P Q R)
  have hm : 0 < min (side_length realMath R Q)
      (min (side_length realMath P R) (min (side_length realMath P Q) FLT_MAX)) :=
    lt_min (Real.sqrt_pos.2 hz) (lt_min (Real.sqrt_pos.2 hy) (lt_min (Real.sqrt_pos.2 hx) hF))
  refine ⟨_, ?_, hb⟩
  rw [triangle_quality_finite realMath P Q R hP hQ hR, if_neg (not_lt.2 hD)]
  have h2D : 2 * cross_norm realMath P Q R ≠ 0 := by
    have : 0 < cross_norm realMath P Q R := hDpos
    positivity
  rw [Flt.fin_div_fin _ _ h2D, Flt.fin_div_fin _ _ hm.ne']
  rfl

theorem corner_triangle_finite (t : ℝ) (u : Nat) :
    ((corner_triangle t).point u).isFinite = true :=
  triangle_mesh_finite (Vec3.ofNums t 0 0) (Vec3.ofNums 0 t 0) (Vec3.ofNums 0 0 t) rfl rfl rfl u

theorem flat_triangle_finite (u : Nat) : ((flat_triangle : Mesh ℝ).point u).isFinite = true :=
  triangle_mesh_finite (Vec3.ofNums 0 0 0) (Vec3.ofNums 1 0 0) (Vec3.ofNums 2 0 0) rfl rfl rfl u

theorem corner_triangle_cross_sq (t : ℝ) :
    cross_sq (Vec3.ofNums t 0 0) (Vec3.ofNums 0 t 0) (Vec3.ofNums 0 0 t) = 3 * t ^ 4 := by
  simp only [cross_sq, Vec3.ofNums, Flt.toNum]
  ring

theorem corner_triangle_dist_sq (t : ℝ) :
    dist_sq (Vec3.ofNums t 0 0) (Vec3.ofNums 0 t 0) = 2 * t ^ 2 ∧
    dist_sq (Vec3.ofNums t 0 0) (Vec3.ofNums 0 0 t) = 2 * t ^ 2 ∧
    dist_sq (Vec3.ofNums 0 0 t) (Vec3.ofNums 0 t 0) = 2 * t ^ 2 := by
  simp only [dist_sq, Vec3.ofNums, Flt.toNum]
  refine ⟨?_, ?_, ?_⟩ <;> ring

/-- The equilateral triangle of side `sqrt 2` passes the guard and gets the
quality `1 / sqrt 3`. -/
theorem unit_corner_quality :
    FLT_MIN ≤ cross_norm realMath (Vec3.ofNums (1 : ℝ) 0 0) (Vec3.ofNums 0 1 0) (Vec3.ofNums 0 0 1) ∧
    (triangle_quality realMath (Vec3.ofNums (1 : ℝ) 0 0) (Vec3.ofNums 0 1 0)
      (Vec3.ofNums 0 0 1)).tshape = Flt.fin (1 / Real.sqrt 3) := by
  have hD : FLT_MIN ≤ cross_norm realMath (Vec3.ofNums (1 : ℝ) 0 0) (Vec3.ofNums 0 1 0)
      (Vec3.ofNums 0 0 1) := by
    show FLT_MIN ≤ Real.sqrt (cross_sq _ _ _)
    rw [corner_triangle_cross_sq 1]
    have h1 : (1 : ℝ) ≤ Real.sqrt (3 * 1 ^ 4) := by
      rw [Real.le_sqrt (by norm_num) (by norm_num)]
      norm_num
    exact le_trans FLT_MIN_le_one h1
  have h2 : Real.sqrt 2 ^ 2 = 2 * (1 : ℝ) ^ 2 := by
    rw [Real.sq_sqrt (by norm_num)]
    norm_num
  have hs : Real.sqrt 2 ≤ FLT_MAX := by
    have : Real.sqrt 2 ≤ 2 := by
      rw [Real.sqrt_le_left (by norm_num)]
      norm_num
    exact le_trans this (le_trans (by norm_num) FLT_MAX_large)
  obtain ⟨d1, d2, d3⟩ := corner_triangle_dist_sq 1
  exact ⟨hD, equilateral_quality _ _ _ rfl rfl rfl hD (Real.sqrt 2)
    (Real.sqrt_pos.2 (by norm_num)) hs (by rw [d1, h2]) (by rw [d2, h2]) (by rw [d3, h2])⟩

end QualityReal

/-! ## The upper bound of the edge weights -/

theorem clamp_99 {α : Type} [LinearOrderedField α] (x : Flt α) :
    ∃ c : α, Flt.min (Flt.fin (16609444 / 16777216)) (Flt.max (Flt.fin (-(16609444 / 16777216))) x) = Flt.fin c ∧
      -(16609444 / 16777216) ≤ c ∧ c ≤ 16609444 / 16777216 := by
  have h0 : (-(16609444 / 16777216) : α) ≤ 16609444 / 16777216 := by norm_num
  cases x with
  | nan => exact ⟨-(16609444 / 16777216), by simp [Flt.max, Flt.min, Flt.lt], le_rfl, h0⟩
  | ninf => exact ⟨-(16609444 / 16777216), by simp [Flt.max, Flt.min, Flt.lt], le_rfl, h0⟩
  | pinf => exact ⟨16609444 / 16777216, by simp [Flt.max, Flt.min, Flt.lt], h0, le_rfl⟩
  | fin x =>
    by_cases h1 : -(16609444 / 16777216) < x
    · by_cases h2 : x < 16609444 / 16777216
      · exact ⟨x, by simp [Flt.max, Flt.min, Flt.lt, h1, h2], h1.le, h2.le⟩
      · exact ⟨16609444 / 16777216, by simp [Flt.max, Flt.min, Flt.lt, h1, h2], h0, le_rfl⟩
    · exact ⟨-(16609444 / 16777216), by simp [Flt.max, Flt.min, Flt.lt, h1], le_rfl, h0⟩

theorem cot_bound_pos : 0 < cot_bound realMath :=
  div_pos (by norm_num) (Real.sqrt_pos.2 (by norm_num))

theorem cot_real (c : ℝ) (h1 : -(16609444 / 16777216) ≤ c) (h2 : c ≤ 16609444 / 16777216) :
    ∃ t : ℝ, Flt.fin 1 / Flt.tan realMath (Flt.acos realMath (Flt.fin c)) = Flt.fin t ∧
      |t| ≤ cot_bound realMath := by
  have hc1 : -1 ≤ c := by linarith
  have hc2 : c ≤ 1 := by linarith
  rw [acos_fin realMath c hc1 hc2]
  show ∃ t : ℝ, Flt.fin 1 / (if Real.cos (Real.arccos c) = 0 then Flt.pinf
    else Flt.fin (Real.tan (Real.arccos c))) = Flt.fin t ∧ |t| ≤ cot_bound realMath
  rw [Real.cos_arccos hc1 hc2]
  by_cases h0 : c = 0
  · rw [if_pos h0]
    exact ⟨0, rfl, by rw [abs_zero]; exact cot_bound_pos.le⟩
  · rw [if_neg h0, Real.tan_arccos]
    have habs : |c| ≤ 16609444 / 16777216 := abs_le.2 ⟨h1, h2⟩
    have hsq : c ^ 2 ≤ (16609444 / 16777216) ^ 2 := by
      rw [← sq_abs c]
      exact pow_le_pow_left₀ (abs_nonneg c) habs 2
    have hs0 : 0 < Real.sqrt (1 - (16609444 / 16777216) ^ 2) := Real.sqrt_pos.2 (by norm_num)
    have hs1 : Real.sqrt (1 - (16609444 / 16777216) ^ 2) ≤ Real.sqrt (1 - c ^ 2) :=
      Real.sqrt_le_sqrt (by linarith)
    have hs : 0 < Real.sqrt (1 - c ^ 2) := lt_of_lt_of_le hs0 hs1
    have hne : Real.sqrt (1 - c ^ 2) / c ≠ 0 := div_ne_zero hs.ne' h0
    refine ⟨1 / (Real.sqrt (1 - c ^ 2) / c), Flt.fin_div_fin _ _ hne, ?_⟩
    rw [one_div_div, abs_div, abs_of_pos hs]
    exact div_le_div₀ (by norm_num) habs hs0 hs1

/-- Every cotangent term of `calc_weights` is a number of absolute value at
most `0.99 / sqrt(1 - 0.99^2)`, whatever the three points are. -/
theorem cot_term_real (p0 p1 p2 : Vec3 ℝ) :
    ∃ t : ℝ, cot_term realMath p0 p1 p2 = Flt.fin t ∧ |t| ≤ cot_bound realMath := by
  obtain ⟨c, hc, h1, h2⟩ := clamp_99 (Vec3.dot (Vec3.normalize realMath (Vec3.sub p0 p2))
    (Vec3.normalize realMath (Vec3.sub p1 p2)))
  obtain ⟨t, ht, hb⟩ := cot_real c h1 h2
  exact ⟨t, by simp only [cot_term, hc, ht], hb⟩

theorem edge_weight_real (m : Mesh ℝ) (e : Nat) :
    ∃ w : ℝ, edge_weight realMath m e = Flt.fin w ∧ 0 ≤ w ∧ w ≤ 2 * cot_bound realMath := by
  obtain ⟨t1, ht1, hb1⟩ := cot_term_real (m.point (m.edge e).v0) (m.point (m.edge e).v1)
    (m.point (m.edge e).o0)
  obtain ⟨t2, ht2, hb2⟩ := cot_term_real (m.point (m.edge e).v0) (m.point (m.edge e).v1)
    (m.point (m.edge e).o1)
  have hsum : edge_weight realMath m e = Flt.max (Flt.fin 0) (Flt.fin (t1 + t2)) := by
    simp only [edge_weight, ht1, ht2, Flt.fin_add_fin, zero_add]
  have hb : t1 + t2 ≤ 2 * cot_bound realMath := by
    have := (abs_le.1 hb1).2
    have := (abs_le.1 hb2).2
    linarith
  by_cases hpos : 0 < t1 + t2
  · refine ⟨t1 + t2, ?_, hpos.le, hb⟩
    rw [hsum]
    simp [Flt.max, Flt.lt, hpos]
  · refine ⟨0, ?_, le_rfl, by linarith [cot_bound_pos]⟩
    rw [hsum]
    simp [Flt.max, Flt.lt, hpos]

theorem cot_bound_lt : cot_bound realMath < 702 / 100 := by
  have h0 : (0 : ℝ) < 1 - (16609444 / 16777216) ^ 2 := by norm_num
  have hs : 0 < Real.sqrt (1 - (16609444 / 16777216) ^ 2) := Real.sqrt_pos.2 h0
  show (16609444 / 16777216 : ℝ) / Real.sqrt (1 - (16609444 / 16777216) ^ 2) < 702 / 100
  rw [div_lt_iff₀ hs]
  have h1 : (16609444 / 16777216 : ℝ) / (702 / 100)
      < Real.sqrt (1 - (16609444 / 16777216) ^ 2) := by
    apply Real.lt_sqrt_of_sq_lt
    norm_num
  have := (div_lt_iff₀ (by norm_num : (0 : ℝ) < 702 / 100)).1 h1
  linarith

theorem cot_bound_gt :
    (99 / 100 : ℝ) / Real.sqrt (1 - (99 / 100) ^ 2) < cot_bound realMath := by
  have h0 : (0 : ℝ) < 1 - (16609444 / 16777216) ^ 2 := by norm_num
  have hs : 0 < Real.sqrt (1 - (16609444 / 16777216) ^ 2) := Real.sqrt_pos.2 h0
  have hs' : 0 < Real.sqrt (1 - (99 / 100 : ℝ) ^ 2) := Real.sqrt_pos.2 (by norm_num)
  show (99 / 100 : ℝ) / Real.sqrt (1 - (99 / 100) ^ 2)
    < (16609444 / 16777216 : ℝ) / Real.sqrt (1 - (16609444 / 16777216) ^ 2)
  have hle : Real.sqrt (1 - (16609444 / 16777216) ^ 2) ≤ Real.sqrt (1 - (99 / 100 : ℝ) ^ 2) :=
    Real.sqrt_le_sqrt (by norm_num)
  calc (99 / 100 : ℝ) / Real.sqrt (1 - (99 / 100) ^ 2)
      ≤ (99 / 100 : ℝ) / Real.sqrt (1 - (16609444 / 16777216) ^ 2) :=
        div_le_div_of_nonneg_left (by norm_num) hs hle
    _ < (16609444 / 16777216 : ℝ) / Real.sqrt (1 - (16609444 / 16777216) ^ 2) :=
        div_lt_div_of_pos_right (by norm_num) hs

/-- The cotangent term of an edge of the collinear triangle: both unit
vectors are `(-1, 0, 0)`, the cosine `1` is clamped to `0.99f`. -/
theorem cot_term_flat :
    cot_term realMath (Vec3.ofNums 1 0 0) (Vec3.ofNums 0 0 0) (Vec3.ofNums 2 0 0)
      = Flt.fin (cot_bound realMath) := by
  have h1 : Real.sqrt ((1 - 2) * (1 - 2) + (0 - 0) * (0 - 0) + (0 - 0) * (0 - 0)) = 1 := by
    norm_num
  have h2 : Real.sqrt ((0 - 2) * (0 - 2) + (0 - 0) * (0 - 0) + (0 - 0) * (0 - 0)) = 2 := by
    rw [show ((0 : ℝ) - 2) * (0 - 2) + (0 - 0) * (0 - 0) + (0 - 0) * (0 - 0) = 2 ^ 2 by norm_num]
    exact Real.sqrt_sq (by norm_num)
  have hd : Vec3.dot (Vec3.normalize realMath (Vec3.sub (Vec3.ofNums (1 : ℝ) 0 0)
        (Vec3.ofNums 2 0 0)))
      (Vec3.normalize realMath (Vec3.sub (Vec3.ofNums (0 : ℝ) 0 0) (Vec3.ofNums 2 0 0)))
      = Flt.fin 1 := by
    simp only [Vec3.normalize, Vec3.sub_ofNums, Vec3.norm_ofNums]
    show Vec3.dot (Vec3.sdiv _ (Flt.fin (Real.sqrt _))) (Vec3.sdiv _ (Flt.fin (Real.sqrt _))) = _
    rw [h1, h2, Vec3.sdiv_ofNums _ _ _ _ one_ne_zero, Vec3.sdiv_ofNums _ _ _ _ two_ne_zero,
      Vec3.dot_ofNums]
    norm_num
  have hclamp : Flt.min (Flt.fin (16609444 / 16777216 : ℝ))
      (Flt.max (Flt.fin (-(16609444 / 16777216))) (Flt.fin 1))
      = Flt.fin (16609444 / 16777216) := by
    have ha : (-(16609444 / 16777216) : ℝ) < 1 := by norm_num
    have hb : ¬ ((1 : ℝ) < 16609444 / 16777216) := by norm_num
    simp [Flt.max, Flt.min, Flt.lt, ha, hb]
  have hc0 : (16609444 / 16777216 : ℝ) ≠ 0 := by norm_num
  have hs : 0 < Real.sqrt (1 - (16609444 / 16777216 : ℝ) ^ 2) := Real.sqrt_pos.2 (by norm_num)
  simp only [cot_term, hd, hclamp]
  rw [acos_fin realMath _ (by norm_num) (by norm_num)]
  show Flt.fin 1 / (if Real.cos (Real.arccos (16609444 / 16777216)) = 0 then Flt.pinf
    else Flt.fin (Real.tan (Real.arccos (16609444 / 16777216)))) = _
  rw [Real.cos_arccos (by norm_num) (by norm_num), if_neg hc0, Real.tan_arccos,
    Flt.fin_div_fin _ _ (div_ne_zero hs.ne' hc0), one_div_div]
  rfl

/-! ## The convolution rounds -/

section DetectFacts

variable {α : Type} [LinearOrderedField α]

theorem conv_vertex_frame (M : MathFns α) (st : Viewer α) (v : Nat) :
    (conv_vertex M st v).mesh = st.mesh ∧ (conv_vertex M st v).veavg_ = st.veavg_ ∧
    (conv_vertex M st v).vcurvature_ = st.vcurvature_ := by
  unfold conv_vertex
  split <;> exact ⟨rfl, rfl, rfl⟩

theorem conv_prefix_frame (M : MathFns α) (s : Viewer α) (l : List Nat) :
    (l.foldl (conv_vertex M) s).mesh = s.mesh ∧ (l.foldl (conv_vertex M) s).veavg_ = s.veavg_ ∧
    (l.foldl (conv_vertex M) s).vcurvature_ = s.vcurvature_ :=
  ⟨foldl_frame (fun st : Viewer α => st.mesh) _ (fun st v => (conv_vertex_frame M st v).1) l s,
   foldl_frame (fun st : Viewer α => st.veavg_) _ (fun st v => (conv_vertex_frame M st v).2.1) l s,
   foldl_frame (fun st : Viewer α => st.vcurvature_) _
     (fun st v => (conv_vertex_frame M st v).2.2) l s⟩

theorem conv_vertex_f (M : MathFns α) (st : Viewer α) (v w : Nat) :
    (conv_vertex M st v).vmeshdog_f_ w
      = if w = v ∧ Flt.isnan (st.vcurvature_ v) = false then
          conv_value M st.mesh st.veavg_ st.vmeshdog_f_ v
        else st.vmeshdog_f_ w := by
  unfold conv_vertex
  by_cases h : Flt.isnan (st.vcurvature_ v) = false
  · by_cases hw : w = v
    · subst hw; simp [h]
    · simp [h, hw]
  · simp [h]

theorem conv_vertex_dog (M : MathFns α) (st : Viewer α) (v w : Nat) :
    (conv_vertex M st v).vmeshdog_dog_ w
      = if w = v ∧ Flt.isnan (st.vcurvature_ v) = false then
          conv_value M st.mesh st.veavg_ st.vmeshdog_f_ v - st.vmeshdog_f_ v
        else st.vmeshdog_dog_ w := by
  unfold conv_vertex
  by_cases h : Flt.isnan (st.vcurvature_ v) = false
  · by_cases hw : w = v
    · subst hw; simp [h]
    · simp [h, hw]
  · simp [h]

/-- A vertex the loop does not visit keeps its response and its DoG delta. -/
theorem conv_prefix_untouched (M : MathFns α) (l : List Nat) (s : Viewer α) (w : Nat)
    (hw : w ∉ l) :
    (l.foldl (conv_vertex M) s).vmeshdog_f_ w = s.vmeshdog_f_ w ∧
    (l.foldl (conv_vertex M) s).vmeshdog_dog_ w = s.vmeshdog_dog_ w := by
  induction l generalizing s with
  | nil => exact ⟨rfl, rfl⟩
  | cons a l ih =>
    have hwa : w ≠ a := fun h => hw (h ▸ List.mem_cons_self _ _)
    have hwl : w ∉ l := fun h => hw (List.mem_cons_of_mem _ h)
    rw [List.foldl_cons, (ih (conv_vertex M s a) hwl).1, (ih (conv_vertex M s a) hwl).2,
      conv_vertex_f, conv_vertex_dog]
    simp [hwa]

theorem conv_prefix_succ (M : MathFns α) (s : Viewer α) (k : Nat) :
    (List.range (k + 1)).foldl (conv_vertex M) s
      = conv_vertex M ((List.range k).foldl (conv_vertex M) s) k := by
  rw [List.range_succ, List.foldl_append]
  rfl

/-- Once the loop has passed vertex `w`, its response and DoG delta are final. -/
theorem conv_prefix_final (M : MathFns α) (s : Viewer α) (n w : Nat) (hw : w < n) :
    ((List.range n).foldl (conv_vertex M) s).vmeshdog_f_ w
      = ((List.range (w + 1)).foldl (conv_vertex M) s).vmeshdog_f_ w ∧
    ((List.range n).foldl (conv_vertex M) s).vmeshdog_dog_ w
      = ((List.range (w + 1)).foldl (conv_vertex M) s).vmeshdog_dog_ w := by
  obtain ⟨d, rfl⟩ : ∃ d, n = (w + 1) + d := ⟨n - (w + 1), by omega⟩
  rw [List.range_add, List.foldl_append]
  apply conv_prefix_untouched
  simp only [List.mem_map, List.mem_range, not_exists, not_and]
  intro x _ hx
  omega

/-- The values a convolution round leaves: vertex `v` is computed from the new
responses of the vertices before it and the old responses of the others. -/
theorem conv_round_gauss_seidel (M : MathFns α) (s : Viewer α) (v : Nat) :
    (conv_round M s).vmeshdog_f_ v
      = (if v < s.mesh.n_vertices ∧ Flt.isnan (s.vcurvature_ v) = false then
          conv_value M s.mesh s.veavg_
            (fun u => if u < v then (conv_round M s).vmeshdog_f_ u else s.vmeshdog_f_ u) v
        else s.vmeshdog_f_ v) ∧
    (conv_round M s).vmeshdog_dog_ v
      = (if v < s.mesh.n_vertices ∧ Flt.isnan (s.vcurvature_ v) = false then
          (conv_round M s).vmeshdog_f_ v - s.vmeshdog_f_ v
        else s.vmeshdog_dog_ v) := by
  unfold conv_round
  by_cases hv : v < s.mesh.n_vertices
  · have hpre : ((List.range v).foldl (conv_vertex M) s).vmeshdog_f_
        = fun u => if u < v then
            ((List.range s.mesh.n_vertices).foldl (conv_vertex M) s).vmeshdog_f_ u
          else s.vmeshdog_f_ u := by
      funext u
      by_cases hu : u < v
      · rw [if_pos hu, (conv_prefix_final M s v u hu).1,
          (conv_prefix_final M s s.mesh.n_vertices u (by omega)).1]
      · rw [if_neg hu]
        exact (conv_prefix_untouched M _ s u (by simpa using hu)).1
    have hself : ((List.range v).foldl (conv_vertex M) s).vmeshdog_f_ v = s.vmeshdog_f_ v :=
      (conv_prefix_untouched M _ s v (by simp)).1
    have hselfd : ((List.range v).foldl (conv_vertex M) s).vmeshdog_dog_ v = s.vmeshdog_dog_ v :=
      (conv_prefix_untouched M _ s v (by simp)).2
    obtain ⟨hm, he, hc⟩ := conv_prefix_frame M s (List.range v)
    have hf := (conv_prefix_final M s s.mesh.n_vertices v hv).1
    have hd := (conv_prefix_final M s s.mesh.n_vertices v hv).2
    rw [conv_prefix_succ, conv_vertex_f, hm, he, hc, hself] at hf
    rw [conv_prefix_succ, conv_vertex_dog, hm, he, hc, hself, hselfd] at hd
    by_cases hnan : Flt.isnan (s.vcurvature_ v) = false
    · rw [if_pos ⟨rfl, hnan⟩, hpre] at hf hd
      rw [if_pos ⟨hv, hnan⟩, if_pos ⟨hv, hnan⟩]
      exact ⟨hf, by rw [hd, hf]⟩
    · rw [if_neg (fun h => hnan h.2)] at hf hd
      rw [if_neg (fun h => hnan h.2), if_neg (fun h => hnan h.2)]
      exact ⟨hf, hd⟩
  · simp only [hv, false_and, if_false]
    exact conv_prefix_untouched M _ s v (by simpa using hv)

theorem conv_round_sync_f (M : MathFns α) (s : Viewer α) (v : Nat) :
    (conv_round_sync M s).vmeshdog_f_ v
      = if v < s.mesh.n_vertices ∧ Flt.isnan (s.vcurvature_ v) = false then
          conv_value M s.mesh s.veavg_ s.vmeshdog_f_ v
        else s.vmeshdog_f_ v := rfl

/-! ### Kernel weights on finite data -/

theorem kernel_finite (M : MathFns α) (m : Mesh α) (veavg : Nat → Flt α) (v u : Nat) (e : α)
    (hfin : ∀ w, (m.point w).isFinite = true) (he : veavg v = Flt.fin e)
    (hth : M.cbrt2 * e ≠ 0) (hpi : 0 ≤ 2 * M.pi) (hs : M.sqrt (2 * M.pi) ≠ 0) :
    kernel M m veavg v u = Flt.fin (kernel_num M m e v u) := by
  obtain ⟨vx, vy, vz, hv⟩ := (Vec3.isFinite_iff _).1 (hfin v)
  obtain ⟨ux, uy, uz, hu⟩ := (Vec3.isFinite_iff _).1 (hfin u)
  have h2 : 2 * (M.cbrt2 * e * (M.cbrt2 * e)) ≠ 0 :=
    mul_ne_zero two_ne_zero (mul_ne_zero hth hth)
  simp only [kernel, kernel_num, gauss_kernel, side_length, gaussian_conv, he, hv, hu,
    Vec3.sub_ofNums, Vec3.norm_ofNums, Flt.fin_mul_fin, Flt.neg_fin]
  rw [Flt.fin_div_fin _ _ h2, Flt.sqrt_fin M _ hpi, Flt.fin_mul_fin]
  show Flt.fin _ / Flt.fin _ = _
  rw [Flt.fin_div_fin _ _ (mul_ne_zero hth hs)]
  rfl

theorem conv_sums_loop (M : MathFns α) (m : Mesh α) (veavg f : Nat → Flt α) (v : Nat)
    (κ g : Nat → α) (l : List Nat)
    (hk : ∀ u ∈ l, kernel M m veavg v u = Flt.fin (κ u)) (hf : ∀ u ∈ l, f u = Flt.fin (g u))
    (a0 b0 : α) :
    l.foldl
        (fun acc u => (acc.1 + f u * kernel M m veavg v u, acc.2 + kernel M m veavg v u))
        (Flt.fin a0, Flt.fin b0)
      = (Flt.fin (a0 + (l.map (fun u => g u * κ u)).sum), Flt.fin (b0 + (l.map κ).sum)) := by
  induction l generalizing a0 b0 with
  | nil => simp
  | cons u l ih =>
    rw [List.foldl_cons]
    simp only [hk u (List.mem_cons_self _ _), hf u (List.mem_cons_self _ _), Flt.fin_mul_fin,
      Flt.fin_add_fin]
    rw [ih (fun w hw => hk w (List.mem_cons_of_mem _ hw))
      (fun w hw => hf w (List.mem_cons_of_mem _ hw))]
    simp only [List.map_cons, List.sum_cons, add_assoc]

/-- The new response of a vertex whose neighbours carry finite responses `g`
and finite kernel weights `κ` with a non-zero sum: the weighted mean. -/
theorem conv_value_finite (M : MathFns α) (m : Mesh α) (veavg f : Nat → Flt α) (v : Nat)
    (κ g : Nat → α)
    (hk : ∀ u ∈ m.vv v, kernel M m veavg v u = Flt.fin (κ u))
    (hf : ∀ u ∈ m.vv v, f u = Flt.fin (g u)) (hK : ((m.vv v).map κ).sum ≠ 0) :
    conv_value M m veavg f v
      = Flt.fin (((m.vv v).map (fun u => g u * κ u)).sum / ((m.vv v).map κ).sum) := by
  simp only [conv_value, conv_sums, conv_sums_loop M m veavg f v κ g _ hk hf, zero_add]
  exact Flt.fin_div_fin _ _ hK

theorem weighted_sum_bounds (g κ : Nat → α) (l : List Nat) (hκ : ∀ u ∈ l, 0 < κ u) (lo hi : α)
    (h : ∀ u ∈ l, lo ≤ g u ∧ g u ≤ hi) :
    lo * (l.map κ).sum ≤ (l.map (fun u => g u * κ u)).sum ∧
    (l.map (fun u => g u * κ u)).sum ≤ hi * (l.map κ).sum := by
  induction l with
  | nil => simp
  | cons a l ih =>
    obtain ⟨h1, h2⟩ := ih (fun u hu => hκ u (List.mem_cons_of_mem _ hu))
      (fun u hu => h u (List.mem_cons_of_mem _ hu))
    obtain ⟨ha1, ha2⟩ := h a (List.mem_cons_self _ _)
    have hk := hκ a (List.mem_cons_self _ _)
    simp only [List.map_cons, List.sum_cons]
    constructor
    · nlinarith [mul_le_mul_of_nonneg_right ha1 hk.le]
    · nlinarith [mul_le_mul_of_nonneg_right ha2 hk.le]

theorem weighted_mean_bounds (g κ : Nat → α) (l : List Nat) (hκ : ∀ u ∈ l, 0 < κ u)
    (hK : 0 < (l.map κ).sum) (lo hi : α) (h : ∀ u ∈ l, lo ≤ g u ∧ g u ≤ hi) :
    lo ≤ (l.map (fun u => g u * κ u)).sum / (l.map κ).sum ∧
    (l.map (fun u => g u * κ u)).sum / (l.map κ).sum ≤ hi := by
  obtain ⟨h1, h2⟩ := weighted_sum_bounds g κ l hκ lo hi h
  exact ⟨(le_div_iff₀ hK).2 h1, (div_le_iff₀ hK).2 h2⟩

theorem weighted_mean_scale (g κ : Nat → α) (l : List Nat) (c : α) (hc : c ≠ 0) :
    (l.map (fun u => g u * (c * κ u))).sum / (l.map (fun u => c * κ u)).sum
      = (l.map (fun u => g u * κ u)).sum / (l.map κ).sum := by
  have h1 : (l.map (fun u => g u * (c * κ u))).sum = c * (l.map (fun u => g u * κ u)).sum := by
    rw [← List.sum_map_mul_left]
    congr 1
    apply List.map_congr_left
    intro u _
    ring
  have h2 : (l.map (fun u => c * κ u)).sum = c * (l.map κ).sum := by
    rw [← List.sum_map_mul_left]
  rw [h1, h2, mul_div_mul_left _ _ hc]

theorem exists_min_max (g : Nat → α) (l : List Nat) (hne : l ≠ []) :
    ∃ u1 ∈ l, ∃ u2 ∈ l, ∀ u ∈ l, g u1 ≤ g u ∧ g u ≤ g u2 := by
  induction l with
  | nil => exact absurd rfl hne
  | cons a l ih =>
    by_cases hl : l = []
    · subst hl
      refine ⟨a, List.mem_cons_self _ _, a, List.mem_cons_self _ _, fun u hu => ?_⟩
      rw [List.mem_singleton.1 hu]
      exact ⟨le_rfl, le_rfl⟩
    · obtain ⟨u1, h1, u2, h2, hb⟩ := ih hl
      have hmin : ∃ w ∈ a :: l, ∀ u ∈ a :: l, g w ≤ g u := by
        by_cases hc : g a ≤ g u1
        · refine ⟨a, List.mem_cons_self _ _, fun u hu => ?_⟩
          rcases List.mem_cons.1 hu with rfl | hu
          · exact le_rfl
          · exact hc.trans (hb u hu).1
        · refine ⟨u1, List.mem_cons_of_mem _ h1, fun u hu => ?_⟩
          rcases List.mem_cons.1 hu with rfl | hu
          · exact (not_le.1 hc).le
          · exact (hb u hu).1
      have hmax : ∃ w ∈ a :: l, ∀ u ∈ a :: l, g u ≤ g w := by
        by_cases hc : g u2 ≤ g a
        · refine ⟨a, List.mem_cons_self _ _, fun u hu => ?_⟩
          rcases List.mem_cons.1 hu with rfl | hu
          · exact le_rfl
          · exact (hb u hu).2.trans hc
        · refine ⟨u2, List.mem_cons_of_mem _ h2, fun u hu => ?_⟩
          rcases List.mem_cons.1 hu with rfl | hu
          · exact (not_le.1 hc).le
          · exact (hb u hu).2
      obtain ⟨w1, hw1, hm1⟩ := hmin
      obtain ⟨w2, hw2, hm2⟩ := hmax
      exact ⟨w1, hw1, w2, hw2, fun u hu => ⟨hm1 u hu, hm2 u hu⟩⟩

theorem list_sum_nonpos (l : List α) (h : ∀ x ∈ l, x ≤ 0) : l.sum ≤ 0 := by
  induction l with
  | nil => simp
  | cons a l ih =>
    rw [List.sum_cons]
    have h1 := h a (List.mem_cons_self _ _)
    have h2 := ih (fun x hx => h x (List.mem_cons_of_mem _ hx))
    linarith

theorem kernel_num_nonneg (M : MathFns α) (m : Mesh α) (e : α) (v u : Nat)
    (hexp : ∀ x, 0 ≤ M.exp x) (hs : 0 < M.sqrt (2 * M.pi)) (hth : 0 < M.cbrt2 * e) :
    0 ≤ kernel_num M m e v u :=
  div_nonneg (hexp _) (mul_pos hth hs).le

/-- The quotient `f1 / K` of a sum with non-negative weights: not negative
when the summands `g` are not negative, not positive when they are not
positive. -/
theorem conv_value_sign (M : MathFns α) (m : Mesh α) (veavg f : Nat → Flt α) (v : Nat)
    (κ g : Nat → α)
    (hk : ∀ u ∈ m.vv v, kernel M m veavg v u = Flt.fin (κ u)) (hκ : ∀ u ∈ m.vv v, 0 ≤ κ u)
    (hf : ∀ u ∈ m.vv v, f u = Flt.fin (g u)) :
    ((∀ u ∈ m.vv v, 0 ≤ g u) →
      Flt.isnan (conv_value M m veavg f v) = true
        ∨ Flt.le (Flt.fin 0) (conv_value M m veavg f v) = true) ∧
    ((∀ u ∈ m.vv v, g u ≤ 0) →
      Flt.isnan (conv_value M m veavg f v) = true
        ∨ Flt.le (conv_value M m veavg f v) (Flt.fin 0) = true) := by
  have hval : conv_value M m veavg f v
      = Flt.fin (((m.vv v).map (fun u => g u * κ u)).sum) / Flt.fin (((m.vv v).map κ).sum) := by
    simp only [conv_value, conv_sums, conv_sums_loop M m veavg f v κ g _ hk hf, zero_add]
  have hK : 0 ≤ ((m.vv v).map κ).sum := List.sum_nonneg (by
    intro x hx
    obtain ⟨u, hu, rfl⟩ := List.mem_map.1 hx
    exact hκ u hu)
  rw [hval]
  constructor
  · intro hg
    have hA : 0 ≤ ((m.vv v).map (fun u => g u * κ u)).sum := List.sum_nonneg (by
      intro x hx
      obtain ⟨u, hu, rfl⟩ := List.mem_map.1 hx
      exact mul_nonneg (hg u hu) (hκ u hu))
    by_cases h0 : ((m.vv v).map κ).sum = 0
    · rw [h0]
      by_cases hA0 : ((m.vv v).map (fun u => g u * κ u)).sum = 0
      · rw [hA0]
        left
        simp [HDiv.hDiv, Div.div, Flt.div, Flt.isnan]
      · right
        have hpos : 0 < ((m.vv v).map (fun u => g u * κ u)).sum := lt_of_le_of_ne hA (Ne.symm hA0)
        simp [HDiv.hDiv, Div.div, Flt.div, Flt.signedInf, hA0, hpos, Flt.le]
    · right
      rw [Flt.fin_div_fin _ _ h0]
      simp only [Flt.le, decide_eq_true_eq]
      exact div_nonneg hA hK
  · intro hg
    have hA : ((m.vv v).map (fun u => g u * κ u)).sum ≤ 0 := list_sum_nonpos _ (by
      intro x hx
      obtain ⟨u, hu, rfl⟩ := List.mem_map.1 hx
      exact mul_nonpos_of_nonpos_of_nonneg (hg u hu) (hκ u hu))
    by_cases h0 : ((m.vv v).map κ).sum = 0
    · rw [h0]
      by_cases hA0 : ((m.vv v).map (fun u => g u * κ u)).sum = 0
      · rw [hA0]
        left
        simp [HDiv.hDiv, Div.div, Flt.div, Flt.isnan]
      · right
        have hneg : ¬ 0 < ((m.vv v).map (fun u => g u * κ u)).sum := not_lt.2 hA
        simp [HDiv.hDiv, Div.div, Flt.div, Flt.signedInf, hA0, hneg, Flt.le]
    · right
      rw [Flt.fin_div_fin _ _ h0]
      simp only [Flt.le, decide_eq_true_eq]
      exact div_nonpos_of_nonpos_of_nonneg hA hK

/-! ### Thresholding -/

theorem thresh_index_lt (n : Nat) (hn : 0 < n) : thresh_index n < n := by
  unfold thresh_index
  omega

omit [LinearOrderedField α] in
theorem vec_dog_length (s : Viewer α) : (vec_dog s).length = s.mesh.n_vertices := by
  simp [vec_dog]

theorem sort_ascending_length (l : List (Flt α)) : (sort_ascending l).length = l.length :=
  List.length_insertionSort _ l

theorem sort_le_total (a b : Flt α) : Flt.sort_le a b = true ∨ Flt.sort_le b a = true := by
  cases a <;> cases b <;> simp [Flt.sort_le, Flt.lt]
  exact le_total _ _

theorem sort_le_trans (a b c : Flt α) (h1 : Flt.sort_le a b = true)
    (h2 : Flt.sort_le b c = true) : Flt.sort_le a c = true := by
  cases a <;> cases b <;> cases c <;> simp [Flt.sort_le, Flt.lt] at h1 h2 ⊢
  exact le_trans h1 h2

instance sort_le_isTotal : IsTotal (Flt α) (fun a b => Flt.sort_le a b = true) :=
  ⟨sort_le_total⟩

instance sort_le_isTrans : IsTrans (Flt α) (fun a b => Flt.sort_le a b = true) :=
  ⟨sort_le_trans⟩

theorem sort_ascending_sorted (l : List (Flt α)) :
    (sort_ascending l).Sorted (fun a b => Flt.sort_le a b = true) :=
  List.sorted_insertionSort _ l

theorem sort_ascending_perm (l : List (Flt α)) : (sort_ascending l).Perm l :=
  List.perm_insertionSort _ l

theorem sort_le_eq_le (a b : Flt α) (ha : Flt.isnan a = false) (hb : Flt.isnan b = false) :
    Flt.sort_le a b = Flt.le a b := by
  cases a <;> cases b <;> simp [Flt.sort_le, Flt.lt, Flt.le, Flt.isnan] at ha hb ⊢
  rename_i x y
  by_cases h : x ≤ y
  · simp [h, not_lt.2 h]
  · simp [h, not_le.1 h]

theorem le_antisymm_flt (a b : Flt α) (h1 : Flt.le a b = true) (h2 : Flt.le b a = true) :
    a = b := by
  cases a <;> cases b <;> simp [Flt.le] at h1 h2 ⊢
  exact le_antisymm h1 h2

/-- Two ascending arrangements of the same scalars without NaN agree. -/
theorem sorted_perm_unique (L1 L2 : List (Flt α)) (hp : L1.Perm L2)
    (h1 : L1.Sorted (fun a b => Flt.le a b = true))
    (h2 : L2.Sorted (fun a b => Flt.le a b = true)) : L1 = L2 := by
  haveI : IsAntisymm (Flt α) (fun a b => Flt.le a b = true) :=
    ⟨fun a b hab hba => le_antisymm_flt a b hab hba⟩
  exact List.eq_of_perm_of_sorted hp h1 h2

theorem sort_ascending_le (l : List (Flt α)) (hnn : ∀ x ∈ l, Flt.isnan x = false) :
    (sort_ascending l).Sorted (fun a b => Flt.le a b = true) := by
  have hs := sort_ascending_sorted l
  have hmem : ∀ x ∈ sort_ascending l, Flt.isnan x = false := fun x hx =>
    hnn x ((sort_ascending_perm l).mem_iff.1 hx)
  exact List.Pairwise.imp_of_mem (fun {a b} ha hb hab => by
    rw [← sort_le_eq_le a b (hmem a ha) (hmem b hb)]
    exact hab) hs

/-- Counting the entries `>= thr` of an ascending list without NaN whose entry
of rank `idx` is `thr`: at least the `length - idx` entries from that rank on,
and exactly these when `thr` occurs once. -/
theorem countP_ge_sorted (L : List (Flt α)) (idx : Nat) (thr : Flt α)
    (hs : L.Sorted (fun a b => Flt.sort_le a b = true))
    (hnn : ∀ x ∈ L, Flt.isnan x = false) (hthr : L[idx]? = some thr) :
    L.length - idx ≤ L.countP (fun x => Flt.ge x thr) ∧
    (L.count thr = 1 → L.countP (fun x => Flt.ge x thr) = L.length - idx) := by
  obtain ⟨hlt, hget⟩ := List.getElem?_eq_some.1 hthr
  have hsplit : L.take idx ++ (thr :: L.drop (idx + 1)) = L := by
    rw [← hget, ← List.drop_eq_getElem_cons hlt, List.take_append_drop]
  have hthr_nn : Flt.isnan thr = false := hnn thr (List.getElem?_mem hthr)
  have hpw : (L.take idx ++ (thr :: L.drop (idx + 1))).Pairwise
      (fun a b => Flt.sort_le a b = true) := by rw [hsplit]; exact hs
  obtain ⟨-, hright, hcross⟩ := List.pairwise_append.1 hpw
  have hmem : ∀ x, x ∈ L.take idx ++ (thr :: L.drop (idx + 1)) → Flt.isnan x = false := by
    intro x hx
    rw [hsplit] at hx
    exact hnn x hx
  have hupper : ∀ x ∈ thr :: L.drop (idx + 1), Flt.ge x thr = true := by
    intro x hx
    have hxn := hmem x (List.mem_append_right _ hx)
    rcases List.mem_cons.1 hx with rfl | hx'
    · unfold Flt.ge
      rw [← sort_le_eq_le _ _ hxn hxn]
      cases x <;> simp [Flt.sort_le, Flt.lt, Flt.isnan] at hxn ⊢
    · unfold Flt.ge
      rw [← sort_le_eq_le _ _ hthr_nn hxn]
      exact (List.pairwise_cons.1 hright).1 x hx'
  have hlen : (thr :: L.drop (idx + 1)).length = L.length - idx := by
    simp only [List.length_cons, List.length_drop]
    omega
  have hcount : L.countP (fun x => Flt.ge x thr)
      = (L.take idx).countP (fun x => Flt.ge x thr) + (L.length - idx) := by
    conv_lhs => rw [← hsplit]
    rw [List.countP_append, List.countP_eq_length.2 hupper, hlen]
  refine ⟨by omega, fun hone => ?_⟩
  have hc : (L.take idx).count thr = 0 := by
    rw [← hsplit, List.count_append, List.count_cons_self] at hone
    omega
  have hnot : thr ∉ L.take idx := List.count_eq_zero.1 hc
  have hlower : (L.take idx).countP (fun x => Flt.ge x thr) = 0 := by
    rw [List.countP_eq_zero]
    intro x hx hge
    have hxn := hmem x (List.mem_append_left _ hx)
    have h1 : Flt.le x thr = true := by
      rw [← sort_le_eq_le _ _ hxn hthr_nn]
      exact hcross x hx thr (List.mem_cons_self _ _)
    exact hnot (le_antisymm_flt x thr h1 hge ▸ hx)
  omega

theorem convolve_frame (M : MathFns α) (s : Viewer α) (_iters : Int) :
    (convolve M s _iters).mesh = s.mesh ∧ (convolve M s _iters).vcurvature_ = s.vcurvature_ := by
  unfold convolve
  generalize _iters.toNat = k
  induction k with
  | zero => exact ⟨rfl, rfl⟩
  | succ k ih =>
    rw [Function.iterate_succ_apply']
    exact ⟨(conv_prefix_frame M _ _).1.trans ih.1, (conv_prefix_frame M _ _).2.2.trans ih.2⟩

/-- On a mesh with at least one vertex the threshold lookup is in range, and
the thresholding stores the vertices that pass the feature test, in index
order, in both feature vectors. -/
theorem threshold_features_some (s : Viewer α) (hn : 0 < s.mesh.n_vertices) :
    ∃ thr, (sort_ascending (vec_dog s))[thresh_index s.mesh.n_vertices]? = some thr ∧
      threshold_features s = some
        { s with
          _dog_feature_points := (List.range s.mesh.n_vertices).filter (is_feature s thr)
          _dog_feature_handles := (List.range s.mesh.n_vertices).filter (is_feature s thr) } := by
  have hlt : thresh_index s.mesh.n_vertices < (sort_ascending (vec_dog s)).length := by
    rw [sort_ascending_length, vec_dog_length]
    exact thresh_index_lt _ hn
  refine ⟨(sort_ascending (vec_dog s))[thresh_index s.mesh.n_vertices], ?_, ?_⟩
  · exact List.getElem?_eq_getElem hlt
  · unfold threshold_features
    rw [List.getElem?_eq_getElem hlt]

/-! ### Independence of the feature vectors -/

theorem conv_vertex_features (M : MathFns α) (st : Viewer α) (v : Nat) (l1 l2 : List Nat) :
    conv_vertex M { st with _dog_feature_points := l1, _dog_feature_handles := l2 } v
      = { conv_vertex M st v with _dog_feature_points := l1, _dog_feature_handles := l2 } := by
  unfold conv_vertex
  simp only
  split <;> rfl

theorem conv_round_features (M : MathFns α) (st : Viewer α) (l1 l2 : List Nat) :
    conv_round M { st with _dog_feature_points := l1, _dog_feature_handles := l2 }
      = { conv_round M st with _dog_feature_points := l1, _dog_feature_handles := l2 } := by
  unfold conv_round
  show List.foldl (conv_vertex M) _ (List.range st.mesh.n_vertices) = _
  generalize List.range st.mesh.n_vertices = l
  induction l generalizing st with
  | nil => rfl
  | cons a l ih => rw [List.foldl_cons, List.foldl_cons, conv_vertex_features, ih]

theorem conv_iterate_features (M : MathFns α) (st : Viewer α) (l1 l2 : List Nat) (k : Nat) :
    (conv_round M)^[k] { st with _dog_feature_points := l1, _dog_feature_handles := l2 }
      = { (conv_round M)^[k] st with _dog_feature_points := l1, _dog_feature_handles := l2 } := by
  induction k generalizing st with
  | zero => rfl
  | succ k ih => rw [Function.iterate_succ_apply, Function.iterate_succ_apply,
      conv_round_features, ih]

theorem threshold_features_features (st : Viewer α) (l1 l2 : List Nat) :
    threshold_features { st with _dog_feature_points := l1, _dog_feature_handles := l2 }
      = threshold_features st := rfl

omit [LinearOrderedField α] in
theorem save_meshdog_loop (l : List Nat) (s : Viewer α) :
    (l.foldl (fun st vh => { st with new_mesh := st.new_mesh ++ [st.mesh.point vh] }) s).new_mesh
        = s.new_mesh ++ l.map s.mesh.point ∧
    (l.foldl (fun st vh => { st with new_mesh := st.new_mesh ++ [st.mesh.point vh] }) s).mesh
        = s.mesh ∧
    (l.foldl (fun st vh => { st with new_mesh := st.new_mesh ++ [st.mesh.point vh] })
        s)._dog_feature_handles = s._dog_feature_handles := by
  induction l generalizing s with
  | nil => simp
  | cons a l ih =>
    rw [List.foldl_cons]
    obtain ⟨h1, h2, h3⟩ := ih { s with new_mesh := s.new_mesh ++ [s.mesh.point a] }
    refine ⟨?_, h2, h3⟩
    rw [h1]
    simp


omit [LinearOrderedField α] in
theorem save_meshdog_new_mesh (s : Viewer α) :
    (save_meshdog s).new_mesh = s.new_mesh ++ feature_positions s ∧
    (save_meshdog s).mesh = s.mesh ∧
    (save_meshdog s)._dog_feature_handles = s._dog_feature_handles :=
  save_meshdog_loop s._dog_feature_handles s

end DetectFacts

/-! ## The computations of `open_mesh` before the detection -/

section Pipeline

variable {α : Type} [LinearOrderedField α]

theorem mul_zero_cases (a : Flt α) : a * Flt.fin 0 = Flt.fin 0 ∨ a * Flt.fin 0 = Flt.nan := by
  cases a with
  | nan => exact Or.inr rfl
  | ninf => right; show Flt.mul Flt.ninf (Flt.fin 0) = _; simp [Flt.mul]
  | fin x => left; simp
  | pinf => right; simp

/-- The Laplace-Beltrami sum of a vertex in the plane `y = 0` whose
neighbours lie in that plane has the `y` coordinate `0` or NaN. -/
theorem lb_laplace_y (s : Viewer α) (v : Nat) (l : List (Nat × Nat))
    (hv : (s.mesh.point v).y = Flt.fin 0) (hl : ∀ h ∈ l, (s.mesh.point h.1).y = Flt.fin 0)
    (a : Vec3 α) (ha : a.y = Flt.fin 0 ∨ a.y = Flt.nan) :
    (l.foldl
        (fun laplace h => Vec3.add laplace
          (Vec3.smul (s.eweight_ h.2) (Vec3.sub (s.mesh.point h.1) (s.mesh.point v)))) a).y
        = Flt.fin 0 ∨
    (l.foldl
        (fun laplace h => Vec3.add laplace
          (Vec3.smul (s.eweight_ h.2) (Vec3.sub (s.mesh.point h.1) (s.mesh.point v)))) a).y
        = Flt.nan := by
  induction l generalizing a with
  | nil => exact ha
  | cons h l ih =>
    rw [List.foldl_cons]
    apply ih (fun h' hh => hl h' (List.mem_cons_of_mem _ hh))
    have hy : (Vec3.add a (Vec3.smul (s.eweight_ h.2)
        (Vec3.sub (s.mesh.point h.1) (s.mesh.point v)))).y
        = a.y + s.eweight_ h.2 * Flt.fin 0 := by
      simp only [Vec3.add, Vec3.smul, Vec3.sub, hv, hl h (List.mem_cons_self _ _),
        Flt.fin_sub_fin, sub_zero]
    rw [hy]
    rcases ha with ha | ha <;> rcases mul_zero_cases (s.eweight_ h.2) with hm | hm <;>
      rw [ha, hm] <;> simp

/-- With the area weight `+inf` (a vertex without incident area) and all
points involved in the plane `y = 0`, the Laplace-Beltrami mean curvature is
NaN: its `y` component is `inf * 0`. -/
theorem mean_curvature_nan (M : MathFns α) (s : Viewer α) (v : Nat)
    (hw : s.vweight_ v = Flt.pinf) (hv : (s.mesh.point v).y = Flt.fin 0)
    (hl : ∀ h ∈ s.mesh.voh v, (s.mesh.point h.1).y = Flt.fin 0) :
    mean_curvature_at M s v = Flt.nan := by
  have hy := lb_laplace_y s v (s.mesh.voh v) hv hl Vec3.zero (Or.inl rfl)
  have hy' : (lb_laplace s v).y = Flt.fin 0 ∨ (lb_laplace s v).y = Flt.nan := hy
  have hn : Flt.pinf * (lb_laplace s v).y = Flt.nan := by
    rcases hy' with h | h <;> rw [h] <;> simp
  simp only [mean_curvature_at, Vec3.norm, Vec3.smul, hw, hn]
  simp

theorem init_meshdog_vertex_frame (M : MathFns α) (st : Viewer α) (v : Nat) :
    (init_meshdog_vertex M st v).mesh = st.mesh ∧
    (init_meshdog_vertex M st v).vcurvature_ = st.vcurvature_ ∧
    (init_meshdog_vertex M st v).vunicurvature_ = st.vunicurvature_ ∧
    (init_meshdog_vertex M st v).vmeshdog_dog_ = st.vmeshdog_dog_ := by
  unfold init_meshdog_vertex
  simp only
  split <;> exact ⟨rfl, rfl, rfl, rfl⟩

theorem init_meshdog_vertex_f (M : MathFns α) (st : Viewer α) (v w : Nat) :
    (init_meshdog_vertex M st v).vmeshdog_f_ w
      = if w = v then st.vunicurvature_ v else st.vmeshdog_f_ w := by
  unfold init_meshdog_vertex
  simp only
  split <;> simp only [Function.update_apply]

theorem init_meshdog_frame (M : MathFns α) (s : Viewer α) :
    (init_meshdog M s).mesh = s.mesh ∧ (init_meshdog M s).vcurvature_ = s.vcurvature_ ∧
    (init_meshdog M s).vunicurvature_ = s.vunicurvature_ ∧
    (init_meshdog M s).vmeshdog_dog_ = s.vmeshdog_dog_ :=
  ⟨foldl_frame (fun st : Viewer α => st.mesh) _
      (fun st v => (init_meshdog_vertex_frame M st v).1) _ s,
   foldl_frame (fun st : Viewer α => st.vcurvature_) _
      (fun st v => (init_meshdog_vertex_frame M st v).2.1) _ s,
   foldl_frame (fun st : Viewer α => st.vunicurvature_) _
      (fun st v => (init_meshdog_vertex_frame M st v).2.2.1) _ s,
   foldl_frame (fun st : Viewer α => st.vmeshdog_dog_) _
      (fun st v => (init_meshdog_vertex_frame M st v).2.2.2) _ s⟩

theorem init_meshdog_f (M : MathFns α) (s : Viewer α) (v : Nat) :
    (init_meshdog M s).vmeshdog_f_ v
      = if v < s.mesh.n_vertices then s.vunicurvature_ v else s.vmeshdog_f_ v := by
  have h := (foldl_store (fun st : Viewer α => st.vmeshdog_f_) (init_meshdog_vertex M)
    s.vunicurvature_ (fun st => st.vunicurvature_ = s.vunicurvature_)
    (fun st v h => ((init_meshdog_vertex_frame M st v).2.2.1).trans h)
    (fun st v w h => by
      show (init_meshdog_vertex M st v).vmeshdog_f_ w = _
      rw [init_meshdog_vertex_f, show st.vunicurvature_ = s.vunicurvature_ from h])
    (List.range s.mesh.n_vertices) s rfl).2 v
  simpa [init_meshdog] using h

/-- What `open_mesh` has computed when it calls `detect_meshdog`, on a fresh
viewer: the Laplace-Beltrami curvature from the weights of `calc_weights`,
the response equal to the uniform curvature, and all DoG deltas `0`. -/
theorem open_mesh_prepare_fields (M : MathFns α) (m : Mesh α) :
    (open_mesh_prepare M (Viewer.init m)).mesh = m ∧
    (∀ v, v < m.n_vertices → (open_mesh_prepare M (Viewer.init m)).vcurvature_ v
      = mean_curvature_at M (calc_weights M (Viewer.init m)) v) ∧
    (∀ v, v < m.n_vertices → (open_mesh_prepare M (Viewer.init m)).vmeshdog_f_ v
      = uniform_mean_curvature_at M m v) ∧
    (open_mesh_prepare M (Viewer.init m)).vmeshdog_dog_ = fun _ => Flt.fin 0 := by
  have m1 : (calc_weights M (Viewer.init m)).mesh = m := calc_weights_mesh M _
  have m2 : (calc_mean_curvature M (calc_weights M (Viewer.init m))).mesh = m :=
    (foldl_frame (fun st : Viewer α => st.mesh) (store_vcurvature M) (fun _ _ => rfl) _ _).trans m1
  have m3 : (calc_uniform_mean_curvature M (calc_mean_curvature M
      (calc_weights M (Viewer.init m)))).mesh = m :=
    (foldl_frame (fun st : Viewer α => st.mesh) (store_vunicurvature M)
      (fun _ _ => rfl) _ _).trans m2
  have m4 : (calc_gauss_curvature M (calc_uniform_mean_curvature M (calc_mean_curvature M
      (calc_weights M (Viewer.init m))))).mesh = m :=
    (foldl_frame (fun st : Viewer α => st.mesh) (store_vgausscurvature M)
      (fun _ _ => rfl) _ _).trans m3
  have m5 : (calc_triangle_quality M (calc_gauss_curvature M (calc_uniform_mean_curvature M
      (calc_mean_curvature M (calc_weights M (Viewer.init m)))))).mesh = m :=
    (foldl_frame (fun st : Viewer α => st.mesh) (store_tshape M) (fun _ _ => rfl) _ _).trans m4
  refine ⟨?_, ?_, ?_, ?_⟩
  · exact (init_meshdog_frame M _).1.trans m5
  · intro v hv
    unfold open_mesh_prepare
    rw [(init_meshdog_frame M _).2.1]
    have c5 := foldl_frame (fun st : Viewer α => st.vcurvature_) (store_tshape M)
      (fun _ _ => rfl) (List.range (calc_gauss_curvature M (calc_uniform_mean_curvature M
        (calc_mean_curvature M (calc_weights M (Viewer.init m))))).mesh.n_faces)
      (calc_gauss_curvature M (calc_uniform_mean_curvature M
        (calc_mean_curvature M (calc_weights M (Viewer.init m)))))
    have c4 := foldl_frame (fun st : Viewer α => st.vcurvature_) (store_vgausscurvature M)
      (fun _ _ => rfl) (List.range (calc_uniform_mean_curvature M
        (calc_mean_curvature M (calc_weights M (Viewer.init m)))).mesh.n_vertices)
      (calc_uniform_mean_curvature M (calc_mean_curvature M (calc_weights M (Viewer.init m))))
    have c3 := foldl_frame (fun st : Viewer α => st.vcurvature_) (store_vunicurvature M)
      (fun _ _ => rfl) (List.range (calc_mean_curvature M
        (calc_weights M (Viewer.init m))).mesh.n_vertices)
      (calc_mean_curvature M (calc_weights M (Viewer.init m)))
    have e : (calc_triangle_quality M (calc_gauss_curvature M (calc_uniform_mean_curvature M
        (calc_mean_curvature M (calc_weights M (Viewer.init m)))))).vcurvature_
        = (calc_mean_curvature M (calc_weights M (Viewer.init m))).vcurvature_ :=
      c5.trans (c4.trans c3)
    rw [e, calc_mean_curvature_at, if_pos (by rw [m1]; exact hv)]
  · intro v hv
    unfold open_mesh_prepare
    rw [init_meshdog_f, if_pos (by rw [m5]; exact hv)]
    have u5 := foldl_frame (fun st : Viewer α => st.vunicurvature_) (store_tshape M)
      (fun _ _ => rfl) (List.range (calc_gauss_curvature M (calc_uniform_mean_curvature M
        (calc_mean_curvature M (calc_weights M (Viewer.init m))))).mesh.n_faces)
      (calc_gauss_curvature M (calc_uniform_mean_curvature M
        (calc_mean_curvature M (calc_weights M (Viewer.init m)))))
    have u4 := foldl_frame (fun st : Viewer α => st.vunicurvature_) (store_vgausscurvature M)
      (fun _ _ => rfl) (List.range (calc_uniform_mean_curvature M
        (calc_mean_curvature M (calc_weights M (Viewer.init m)))).mesh.n_vertices)
      (calc_uniform_mean_curvature M (calc_mean_curvature M (calc_weights M (Viewer.init m))))
    have e : (calc_triangle_quality M (calc_gauss_curvature M (calc_uniform_mean_curvature M
        (calc_mean_curvature M (calc_weights M (Viewer.init m)))))).vunicurvature_
        = (calc_uniform_mean_curvature M (calc_mean_curvature M
            (calc_weights M (Viewer.init m)))).vunicurvature_ := u5.trans u4
    rw [e, calc_uniform_mean_curvature_at, if_pos (by rw [m2]; exact hv), m2]
  · unfold open_mesh_prepare
    rw [(init_meshdog_frame M _).2.2.2]
    have d5 := foldl_frame (fun st : Viewer α => st.vmeshdog_dog_) (store_tshape M)
      (fun _ _ => rfl) (List.range (calc_gauss_curvature M (calc_uniform_mean_curvature M
        (calc_mean_curvature M (calc_weights M (Viewer.init m))))).mesh.n_faces)
      (calc_gauss_curvature M (calc_uniform_mean_curvature M
        (calc_mean_curvature M (calc_weights M (Viewer.init m)))))
    have d4 := foldl_frame (fun st : Viewer α => st.vmeshdog_dog_) (store_vgausscurvature M)
      (fun _ _ => rfl) (List.range (calc_uniform_mean_curvature M
        (calc_mean_curvature M (calc_weights M (Viewer.init m)))).mesh.n_vertices)
      (calc_uniform_mean_curvature M (calc_mean_curvature M (calc_weights M (Viewer.init m))))
    have d3 := foldl_frame (fun st : Viewer α => st.vmeshdog_dog_) (store_vunicurvature M)
      (fun _ _ => rfl) (List.range (calc_mean_curvature M
        (calc_weights M (Viewer.init m))).mesh.n_vertices)
      (calc_mean_curvature M (calc_weights M (Viewer.init m)))
    have d2 := foldl_frame (fun st : Viewer α => st.vmeshdog_dog_) (store_vcurvature M)
      (fun _ _ => rfl) (List.range (calc_weights M (Viewer.init m)).mesh.n_vertices)
      (calc_weights M (Viewer.init m))
    have d1 : (calc_weights M (Viewer.init m)).vmeshdog_dog_ = (Viewer.init m).vmeshdog_dog_ := by
      unfold calc_weights
      exact (foldl_frame (fun st : Viewer α => st.vmeshdog_dog_) (store_vweight M)
        (fun _ _ => rfl) _ _).trans
        (foldl_frame (fun st : Viewer α => st.vmeshdog_dog_) (store_eweight M)
          (fun _ _ => rfl) _ _)
    exact d5.trans (d4.trans (d3.trans (d2.trans d1)))

/-- A round leaves the state alone when every vertex has a NaN `vcurvature_`. -/
theorem conv_round_skip (M : MathFns α) (s : Viewer α)
    (h : ∀ v, v < s.mesh.n_vertices → Flt.isnan (s.vcurvature_ v) = true) :
    conv_round M s = s := by
  unfold conv_round
  have key : ∀ l : List Nat, (∀ v ∈ l, v < s.mesh.n_vertices) →
      l.foldl (conv_vertex M) s = s := by
    intro l
    induction l with
    | nil => intro _; rfl
    | cons a l ih =>
      intro hl
      have ha : conv_vertex M s a = s := by
        unfold conv_vertex
        rw [if_neg (by rw [h a (hl a (List.mem_cons_self _ _))]; simp)]
      rw [List.foldl_cons, ha]
      exact ih (fun v hv => hl v (List.mem_cons_of_mem _ hv))
  exact key _ (fun v hv => List.mem_range.1 hv)

theorem convolve_skip (M : MathFns α) (s : Viewer α) (_iters : Int)
    (h : ∀ v, v < s.mesh.n_vertices → Flt.isnan (s.vcurvature_ v) = true) :
    convolve M s _iters = s :=
  Function.iterate_fixed (conv_round_skip M s h) _

/-- When every vertex has a NaN `vcurvature_`, `detect_meshdog` changes no
response and no DoG delta and reports no feature, whatever the threshold is. -/
theorem detect_all_nan (M : MathFns α) (P : Viewer α) (_iters : Int)
    (hn : 0 < P.mesh.n_vertices)
    (h : ∀ v, v < P.mesh.n_vertices → Flt.isnan (P.vcurvature_ v) = true) :
    ∃ thr, (sort_ascending (vec_dog P))[thresh_index P.mesh.n_vertices]? = some thr ∧
      detect_meshdog M P _iters
        = some { P with _dog_feature_points := [], _dog_feature_handles := [] } := by
  obtain ⟨thr, hthr, hsome⟩ := threshold_features_some P hn
  refine ⟨thr, hthr, ?_⟩
  have hnil : (List.range P.mesh.n_vertices).filter (is_feature P thr) = [] := by
    rw [List.filter_eq_nil_iff]
    intro v hv
    simp [is_feature, h v (List.mem_range.1 hv)]
  rw [detect_meshdog, convolve_skip M P _iters h, hsome, hnil]

theorem edge_length_sum_loop (M : MathFns α) (m : Mesh α) (v : Nat) (l : List Nat) (k : Nat)
    (a : Flt α) :
    (l.foldl (fun acc u => (acc.1 + 1, acc.2 + Vec3.norm M (Vec3.sub (m.point v) (m.point u))))
      (k, a)).1 = k + l.length := by
  induction l generalizing k a with
  | nil => rfl
  | cons u l ih =>
    rw [List.foldl_cons, ih, List.length_cons]
    omega

theorem edge_length_sum_fst (M : MathFns α) (m : Mesh α) (v : Nat) :
    (edge_length_sum M m v).1 = (m.vv v).length := by
  rw [edge_length_sum, edge_length_sum_loop, zero_add]

theorem edge_length_sum_loop_finite (M : MathFns α) (m : Mesh α) (v : Nat)
    (hv : (m.point v).isFinite = true) (l : List Nat)
    (hfin : ∀ u ∈ l, (m.point u).isFinite = true) (k : Nat) (a : α) :
    (l.foldl (fun acc u => (acc.1 + 1, acc.2 + Vec3.norm M (Vec3.sub (m.point v) (m.point u))))
      (k, Flt.fin a)).2
      = Flt.fin (a + (l.map (fun u => side_length M (m.point u) (m.point v))).sum) := by
  induction l generalizing k a with
  | nil => simp
  | cons u l ih =>
    obtain ⟨px, py, pz, hp⟩ := (Vec3.isFinite_iff _).1 hv
    obtain ⟨ux, uy, uz, hu⟩ := (Vec3.isFinite_iff _).1 (hfin u (List.mem_cons_self _ _))
    rw [List.foldl_cons]
    have hstep : Flt.fin a + Vec3.norm M (Vec3.sub (m.point v) (m.point u))
        = Flt.fin (a + side_length M (m.point u) (m.point v)) := by
      rw [hp, hu, Vec3.sub_ofNums, Vec3.norm_ofNums, Flt.fin_add_fin]
      rfl
    simp only [hstep]
    rw [ih (fun w hw => hfin w (List.mem_cons_of_mem _ hw)), List.map_cons, List.sum_cons,
      add_assoc]

theorem init_meshdog_vertex_veavg (M : MathFns α) (st : Viewer α) (v w : Nat) :
    (init_meshdog_vertex M st v).veavg_ w
      = if w = v then
          (if (edge_length_sum M st.mesh v).1 = 0 then st.veavg_ v
            else (edge_length_sum M st.mesh v).2
              / Flt.fin (((edge_length_sum M st.mesh v).1 : Nat) : α))
        else st.veavg_ w := by
  unfold init_meshdog_vertex
  simp only
  by_cases h0 : (edge_length_sum M st.mesh v).1 = 0
  · rw [if_pos h0, if_pos h0]
    split
    · next h => rw [h]
    · rfl
  · rw [if_neg h0, if_neg h0]
    simp only [Function.update_apply]

theorem init_meshdog_veavg (M : MathFns α) (s : Viewer α) (v : Nat) :
    (init_meshdog M s).veavg_ v
      = if v < s.mesh.n_vertices then
          (if (edge_length_sum M s.mesh v).1 = 0 then s.veavg_ v
            else (edge_length_sum M s.mesh v).2
              / Flt.fin (((edge_length_sum M s.mesh v).1 : Nat) : α))
        else s.veavg_ v := by
  have h := sweep_in_place (fun st : Viewer α => st.veavg_) (init_meshdog_vertex M)
    (fun arr v => if (edge_length_sum M s.mesh v).1 = 0 then arr v
      else (edge_length_sum M s.mesh v).2 / Flt.fin (((edge_length_sum M s.mesh v).1 : Nat) : α))
    (fun st => st.mesh = s.mesh)
    (fun st v h => ((init_meshdog_vertex_frame M st v).1).trans h)
    (fun st v w h => by
      show (init_meshdog_vertex M st v).veavg_ w = _
      rw [init_meshdog_vertex_veavg, show st.mesh = s.mesh from h])
    s.mesh.n_vertices s rfl v
  rw [show init_meshdog M s = (List.range s.mesh.n_vertices).foldl (init_meshdog_vertex M) s
    from rfl, h]
  simp only [lt_irrefl, if_false]

end Pipeline

/-! ## Real kernel weights -/

section DetectReal

/-- On finite positions the uniform mean curvature of a vertex with at least
one neighbour is a number `>= 0`. -/
theorem uniform_curvature_finite (m : Mesh ℝ) (v : Nat)
    (hfin : ∀ u, (m.point u).isFinite = true) (hne : m.vv v ≠ []) :
    ∃ c : ℝ, 0 ≤ c ∧ uniform_mean_curvature_at realMath m v = Flt.fin c := by
  obtain ⟨qx, qy, qz, hq⟩ := (Vec3.isFinite_iff _).1 (hfin v)
  obtain ⟨x, y, z, h⟩ := ring_sum_finite m hfin (m.vv v) 0 0 0 0
  have hlen : (((0 + (m.vv v).length : Nat) : ℝ)) ≠ 0 := by
    have : 0 < (m.vv v).length := List.length_pos.2 hne
    rw [zero_add]
    exact_mod_cast this.ne'
  have hr : ring_sum m v
      = (Vec3.ofNums x y z, Flt.fin ((0 + (m.vv v).length : Nat) : ℝ)) := by
    rw [← h]
    simp [ring_sum, Vec3.zero]
  generalize ((0 + (m.vv v).length : Nat) : ℝ) = n at hlen hr
  refine ⟨Real.sqrt ((x / n - qx) * (x / n - qx) + (y / n - qy) * (y / n - qy)
    + (z / n - qz) * (z / n - qz)) / 2, div_nonneg (Real.sqrt_nonneg _) (by norm_num), ?_⟩
  simp only [uniform_mean_curvature_at, hr, hq, Vec3.sdiv_ofNums _ _ _ _ hlen, Vec3.sub_ofNums,
    Vec3.norm_ofNums]
  rw [Flt.fin_div_fin _ _ (by norm_num)]
  rfl

theorem cbrt2_pos : 0 < realMath.cbrt2 := Real.rpow_pos_of_pos (by norm_num) _

theorem sqrt_two_pi_pos : 0 < realMath.sqrt (2 * realMath.pi) :=
  Real.sqrt_pos.2 (mul_pos (by norm_num) Real.pi_pos)

theorem kernel_num_pos (m : Mesh ℝ) (e : ℝ) (he : 0 < e) (v u : Nat) :
    0 < kernel_num realMath m e v u :=
  div_pos (Real.exp_pos _) (mul_pos (mul_pos cbrt2_pos he) sqrt_two_pi_pos)

/-- With real kernel weights, finite positions and a positive average edge
length at `v`, every kernel weight of `v` is a positive number. -/
theorem kernel_real (m : Mesh ℝ) (veavg : Nat → Flt ℝ) (v u : Nat) (e : ℝ)
    (hfin : ∀ w, (m.point w).isFinite = true) (he : veavg v = Flt.fin e) (hpos : 0 < e) :
    kernel realMath m veavg v u = Flt.fin (kernel_num realMath m e v u) :=
  kernel_finite realMath m veavg v u e hfin he (mul_pos cbrt2_pos hpos).ne'
    (mul_pos (by norm_num) Real.pi_pos).le sqrt_two_pi_pos.ne'

theorem kernel_sum_pos (m : Mesh ℝ) (e : ℝ) (he : 0 < e) (v : Nat) (hv : m.vv v ≠ []) :
    0 < ((m.vv v).map (kernel_num realMath m e v)).sum := by
  obtain ⟨a, l, hl⟩ := List.exists_cons_of_ne_nil hv
  exact sum_pos_of_mem _ _ (fun x _ => (kernel_num_pos m e he v x).le)
    ⟨a, by rw [hl]; exact List.mem_cons_self _ _, kernel_num_pos m e he v a⟩

/-- The new response of a vertex whose neighbours carry the finite responses
`g`: their weighted mean. -/
theorem conv_value_real (m : Mesh ℝ) (veavg f : Nat → Flt ℝ) (v : Nat) (e : ℝ) (g : Nat → ℝ)
    (hfin : ∀ w, (m.point w).isFinite = true) (he : veavg v = Flt.fin e) (hpos : 0 < e)
    (hv : m.vv v ≠ []) (hf : ∀ u ∈ m.vv v, f u = Flt.fin (g u)) :
    conv_value realMath m veavg f v = Flt.fin (weighted_mean realMath m e g v) :=
  conv_value_finite realMath m veavg f v (kernel_num realMath m e v) g
    (fun u _ => kernel_real m veavg v u e hfin he hpos) hf (kernel_sum_pos m e hpos v hv).ne'

theorem gaussian_conv_real (d θ : ℝ) (hθ : 0 < θ) :
    gaussian_conv realMath (Flt.fin d) (Flt.fin θ) = Flt.fin (gauss_kernel realMath d θ) ∧
    0 < gauss_kernel realMath d θ := by
  have h2 : 2 * (θ * θ) ≠ 0 := (mul_pos (by norm_num) (mul_pos hθ hθ)).ne'
  constructor
  · simp only [gaussian_conv, gauss_kernel, Flt.fin_mul_fin, Flt.neg_fin]
    rw [Flt.fin_div_fin _ _ h2, Flt.sqrt_fin realMath _
      (show (0 : ℝ) ≤ 2 * realMath.pi from (mul_pos (by norm_num) Real.pi_pos).le),
      Flt.fin_mul_fin]
    show Flt.fin _ / Flt.fin _ = _
    rw [Flt.fin_div_fin _ _ (mul_pos hθ sqrt_two_pi_pos).ne']
  · exact div_pos (Real.exp_pos _) (mul_pos hθ sqrt_two_pi_pos)

theorem weighted_mean_zero (m : Mesh ℝ) (e : ℝ) (v : Nat) :
    weighted_mean realMath m e (fun _ => 0) v = 0 := by
  simp [weighted_mean]

theorem conv_round_mesh {α : Type} [LinearOrderedField α] (M : MathFns α) (s : Viewer α) :
    (conv_round M s).mesh = s.mesh :=
  (conv_prefix_frame M s _).1

/-- The in-place round on the equilateral triangle with the response
`(4, 0, 0)`: vertex 0 becomes `0` first, and vertex 1 then reads that new
value, so that it stays `0`. -/
theorem spike_in_place :
    (conv_round realMath (spike_state (Real.sqrt 2))).vmeshdog_f_ 1 = Flt.fin 0 := by
  have he : 0 < Real.sqrt 2 := Real.sqrt_pos.2 (by norm_num)
  have hfin : ∀ w, ((spike_state (Real.sqrt 2)).mesh.point w).isFinite = true :=
    corner_triangle_finite 1
  have h0 := (conv_round_gauss_seidel realMath (spike_state (Real.sqrt 2)) 0).1
  have h1 := (conv_round_gauss_seidel realMath (spike_state (Real.sqrt 2)) 1).1
  rw [if_pos ⟨by decide, rfl⟩] at h0 h1
  have hv0 : (conv_round realMath (spike_state (Real.sqrt 2))).vmeshdog_f_ 0 = Flt.fin 0 := by
    rw [h0, ← weighted_mean_zero (spike_state (Real.sqrt 2)).mesh (Real.sqrt 2) 0]
    refine conv_value_real _ _ _ 0 (Real.sqrt 2) (fun _ => 0) hfin rfl he (by decide) ?_
    intro u hu
    have hvv : (spike_state (Real.sqrt 2)).mesh.vv 0 = [2, 1] := rfl
    rw [hvv] at hu
    simp only [List.mem_cons, List.mem_singleton, List.not_mem_nil, or_false] at hu
    rcases hu with rfl | rfl <;> rfl
  rw [h1, ← weighted_mean_zero (spike_state (Real.sqrt 2)).mesh (Real.sqrt 2) 1]
  refine conv_value_real _ _ _ 1 (Real.sqrt 2) (fun _ => 0) hfin rfl he (by decide) ?_
  intro u hu
  have hvv : (spike_state (Real.sqrt 2)).mesh.vv 1 = [0, 2] := rfl
  rw [hvv] at hu
  simp only [List.mem_cons, List.mem_singleton, List.not_mem_nil, or_false] at hu
  rcases hu with rfl | rfl
  · exact hv0
  · rfl

/-- The synchronous round on the same state: vertex 1 reads the old value `4`
of vertex 0 and becomes a positive number. -/
theorem spike_sync :
    ∃ c : ℝ, 0 < c ∧
      (conv_round_sync realMath (spike_state (Real.sqrt 2))).vmeshdog_f_ 1 = Flt.fin c := by
  have he : 0 < Real.sqrt 2 := Real.sqrt_pos.2 (by norm_num)
  have hfin : ∀ w, ((spike_state (Real.sqrt 2)).mesh.point w).isFinite = true :=
    corner_triangle_finite 1
  refine ⟨weighted_mean realMath (spike_state (Real.sqrt 2)).mesh (Real.sqrt 2)
    (fun v => if v = 0 then 4 else 0) 1, ?_, ?_⟩
  · have hvv : (spike_state (Real.sqrt 2)).mesh.vv 1 = [0, 2] := rfl
    have hk := kernel_sum_pos (spike_state (Real.sqrt 2)).mesh (Real.sqrt 2) he 1 (by decide)
    have hk0 := kernel_num_pos (spike_state (Real.sqrt 2)).mesh (Real.sqrt 2) he 1 0
    unfold weighted_mean
    apply div_pos _ hk
    rw [hvv]
    simp only [List.map_cons, List.map_nil, List.sum_cons, List.sum_nil]
    norm_num
    exact hk0
  · have hs : (conv_round_sync realMath (spike_state (Real.sqrt 2))).vmeshdog_f_ 1
        = conv_value realMath (spike_state (Real.sqrt 2)).mesh (spike_state (Real.sqrt 2)).veavg_
            (spike_state (Real.sqrt 2)).vmeshdog_f_ 1 := by
      rw [conv_round_sync_f, if_pos ⟨by decide, rfl⟩]
    rw [hs]
    exact conv_value_real _ _ _ 1 (Real.sqrt 2) (fun v => if v = 0 then 4 else 0) hfin rfl he
      (by decide) (fun u _ => rfl)

/-- The state `open_mesh` reaches on the collinear triangle before the
detection: every `vcurvature_` is NaN (area weight `+inf`), the response of
vertex 0 is a number, every DoG delta is `0`. -/
theorem flat_prepared :
    (open_mesh_prepare realMath (Viewer.init (flat_triangle : Mesh ℝ))).mesh.n_vertices = 3 ∧
    (∀ v, v < 3 → Flt.isnan ((open_mesh_prepare realMath
      (Viewer.init (flat_triangle : Mesh ℝ))).vcurvature_ v) = true) ∧
    Flt.isnan ((open_mesh_prepare realMath
      (Viewer.init (flat_triangle : Mesh ℝ))).vmeshdog_f_ 0) = false ∧
    (open_mesh_prepare realMath (Viewer.init (flat_triangle : Mesh ℝ))).vmeshdog_dog_
      = fun _ => Flt.fin 0 := by
  obtain ⟨hm, hc, hf, hd⟩ := open_mesh_prepare_fields realMath (flat_triangle : Mesh ℝ)
  refine ⟨by rw [hm]; rfl, ?_, ?_, hd⟩
  · intro v hv
    rw [hc v hv]
    have hy : ∀ u, ((flat_triangle : Mesh ℝ).point u).y = Flt.fin 0 := by
      intro u
      simp only [flat_triangle, triangle_mesh]
      split <;> rfl
    have hcs : cross_sq (Vec3.ofNums (0 : ℝ) 0 0) (Vec3.ofNums 1 0 0) (Vec3.ofNums 2 0 0) = 0 := by
      simp [cross_sq, Vec3.ofNums, Flt.toNum]
    have harea : incident_area realMath (flat_triangle : Mesh ℝ) v = 0 := by
      have hvf : (flat_triangle : Mesh ℝ).vf v = [0] := by
        simp [flat_triangle, triangle_mesh, hv]
      rw [incident_area, hvf]
      show face_area realMath flat_triangle 0 + 0 = 0
      rw [add_zero]
      show Real.sqrt (cross_sq (Vec3.ofNums (0 : ℝ) 0 0) (Vec3.ofNums 1 0 0)
        (Vec3.ofNums 2 0 0)) / 2 = 0
      rw [hcs, Real.sqrt_zero, zero_div]
    have hw : (calc_weights realMath (Viewer.init (flat_triangle : Mesh ℝ))).vweight_ v
        = Flt.pinf := by
      rw [calc_weights_vweight, if_pos (show v < (Viewer.init (flat_triangle : Mesh ℝ)).mesh.n_vertices
        from hv)]
      show vertex_weight realMath flat_triangle v = _
      rw [vertex_weight_finite _ _ _ flat_triangle_finite, scaled_area_weight, harea]
      simp
    rw [mean_curvature_nan realMath _ v hw
      (by rw [calc_weights_mesh]; exact hy v) (by
        intro h _
        rw [calc_weights_mesh]
        exact hy h.1)]
    rfl
  · rw [hf 0 (by decide)]
    obtain ⟨c, -, hc'⟩ := uniform_curvature_finite (flat_triangle : Mesh ℝ) 0
      flat_triangle_finite (by decide)
    rw [hc']
    rfl

/-- The state `open_mesh` reaches on the mesh of one isolated vertex before
the detection: its `vcurvature_` is NaN and its DoG delta is `0`. -/
theorem point_prepared :
    (open_mesh_prepare realMath
      (Viewer.init (point_mesh (Vec3.ofNums (0 : ℝ) 0 0)))).mesh.n_vertices = 1 ∧
    (∀ v, v < 1 → Flt.isnan ((open_mesh_prepare realMath
      (Viewer.init (point_mesh (Vec3.ofNums (0 : ℝ) 0 0)))).vcurvature_ v) = true) ∧
    (open_mesh_prepare realMath
      (Viewer.init (point_mesh (Vec3.ofNums (0 : ℝ) 0 0)))).vmeshdog_dog_
      = fun _ => Flt.fin 0 := by
  obtain ⟨hm, hc, -, hd⟩ := open_mesh_prepare_fields realMath (point_mesh (Vec3.ofNums (0 : ℝ) 0 0))
  refine ⟨by rw [hm]; rfl, ?_, hd⟩
  intro v hv
  rw [hc v hv]
  have hw : (calc_weights realMath (Viewer.init (point_mesh (Vec3.ofNums (0 : ℝ) 0 0)))).vweight_ v
      = Flt.pinf := by
    rw [calc_weights_vweight, if_pos (show v < (Viewer.init
      (point_mesh (Vec3.ofNums (0 : ℝ) 0 0))).mesh.n_vertices from hv)]
    simp [vertex_weight, Viewer.init, point_mesh]
  rw [mean_curvature_nan realMath _ v hw (by rw [calc_weights_mesh]; rfl) (by
    intro h _
    rw [calc_weights_mesh]
    rfl)]
  rfl

/-- One round on finite data leaves finite responses and no NaN delta. -/
theorem conv_round_finite (s : Viewer ℝ) (e : Nat → ℝ)
    (hfin : ∀ w, (s.mesh.point w).isFinite = true)
    (hval : ∀ v, v < s.mesh.n_vertices → s.mesh.vv v ≠ [])
    (hwf : ∀ v, v < s.mesh.n_vertices → ∀ u ∈ s.mesh.vv v, u < s.mesh.n_vertices)
    (he : ∀ v, v < s.mesh.n_vertices → s.veavg_ v = Flt.fin (e v) ∧ 0 < e v)
    (hf : ∀ v, v < s.mesh.n_vertices → ∃ c : ℝ, s.vmeshdog_f_ v = Flt.fin c)
    (hd : ∀ v, v < s.mesh.n_vertices → Flt.isnan (s.vmeshdog_dog_ v) = false)
    (v : Nat) (hv : v < s.mesh.n_vertices) :
    (∃ r : ℝ, (conv_round realMath s).vmeshdog_f_ v = Flt.fin r) ∧
    Flt.isnan ((conv_round realMath s).vmeshdog_dog_ v) = false := by
  induction v using Nat.strong_induction_on with
  | _ v ih =>
    obtain ⟨h1, h2⟩ := conv_round_gauss_seidel realMath s v
    by_cases hc : Flt.isnan (s.vcurvature_ v) = false
    · rw [if_pos ⟨hv, hc⟩] at h1 h2
      have hfield : ∀ u ∈ s.mesh.vv v, ∃ c : ℝ,
          (if u < v then (conv_round realMath s).vmeshdog_f_ u else s.vmeshdog_f_ u)
            = Flt.fin c := by
        intro u hu
        by_cases huv : u < v
        · rw [if_pos huv]
          exact (ih u huv (hwf v hv u hu)).1
        · rw [if_neg huv]
          exact hf u (hwf v hv u hu)
      have hval1 : ∃ r : ℝ, (conv_round realMath s).vmeshdog_f_ v = Flt.fin r := by
        rw [h1]
        exact ⟨_, conv_value_real s.mesh s.veavg_ _ v (e v)
          (fun u => ((fun u : Nat => if u < v then (conv_round realMath s).vmeshdog_f_ u
            else s.vmeshdog_f_ u) u).toNum) hfin (he v hv).1 (he v hv).2 (hval v hv)
          (fun u hu => by
            obtain ⟨c, hc'⟩ := hfield u hu
            simp only [hc', Flt.toNum])⟩
      refine ⟨hval1, ?_⟩
      obtain ⟨r, hr⟩ := hval1
      obtain ⟨c, hc'⟩ := hf v hv
      rw [h2, hr, hc', Flt.fin_sub_fin]
      rfl
    · rw [if_neg (fun h => hc h.2)] at h1 h2
      exact ⟨by rw [h1]; exact hf v hv, by rw [h2]; exact hd v hv⟩

theorem flap_mesh_finite {α : Type} [LinearOrderedField α] (u : Nat) : ((flap_mesh : Mesh α).point u).isFinite = true := by
  simp only [flap_mesh]
  split <;> rfl

/-- One round on the zero response field. -/
theorem conv_round_zero {α : Type} [LinearOrderedField α] (M : MathFns α) (s : Viewer α)
    (hwf : ∀ v, v < s.mesh.n_vertices → ∀ u ∈ s.mesh.vv v, u < s.mesh.n_vertices)
    (hf : ∀ v, v < s.mesh.n_vertices → s.vmeshdog_f_ v = Flt.fin 0)
    (hk : ∀ v, v < s.mesh.n_vertices → Flt.isnan (s.vcurvature_ v) = false →
      ∃ κ : Nat → α, (∀ u ∈ s.mesh.vv v, kernel M s.mesh s.veavg_ v u = Flt.fin (κ u)) ∧
        ((s.mesh.vv v).map κ).sum ≠ 0)
    (v : Nat) (hv : v < s.mesh.n_vertices) :
    (conv_round M s).vmeshdog_f_ v = Flt.fin 0 ∧
    (conv_round M s).vmeshdog_dog_ v
      = if Flt.isnan (s.vcurvature_ v) = false then Flt.fin 0 else s.vmeshdog_dog_ v := by
  induction v using Nat.strong_induction_on with
  | _ v ih =>
    obtain ⟨h1, h2⟩ := conv_round_gauss_seidel M s v
    by_cases hc : Flt.isnan (s.vcurvature_ v) = false
    · rw [if_pos ⟨hv, hc⟩] at h1 h2
      obtain ⟨κ, hκ, hK⟩ := hk v hv hc
      have hval1 : (conv_round M s).vmeshdog_f_ v = Flt.fin 0 := by
        rw [h1, conv_value_finite M s.mesh s.veavg_ _ v κ (fun _ => 0) hκ (fun u hu => by
            show (if u < v then (conv_round M s).vmeshdog_f_ u else s.vmeshdog_f_ u) = _
            by_cases huv : u < v
            · rw [if_pos huv]
              exact (ih u huv (hwf v hv u hu)).1
            · rw [if_neg huv]
              exact hf u (hwf v hv u hu)) hK]
        simp
      refine ⟨hval1, ?_⟩
      rw [h2, if_pos hc, hval1, hf v hv, Flt.fin_sub_fin, sub_self]
    · rw [if_neg (fun h => hc h.2)] at h1 h2
      exact ⟨h1.trans (hf v hv), by rw [h2, if_neg hc]⟩

/-- The detection with one round on the zero response field. -/
theorem detect_zero {α : Type} [LinearOrderedField α] (M : MathFns α) (s : Viewer α)
    (hn : 0 < s.mesh.n_vertices)
    (hwf : ∀ v, v < s.mesh.n_vertices → ∀ u ∈ s.mesh.vv v, u < s.mesh.n_vertices)
    (hf : ∀ v, v < s.mesh.n_vertices → s.vmeshdog_f_ v = Flt.fin 0)
    (hk : ∀ v, v < s.mesh.n_vertices → Flt.isnan (s.vcurvature_ v) = false →
      ∃ κ : Nat → α, (∀ u ∈ s.mesh.vv v, kernel M s.mesh s.veavg_ v u = Flt.fin (κ u)) ∧
        ((s.mesh.vv v).map κ).sum ≠ 0)
    (hd : ∀ v, v < s.mesh.n_vertices → Flt.isnan (s.vcurvature_ v) = true →
      s.vmeshdog_dog_ v = Flt.fin 0) :
    ∃ t : Viewer α, detect_meshdog M s 1 = some t ∧
      (∀ v, v < s.mesh.n_vertices → t.vmeshdog_f_ v = Flt.fin 0) ∧
      (∀ v, v < s.mesh.n_vertices → t.vmeshdog_dog_ v = Flt.fin 0) ∧
      t._dog_feature_handles
        = (List.range s.mesh.n_vertices).filter (fun v => !Flt.isnan (s.vcurvature_ v)) ∧
      t._dog_feature_points = t._dog_feature_handles ∧
      ((∀ v, v < s.mesh.n_vertices → Flt.isnan (s.vcurvature_ v) = false) →
        t._dog_feature_handles = List.range s.mesh.n_vertices) ∧
      ((∀ v, v < s.mesh.n_vertices → Flt.isnan (s.vcurvature_ v) = true) →
        t._dog_feature_handles = []) := by
  have hconv : convolve M s 1 = conv_round M s := rfl
  have hN : (conv_round M s).mesh.n_vertices = s.mesh.n_vertices := by
    rw [conv_round_mesh]
  have hcurv : (conv_round M s).vcurvature_ = s.vcurvature_ :=
    (conv_prefix_frame M s _).2.2
  have hround := conv_round_zero M s hwf hf hk
  have hdog : ∀ v, v < s.mesh.n_vertices →
      (conv_round M s).vmeshdog_dog_ v = Flt.fin 0 := by
    intro v hv
    rw [(hround v hv).2]
    by_cases hc : Flt.isnan (s.vcurvature_ v) = false
    · rw [if_pos hc]
    · rw [if_neg hc]
      exact hd v hv (by simpa using hc)
  obtain ⟨thr, hthr, hsome⟩ := threshold_features_some (conv_round M s)
    (by rw [hN]; exact hn)
  have hthr0 : thr = Flt.fin 0 := by
    have hmem : thr ∈ vec_dog (conv_round M s) :=
      (sort_ascending_perm _).mem_iff.1 (List.getElem?_mem hthr)
    simp only [vec_dog, List.mem_map, List.mem_range] at hmem
    obtain ⟨v, hv, rfl⟩ := hmem
    exact hdog v (by rw [← hN]; exact hv)
  have hfilter : (List.range (conv_round M s).mesh.n_vertices).filter
        (is_feature (conv_round M s) thr)
      = (List.range s.mesh.n_vertices).filter (fun v => !Flt.isnan (s.vcurvature_ v)) := by
    rw [hN]
    apply List.filter_congr
    intro v hv
    rw [is_feature, hcurv, hdog v (List.mem_range.1 hv), hthr0]
    simp [Flt.ge, Flt.le]
  refine ⟨{ conv_round M s with
      _dog_feature_points := (List.range (conv_round M s).mesh.n_vertices).filter
        (is_feature (conv_round M s) thr)
      _dog_feature_handles := (List.range (conv_round M s).mesh.n_vertices).filter
        (is_feature (conv_round M s) thr) },
    by rw [detect_meshdog, hconv]; exact hsome, fun v hv => (hround v hv).1, hdog,
    hfilter, rfl, ?_, ?_⟩
  · intro hall
    refine hfilter.trans ?_
    rw [List.filter_eq_self]
    intro v hv
    simp [hall v (List.mem_range.1 hv)]
  · intro hall
    refine hfilter.trans ?_
    rw [List.filter_eq_nil_iff]
    intro v hv
    simp [hall v (List.mem_range.1 hv)]

/-- With a finite area weight and finite weights on the incident edges, on
finite positions, the Laplace-Beltrami mean curvature is a number. -/
theorem mean_curvature_finite (s : Viewer ℝ) (v : Nat)
    (hfin : ∀ u, (s.mesh.point u).isFinite = true) (hw : (s.vweight_ v).isFinite = true)
    (he : ∀ h ∈ s.mesh.voh v, (s.eweight_ h.2).isFinite = true) :
    ∃ c : ℝ, mean_curvature_at realMath s v = Flt.fin c := by
  obtain ⟨x, y, z, h⟩ := lb_laplace_finite s v hfin (s.mesh.voh v) he 0 0 0
  have hl : lb_laplace s v = Vec3.ofNums x y z := h
  cases hwv : s.vweight_ v with
  | fin w =>
    refine ⟨Real.sqrt (w * x * (w * x) + w * y * (w * y) + w * z * (w * z)) / 2, ?_⟩
    simp only [mean_curvature_at, hl, hwv, Vec3.smul_ofNums, Vec3.norm_ofNums]
    rw [Flt.fin_div_fin _ _ (by norm_num)]
    rfl
  | nan => rw [hwv] at hw; exact absurd hw (by simp [Flt.isFinite])
  | ninf => rw [hwv] at hw; exact absurd hw (by simp [Flt.isFinite])
  | pinf => rw [hwv] at hw; exact absurd hw (by simp [Flt.isFinite])

/-- Every edge weight `calc_weights` leaves in the state is a number. -/
theorem calc_weights_eweight_finite (m : Mesh ℝ) (e : Nat) :
    ((calc_weights realMath (Viewer.init m)).eweight_ e).isFinite = true := by
  rw [calc_weights_eweight]
  split
  · obtain ⟨w, hw, -, -⟩ := edge_weight_real m e
    show (edge_weight realMath m e).isFinite = true
    rw [hw]
    rfl
  · rfl

/-- The average edge length `open_mesh` stores for a vertex with a neighbour
at a non-zero distance is a positive number. -/
theorem veavg_prepared (m : Mesh ℝ) (hfin : ∀ u, (m.point u).isFinite = true) (v : Nat)
    (hv : v < m.n_vertices)
    (hpos : ∃ u ∈ m.vv v, 0 < dist_sq (m.point u) (m.point v)) :
    ∃ e : ℝ, (open_mesh_prepare realMath (Viewer.init m)).veavg_ v = Flt.fin e ∧ 0 < e := by
  have hm0 : (calc_triangle_quality realMath (calc_gauss_curvature realMath
      (calc_uniform_mean_curvature realMath (calc_mean_curvature realMath
        (calc_weights realMath (Viewer.init m)))))).mesh = m := by
    have h2 := (open_mesh_prepare_fields realMath m).1
    unfold open_mesh_prepare at h2
    rw [(init_meshdog_frame realMath _).1] at h2
    exact h2
  obtain ⟨u0, hu0, hd0⟩ := hpos
  have hne : m.vv v ≠ [] := List.ne_nil_of_mem hu0
  have hlen : 0 < (m.vv v).length := List.length_pos.2 hne
  have hsum : 0 < ((m.vv v).map (fun u => side_length realMath (m.point u) (m.point v))).sum :=
    sum_pos_of_mem _ _ (fun x _ => Real.sqrt_nonneg _) ⟨u0, hu0, Real.sqrt_pos.2 hd0⟩
  refine ⟨((m.vv v).map (fun u => side_length realMath (m.point u) (m.point v))).sum
    / ((m.vv v).length : ℝ), ?_, div_pos hsum (by exact_mod_cast hlen)⟩
  have hk : (edge_length_sum realMath m v).1 ≠ 0 := by rw [edge_length_sum_fst]; omega
  unfold open_mesh_prepare
  rw [init_meshdog_veavg]
  simp only [hm0]
  rw [if_pos hv, if_neg hk]
  have h2 : (edge_length_sum realMath m v).2
      = Flt.fin (0 + ((m.vv v).map
          (fun u => side_length realMath (m.point u) (m.point v))).sum) :=
    edge_length_sum_loop_finite realMath m v (hfin v) (m.vv v) (fun u _ => hfin u) 0 0
  rw [h2, edge_length_sum_fst, zero_add, Flt.fin_div_fin _ _ (by exact_mod_cast hlen.ne')]

/-- The state `open_mesh` reaches on the triangle with the degenerate flap
before the detection: `vcurvature_` is NaN at vertex 3, whose only face has no
area, and a number at the other three vertices; every average edge length is
positive and every DoG delta is `0`. -/
theorem flap_prepared :
    (open_mesh_prepare realMath (Viewer.init (flap_mesh : Mesh ℝ))).mesh = flap_mesh ∧
    Flt.isnan ((open_mesh_prepare realMath
      (Viewer.init (flap_mesh : Mesh ℝ))).vcurvature_ 3) = true ∧
    (∀ v, v < 3 → Flt.isnan ((open_mesh_prepare realMath
      (Viewer.init (flap_mesh : Mesh ℝ))).vcurvature_ v) = false) ∧
    (∀ v, v < 4 → ∃ e : ℝ, (open_mesh_prepare realMath
      (Viewer.init (flap_mesh : Mesh ℝ))).veavg_ v = Flt.fin e ∧ 0 < e) ∧
    (open_mesh_prepare realMath (Viewer.init (flap_mesh : Mesh ℝ))).vmeshdog_dog_
      = fun _ => Flt.fin 0 := by
  obtain ⟨hm, hc, -, hd⟩ := open_mesh_prepare_fields realMath (flap_mesh : Mesh ℝ)
  have hcm : (calc_weights realMath (Viewer.init (flap_mesh : Mesh ℝ))).mesh = flap_mesh :=
    calc_weights_mesh realMath _
  have harea0 : face_area realMath (flap_mesh : Mesh ℝ) 0 = 1 := by
    have h4 : Real.sqrt 4 = 2 := by
      rw [show (4 : ℝ) = 2 ^ 2 by norm_num]
      exact Real.sqrt_sq (by norm_num)
    simp [face_area, triangle_area, cross_sq, flap_mesh, Vec3.ofNums, Flt.toNum, realMath, h4]
  have harea1 : face_area realMath (flap_mesh : Mesh ℝ) 1 = 0 := by
    simp [face_area, triangle_area, cross_sq, flap_mesh, Vec3.ofNums, Flt.toNum, realMath]
  refine ⟨hm, ?_, ?_, ?_, hd⟩
  · rw [hc 3 (by decide)]
    have hw : (calc_weights realMath (Viewer.init (flap_mesh : Mesh ℝ))).vweight_ 3
        = Flt.pinf := by
      rw [calc_weights_vweight, if_pos (by decide)]
      show vertex_weight realMath flap_mesh 3 = _
      rw [vertex_weight_finite _ _ _ flap_mesh_finite, scaled_area_weight]
      have : incident_area realMath (flap_mesh : Mesh ℝ) 3 = 0 := by
        show face_area realMath flap_mesh 1 + 0 = 0
        rw [harea1, add_zero]
      rw [this]
      simp
    rw [mean_curvature_nan realMath _ 3 hw (by rw [hcm]; rfl) (by
      intro h hh
      rw [hcm] at hh ⊢
      have hvoh : (flap_mesh : Mesh ℝ).voh 3 = [(0, 3), (2, 4)] := rfl
      rw [hvoh] at hh
      simp only [List.mem_cons, List.mem_singleton, List.not_mem_nil, or_false] at hh
      rcases hh with rfl | rfl <;> rfl)]
    rfl
  · intro v hv
    rw [hc v (show v < 4 by omega)]
    have hinc : 0 < incident_area realMath (flap_mesh : Mesh ℝ) v := by
      apply sum_pos_of_mem _ _ (fun x _ => face_area_nonneg _ x)
      refine ⟨0, ?_, by rw [harea0]; norm_num⟩
      interval_cases v <;> simp [flap_mesh]
    have hw : ((calc_weights realMath (Viewer.init (flap_mesh : Mesh ℝ))).vweight_ v).isFinite
        = true := by
      rw [calc_weights_vweight, if_pos (show v < (Viewer.init
        (flap_mesh : Mesh ℝ)).mesh.n_vertices from by show v < 4; omega)]
      show (vertex_weight realMath flap_mesh v).isFinite = true
      rw [vertex_weight_finite _ _ _ flap_mesh_finite, scaled_area_weight, Flt.fin_mul_fin,
        Flt.fin_div_fin _ _ (by positivity)]
      rfl
    obtain ⟨c, hcv⟩ := mean_curvature_finite
      (calc_weights realMath (Viewer.init (flap_mesh : Mesh ℝ))) v
      (by rw [hcm]; exact flap_mesh_finite) hw
      (fun h _ => calc_weights_eweight_finite _ h.2)
    rw [hcv]
    rfl
  · intro v hv
    apply veavg_prepared _ flap_mesh_finite v hv
    interval_cases v
    · exact ⟨1, by simp [flap_mesh, Mesh.vv], by
        simp [dist_sq, flap_mesh, Vec3.ofNums, Flt.toNum]⟩
    · exact ⟨0, by simp [flap_mesh, Mesh.vv], by
        simp [dist_sq, flap_mesh, Vec3.ofNums, Flt.toNum]⟩
    · exact ⟨0, by simp [flap_mesh, Mesh.vv], by
        simp [dist_sq, flap_mesh, Vec3.ofNums, Flt.toNum]⟩
    · exact ⟨0, by simp [flap_mesh, Mesh.vv], by
        simp [dist_sq, flap_mesh, Vec3.ofNums, Flt.toNum]⟩


/-- The kernel weights of a vertex with a positive average edge length and a
neighbour, on finite positions, are numbers with a non-zero sum. -/
theorem kernel_sum_real (m : Mesh ℝ) (veavg : Nat → Flt ℝ) (v : Nat) (e : ℝ)
    (hfin : ∀ w, (m.point w).isFinite = true) (he : veavg v = Flt.fin e) (hpos : 0 < e)
    (hv : m.vv v ≠ []) :
    ∃ κ : Nat → ℝ, (∀ u ∈ m.vv v, kernel realMath m veavg v u = Flt.fin (κ u)) ∧
      ((m.vv v).map κ).sum ≠ 0 :=
  ⟨kernel_num realMath m e v, fun u _ => kernel_real m veavg v u e hfin he hpos,
    (kernel_sum_pos m e hpos v hv).ne'⟩

end DetectReal

/-! ## Smoothing -/

section SmoothingFacts

variable {α : Type} [LinearOrderedField α]

theorem uniform_smooth_point_congr (m m2 : Mesh α) (v : Nat) (hvoh : m2.voh = m.voh) :
    uniform_smooth_point m2 v = uniform_smooth_point (m.withPoints m2.point) v := by
  simp only [uniform_smooth_point, ring_sum, Mesh.vv, Mesh.withPoints, hvoh]

theorem smooth_point_congr (m m2 : Mesh α) (w : Nat → Flt α) (v : Nat) (hvoh : m2.voh = m.voh) :
    smooth_point m2 w v = smooth_point (m.withPoints m2.point) w v := by
  simp only [smooth_point, lb_sums, Mesh.withPoints, hvoh]

/-- One iteration of `uniform_smooth` is a sequential in-place sweep. -/
theorem uniform_smooth_round_in_place (s : Viewer α) (v : Nat) :
    (uniform_smooth_round s).mesh.point v
      = if v < s.mesh.n_vertices then
          uniform_smooth_point (s.mesh.withPoints (fun u =>
            if u < v then (uniform_smooth_round s).mesh.point u else s.mesh.point u)) v
        else s.mesh.point v :=
  sweep_in_place (fun st : Viewer α => st.mesh.point) uniform_smooth_vertex
    (fun pos v => uniform_smooth_point (s.mesh.withPoints pos) v)
    (fun st => st.mesh.voh = s.mesh.voh) (fun _ _ h => h)
    (fun st v w h => by
      show Function.update st.mesh.point v (uniform_smooth_point st.mesh v) w = _
      rw [Function.update_apply, uniform_smooth_point_congr s.mesh st.mesh v h])
    s.mesh.n_vertices s rfl v

/-- One iteration of `smooth` is a sequential in-place sweep. -/
theorem smooth_round_in_place (s : Viewer α) (v : Nat) :
    (smooth_round s).mesh.point v
      = if v < s.mesh.n_vertices then
          smooth_point (s.mesh.withPoints (fun u =>
            if u < v then (smooth_round s).mesh.point u else s.mesh.point u)) s.eweight_ v
        else s.mesh.point v :=
  sweep_in_place (fun st : Viewer α => st.mesh.point) smooth_vertex
    (fun pos v => smooth_point (s.mesh.withPoints pos) s.eweight_ v)
    (fun st => st.mesh.voh = s.mesh.voh ∧ st.eweight_ = s.eweight_) (fun _ _ h => h)
    (fun st v w h => by
      show Function.update st.mesh.point v (smooth_point st.mesh st.eweight_ v) w = _
      rw [Function.update_apply, smooth_point_congr s.mesh st.mesh _ v h.1, h.2])
    s.mesh.n_vertices s ⟨rfl, rfl⟩ v

theorem ring_sum_loop (m : Mesh α) (l : List Nat)
    (hfin : ∀ u ∈ l, (m.point u).isFinite = true) (a b c : α) (k : Nat) :
    l.foldl (fun acc u => (Vec3.add acc.1 (m.point u), acc.2 + Flt.fin 1))
        (Vec3.ofNums a b c, Flt.fin (k : α))
      = (Vec3.ofNums (a + coord_sum m Vec3.x l) (b + coord_sum m Vec3.y l)
          (c + coord_sum m Vec3.z l), Flt.fin ((k + l.length : Nat) : α)) := by
  induction l generalizing a b c k with
  | nil => simp [coord_sum]
  | cons u l ih =>
    obtain ⟨px, py, pz, hp⟩ := (Vec3.isFinite_iff _).1 (hfin u (List.mem_cons_self _ _))
    rw [List.foldl_cons]
    have hstep : (Vec3.add (Vec3.ofNums a b c) (m.point u), Flt.fin (k : α) + Flt.fin 1)
        = (Vec3.ofNums (a + px) (b + py) (c + pz), Flt.fin ((k + 1 : Nat) : α)) := by
      rw [hp, Vec3.add_ofNums, Flt.fin_add_fin]
      push_cast
      rfl
    rw [hstep, ih (fun w hw => hfin w (List.mem_cons_of_mem _ hw))]
    have hx : coord_sum m Vec3.x (u :: l) = px + coord_sum m Vec3.x l := by
      simp [coord_sum, hp, Vec3.ofNums, Flt.toNum]
    have hy : coord_sum m Vec3.y (u :: l) = py + coord_sum m Vec3.y l := by
      simp [coord_sum, hp, Vec3.ofNums, Flt.toNum]
    have hz : coord_sum m Vec3.z (u :: l) = pz + coord_sum m Vec3.z l := by
      simp [coord_sum, hp, Vec3.ofNums, Flt.toNum]
    have hk : k + 1 + l.length = k + (l.length + 1) := by omega
    rw [hx, hy, hz, List.length_cons, hk, add_assoc a, add_assoc b, add_assoc c]

/-- The position `uniform_smooth` assigns to a vertex with at least one
neighbour, on finite positions: coordinate by coordinate, the midpoint of the
old coordinate and the mean over the one-ring. -/
theorem uniform_smooth_point_finite (m : Mesh α) (v : Nat) (hne : m.vv v ≠ [])
    (hv : (m.point v).isFinite = true) (hfin : ∀ u ∈ m.vv v, (m.point u).isFinite = true) :
    uniform_smooth_point m v
      = Vec3.ofNums (half_step m Vec3.x v) (half_step m Vec3.y v) (half_step m Vec3.z v) := by
  obtain ⟨px, py, pz, hp⟩ := (Vec3.isFinite_iff _).1 hv
  have hr : ring_sum m v
      = (Vec3.ofNums (0 + coord_sum m Vec3.x (m.vv v)) (0 + coord_sum m Vec3.y (m.vv v))
          (0 + coord_sum m Vec3.z (m.vv v)), Flt.fin ((0 + (m.vv v).length : Nat) : α)) := by
    have := ring_sum_loop m (m.vv v) hfin 0 0 0 0
    simpa [ring_sum, Vec3.zero] using this
  have hlen : (((0 + (m.vv v).length : Nat) : α)) ≠ 0 := by
    have : 0 < (m.vv v).length := List.length_pos.2 hne
    rw [zero_add]
    exact_mod_cast this.ne'
  simp only [zero_add] at hr hlen
  simp only [uniform_smooth_point, hr]
  rw [Vec3.sdiv_ofNums _ _ _ _ hlen, hp, Vec3.sub_ofNums,
    Vec3.sdiv_ofNums _ _ _ _ (two_ne_zero : (2 : α) ≠ 0), Vec3.add_ofNums]
  simp only [half_step, hp]
  rfl

theorem sum_bounds (g : Nat → α) (lo hi : α) (l : List Nat)
    (h : ∀ u ∈ l, lo ≤ g u ∧ g u ≤ hi) :
    lo * (l.length : α) ≤ (l.map g).sum ∧ (l.map g).sum ≤ hi * (l.length : α) := by
  induction l with
  | nil => simp
  | cons a l ih =>
    obtain ⟨h1, h2⟩ := ih (fun u hu => h u (List.mem_cons_of_mem _ hu))
    obtain ⟨ha1, ha2⟩ := h a (List.mem_cons_self _ _)
    simp only [List.map_cons, List.sum_cons, List.length_cons, Nat.cast_add, Nat.cast_one]
    constructor <;> nlinarith

/-- The midpoint of a coordinate in `[lo, hi]` and a mean of coordinates in
`[lo, hi]` is in `[lo, hi]`. -/
theorem half_step_bounds (m : Mesh α) (sel : Vec3 α → Flt α) (v : Nat) (lo hi : α)
    (hne : m.vv v ≠ []) (hv : lo ≤ (sel (m.point v)).toNum ∧ (sel (m.point v)).toNum ≤ hi)
    (hu : ∀ u ∈ m.vv v, lo ≤ (sel (m.point u)).toNum ∧ (sel (m.point u)).toNum ≤ hi) :
    lo ≤ half_step m sel v ∧ half_step m sel v ≤ hi := by
  have hk : (0 : α) < ((m.vv v).length : α) := by
    exact_mod_cast List.length_pos.2 hne
  obtain ⟨h1, h2⟩ := sum_bounds (fun u => (sel (m.point u)).toNum) lo hi (m.vv v) hu
  have hmean1 : lo ≤ coord_sum m sel (m.vv v) / ((m.vv v).length : α) := by
    rw [le_div_iff₀ hk]
    exact h1
  have hmean2 : coord_sum m sel (m.vv v) / ((m.vv v).length : α) ≤ hi := by
    rw [div_le_iff₀ hk]
    exact h2
  unfold half_step
  constructor <;> linarith [hv.1, hv.2]

theorem in_box_coords (lo hi : α × α × α) (p : Vec3 α) (h : in_box lo hi p) :
    p.isFinite = true ∧ (lo.1 ≤ p.x.toNum ∧ p.x.toNum ≤ hi.1) ∧
    (lo.2.1 ≤ p.y.toNum ∧ p.y.toNum ≤ hi.2.1) ∧ (lo.2.2 ≤ p.z.toNum ∧ p.z.toNum ≤ hi.2.2) := by
  obtain ⟨a, b, c, rfl, h1, h2, h3, h4, h5, h6⟩ := h
  exact ⟨rfl, ⟨h1, h2⟩, ⟨h3, h4⟩, ⟨h5, h6⟩⟩

/-- The vertex step of `uniform_smooth` keeps a vertex in a box that holds it
and its neighbours. -/
theorem uniform_smooth_point_in_box (m : Mesh α) (v : Nat) (lo hi : α × α × α)
    (hne : m.vv v ≠ []) (hv : in_box lo hi (m.point v))
    (hu : ∀ u ∈ m.vv v, in_box lo hi (m.point u)) :
    in_box lo hi (uniform_smooth_point m v) := by
  obtain ⟨fv, bx, b_y, bz⟩ := in_box_coords lo hi _ hv
  rw [uniform_smooth_point_finite m v hne fv (fun u h => (in_box_coords lo hi _ (hu u h)).1)]
  obtain ⟨x1, x2⟩ := half_step_bounds m Vec3.x v lo.1 hi.1 hne bx
    (fun u h => (in_box_coords lo hi _ (hu u h)).2.1)
  obtain ⟨y1, y2⟩ := half_step_bounds m Vec3.y v lo.2.1 hi.2.1 hne b_y
    (fun u h => (in_box_coords lo hi _ (hu u h)).2.2.1)
  obtain ⟨z1, z2⟩ := half_step_bounds m Vec3.z v lo.2.2 hi.2.2 hne bz
    (fun u h => (in_box_coords lo hi _ (hu u h)).2.2.2)
  exact ⟨_, _, _, rfl, x1, x2, y1, y2, z1, z2⟩

/-- The loop invariant of `uniform_smooth`: connectivity unchanged and all
vertices in the box. -/
theorem uniform_smooth_loop_in_box (s : Viewer α) (lo hi : α × α × α)
    (hval : ∀ v, v < s.mesh.n_vertices → s.mesh.vv v ≠ [])
    (hwf : ∀ v, v < s.mesh.n_vertices → ∀ u ∈ s.mesh.vv v, u < s.mesh.n_vertices)
    (l : List Nat) (hl : ∀ v ∈ l, v < s.mesh.n_vertices) (st : Viewer α)
    (h : st.mesh.voh = s.mesh.voh ∧ st.mesh.n_vertices = s.mesh.n_vertices ∧
      ∀ u, u < s.mesh.n_vertices → in_box lo hi (st.mesh.point u)) :
    (l.foldl uniform_smooth_vertex st).mesh.voh = s.mesh.voh ∧
    (l.foldl uniform_smooth_vertex st).mesh.n_vertices = s.mesh.n_vertices ∧
    ∀ u, u < s.mesh.n_vertices → in_box lo hi ((l.foldl uniform_smooth_vertex st).mesh.point u) := by
  induction l generalizing st with
  | nil => exact h
  | cons v l ih =>
    rw [List.foldl_cons]
    apply ih (fun w hw => hl w (List.mem_cons_of_mem _ hw))
    obtain ⟨hvoh, hn, hbox⟩ := h
    have hv := hl v (List.mem_cons_self _ _)
    have hvv : st.mesh.vv v = s.mesh.vv v := by simp only [Mesh.vv, hvoh]
    refine ⟨hvoh, hn, fun u hu => ?_⟩
    show in_box lo hi (Function.update st.mesh.point v (uniform_smooth_point st.mesh v) u)
    rw [Function.update_apply]
    split
    · apply uniform_smooth_point_in_box
      · rw [hvv]; exact hval v hv
      · exact hbox v hv
      · intro w hw
        rw [hvv] at hw
        exact hbox w (hwf v hv w hw)
    · exact hbox u hu

/-- The position `smooth` assigns to a vertex with two outgoing halfedges, on
finite positions and finite edge weights. -/
theorem smooth_point_two (m : Mesh α) (ew : Nat → Flt α) (v a b e1 e2 : Nat)
    (hvoh : m.voh v = [(a, e1), (b, e2)]) (w1 w2 : α) (h1 : ew e1 = Flt.fin w1)
    (h2 : ew e2 = Flt.fin w2) (hw : w1 + w2 ≠ 0) (px py pz ax ay az bx b_y bz : α)
    (hp : m.point v = Vec3.ofNums px py pz) (ha : m.point a = Vec3.ofNums ax ay az)
    (hb : m.point b = Vec3.ofNums bx b_y bz) :
    smooth_point m ew v
      = Vec3.ofNums (px + (w1 * (ax - px) + w2 * (bx - px)) / (w1 + w2) / 2)
          (py + (w1 * (ay - py) + w2 * (b_y - py)) / (w1 + w2) / 2)
          (pz + (w1 * (az - pz) + w2 * (bz - pz)) / (w1 + w2) / 2) := by
  have hsum : lb_sums m ew v
      = (Vec3.ofNums (w1 * (ax - px) + w2 * (bx - px)) (w1 * (ay - py) + w2 * (b_y - py))
          (w1 * (az - pz) + w2 * (bz - pz)), Flt.fin (w1 + w2)) := by
    simp only [lb_sums, hvoh, List.foldl_cons, List.foldl_nil, h1, h2, hp, ha, hb, Vec3.zero,
      Vec3.sub_ofNums, Vec3.smul_ofNums]
    show (Vec3.add (Vec3.add (Vec3.ofNums 0 0 0) _) _, _) = _
    rw [Vec3.add_ofNums, Vec3.add_ofNums, Flt.fin_add_fin, Flt.fin_add_fin]
    simp only [zero_add]
  simp only [smooth_point, hsum]
  rw [Vec3.sdiv_ofNums _ _ _ _ hw, Vec3.sdiv_ofNums _ _ _ _ (two_ne_zero : (2 : α) ≠ 0), hp,
    Vec3.add_ofNums]

/-- The position `uniform_smooth` assigns to a vertex with two neighbours, on
finite positions. -/
theorem uniform_smooth_point_two (m : Mesh α) (v a b : Nat)
    (hvv : m.vv v = [a, b]) (px py pz ax ay az bx b_y bz : α)
    (hp : m.point v = Vec3.ofNums px py pz) (ha : m.point a = Vec3.ofNums ax ay az)
    (hb : m.point b = Vec3.ofNums bx b_y bz) :
    uniform_smooth_point m v
      = Vec3.ofNums (px + ((ax + bx) / 2 - px) / 2) (py + ((ay + b_y) / 2 - py) / 2)
          (pz + ((az + bz) / 2 - pz) / 2) := by
  rw [uniform_smooth_point_finite m v (by rw [hvv]; simp) (by rw [hp]; rfl) (by
    intro u hu
    rw [hvv] at hu
    simp only [List.mem_cons, List.mem_singleton, List.not_mem_nil, or_false] at hu
    rcases hu with rfl | rfl
    · rw [ha]; rfl
    · rw [hb]; rfl)]
  simp only [half_step, coord_sum, hvv, hp, ha, hb, List.map_cons, List.map_nil, List.sum_cons,
    List.sum_nil, List.length_cons, List.length_nil, Vec3.ofNums, Flt.toNum]
  norm_num

/-! ### One iteration on the right triangle -/

theorem right_triangle_uniform_first :
    (uniform_smooth_round (Viewer.init (right_triangle : Mesh ℚ))).mesh.point 0
      = Vec3.ofNums (1 / 4) (1 / 4) 0 := by
  rw [uniform_smooth_round_in_place, if_pos (by decide)]
  refine (uniform_smooth_point_two
    ((Viewer.init (right_triangle : Mesh ℚ)).mesh.withPoints (fun u =>
      if u < 0 then (uniform_smooth_round (Viewer.init (right_triangle : Mesh ℚ))).mesh.point u
      else (Viewer.init (right_triangle : Mesh ℚ)).mesh.point u))
    0 2 1 rfl 0 0 0 0 1 0 1 0 0 rfl rfl rfl).trans ?_
  norm_num

theorem right_triangle_uniform_second :
    (uniform_smooth_round (Viewer.init (right_triangle : Mesh ℚ))).mesh.point 1
      = Vec3.ofNums (9 / 16) (5 / 16) 0 := by
  rw [uniform_smooth_round_in_place, if_pos (by decide)]
  refine (uniform_smooth_point_two
    ((Viewer.init (right_triangle : Mesh ℚ)).mesh.withPoints (fun u =>
      if u < 1 then (uniform_smooth_round (Viewer.init (right_triangle : Mesh ℚ))).mesh.point u
      else (Viewer.init (right_triangle : Mesh ℚ)).mesh.point u))
    1 0 2 rfl 1 0 0 (1 / 4) (1 / 4) 0 0 1 0 rfl
    right_triangle_uniform_first rfl).trans ?_
  norm_num

theorem right_triangle_uniform_sync :
    (uniform_smooth_round_sync (Viewer.init (right_triangle : Mesh ℚ))).mesh.point 1
      = Vec3.ofNums (1 / 2) (1 / 4) 0 := by
  refine (uniform_smooth_point_two (right_triangle : Mesh ℚ) 1 0 2 rfl 1 0 0 0 0 0 0 1 0
    rfl rfl rfl).trans ?_
  norm_num

theorem right_triangle_smooth_first :
    (smooth_round (unit_weights (right_triangle : Mesh ℚ))).mesh.point 0
      = Vec3.ofNums (1 / 4) (1 / 4) 0 := by
  rw [smooth_round_in_place, if_pos (by decide)]
  refine (smooth_point_two
    ((unit_weights (right_triangle : Mesh ℚ)).mesh.withPoints (fun u =>
      if u < 0 then (smooth_round (unit_weights (right_triangle : Mesh ℚ))).mesh.point u
      else (unit_weights (right_triangle : Mesh ℚ)).mesh.point u))
    (unit_weights (right_triangle : Mesh ℚ)).eweight_
    0 2 1 2 0 rfl 1 1 rfl rfl (by norm_num) 0 0 0 0 1 0 1 0 0 rfl rfl rfl).trans ?_
  norm_num

theorem right_triangle_smooth_second :
    (smooth_round (unit_weights (right_triangle : Mesh ℚ))).mesh.point 1
      = Vec3.ofNums (9 / 16) (5 / 16) 0 := by
  rw [smooth_round_in_place, if_pos (by decide)]
  refine (smooth_point_two
    ((unit_weights (right_triangle : Mesh ℚ)).mesh.withPoints (fun u =>
      if u < 1 then (smooth_round (unit_weights (right_triangle : Mesh ℚ))).mesh.point u
      else (unit_weights (right_triangle : Mesh ℚ)).mesh.point u))
    (unit_weights (right_triangle : Mesh ℚ)).eweight_
    1 0 2 0 1 rfl 1 1 rfl rfl (by norm_num) 1 0 0 (1 / 4) (1 / 4) 0 0 1 0 rfl
    right_triangle_smooth_first rfl).trans ?_
  norm_num

theorem right_triangle_smooth_sync :
    (smooth_round_sync (unit_weights (right_triangle : Mesh ℚ))).mesh.point 1
      = Vec3.ofNums (1 / 2) (1 / 4) 0 := by
  refine (smooth_point_two (right_triangle : Mesh ℚ)
    (unit_weights (right_triangle : Mesh ℚ)).eweight_ 1 0 2 0 1 rfl 1 1 rfl rfl (by norm_num)
    1 0 0 0 0 0 0 1 0 rfl rfl rfl).trans ?_
  norm_num

omit [LinearOrderedField α] in
theorem ofNums_injective (a b c d e f : α)
    (h : Vec3.ofNums a b c = Vec3.ofNums d e f) : a = d ∧ b = e ∧ c = f := by
  simp only [Vec3.ofNums, Vec3.mk.injEq, Flt.fin.injEq] at h
  exact h

theorem foldr_min_le (g : Nat → α) (a : α) (l : List Nat) (u : Nat) (hu : u ∈ l) :
    (l.map g).foldr min a ≤ g u := by
  induction l with
  | nil => cases hu
  | cons b l ih =>
    rw [List.map_cons, List.foldr_cons]
    rcases List.mem_cons.1 hu with rfl | h
    · exact min_le_left _ _
    · exact (min_le_right _ _).trans (ih h)

theorem le_foldr_max (g : Nat → α) (a : α) (l : List Nat) (u : Nat) (hu : u ∈ l) :
    g u ≤ (l.map g).foldr max a := by
  induction l with
  | nil => cases hu
  | cons b l ih =>
    rw [List.map_cons, List.foldr_cons]
    rcases List.mem_cons.1 hu with rfl | h
    · exact le_max_left _ _
    · exact (ih h).trans (le_max_right _ _)

theorem input_in_box (m : Mesh α) (hfin : ∀ u, u < m.n_vertices → (m.point u).isFinite = true)
    (u : Nat) (hu : u < m.n_vertices) :
    in_box (coord_min m Vec3.x, coord_min m Vec3.y, coord_min m Vec3.z)
      (coord_max m Vec3.x, coord_max m Vec3.y, coord_max m Vec3.z) (m.point u) := by
  obtain ⟨a, b, c, h⟩ := (Vec3.isFinite_iff _).1 (hfin u hu)
  have hmem : u ∈ List.range m.n_vertices := List.mem_range.2 hu
  have e1 : a = (Vec3.x (m.point u)).toNum := by rw [h]; rfl
  have e2 : b = (Vec3.y (m.point u)).toNum := by rw [h]; rfl
  have e3 : c = (Vec3.z (m.point u)).toNum := by rw [h]; rfl
  refine ⟨a, b, c, h, ?_, ?_, ?_, ?_, ?_, ?_⟩
  · rw [e1]; exact foldr_min_le (fun w => (Vec3.x (m.point w)).toNum) _ _ u hmem
  · rw [e1]; exact le_foldr_max (fun w => (Vec3.x (m.point w)).toNum) _ _ u hmem
  · rw [e2]; exact foldr_min_le (fun w => (Vec3.y (m.point w)).toNum) _ _ u hmem
  · rw [e2]; exact le_foldr_max (fun w => (Vec3.y (m.point w)).toNum) _ _ u hmem
  · rw [e3]; exact foldr_min_le (fun w => (Vec3.z (m.point w)).toNum) _ _ u hmem
  · rw [e3]; exact le_foldr_max (fun w => (Vec3.z (m.point w)).toNum) _ _ u hmem

theorem uniform_smooth_in_box (s : Viewer α) (lo hi : α × α × α)
    (hval : ∀ v, v < s.mesh.n_vertices → s.mesh.vv v ≠ [])
    (hwf : ∀ v, v < s.mesh.n_vertices → ∀ u ∈ s.mesh.vv v, u < s.mesh.n_vertices)
    (hbox : ∀ u, u < s.mesh.n_vertices → in_box lo hi (s.mesh.point u)) (k : Nat) :
    (uniform_smooth s k).mesh.voh = s.mesh.voh ∧
    (uniform_smooth s k).mesh.n_vertices = s.mesh.n_vertices ∧
    ∀ u, u < s.mesh.n_vertices → in_box lo hi ((uniform_smooth s k).mesh.point u) := by
  induction k with
  | zero => exact ⟨rfl, rfl, hbox⟩
  | succ k ih =>
    have hstep : uniform_smooth s (k + 1) = uniform_smooth_round (uniform_smooth s k) := by
      simp only [uniform_smooth, Function.iterate_succ_apply']
    rw [hstep]
    unfold uniform_smooth_round
    rw [ih.2.1]
    exact uniform_smooth_loop_in_box s lo hi hval hwf (List.range s.mesh.n_vertices)
      (fun v hv => List.mem_range.1 hv) (uniform_smooth s k) ih

end SmoothingFacts

/-! ## Rounding to a format -/

section Rounding

theorem bitsAux_spec (fuel : Nat) : ∀ n : Nat, n ≤ fuel → 0 < n →
    2 ^ (bitsAux fuel n - 1) ≤ n ∧ n < 2 ^ bitsAux fuel n ∧ 0 < bitsAux fuel n := by
  induction fuel with
  | zero => intro n h1 h2; omega
  | succ fuel ih =>
    intro n h1 h2
    have hn : n ≠ 0 := by omega
    simp only [bitsAux, if_neg hn]
    rcases Nat.eq_zero_or_pos (n / 2) with h0 | h0
    · have h1 : n = 1 := by omega
      subst h1
      have hb : bitsAux fuel (1 / 2) = 0 := by
        cases fuel <;> simp [bitsAux]
      rw [hb]
      simp
    · obtain ⟨h3, h4, h5⟩ := ih (n / 2) (by omega) h0
      refine ⟨?_, ?_, by omega⟩
      · have h6 : bitsAux fuel (n / 2) + 1 - 1 = (bitsAux fuel (n / 2) - 1) + 1 := by omega
        rw [h6, pow_succ]
        omega
      · rw [pow_succ]
        omega

theorem pow2_eq (k : Int) : pow2 k = 2 ^ k := by
  unfold pow2
  split_ifs with h
  · have h1 : ((k.toNat : Nat) : Int) = k := Int.toNat_of_nonneg h
    rw [Nat.cast_pow, Nat.cast_ofNat, ← zpow_natCast, h1]
  · have h1 : (((-k).toNat : Nat) : Int) = -k := Int.toNat_of_nonneg (by omega)
    rw [Nat.cast_pow, Nat.cast_ofNat, ← zpow_natCast, h1, zpow_neg, one_div, inv_inv]

theorem bitLength_spec (n : Nat) (hn : 0 < n) :
    2 ^ (bitLength n - 1) ≤ n ∧ n < 2 ^ bitLength n ∧ 0 < bitLength n :=
  bitsAux_spec n n le_rfl hn

theorem abs_eq_natAbs_div (q : ℚ) : |q| = (q.num.natAbs : ℚ) / (q.den : ℚ) := by
  have h1 : |q| = |(q.num : ℚ)| / |(q.den : ℚ)| := by
    rw [← abs_div, Rat.num_div_den]
  have hd : |(q.den : ℚ)| = (q.den : ℚ) := abs_of_nonneg (Nat.cast_nonneg _)
  rw [h1, hd, Nat.cast_natAbs, Int.cast_abs]

/-- The binary exponent is a lower bound: `2^(flog2 q) <= |q|`. -/
theorem flog2_le (q : ℚ) (hq : q ≠ 0) : (2 : ℚ) ^ flog2 q ≤ |q| := by
  unfold flog2
  simp only [pow2_eq]
  split_ifs with h
  · exact h
  · have hN : 0 < q.num.natAbs := Int.natAbs_pos.2 (Rat.num_ne_zero.2 hq)
    obtain ⟨a1, _, a3⟩ := bitLength_spec _ hN
    obtain ⟨_, b2, _⟩ := bitLength_spec _ q.den_pos
    have hD : (0 : ℚ) < q.den := by exact_mod_cast q.den_pos
    rw [abs_eq_natAbs_div, le_div_iff₀ hD]
    have e1 : ((bitLength q.num.natAbs : Int) - (bitLength q.den : Int) - 1)
        = ((bitLength q.num.natAbs - 1 : Nat) : Int) - (bitLength q.den : Int) := by omega
    rw [e1, zpow_sub₀ (by norm_num), zpow_natCast, zpow_natCast]
    have a1q : ((2 : ℚ) ^ (bitLength q.num.natAbs - 1)) ≤ (q.num.natAbs : ℚ) := by exact_mod_cast a1
    have b2q : (q.den : ℚ) ≤ (2 : ℚ) ^ bitLength q.den := by exact_mod_cast b2.le
    have hp : (0 : ℚ) < 2 ^ bitLength q.den := by positivity
    calc (2 : ℚ) ^ (bitLength q.num.natAbs - 1) / 2 ^ bitLength q.den * q.den
        ≤ (2 : ℚ) ^ (bitLength q.num.natAbs - 1) / 2 ^ bitLength q.den * 2 ^ bitLength q.den :=
          mul_le_mul_of_nonneg_left b2q (by positivity)
      _ = (2 : ℚ) ^ (bitLength q.num.natAbs - 1) := by field_simp
      _ ≤ _ := a1q

/-- The binary exponent is sharp: `|q| < 2^(flog2 q + 1)`. -/
theorem lt_flog2 (q : ℚ) (hq : q ≠ 0) : |q| < (2 : ℚ) ^ (flog2 q + 1) := by
  unfold flog2
  simp only [pow2_eq]
  split_ifs with h
  · have hN : 0 < q.num.natAbs := Int.natAbs_pos.2 (Rat.num_ne_zero.2 hq)
    obtain ⟨_, a2, _⟩ := bitLength_spec _ hN
    obtain ⟨b1, _, b3⟩ := bitLength_spec _ q.den_pos
    have hD : (0 : ℚ) < q.den := by exact_mod_cast q.den_pos
    rw [abs_eq_natAbs_div, div_lt_iff₀ hD]
    have e1 : ((bitLength q.num.natAbs : Int) - (bitLength q.den : Int) + 1)
        = (bitLength q.num.natAbs : Int) - ((bitLength q.den - 1 : Nat) : Int) := by omega
    rw [e1, zpow_sub₀ (by norm_num), zpow_natCast, zpow_natCast]
    have a2q : (q.num.natAbs : ℚ) < (2 : ℚ) ^ bitLength q.num.natAbs := by exact_mod_cast a2
    have b1q : (2 : ℚ) ^ (bitLength q.den - 1) ≤ (q.den : ℚ) := by exact_mod_cast b1
    calc (q.num.natAbs : ℚ) < (2 : ℚ) ^ bitLength q.num.natAbs := a2q
      _ = (2 : ℚ) ^ bitLength q.num.natAbs / 2 ^ (bitLength q.den - 1)
            * 2 ^ (bitLength q.den - 1) := by field_simp
      _ ≤ _ := mul_le_mul_of_nonneg_left b1q (by positivity)
  · rw [sub_add_cancel]
    exact not_le.1 h

theorem rne_mem (x : ℚ) : rne x = ⌊x⌋ ∨ rne x = ⌊x⌋ + 1 := by
  unfold rne
  simp only
  split_ifs <;> simp

/-- Rounding to the nearest integer does not cross an integer above. -/
theorem rne_le (x : ℚ) (n : Int) (h : x ≤ n) : rne x ≤ n := by
  rcases eq_or_lt_of_le h with h1 | h1
  · subst h1
    unfold rne
    simp
  · have h2 : ⌊x⌋ < n := Int.floor_lt.2 h1
    rcases rne_mem x with h3 | h3 <;> omega

/-- Rounding to the nearest integer does not cross an integer below. -/
theorem le_rne (x : ℚ) (n : Int) (h : (n : ℚ) ≤ x) : n ≤ rne x := by
  have h2 : n ≤ ⌊x⌋ := Int.le_floor.2 h
  rcases rne_mem x with h3 | h3 <;> omega

end Rounding

section RoundingOrder

/-- A multiple of `2^e` on one side of `x` stays on that side of the nearest
multiple of `2^e`. -/
theorem grid_point (n e : Int) (x : ℚ) :
    ((n : ℚ) * 2 ^ e ≤ x → (n : ℚ) * 2 ^ e ≤ (rne (x / 2 ^ e) : ℚ) * 2 ^ e) ∧
    (x ≤ (n : ℚ) * 2 ^ e → (rne (x / 2 ^ e) : ℚ) * 2 ^ e ≤ (n : ℚ) * 2 ^ e) := by
  have hp : (0 : ℚ) < 2 ^ e := by positivity
  constructor
  · intro h
    have h1 : (n : ℚ) ≤ x / 2 ^ e := (le_div_iff₀ hp).2 h
    have h2 : ((n : Int) : ℚ) ≤ ((rne (x / 2 ^ e) : Int) : ℚ) := by exact_mod_cast le_rne _ _ h1
    exact mul_le_mul_of_nonneg_right h2 hp.le
  · intro h
    have h1 : x / 2 ^ e ≤ (n : ℚ) := (div_le_iff₀ hp).2 h
    have h2 : ((rne (x / 2 ^ e) : Int) : ℚ) ≤ ((n : Int) : ℚ) := by exact_mod_cast rne_le _ _ h1
    exact mul_le_mul_of_nonneg_right h2 hp.le

/-- A positive number of the format is a multiple of the last place at `q`,
or it is at most the power of two below `|q|`, which is such a multiple. -/
theorem rep_grid (F : Fmt) (hp : 0 < F.prec) (b q : ℚ) (hb : F.Rep b) :
    (∃ n : Int, b = n * 2 ^ lastPlace F q) ∨
    (b ≤ 2 ^ flog2 q ∧ ∃ n : Int, (2 : ℚ) ^ flog2 q = n * 2 ^ lastPlace F q) := by
  obtain ⟨m, e1, he1, hm, hbe, _⟩ := hb
  by_cases h : lastPlace F q ≤ e1
  · left
    refine ⟨m * 2 ^ (e1 - lastPlace F q).toNat, ?_⟩
    have h1 : ((e1 - lastPlace F q).toNat : Int) = e1 - lastPlace F q :=
      Int.toNat_of_nonneg (by omega)
    have h2 : (2 : ℚ) ^ e1 = 2 ^ (e1 - lastPlace F q).toNat * 2 ^ lastPlace F q := by
      rw [← zpow_natCast, ← zpow_add₀ (by norm_num), h1, sub_add_cancel]
    rw [hbe, h2]
    push_cast
    ring
  · right
    have h1 : lastPlace F q = flog2 q - (F.prec - 1 : Nat) := by
      unfold lastPlace at h ⊢
      omega
    have h2 : flog2 q = lastPlace F q + (F.prec - 1 : Nat) := by omega
    have h3 : (2 : ℚ) ^ flog2 q = 2 ^ (F.prec - 1) * 2 ^ lastPlace F q := by
      rw [h2, zpow_add₀ (by norm_num), zpow_natCast]
      ring
    refine ⟨?_, 2 ^ (F.prec - 1), by rw [h3]; push_cast; ring⟩
    have hm1 : (m : ℚ) ≤ 2 ^ F.prec := by
      have h4 : m ≤ 2 ^ F.prec := le_trans (le_abs_self m) hm
      exact_mod_cast h4
    have h5 : (2 : ℚ) ^ e1 ≤ 2 ^ (lastPlace F q - 1) :=
      zpow_le_zpow_right₀ (by norm_num) (by omega)
    have h6 : (2 : ℚ) ^ F.prec * 2 ^ (lastPlace F q - 1) = 2 ^ flog2 q := by
      rw [h2, ← zpow_natCast, ← zpow_add₀ (by norm_num)]
      congr 1
      have h7 : ((F.prec - 1 : Nat) : Int) = (F.prec : Int) - 1 := by omega
      omega
    calc b = (m : ℚ) * 2 ^ e1 := hbe
      _ ≤ 2 ^ F.prec * 2 ^ e1 := mul_le_mul_of_nonneg_right hm1 (by positivity)
      _ ≤ 2 ^ F.prec * 2 ^ (lastPlace F q - 1) := mul_le_mul_of_nonneg_left h5 (by positivity)
      _ = 2 ^ flog2 q := h6

/-- Rounding does not cross a number of the format above `|q|`. -/
theorem grid_round_le (F : Fmt) (hp : 0 < F.prec) (b q : ℚ) (hb : F.Rep b) (hq : q ≠ 0)
    (h : |q| ≤ b) :
    (rne (|q| / 2 ^ lastPlace F q) : ℚ) * 2 ^ lastPlace F q ≤ b := by
  rcases rep_grid F hp b q hb with ⟨n, hn⟩ | ⟨hbL, n, hn⟩
  · rw [hn] at h ⊢
    exact (grid_point n _ _).2 h
  · have h1 : |q| ≤ (n : ℚ) * 2 ^ lastPlace F q := by
      rw [← hn]
      exact le_trans h hbL
    have h2 := (grid_point n _ _).2 h1
    rw [← hn] at h2
    exact le_trans h2 (le_trans (flog2_le q hq) h)

/-- Rounding does not cross a number of the format below `|q|`. -/
theorem le_grid_round (F : Fmt) (hp : 0 < F.prec) (b q : ℚ) (hb : F.Rep b) (hq : q ≠ 0)
    (h : b ≤ |q|) :
    b ≤ (rne (|q| / 2 ^ lastPlace F q) : ℚ) * 2 ^ lastPlace F q := by
  rcases rep_grid F hp b q hb with ⟨n, hn⟩ | ⟨hbL, n, hn⟩
  · rw [hn] at h ⊢
    exact (grid_point n _ _).1 h
  · have h1 : (n : ℚ) * 2 ^ lastPlace F q ≤ |q| := by
      rw [← hn]
      exact flog2_le q hq
    have h2 := (grid_point n _ _).1 h1
    rw [← hn] at h2
    exact le_trans hbL h2

theorem Fmt.rep_zero (F : Fmt) : F.Rep 0 :=
  ⟨0, F.emin, le_rfl, by positivity, by simp, by positivity⟩

theorem Fmt.rep_neg (F : Fmt) (b : ℚ) (hb : F.Rep b) : F.Rep (-b) := by
  obtain ⟨m, e, h1, h2, h3, h4⟩ := hb
  refine ⟨-m, e, h1, by rwa [abs_neg], ?_, by rwa [abs_neg]⟩
  rw [h3]
  push_cast
  ring

/-- The rounded magnitude is a number of the format unless it overflows. -/
theorem round_mag_rep (F : Fmt) (hp : 0 < F.prec) (q : ℚ) (hq : q ≠ 0)
    (hov : ¬ (2 : ℚ) ^ (F.emax + 1) ≤ (rne (|q| / 2 ^ lastPlace F q) : ℚ) * 2 ^ lastPlace F q) :
    0 ≤ (rne (|q| / 2 ^ lastPlace F q) : ℚ) * 2 ^ lastPlace F q ∧
    F.Rep ((rne (|q| / 2 ^ lastPlace F q) : ℚ) * 2 ^ lastPlace F q) := by
  have hpe : (0 : ℚ) < 2 ^ lastPlace F q := by positivity
  have h0 : (0 : Int) ≤ rne (|q| / 2 ^ lastPlace F q) :=
    le_rne _ 0 (by simpa using div_nonneg (abs_nonneg q) hpe.le)
  have h0q : (0 : ℚ) ≤ (rne (|q| / 2 ^ lastPlace F q) : ℚ) := by exact_mod_cast h0
  have h1 : rne (|q| / 2 ^ lastPlace F q) ≤ 2 ^ F.prec := by
    apply rne_le
    rw [div_le_iff₀ hpe]
    have h2 : flog2 q + 1 ≤ lastPlace F q + F.prec := by
      have h3 : flog2 q - (F.prec - 1 : Nat) ≤ lastPlace F q := le_max_left _ _
      omega
    have h4 : (2 : ℚ) ^ (flog2 q + 1) ≤ 2 ^ (lastPlace F q + F.prec) :=
      zpow_le_zpow_right₀ (by norm_num) h2
    have h5 : (2 : ℚ) ^ (lastPlace F q + F.prec) = ((2 ^ F.prec : Int) : ℚ) * 2 ^ lastPlace F q := by
      rw [zpow_add₀ (by norm_num), zpow_natCast]
      push_cast
      ring
    rw [← h5]
    exact le_trans (lt_flog2 q hq).le h4
  refine ⟨mul_nonneg h0q hpe.le, _, lastPlace F q, le_max_right _ _, ?_, rfl, ?_⟩
  · rwa [abs_of_nonneg h0]
  · rw [abs_of_nonneg (mul_nonneg h0q hpe.le)]
    exact not_le.1 hov

/-- The value of `roundQ` at a non-zero rational. -/
theorem roundQ_of_ne (F : Fmt) (q : ℚ) (hq : q ≠ 0) :
    roundQ F q =
      if (2 : ℚ) ^ (F.emax + 1) ≤ (rne (|q| / 2 ^ lastPlace F q) : ℚ) * 2 ^ lastPlace F q then
        (if 0 < q then Flt.pinf else Flt.ninf)
      else Flt.fin (if 0 < q then (rne (|q| / 2 ^ lastPlace F q) : ℚ) * 2 ^ lastPlace F q
        else -((rne (|q| / 2 ^ lastPlace F q) : ℚ) * 2 ^ lastPlace F q)) := by
  unfold roundQ
  rw [if_neg hq]
  simp only [pow2_eq]

theorem roundQ_zero (F : Fmt) : roundQ F 0 = Flt.fin 0 := by
  unfold roundQ
  rw [if_pos rfl]

/-- A finite result of rounding is a number of the format. -/
theorem roundQ_rep (F : Fmt) (hp : 0 < F.prec) (q r : ℚ) (h : roundQ F q = Flt.fin r) :
    F.Rep r := by
  by_cases hq : q = 0
  · subst hq
    rw [roundQ_zero] at h
    injection h with h
    rw [← h]
    exact F.rep_zero
  · rw [roundQ_of_ne F q hq] at h
    split_ifs at h with h1 h2 h2
    · injection h with h
      rw [← h]
      exact (round_mag_rep F hp q hq h1).2
    · injection h with h
      rw [← h]
      exact F.rep_neg _ (round_mag_rep F hp q hq h1).2

/-- Rounding from below a number `b` of the format stays at most `b`. -/
theorem roundQ_le (F : Fmt) (hp : 0 < F.prec) (b q : ℚ) (hb : F.Rep b) (h : q ≤ b) :
    roundQ F q = Flt.ninf ∨ ∃ r, roundQ F q = Flt.fin r ∧ r ≤ b ∧ F.Rep r := by
  by_cases hq : q = 0
  · subst hq
    exact Or.inr ⟨0, roundQ_zero F, h, F.rep_zero⟩
  · rw [roundQ_of_ne F q hq]
    rcases lt_or_gt_of_ne hq with hneg | hpos
    · rw [if_neg (not_lt.2 hneg.le), if_neg (not_lt.2 hneg.le)]
      split_ifs with hov
      · exact Or.inl rfl
      · obtain ⟨h0, hr⟩ := round_mag_rep F hp q hq hov
        refine Or.inr ⟨_, rfl, ?_, F.rep_neg _ hr⟩
        rcases le_or_lt 0 b with hb0 | hb0
        · linarith
        · have h1 : -b ≤ |q| := by
            rw [abs_of_neg hneg]
            linarith
          have h2 := le_grid_round F hp (-b) q (F.rep_neg b hb) hq h1
          linarith
    · rw [if_pos hpos, if_pos hpos]
      have h1 : |q| ≤ b := by rwa [abs_of_pos hpos]
      have h2 := grid_round_le F hp b q hb hq h1
      obtain ⟨_, _, _, _, _, hbmax⟩ := hb
      have hov : ¬ (2 : ℚ) ^ (F.emax + 1)
          ≤ (rne (|q| / 2 ^ lastPlace F q) : ℚ) * 2 ^ lastPlace F q := by
        rw [not_le]
        exact lt_of_le_of_lt h2 (lt_of_le_of_lt (le_abs_self b) hbmax)
      rw [if_neg hov]
      exact Or.inr ⟨_, rfl, h2, (round_mag_rep F hp q hq hov).2⟩

/-- Rounding from above a number `b` of the format stays at least `b`. -/
theorem roundQ_ge (F : Fmt) (hp : 0 < F.prec) (b q : ℚ) (hb : F.Rep b) (h : b ≤ q) :
    roundQ F q = Flt.pinf ∨ ∃ r, roundQ F q = Flt.fin r ∧ b ≤ r ∧ F.Rep r := by
  by_cases hq : q = 0
  · subst hq
    exact Or.inr ⟨0, roundQ_zero F, h, F.rep_zero⟩
  · rw [roundQ_of_ne F q hq]
    rcases lt_or_gt_of_ne hq with hneg | hpos
    · rw [if_neg (not_lt.2 hneg.le), if_neg (not_lt.2 hneg.le)]
      have h1 : |q| ≤ -b := by
        rw [abs_of_neg hneg]
        linarith
      have h2 := grid_round_le F hp (-b) q (F.rep_neg b hb) hq h1
      obtain ⟨_, _, _, _, _, hbmax⟩ := hb
      have hov : ¬ (2 : ℚ) ^ (F.emax + 1)
          ≤ (rne (|q| / 2 ^ lastPlace F q) : ℚ) * 2 ^ lastPlace F q := by
        rw [not_le]
        exact lt_of_le_of_lt h2 (lt_of_le_of_lt (neg_le_abs b) hbmax)
      rw [if_neg hov]
      exact Or.inr ⟨_, rfl, by linarith, F.rep_neg _ (round_mag_rep F hp q hq hov).2⟩
    · rw [if_pos hpos, if_pos hpos]
      split_ifs with hov
      · exact Or.inl rfl
      · obtain ⟨h0, hr⟩ := round_mag_rep F hp q hq hov
        refine Or.inr ⟨_, rfl, ?_, hr⟩
        rcases le_or_lt b 0 with hb0 | hb0
        · linarith
        · have h1 : b ≤ |q| := by rwa [abs_of_pos hpos]
          exact le_grid_round F hp b q hb hq h1

/-- Rounding between two numbers of the format gives a number between them. -/
theorem roundQ_between (F : Fmt) (hp : 0 < F.prec) (lo hi q : ℚ) (hlo : F.Rep lo)
    (hhi : F.Rep hi) (h1 : lo ≤ q) (h2 : q ≤ hi) :
    ∃ r, roundQ F q = Flt.fin r ∧ lo ≤ r ∧ r ≤ hi ∧ F.Rep r := by
  rcases roundQ_le F hp hi q hhi h2 with h3 | ⟨r, h3, h4, h5⟩
  · rcases roundQ_ge F hp lo q hlo h1 with h6 | ⟨r, h6, _, _⟩
    · rw [h3] at h6
      exact Flt.noConfusion h6
    · rw [h3] at h6
      exact Flt.noConfusion h6
  · rcases roundQ_ge F hp lo q hlo h1 with h6 | ⟨r2, h6, h7, _⟩
    · rw [h3] at h6
      exact Flt.noConfusion h6
    · rw [h3] at h6
      injection h6 with h6
      exact ⟨r, h3, by rw [h6]; exact h7, h4, h5⟩

/-- A number of the format is left unchanged by rounding. -/
theorem roundQ_of_rep (F : Fmt) (hp : 0 < F.prec) (b : ℚ) (hb : F.Rep b) :
    roundQ F b = Flt.fin b := by
  obtain ⟨r, h1, h2, h3, _⟩ := roundQ_between F hp b b b hb hb le_rfl le_rfl
  rw [h1, le_antisymm h3 h2]

/-- A power of two in the exponent range is a number of the format. -/
theorem Fmt.rep_two_pow (F : Fmt) (k : Int) (h1 : F.emin ≤ k) (h2 : k ≤ F.emax) :
    F.Rep (2 ^ k) := by
  refine ⟨1, k, h1, ?_, by simp, ?_⟩
  · rw [abs_one]
    exact one_le_pow₀ (by norm_num)
  · rw [abs_of_pos (by positivity)]
    exact zpow_lt_zpow_right₀ (by norm_num) (by omega)

end RoundingOrder

/-! ## Nearest values -/

section Nearest

/-- Rounding to the nearest integer moves a number by at most one half. -/
theorem rne_near (x : ℚ) : |x - (rne x : ℚ)| ≤ 1 / 2 := by
  have h1 : ((⌊x⌋ : Int) : ℚ) ≤ x := Int.floor_le x
  have h2 : x < ((⌊x⌋ : Int) : ℚ) + 1 := Int.lt_floor_add_one x
  unfold rne
  simp only
  split_ifs with ha hb hc
  · rw [abs_le]
    constructor <;> linarith
  · rw [abs_le]
    push_cast
    constructor <;> linarith
  · rw [abs_le]
    constructor <;> linarith
  · rw [abs_le]
    push_cast
    constructor <;> linarith

/-- A finite result of rounding lies within half a unit in the last place of
the rounded number. -/
theorem roundQ_near (F : Fmt) (q r : ℚ) (hq : q ≠ 0) (h : roundQ F q = Flt.fin r) :
    |q - r| ≤ 2 ^ lastPlace F q / 2 := by
  have hp : (0 : ℚ) < 2 ^ lastPlace F q := by positivity
  have h1 := rne_near (|q| / 2 ^ lastPlace F q)
  have h2 : |(|q| - (rne (|q| / 2 ^ lastPlace F q) : ℚ) * 2 ^ lastPlace F q)|
      ≤ 2 ^ lastPlace F q / 2 := by
    have e : |q| - (rne (|q| / 2 ^ lastPlace F q) : ℚ) * 2 ^ lastPlace F q
        = (|q| / 2 ^ lastPlace F q - (rne (|q| / 2 ^ lastPlace F q) : ℚ)) * 2 ^ lastPlace F q := by
      field_simp
      ring
    rw [e, abs_mul, abs_of_pos hp]
    calc |(|q| / 2 ^ lastPlace F q - (rne (|q| / 2 ^ lastPlace F q) : ℚ))| * 2 ^ lastPlace F q
        ≤ 1 / 2 * 2 ^ lastPlace F q := mul_le_mul_of_nonneg_right h1 hp.le
      _ = 2 ^ lastPlace F q / 2 := by ring
  rw [roundQ_of_ne F q hq] at h
  generalize (rne (|q| / 2 ^ lastPlace F q) : ℚ) * 2 ^ lastPlace F q = R at h h2
  split_ifs at h with ha hb hb
  · injection h with h
    subst h
    rwa [abs_of_pos hb] at h2
  · injection h with h
    subst h
    have hneg : q < 0 := lt_of_le_of_ne (not_lt.1 hb) hq
    rw [abs_of_neg hneg] at h2
    rw [sub_neg_eq_add, ← abs_neg]
    have e : -(q + R) = -q - R := by ring
    rwa [e]

theorem isqrtAux_spec (k : Nat) : ∀ n r : Nat, r * r ≤ n → n < (r + 2 ^ k) * (r + 2 ^ k) →
    isqrtAux k n r * isqrtAux k n r ≤ n ∧ n < (isqrtAux k n r + 1) * (isqrtAux k n r + 1) := by
  induction k with
  | zero =>
    intro n r h1 h2
    simpa [isqrtAux] using And.intro h1 h2
  | succ k ih =>
    intro n r h1 h2
    simp only [isqrtAux]
    split_ifs with hc
    · apply ih n (r + 2 ^ k) hc
      have e : r + 2 ^ k + 2 ^ k = r + 2 ^ (k + 1) := by
        rw [pow_succ]
        omega
      rw [e]
      exact h2
    · exact ih n r h1 (not_le.1 hc)

/-- The integer square root is the floor of the square root. -/
theorem isqrt_spec (n : Nat) : isqrt n * isqrt n ≤ n ∧ n < (isqrt n + 1) * (isqrt n + 1) := by
  unfold isqrt
  apply isqrtAux_spec _ n 0 (Nat.zero_le _)
  rw [Nat.zero_add, ← pow_add]
  rcases Nat.eq_zero_or_pos n with h | h
  · subst h
    exact pow_pos (by norm_num) _
  · obtain ⟨_, h2, _⟩ := bitLength_spec n h
    exact lt_of_lt_of_le h2 (Nat.pow_le_pow_right (by norm_num) (by omega))

/-- The rounded square root is a nearest value: with `e` the exponent of the
last place and `k * 2^e` the result, `sqrt q / 2^e` lies between `k - 1/2` and
`k + 1/2`. -/
theorem sqrtQ_near (F : Fmt) (q : ℚ) (hq : 0 < q) (e : Int)
    (he : e = max (flog2 q / 2 - ((F.prec - 1 : Nat) : Int)) F.emin) :
    ∃ k : Nat, sqrtQ F q = (k : ℚ) * 2 ^ e ∧
      q / 2 ^ (2 * e) ≤ ((2 * k + 1 : ℚ) / 2) ^ 2 ∧
      (k = 0 ∨ ((2 * k - 1 : ℚ) / 2) ^ 2 ≤ q / 2 ^ (2 * e)) := by
  have hx : (0 : ℚ) < q / 2 ^ (2 * e) := div_pos hq (by positivity)
  unfold sqrtQ
  simp only [pow2_eq, ← he]
  generalize q / 2 ^ (2 * e) = x at hx ⊢
  obtain ⟨s1, s2⟩ := isqrt_spec ⌊x⌋.toNat
  have hfl : ((⌊x⌋.toNat : Nat) : Int) = ⌊x⌋ := Int.toNat_of_nonneg (Int.floor_nonneg.2 hx.le)
  have hlo : ((isqrt ⌊x⌋.toNat : Nat) : ℚ) ^ 2 ≤ x := by
    have h1 : ((isqrt ⌊x⌋.toNat * isqrt ⌊x⌋.toNat : Nat) : Int) ≤ ⌊x⌋ := by
      rw [← hfl]
      exact_mod_cast s1
    have h2 : (((isqrt ⌊x⌋.toNat * isqrt ⌊x⌋.toNat : Nat) : Int) : ℚ) ≤ x :=
      le_trans (by exact_mod_cast h1) (Int.floor_le x)
    rw [pow_two]
    exact_mod_cast h2
  have hhi : x < (((isqrt ⌊x⌋.toNat : Nat) : ℚ) + 1) ^ 2 := by
    have h1 : ⌊x⌋ + 1 ≤ (((isqrt ⌊x⌋.toNat + 1) * (isqrt ⌊x⌋.toNat + 1) : Nat) : Int) := by
      rw [← hfl]
      exact_mod_cast s2
    have h2 : x < ((⌊x⌋ + 1 : Int) : ℚ) := by
      push_cast
      exact Int.lt_floor_add_one x
    have h3 : ((⌊x⌋ + 1 : Int) : ℚ)
        ≤ ((((isqrt ⌊x⌋.toNat + 1) * (isqrt ⌊x⌋.toNat + 1) : Nat) : Int) : ℚ) := by
      exact_mod_cast h1
    rw [pow_two]
    calc x < ((⌊x⌋ + 1 : Int) : ℚ) := h2
      _ ≤ _ := h3
      _ = _ := by push_cast; ring
  generalize isqrt ⌊x⌋.toNat = n at hlo hhi ⊢
  split_ifs with h1 h2 h3
  · refine ⟨n, rfl, h1.le, ?_⟩
    rcases Nat.eq_zero_or_pos n with h0 | h0
    · exact Or.inl h0
    · right
      have hn : (1 : ℚ) ≤ n := by exact_mod_cast h0
      nlinarith
  · refine ⟨n + 1, by push_cast; ring, ?_, Or.inr ?_⟩
    · push_cast
      nlinarith
    · push_cast
      have e1 : (2 * ((n : ℚ) + 1) - 1) / 2 = (2 * n + 1) / 2 := by ring
      rw [e1]
      exact h2.le
  · refine ⟨n, rfl, not_lt.1 h2, ?_⟩
    rcases Nat.eq_zero_or_pos n with h0 | h0
    · exact Or.inl h0
    · right
      have hn : (1 : ℚ) ≤ n := by exact_mod_cast h0
      nlinarith
  · refine ⟨n + 1, by push_cast; ring, ?_, Or.inr ?_⟩
    · push_cast
      nlinarith
    · push_cast
      have e1 : (2 * ((n : ℚ) + 1) - 1) / 2 = (2 * n + 1) / 2 := by ring
      rw [e1]
      exact not_lt.1 h1

end Nearest

/-! ## The vertex weights in `float` -/

section F32Weights

theorem binary32_prec : 0 < binary32.prec := by decide

theorem binary64_prec : 0 < binary64.prec := by decide

/-- The vertex weights `calc_weights` stores do not depend on the edge
weights. -/
theorem F32.calc_weights_stored (ew : Nat → Flt ℚ) (s : Viewer ℚ) (v : Nat) :
    (F32.calc_weights ew s).vweight_ v
      = if v < s.mesh.n_vertices then F32.vertex_weight s.mesh v else s.vweight_ v := by
  have hm : ((List.range s.mesh.n_edges).foldl (F32.store_eweight ew) s).mesh = s.mesh :=
    foldl_frame (fun st : Viewer ℚ => st.mesh) (F32.store_eweight ew) (fun _ _ => rfl) _ s
  have hw : ((List.range s.mesh.n_edges).foldl (F32.store_eweight ew) s).vweight_ = s.vweight_ :=
    foldl_frame (fun st : Viewer ℚ => st.vweight_) (F32.store_eweight ew) (fun _ _ => rfl) _ s
  have h := (foldl_store (fun st : Viewer ℚ => st.vweight_) F32.store_vweight
    (fun v => F32.vertex_weight s.mesh v) (fun st => st.mesh = s.mesh) (fun st v h => h)
    (fun st v w h => by simp only [F32.store_vweight, Function.update_apply, h])
    (List.range s.mesh.n_vertices) _ hm).2 v
  unfold F32.calc_weights
  simp only [hm]
  rw [h, hw]
  simp

/-- The vertex weight of a vertex whose accumulated area is a normal `float`:
a number between `2^-129` and `2^125`. -/
theorem F32.vertex_weight_of_area (m : Mesh ℚ) (v : Nat) (a : ℚ)
    (ha : F32.vertex_area m v = Flt.fin a) (h1 : FLT_MIN ≤ a) (h2 : a ≤ FLT_MAX) :
    ∃ w : ℚ, F32.vertex_weight m v = Flt.fin w ∧ 2 ^ (-129 : Int) ≤ w ∧ w ≤ 2 ^ (125 : Int) := by
  unfold F32.vertex_weight
  rw [ha]
  have hlo : (2 : ℚ) ^ (-125 : Int) ≤ 2 * a := by
    unfold FLT_MIN at h1
    have e : (2 : ℚ) ^ (-125 : Int) = 2 * (1 / 2 ^ 126) := by norm_num
    rw [e]
    linarith
  have hhi : 2 * a ≤ (2 : ℚ) ^ (129 : Int) := by
    unfold FLT_MAX at h2
    have e : (2 : ℚ) ^ (129 : Int) = 2 * 2 ^ 128 := by norm_num
    rw [e]
    have : (0 : ℚ) < 2 ^ 104 := by positivity
    linarith
  obtain ⟨x, hx, hx1, hx2, _⟩ := roundQ_between binary64 binary64_prec _ _ (2 * a)
    (binary64.rep_two_pow (-125) (by decide) (by decide))
    (binary64.rep_two_pow 129 (by decide) (by decide)) hlo hhi
  have hmul : Flt.fmul binary64 (Flt.fin 2) (Flt.fin a) = Flt.fin x := hx
  rw [hmul]
  have hxpos : (0 : ℚ) < x := lt_of_lt_of_le (by positivity) hx1
  have hylo : (2 : ℚ) ^ (-129 : Int) ≤ 1 / x := by
    rw [le_div_iff₀ hxpos]
    calc (2 : ℚ) ^ (-129 : Int) * x ≤ 2 ^ (-129 : Int) * 2 ^ (129 : Int) :=
          mul_le_mul_of_nonneg_left hx2 (by positivity)
      _ = 1 := by rw [← zpow_add₀ (by norm_num)]; norm_num
  have hyhi : 1 / x ≤ (2 : ℚ) ^ (125 : Int) := by
    rw [div_le_iff₀ hxpos]
    calc (1 : ℚ) = 2 ^ (125 : Int) * 2 ^ (-125 : Int) := by
          rw [← zpow_add₀ (by norm_num)]; norm_num
      _ ≤ 2 ^ (125 : Int) * x := mul_le_mul_of_nonneg_left hx1 (by positivity)
  obtain ⟨y, hy, hy1, hy2, _⟩ := roundQ_between binary64 binary64_prec _ _ (1 / x)
    (binary64.rep_two_pow (-129) (by decide) (by decide))
    (binary64.rep_two_pow 125 (by decide) (by decide)) hylo hyhi
  have hdiv : Flt.fdiv binary64 (Flt.fin 1) (Flt.fin x) = Flt.fin y := by
    show Flt.round binary64 (Flt.fin 1 / Flt.fin x) = Flt.fin y
    rw [Flt.fin_div_fin _ _ hxpos.ne']
    exact hy
  rw [hdiv]
  obtain ⟨w, hw, hw1, hw2, _⟩ := roundQ_between binary32 binary32_prec _ _ y
    (binary32.rep_two_pow (-129) (by decide) (by decide))
    (binary32.rep_two_pow 125 (by decide) (by decide)) hy1 hy2
  exact ⟨w, hw, hw1, hw2⟩

end F32Weights

/-! ## The triangle quality in `float` -/

section F32Quality

theorem F32.calc_triangle_quality_stored (s : Viewer ℚ) (f : Nat) :
    (F32.calc_triangle_quality s).tshape_ f
      = if f < s.mesh.n_faces then (F32.face_quality s.mesh f).tshape else s.tshape_ f := by
  have h := (foldl_store (fun st : Viewer ℚ => st.tshape_) F32.store_tshape
    (fun f => (F32.face_quality s.mesh f).tshape) (fun st => st.mesh = s.mesh) (fun st v h => h)
    (fun st v w h => by simp only [F32.store_tshape, Function.update_apply, h])
    (List.range s.mesh.n_faces) s rfl).2 f
  simpa [F32.calc_triangle_quality] using h

/-- The loop body of `calc_triangle_quality` in terms of the side lengths and
the cross-product magnitude. -/
theorem F32.triangle_quality_eq (v0 v1 v2 : Vec3 ℚ) :
    F32.triangle_quality v0 v1 v2
      = if Flt.lt (F32.cross_norm v0 v1 v2) (Flt.fin FLT_MIN) then ⟨Flt.fin FLT_MAX, 0⟩
        else
          ⟨Flt.fdiv binary32
            (Flt.fdiv binary32
              (Flt.fmul binary32
                (Flt.fmul binary32 (F32.side_length v0 v1) (F32.side_length v0 v2))
                (F32.side_length v2 v1))
              (Flt.fmul binary32 (Flt.fin 2) (F32.cross_norm v0 v1 v2)))
            (Flt.min (F32.side_length v2 v1)
              (Flt.min (F32.side_length v0 v2)
                (Flt.min (F32.side_length v0 v1) (Flt.fin FLT_MAX)))), 2⟩ :=
  rfl

end F32Quality

section F32Degenerate

theorem Flt.fsub_self_fin (F : Fmt) (x : ℚ) : Flt.fsub F (Flt.fin x) (Flt.fin x) = Flt.fin 0 := by
  show Flt.round F (Flt.fin x - Flt.fin x) = Flt.fin 0
  rw [Flt.fin_sub_fin, sub_self]
  exact roundQ_zero F

theorem Flt.fsub_self (F : Fmt) (a : Flt ℚ) (x : ℚ) (h : Flt.fsub F a a = Flt.fin x) : x = 0 := by
  cases a with
  | nan => exact Flt.noConfusion h
  | ninf => exact Flt.noConfusion h
  | pinf => exact Flt.noConfusion h
  | fin y =>
    rw [Flt.fsub_self_fin] at h
    injection h with h
    exact h.symm

theorem Flt.fmul_zero_left (F : Fmt) (w : ℚ) : Flt.fmul F (Flt.fin 0) (Flt.fin w) = Flt.fin 0 := by
  show Flt.round F (Flt.fin 0 * Flt.fin w) = Flt.fin 0
  rw [Flt.fin_mul_fin, zero_mul]
  exact roundQ_zero F

theorem Flt.fmul_zero_right (F : Fmt) (w : ℚ) : Flt.fmul F (Flt.fin w) (Flt.fin 0) = Flt.fin 0 := by
  show Flt.round F (Flt.fin w * Flt.fin 0) = Flt.fin 0
  rw [Flt.fin_mul_fin, mul_zero]
  exact roundQ_zero F

/-- The two `float` products of a commutator cancel when they do not
overflow. -/
theorem Flt.fmul_comm_cancel (y z : ℚ) (hy : |y| ≤ 2 ^ 63) (hz : |z| ≤ 2 ^ 63) :
    Flt.fsub binary32 (Flt.fmul binary32 (Flt.fin y) (Flt.fin z))
      (Flt.fmul binary32 (Flt.fin z) (Flt.fin y)) = Flt.fin 0 := by
  have hb : |y * z| ≤ (2 : ℚ) ^ (126 : Int) := by
    rw [abs_mul]
    calc |y| * |z| ≤ 2 ^ 63 * 2 ^ 63 := mul_le_mul hy hz (abs_nonneg _) (by positivity)
      _ = (2 : ℚ) ^ (126 : Int) := by norm_num
  obtain ⟨r, hr, _⟩ := roundQ_between binary32 binary32_prec _ _ (y * z)
    (binary32.rep_neg _ (binary32.rep_two_pow 126 (by decide) (by decide)))
    (binary32.rep_two_pow 126 (by decide) (by decide)) (neg_le_of_abs_le hb) (le_of_abs_le hb)
  have h1 : Flt.fmul binary32 (Flt.fin y) (Flt.fin z) = Flt.fin r := hr
  have h2 : Flt.fmul binary32 (Flt.fin z) (Flt.fin y) = Flt.fin r := by
    show roundQ binary32 (z * y) = Flt.fin r
    rw [mul_comm]
    exact hr
  rw [h1, h2, Flt.fsub_self_fin]

theorem F32.cross_norm_zero :
    Flt.round binary32
      (Flt.fsqrt binary64
        (Flt.fadd binary64 (Flt.fadd binary64 (Flt.fin 0) (Flt.fin 0)) (Flt.fin 0)))
      = Flt.fin 0 := by
  decide!

theorem Vec3.within_numbers (B : ℚ) (a : Vec3 ℚ) (h : Vec3.within B a = true) :
    ∃ x y z : ℚ, a = Vec3.ofNums x y z ∧ |x| ≤ B ∧ |y| ≤ B ∧ |z| ≤ B := by
  obtain ⟨ax, ay, az⟩ := a
  cases ax <;> cases ay <;> cases az <;>
    simp only [Vec3.within, Flt.within, Bool.and_eq_true, decide_eq_true_eq, Bool.false_and,
      Bool.and_false, Bool.false_eq_true, false_and, and_false] at h
  exact ⟨_, _, _, rfl, h.1.1, h.1.2, h.2⟩

/-- The cross-product magnitude of a triangle with two coincident corners is
`0` when the edge vectors `Q - P` and `R - P` have components of magnitude at
most `2^63`. -/
theorem F32.cross_norm_coincident (P Q R : Vec3 ℚ) (hco : P = Q ∨ P = R ∨ Q = R)
    (h1 : Vec3.within (2 ^ 63) (Vec3.fsub binary32 Q P) = true)
    (h2 : Vec3.within (2 ^ 63) (Vec3.fsub binary32 R P) = true) :
    F32.cross_norm P Q R = Flt.fin 0 := by
  obtain ⟨x1, y1, z1, e1, bx1, by1, bz1⟩ := Vec3.within_numbers _ _ h1
  obtain ⟨x2, y2, z2, e2, bx2, by2, bz2⟩ := Vec3.within_numbers _ _ h2
  unfold F32.cross_norm
  simp only [Vec3.fcross]
  rcases hco with h | h | h
  · subst h
    have hx : x1 = 0 := Flt.fsub_self binary32 P.x x1 (congrArg Vec3.x e1)
    have hy : y1 = 0 := Flt.fsub_self binary32 P.y y1 (congrArg Vec3.y e1)
    have hz : z1 = 0 := Flt.fsub_self binary32 P.z z1 (congrArg Vec3.z e1)
    subst hx hy hz
    rw [e1, e2]
    simp only [Vec3.ofNums, Flt.fmul_zero_left, Flt.fsub_self_fin]
    exact F32.cross_norm_zero
  · subst h
    have hx : x2 = 0 := Flt.fsub_self binary32 P.x x2 (congrArg Vec3.x e2)
    have hy : y2 = 0 := Flt.fsub_self binary32 P.y y2 (congrArg Vec3.y e2)
    have hz : z2 = 0 := Flt.fsub_self binary32 P.z z2 (congrArg Vec3.z e2)
    subst hx hy hz
    rw [e1, e2]
    simp only [Vec3.ofNums, Flt.fmul_zero_right, Flt.fsub_self_fin]
    exact F32.cross_norm_zero
  · subst h
    rw [e1] at e2
    obtain ⟨hx, hy, hz⟩ := ofNums_injective _ _ _ _ _ _ e2
    subst hx hy hz
    rw [e1]
    simp only [Vec3.ofNums, Flt.fmul_comm_cancel _ _ by1 bz1, Flt.fmul_comm_cancel _ _ bz1 bx1,
      Flt.fmul_comm_cancel _ _ bx1 by1, Flt.fmul_zero_left]
    exact F32.cross_norm_zero

end F32Degenerate

/-! ## Uniform smoothing in `float` -/

section F32Smoothing

theorem F32.notNeg_round (q : ℚ) (h : 0 ≤ q) : F32.NotNeg (roundQ binary32 q) := by
  rcases roundQ_ge binary32 binary32_prec 0 q binary32.rep_zero h with h1 | ⟨r, h1, h2, h3⟩
  · exact Or.inr (Or.inl h1)
  · exact Or.inr (Or.inr ⟨r, h1, h2, h3⟩)

theorem F32.notNeg_zero : F32.NotNeg (Flt.fin 0) :=
  Or.inr (Or.inr ⟨0, rfl, le_rfl, binary32.rep_zero⟩)

theorem F32.notNeg_one : F32.NotNeg (Flt.fin 1) :=
  Or.inr (Or.inr ⟨1, rfl, zero_le_one, by
    have h := binary32.rep_two_pow 0 (by decide) (by decide)
    simpa using h⟩)

theorem F32.fadd_notNeg (a b : Flt ℚ) (ha : F32.NotNeg a) (hb : F32.NotNeg b) :
    F32.NotNeg (Flt.fadd binary32 a b) := by
  rcases ha with rfl | rfl | ⟨r, rfl, hr, _⟩ <;> rcases hb with rfl | rfl | ⟨t, rfl, ht, _⟩
  · exact Or.inl rfl
  · exact Or.inl rfl
  · exact Or.inl rfl
  · exact Or.inl rfl
  · exact Or.inr (Or.inl rfl)
  · exact Or.inr (Or.inl rfl)
  · exact Or.inl rfl
  · exact Or.inr (Or.inl rfl)
  · exact F32.notNeg_round (r + t) (add_nonneg hr ht)

theorem F32.fdiv_notNeg (a b : Flt ℚ) (ha : F32.NotNeg a) (hb : F32.NotNeg b) :
    F32.NotNeg (Flt.fdiv binary32 a b) := by
  rcases ha with rfl | rfl | ⟨r, rfl, hr, _⟩ <;> rcases hb with rfl | rfl | ⟨t, rfl, ht, _⟩
  · exact Or.inl rfl
  · exact Or.inl rfl
  · exact Or.inl rfl
  · exact Or.inl rfl
  · exact Or.inl rfl
  · have h : Flt.fdiv binary32 Flt.pinf (Flt.fin t) = Flt.pinf := by
      show Flt.round binary32 (Flt.div Flt.pinf (Flt.fin t)) = Flt.pinf
      simp only [Flt.div, if_pos ht]
      rfl
    rw [h]
    exact Or.inr (Or.inl rfl)
  · exact Or.inl rfl
  · exact F32.notNeg_zero
  · by_cases ht0 : t = 0
    · by_cases hr0 : r = 0
      · have h : Flt.fdiv binary32 (Flt.fin r) (Flt.fin t) = Flt.nan := by
          show Flt.round binary32 (Flt.div (Flt.fin r) (Flt.fin t)) = Flt.nan
          simp only [Flt.div, if_pos ht0, if_pos hr0]
          rfl
        rw [h]
        exact Or.inl rfl
      · have h : Flt.fdiv binary32 (Flt.fin r) (Flt.fin t) = Flt.pinf := by
          show Flt.round binary32 (Flt.div (Flt.fin r) (Flt.fin t)) = Flt.pinf
          simp only [Flt.div, if_pos ht0, if_neg hr0, Flt.signedInf,
            if_pos (lt_of_le_of_ne hr (Ne.symm hr0))]
          rfl
        rw [h]
        exact Or.inr (Or.inl rfl)
    · have h : Flt.fdiv binary32 (Flt.fin r) (Flt.fin t) = roundQ binary32 (r / t) := by
        show Flt.round binary32 (Flt.fin r / Flt.fin t) = _
        rw [Flt.fin_div_fin _ _ ht0]
        rfl
      rw [h]
      exact F32.notNeg_round _ (div_nonneg hr ht)

theorem F32.centroid_notNeg (qs : List (Flt ℚ)) (hq : ∀ q ∈ qs, F32.NotNeg q) :
    ∀ acc, F32.NotNeg acc → F32.NotNeg (qs.foldl (Flt.fadd binary32) acc) := by
  induction qs with
  | nil => intro acc h; exact h
  | cons q qs ih =>
    intro acc h
    rw [List.foldl_cons]
    exact ih (fun x hx => hq x (List.mem_cons_of_mem _ hx)) _
      (F32.fadd_notNeg _ _ h (hq q (List.mem_cons_self _ _)))

theorem F32.counter_notNeg (qs : List (Flt ℚ)) :
    ∀ acc, F32.NotNeg acc →
      F32.NotNeg (qs.foldl (fun n _ => Flt.fadd binary32 n (Flt.fin 1)) acc) := by
  induction qs with
  | nil => intro acc h; exact h
  | cons q qs ih =>
    intro acc h
    rw [List.foldl_cons]
    exact ih _ (F32.fadd_notNeg _ _ h F32.notNeg_one)

theorem F32.fadd_pinf_notNeg (h : Flt ℚ) : F32.NotNeg (Flt.fadd binary32 Flt.pinf h) := by
  cases h
  · exact Or.inl rfl
  · exact Or.inl rfl
  · exact Or.inr (Or.inl rfl)
  · exact Or.inr (Or.inl rfl)

theorem F32.half_pinf : Flt.fdiv binary32 Flt.pinf (Flt.fin 2) = Flt.pinf := by
  show Flt.round binary32 (Flt.div Flt.pinf (Flt.fin 2)) = Flt.pinf
  simp only [Flt.div, if_pos (show (0 : ℚ) ≤ 2 by norm_num)]
  rfl

/-- The step of one coordinate: from a non-negative coordinate of the vertex
and non-negative coordinates of its neighbours `uniform_smooth` computes a
coordinate that is not negative. -/
theorem F32.smooth_coord_notNeg (p : Flt ℚ) (qs : List (Flt ℚ)) (hp : F32.NotNeg p)
    (hq : ∀ q ∈ qs, F32.NotNeg q) : F32.NotNeg (F32.smooth_coord p qs) := by
  have hc := F32.fdiv_notNeg _ _ (F32.centroid_notNeg qs hq _ F32.notNeg_zero)
    (F32.counter_notNeg qs _ F32.notNeg_zero)
  unfold F32.smooth_coord
  simp only
  generalize Flt.fdiv binary32 (qs.foldl (Flt.fadd binary32) (Flt.fin 0))
    (qs.foldl (fun n _ => Flt.fadd binary32 n (Flt.fin 1)) (Flt.fin 0)) = c at hc
  rcases hp with rfl | rfl | ⟨pr, rfl, hpr, hrep⟩
  · exact Or.inl rfl
  · exact F32.fadd_pinf_notNeg _
  · rcases hc with rfl | rfl | ⟨cr, rfl, hcr, _⟩
    · exact Or.inl rfl
    · have h1 : Flt.fsub binary32 Flt.pinf (Flt.fin pr) = Flt.pinf := rfl
      rw [h1, F32.half_pinf]
      exact Or.inr (Or.inl rfl)
    · have h1 : Flt.fsub binary32 (Flt.fin cr) (Flt.fin pr) = roundQ binary32 (cr - pr) := by
        show Flt.round binary32 (Flt.fin cr - Flt.fin pr) = _
        rw [Flt.fin_sub_fin]
        rfl
      rw [h1]
      rcases roundQ_ge binary32 binary32_prec (-pr) (cr - pr) (binary32.rep_neg _ hrep)
        (by linarith) with h2 | ⟨dr, h2, h3, _⟩
      · rw [h2, F32.half_pinf]
        exact Or.inr (Or.inl rfl)
      · rw [h2]
        have h4 : Flt.fdiv binary32 (Flt.fin dr) (Flt.fin 2) = roundQ binary32 (dr / 2) := by
          show Flt.round binary32 (Flt.fin dr / Flt.fin 2) = _
          rw [Flt.fin_div_fin _ _ (by norm_num)]
          rfl
        rw [h4]
        rcases roundQ_ge binary32 binary32_prec (-pr) (dr / 2) (binary32.rep_neg _ hrep)
          (by linarith) with h5 | ⟨hr, h5, h6, _⟩
        · rw [h5]
          exact Or.inr (Or.inl rfl)
        · rw [h5]
          show F32.NotNeg (roundQ binary32 (pr + hr))
          exact F32.notNeg_round _ (by linarith)

/-! ### Symmetry under negation -/

theorem flog2_neg (q : ℚ) : flog2 (-q) = flog2 q := by
  unfold flog2
  simp only [Rat.neg_num, Int.natAbs_neg, Rat.neg_den, abs_neg]

theorem roundQ_neg (F : Fmt) (q : ℚ) : roundQ F (-q) = -(roundQ F q) := by
  by_cases hq : q = 0
  · subst hq
    rw [neg_zero, roundQ_zero]
    show Flt.fin 0 = Flt.fin (-0)
    rw [neg_zero]
  · have hq2 : -q ≠ 0 := neg_ne_zero.2 hq
    have hl : lastPlace F (-q) = lastPlace F q := by
      unfold lastPlace
      rw [flog2_neg]
    rw [roundQ_of_ne F q hq, roundQ_of_ne F (-q) hq2, hl, abs_neg]
    rcases lt_or_gt_of_ne hq with hneg | hpos
    · rw [if_pos (neg_pos.2 hneg), if_pos (neg_pos.2 hneg), if_neg (not_lt.2 hneg.le),
        if_neg (not_lt.2 hneg.le)]
      split_ifs
      · rfl
      · show Flt.fin _ = Flt.fin (- -_)
        rw [neg_neg]
    · rw [if_pos hpos, if_pos hpos, if_neg (not_lt.2 (neg_neg_of_pos hpos).le),
        if_neg (not_lt.2 (neg_neg_of_pos hpos).le)]
      split_ifs <;> rfl

theorem Flt.round_neg (F : Fmt) (x : Flt ℚ) : Flt.round F (-x) = -(Flt.round F x) := by
  cases x with
  | fin q => exact roundQ_neg F q
  | nan => rfl
  | ninf => rfl
  | pinf => rfl

theorem Flt.neg_add_neg (a b : Flt ℚ) : (-a) + (-b) = -(a + b) := by
  cases a <;> cases b <;> try rfl
  rename_i x y
  show Flt.fin (-x + -y) = Flt.fin (-(x + y))
  rw [neg_add]

theorem Flt.neg_neg_flt (a : Flt ℚ) : -(-a) = a := by
  cases a <;> try rfl
  rename_i x
  show Flt.fin (- -x) = Flt.fin x
  rw [neg_neg]

theorem Flt.neg_div_flt (a b : Flt ℚ) : (-a) / b = -(a / b) := by
  have h0 : (Flt.fin 0 : Flt ℚ) = Flt.fin (-0) := by rw [neg_zero]
  cases b with
  | nan => cases a <;> rfl
  | ninf =>
    cases a with
    | nan => rfl
    | ninf => rfl
    | pinf => rfl
    | fin x => exact h0
  | pinf =>
    cases a with
    | nan => rfl
    | ninf => rfl
    | pinf => rfl
    | fin x => exact h0
  | fin y =>
    cases a with
    | nan => rfl
    | ninf =>
      show Flt.div Flt.pinf (Flt.fin y) = Flt.neg (Flt.div Flt.ninf (Flt.fin y))
      simp only [Flt.div]
      split_ifs <;> rfl
    | pinf =>
      show Flt.div Flt.ninf (Flt.fin y) = Flt.neg (Flt.div Flt.pinf (Flt.fin y))
      simp only [Flt.div]
      split_ifs <;> rfl
    | fin x =>
      show Flt.div (Flt.fin (-x)) (Flt.fin y) = Flt.neg (Flt.div (Flt.fin x) (Flt.fin y))
      by_cases hy : y = 0
      · by_cases hx : x = 0
        · have e1 : Flt.div (Flt.fin (-x)) (Flt.fin y) = Flt.nan := by simp [Flt.div, hy, hx]
          have e2 : Flt.div (Flt.fin x) (Flt.fin y) = Flt.nan := by simp [Flt.div, hy, hx]
          rw [e1, e2]
          rfl
        · have e1 : Flt.div (Flt.fin (-x)) (Flt.fin y) = Flt.signedInf true (-x) := by
            simp [Flt.div, hy, hx]
          have e2 : Flt.div (Flt.fin x) (Flt.fin y) = Flt.signedInf true x := by
            simp [Flt.div, hy, hx]
          rw [e1, e2]
          unfold Flt.signedInf
          rcases lt_or_gt_of_ne hx with h | h
          · rw [if_pos (neg_pos.2 h), if_neg (not_lt.2 h.le)]
            rfl
          · rw [if_neg (not_lt.2 (neg_neg_of_pos h).le), if_pos h]
            rfl
      · have e1 : Flt.div (Flt.fin (-x)) (Flt.fin y) = Flt.fin (-x / y) := by
          simp [Flt.div, hy]
        have e2 : Flt.div (Flt.fin x) (Flt.fin y) = Flt.fin (x / y) := by simp [Flt.div, hy]
        rw [e1, e2, neg_div]
        rfl

theorem Flt.fadd_neg (F : Fmt) (a b : Flt ℚ) :
    Flt.fadd F (-a) (-b) = -(Flt.fadd F a b) := by
  show Flt.round F ((-a) + (-b)) = -(Flt.round F (a + b))
  rw [Flt.neg_add_neg, Flt.round_neg]

theorem Flt.fsub_neg (F : Fmt) (a b : Flt ℚ) :
    Flt.fsub F (-a) (-b) = -(Flt.fsub F a b) := by
  show Flt.round F ((-a) + (-(-b))) = -(Flt.round F (a + (-b)))
  rw [Flt.neg_add_neg, Flt.round_neg]

theorem Flt.fdiv_neg (F : Fmt) (a b : Flt ℚ) :
    Flt.fdiv F (-a) b = -(Flt.fdiv F a b) := by
  show Flt.round F ((-a) / b) = -(Flt.round F (a / b))
  rw [Flt.neg_div_flt, Flt.round_neg]

theorem F32.centroid_neg (qs : List (Flt ℚ)) :
    ∀ acc, (qs.map (fun q => -q)).foldl (Flt.fadd binary32) (-acc)
      = -(qs.foldl (Flt.fadd binary32) acc) := by
  induction qs with
  | nil => intro acc; rfl
  | cons q qs ih =>
    intro acc
    rw [List.map_cons, List.foldl_cons, List.foldl_cons, Flt.fadd_neg, ih]

theorem F32.counter_map (g : Flt ℚ → Flt ℚ) (qs : List (Flt ℚ)) :
    ∀ acc, (qs.map g).foldl (fun n _ => Flt.fadd binary32 n (Flt.fin 1)) acc
      = qs.foldl (fun n _ => Flt.fadd binary32 n (Flt.fin 1)) acc := by
  induction qs with
  | nil => intro acc; rfl
  | cons q qs ih =>
    intro acc
    rw [List.map_cons, List.foldl_cons, List.foldl_cons, ih]

/-- The step of one coordinate commutes with negation. -/
theorem F32.smooth_coord_neg (p : Flt ℚ) (qs : List (Flt ℚ)) :
    F32.smooth_coord (-p) (qs.map (fun q => -q)) = -(F32.smooth_coord p qs) := by
  have h0 : (Flt.fin 0 : Flt ℚ) = -(Flt.fin 0) := by
    show Flt.fin 0 = Flt.fin (-0)
    rw [neg_zero]
  unfold F32.smooth_coord
  simp only
  rw [F32.counter_map]
  nth_rewrite 1 [h0]
  rw [F32.centroid_neg, Flt.fdiv_neg, Flt.fsub_neg, Flt.fdiv_neg, Flt.fadd_neg]

theorem F32.smooth_coord_notPos (p : Flt ℚ) (qs : List (Flt ℚ)) (hp : F32.NotPos p)
    (hq : ∀ q ∈ qs, F32.NotPos q) : F32.NotPos (F32.smooth_coord p qs) := by
  unfold F32.NotPos
  rw [← F32.smooth_coord_neg]
  apply F32.smooth_coord_notNeg _ _ hp
  intro q hq2
  obtain ⟨x, hx, rfl⟩ := List.mem_map.1 hq2
  exact hq x hx

/-! ### The vertex loop -/

theorem F32.ring_sum_sel (m : Mesh ℚ) (sel : Vec3 ℚ → Flt ℚ)
    (hsel : sel = Vec3.x ∨ sel = Vec3.y ∨ sel = Vec3.z) (l : List Nat) :
    ∀ acc : Vec3 ℚ × Flt ℚ,
      sel (l.foldl (fun acc u =>
          (Vec3.fadd binary32 acc.1 (m.point u), Flt.fadd binary32 acc.2 (Flt.fin 1))) acc).1
        = (l.map (fun u => sel (m.point u))).foldl (Flt.fadd binary32) (sel acc.1) ∧
      (l.foldl (fun acc u =>
          (Vec3.fadd binary32 acc.1 (m.point u), Flt.fadd binary32 acc.2 (Flt.fin 1))) acc).2
        = (l.map (fun u => sel (m.point u))).foldl
            (fun n _ => Flt.fadd binary32 n (Flt.fin 1)) acc.2 := by
  induction l with
  | nil => intro acc; exact ⟨rfl, rfl⟩
  | cons u l ih =>
    intro acc
    rw [List.foldl_cons, List.map_cons, List.foldl_cons, List.foldl_cons]
    obtain ⟨h1, h2⟩ := ih (Vec3.fadd binary32 acc.1 (m.point u), Flt.fadd binary32 acc.2 (Flt.fin 1))
    refine ⟨?_, h2⟩
    rw [h1]
    rcases hsel with rfl | rfl | rfl <;> rfl

/-- Each coordinate of the position `uniform_smooth` assigns is the scalar
step on that coordinate. -/
theorem F32.uniform_smooth_point_sel (m : Mesh ℚ) (v : Nat) (sel : Vec3 ℚ → Flt ℚ)
    (hsel : sel = Vec3.x ∨ sel = Vec3.y ∨ sel = Vec3.z) :
    sel (F32.uniform_smooth_point m v)
      = F32.smooth_coord (sel (m.point v)) ((m.vv v).map (fun u => sel (m.point u))) := by
  obtain ⟨h1, h2⟩ := F32.ring_sum_sel m sel hsel (m.vv v) (Vec3.zero, Flt.fin 0)
  have h0 : sel (Vec3.zero : Vec3 ℚ) = Flt.fin 0 := by
    rcases hsel with rfl | rfl | rfl <;> rfl
  have h3 : sel (F32.uniform_smooth_point m v)
      = Flt.fadd binary32 (sel (m.point v))
          (Flt.fdiv binary32
            (Flt.fsub binary32 (Flt.fdiv binary32 (sel (F32.ring_sum m v).1) (F32.ring_sum m v).2)
              (sel (m.point v))) (Flt.fin 2)) := by
    rcases hsel with rfl | rfl | rfl <;> rfl
  rw [h3]
  unfold F32.ring_sum F32.smooth_coord
  rw [h1, h2, h0]

/-- The loop invariant of `uniform_smooth` in `float`: connectivity unchanged
and a property of one coordinate that the scalar step keeps. -/
theorem F32.uniform_smooth_loop_inv (sel : Vec3 ℚ → Flt ℚ)
    (hsel : sel = Vec3.x ∨ sel = Vec3.y ∨ sel = Vec3.z) (G : Flt ℚ → Prop)
    (hG : ∀ p qs, G p → (∀ q ∈ qs, G q) → G (F32.smooth_coord p qs))
    (s : Viewer ℚ)
    (hwf : ∀ v, v < s.mesh.n_vertices → ∀ u ∈ s.mesh.vv v, u < s.mesh.n_vertices)
    (l : List Nat) (hl : ∀ v ∈ l, v < s.mesh.n_vertices) (st : Viewer ℚ)
    (h : st.mesh.voh = s.mesh.voh ∧ st.mesh.n_vertices = s.mesh.n_vertices ∧
      ∀ u, u < s.mesh.n_vertices → G (sel (st.mesh.point u))) :
    (l.foldl F32.uniform_smooth_vertex st).mesh.voh = s.mesh.voh ∧
    (l.foldl F32.uniform_smooth_vertex st).mesh.n_vertices = s.mesh.n_vertices ∧
    ∀ u, u < s.mesh.n_vertices →
      G (sel ((l.foldl F32.uniform_smooth_vertex st).mesh.point u)) := by
  induction l generalizing st with
  | nil => exact h
  | cons v l ih =>
    rw [List.foldl_cons]
    apply ih (fun w hw => hl w (List.mem_cons_of_mem _ hw))
    obtain ⟨hvoh, hn, hinv⟩ := h
    have hv := hl v (List.mem_cons_self _ _)
    have hvv : st.mesh.vv v = s.mesh.vv v := by simp only [Mesh.vv, hvoh]
    refine ⟨hvoh, hn, fun u hu => ?_⟩
    show G (sel (Function.update st.mesh.point v (F32.uniform_smooth_point st.mesh v) u))
    rw [Function.update_apply]
    split
    · rw [F32.uniform_smooth_point_sel st.mesh v sel hsel]
      apply hG _ _ (hinv v hv)
      intro q hq
      obtain ⟨w, hw, rfl⟩ := List.mem_map.1 hq
      rw [hvv] at hw
      exact hinv w (hwf v hv w hw)
    · exact hinv u hu

theorem F32.uniform_smooth_inv (sel : Vec3 ℚ → Flt ℚ)
    (hsel : sel = Vec3.x ∨ sel = Vec3.y ∨ sel = Vec3.z) (G : Flt ℚ → Prop)
    (hG : ∀ p qs, G p → (∀ q ∈ qs, G q) → G (F32.smooth_coord p qs))
    (s : Viewer ℚ)
    (hwf : ∀ v, v < s.mesh.n_vertices → ∀ u ∈ s.mesh.vv v, u < s.mesh.n_vertices)
    (h0 : ∀ u, u < s.mesh.n_vertices → G (sel (s.mesh.point u))) (k : Nat) :
    (F32.uniform_smooth s k).mesh.voh = s.mesh.voh ∧
    (F32.uniform_smooth s k).mesh.n_vertices = s.mesh.n_vertices ∧
    ∀ u, u < s.mesh.n_vertices → G (sel ((F32.uniform_smooth s k).mesh.point u)) := by
  induction k with
  | zero => exact ⟨rfl, rfl, h0⟩
  | succ k ih =>
    have hstep : F32.uniform_smooth s (k + 1)
        = F32.uniform_smooth_round (F32.uniform_smooth s k) := by
      simp only [F32.uniform_smooth, Function.iterate_succ_apply']
    rw [hstep]
    unfold F32.uniform_smooth_round
    rw [ih.2.1]
    exact F32.uniform_smooth_loop_inv sel hsel G hG s hwf (List.range s.mesh.n_vertices)
      (fun v hv => List.mem_range.1 hv) (F32.uniform_smooth s k) ih

theorem F32.notNeg_lt (x : Flt ℚ) (h : F32.NotNeg x) : Flt.lt x (Flt.fin 0) = false := by
  rcases h with rfl | rfl | ⟨r, rfl, hr, _⟩
  · rfl
  · rfl
  · simpa using hr

theorem F32.notPos_lt (x : Flt ℚ) (h : F32.NotPos x) : Flt.lt (Flt.fin 0) x = false := by
  cases x with
  | nan => rfl
  | ninf => rfl
  | pinf =>
    rcases h with h | h | ⟨r, h, _⟩
    · exact Flt.noConfusion h
    · exact Flt.noConfusion h
    · exact Flt.noConfusion h
  | fin y =>
    rcases h with h | h | ⟨r, h, hr, _⟩
    · exact Flt.noConfusion h
    · exact Flt.noConfusion h
    · have h1 : -y = r := by
        have h2 : (Flt.fin (-y) : Flt ℚ) = Flt.fin r := h
        injection h2
      have h3 : y ≤ 0 := by linarith
      simpa using h3

end F32Smoothing

/-! ## Scaling by a power of two -/

section Scaling

/-- The binary exponent is determined by the two bounds. -/
theorem flog2_unique (q : ℚ) (L : Int) (h1 : (2 : ℚ) ^ L ≤ |q|) (h2 : |q| < (2 : ℚ) ^ (L + 1)) :
    flog2 q = L := by
  have hq : q ≠ 0 := by
    intro h
    rw [h, abs_zero] at h1
    exact absurd h1 (not_le.2 (by positivity))
  have h3 := flog2_le q hq
  have h4 := lt_flog2 q hq
  have h5 : (2 : ℚ) ^ flog2 q < 2 ^ (L + 1) := lt_of_le_of_lt h3 h2
  have h6 : (2 : ℚ) ^ L < 2 ^ (flog2 q + 1) := lt_of_le_of_lt h1 h4
  have h7 := (zpow_lt_zpow_iff_right₀ (show (1 : ℚ) < 2 by norm_num)).1 h5
  have h8 := (zpow_lt_zpow_iff_right₀ (show (1 : ℚ) < 2 by norm_num)).1 h6
  omega

/-- Scaling by a power of two shifts the binary exponent. -/
theorem flog2_scale (q : ℚ) (j : Int) (hq : q ≠ 0) : flog2 (2 ^ j * q) = flog2 q + j := by
  apply flog2_unique
  · rw [abs_mul, abs_of_pos (show (0 : ℚ) < 2 ^ j by positivity), add_comm,
      zpow_add₀ (by norm_num)]
    exact mul_le_mul_of_nonneg_left (flog2_le q hq) (by positivity)
  · rw [abs_mul, abs_of_pos (show (0 : ℚ) < 2 ^ j by positivity),
      show flog2 q + j + 1 = j + (flog2 q + 1) by ring, zpow_add₀ (by norm_num)]
    exact mul_lt_mul_of_pos_left (lt_flog2 q hq) (by positivity)

/-- Rounding commutes with scaling by a power of two as long as the last
place is not held at `emin` and the result does not overflow. -/
theorem roundQ_scale (F : Fmt) (q r : ℚ) (j : Int) (hq : q ≠ 0)
    (h : roundQ F q = Flt.fin r)
    (h1 : F.emin ≤ flog2 q - (F.prec - 1 : Nat))
    (h2 : F.emin ≤ flog2 q + j - (F.prec - 1 : Nat))
    (h3 : 2 ^ j * |r| < (2 : ℚ) ^ (F.emax + 1)) :
    roundQ F (2 ^ j * q) = Flt.fin (2 ^ j * r) := by
  have hj : (0 : ℚ) < 2 ^ j := by positivity
  have hq2 : 2 ^ j * q ≠ 0 := mul_ne_zero hj.ne' hq
  have e1 : lastPlace F q = flog2 q - (F.prec - 1 : Nat) := max_eq_left h1
  have e2 : lastPlace F (2 ^ j * q) = lastPlace F q + j := by
    unfold lastPlace
    rw [flog2_scale q j hq, max_eq_left h1, max_eq_left (by omega)]
    ring
  have e3 : |2 ^ j * q| / 2 ^ (lastPlace F q + j) = |q| / 2 ^ lastPlace F q := by
    rw [abs_mul, abs_of_pos hj, zpow_add₀ (by norm_num)]
    field_simp
    ring
  rw [roundQ_of_ne F q hq] at h
  rw [roundQ_of_ne F _ hq2, e2, e3]
  have e4 : (rne (|q| / 2 ^ lastPlace F q) : ℚ) * 2 ^ (lastPlace F q + j)
      = 2 ^ j * ((rne (|q| / 2 ^ lastPlace F q) : ℚ) * 2 ^ lastPlace F q) := by
    rw [zpow_add₀ (by norm_num)]
    ring
  rw [e4]
  have hR : (0 : ℚ) ≤ (rne (|q| / 2 ^ lastPlace F q) : ℚ) * 2 ^ lastPlace F q := by
    have h0 : (0 : Int) ≤ rne (|q| / 2 ^ lastPlace F q) :=
      le_rne _ 0 (by simpa using div_nonneg (abs_nonneg q) (by positivity))
    have h0q : (0 : ℚ) ≤ (rne (|q| / 2 ^ lastPlace F q) : ℚ) := by exact_mod_cast h0
    exact mul_nonneg h0q (by positivity)
  generalize (rne (|q| / 2 ^ lastPlace F q) : ℚ) * 2 ^ lastPlace F q = R at h hR ⊢
  have hs : (0 < 2 ^ j * q) ↔ 0 < q := by
    constructor
    · intro h5
      exact pos_of_mul_pos_right (by linarith) hj.le |> fun h6 => by
        rcases lt_trichotomy q 0 with h7 | h7 | h7
        · exact absurd h5 (not_lt.2 (mul_nonpos_of_nonneg_of_nonpos hj.le h7.le))
        · exact absurd h7 hq
        · exact h7
    · intro h5
      exact mul_pos hj h5
  split_ifs at h with ha hb hb
  · injection h with h
    subst h
    rw [if_neg (not_le.2 (by rwa [abs_of_nonneg hR] at h3)), if_pos (hs.2 hb)]
  · injection h with h
    subst h
    rw [abs_neg, abs_of_nonneg hR] at h3
    rw [if_neg (not_le.2 h3), if_neg (fun h5 => hb (hs.1 h5))]
    congr 1
    ring

/-- The correctly rounded square root commutes with scaling by a power of
four as long as the last place is not held at `emin`. -/
theorem sqrtQ_scale (F : Fmt) (q : ℚ) (j : Int) (hq : q ≠ 0)
    (h1 : F.emin ≤ flog2 q / 2 - (F.prec - 1 : Nat))
    (h2 : F.emin ≤ flog2 q / 2 + j - (F.prec - 1 : Nat)) :
    sqrtQ F (2 ^ (2 * j) * q) = 2 ^ j * sqrtQ F q := by
  have e0 : (flog2 q + 2 * j) / 2 = flog2 q / 2 + j := by omega
  have e1 : max (flog2 (2 ^ (2 * j) * q) / 2 - (F.prec - 1 : Nat)) F.emin
      = max (flog2 q / 2 - (F.prec - 1 : Nat)) F.emin + j := by
    rw [flog2_scale q (2 * j) hq, e0, max_eq_left h1, max_eq_left (by omega)]
    ring
  have e2 : ∀ e : Int, (2 : ℚ) ^ (2 * j) * q / 2 ^ (2 * (e + j)) = q / 2 ^ (2 * e) := by
    intro e
    rw [show 2 * (e + j) = 2 * j + 2 * e by ring, zpow_add₀ (by norm_num)]
    field_simp
    ring
  unfold sqrtQ
  simp only [pow2_eq]
  simp only [e1, e2]
  rw [zpow_add₀ (by norm_num)]
  ring

end Scaling

section CornerScaling

/-- Rounding to `float` commutes with scaling by a power of two in the normal
range. -/
theorem roundQ32_scale (q r : ℚ) (L j : Int) (hq : q ≠ 0)
    (h : roundQ binary32 q = Flt.fin r) (hL : flog2 q = L) (hr : |r| < 2 ^ (L + 1))
    (h1 : -126 ≤ L) (h2 : -126 ≤ L + j) (h3 : L + j ≤ 127) :
    roundQ binary32 (2 ^ j * q) = Flt.fin (2 ^ j * r) := by
  apply roundQ_scale binary32 q r j hq h
  · rw [hL]
    show (-149 : Int) ≤ L - ((24 - 1 : Nat) : Int)
    omega
  · rw [hL]
    show (-149 : Int) ≤ L + j - ((24 - 1 : Nat) : Int)
    omega
  · calc (2 : ℚ) ^ j * |r| < 2 ^ j * 2 ^ (L + 1) := mul_lt_mul_of_pos_left hr (by positivity)
      _ = 2 ^ (j + (L + 1)) := (zpow_add₀ (by norm_num) _ _).symm
      _ ≤ 2 ^ ((127 : Int) + 1) := zpow_le_zpow_right₀ (by norm_num) (by omega)

theorem Flt.fsqrt_fin_pos (F : Fmt) (x : ℚ) (hx : 0 < x) :
    Flt.fsqrt F (Flt.fin x) = Flt.fin (sqrtQ F x) := by
  simp only [Flt.fsqrt, if_neg (not_lt.2 hx.le), if_neg hx.ne']

theorem round32_two_pow (j : Int) (h1 : -149 ≤ j) (h2 : j ≤ 127) :
    roundQ binary32 (2 ^ j) = Flt.fin (2 ^ j) :=
  roundQ_of_rep binary32 binary32_prec _ (binary32.rep_two_pow j h1 h2)

theorem round64_small (m j : Int) (hm : |m| ≤ 4) (h1 : -1074 ≤ j) (h2 : j ≤ 1020) :
    roundQ binary64 ((m : ℚ) * 2 ^ j) = Flt.fin ((m : ℚ) * 2 ^ j) := by
  apply roundQ_of_rep binary64 binary64_prec
  refine ⟨m, j, h1, le_trans hm (show (4 : Int) ≤ 2 ^ binary64.prec by decide), rfl, ?_⟩
  have hm2 : |(m : ℚ)| ≤ 4 := by exact_mod_cast hm
  rw [abs_mul, abs_of_pos (show (0 : ℚ) < 2 ^ j by positivity)]
  calc |(m : ℚ)| * 2 ^ j ≤ 2 ^ (2 : Int) * 2 ^ j := by
        apply mul_le_mul_of_nonneg_right _ (by positivity)
        norm_num
        exact hm2
    _ = 2 ^ (2 + j) := (zpow_add₀ (by norm_num) _ _).symm
    _ < 2 ^ ((1023 : Int) + 1) := zpow_lt_zpow_right₀ (by norm_num) (by omega)

/-- The `float` quality of the equilateral triangle with corners `(t,0,0)`,
`(0,t,0)`, `(0,0,t)` for a power of two `t = 2^k`, `-42 <= k <= 42`: every
intermediate result is the one for `t = 1` times a power of two. -/
theorem corner_quality_pow (k : Int) (h1 : -42 ≤ k) (h2 : k ≤ 42) :
    F32.triangle_quality (Vec3.ofNums ((2 : ℚ) ^ k) 0 0) (Vec3.ofNums 0 (2 ^ k) 0)
        (Vec3.ofNums 0 0 (2 ^ k)) = ⟨Flt.fin (9686329 / 16777216), 2⟩ := by
  have htpos : (0 : ℚ) < 2 ^ k := by positivity
  have e2 : (2 : ℚ) ^ k * 2 ^ k = 2 ^ (k + k) := (zpow_add₀ (by norm_num) _ _).symm
  have e3 : (2 : ℚ) ^ k * 2 ^ k * 2 ^ k = 2 ^ (k + k + k) := by
    rw [e2, ← zpow_add₀ (by norm_num)]
  have e4 : (2 : ℚ) ^ k * 2 ^ k * (2 ^ k * 2 ^ k) = 2 ^ (k + k + (k + k)) := by
    rw [e2, ← zpow_add₀ (by norm_num)]
  -- the edge vectors and the squares of their components are exact
  have ht : roundQ binary32 (2 ^ k) = Flt.fin (2 ^ k) := round32_two_pow k (by omega) (by omega)
  have htn : roundQ binary32 (-(2 ^ k)) = Flt.fin (-(2 ^ k)) := by
    rw [roundQ_neg, ht]
    rfl
  have htt : roundQ binary32 (2 ^ k * 2 ^ k) = Flt.fin (2 ^ k * 2 ^ k) := by
    rw [e2]
    exact round32_two_pow _ (by omega) (by omega)
  have httn : roundQ binary32 (-(2 ^ k * 2 ^ k)) = Flt.fin (-(2 ^ k * 2 ^ k)) := by
    rw [roundQ_neg, htt]
    rfl
  have h2tt : roundQ binary32 (2 ^ k * 2 ^ k + 2 ^ k * 2 ^ k)
      = Flt.fin (2 ^ k * 2 ^ k + 2 ^ k * 2 ^ k) := by
    have e : (2 : ℚ) ^ k * 2 ^ k + 2 ^ k * 2 ^ k = 2 ^ (k + k + 1) := by
      rw [e2, zpow_add₀ (by norm_num) (k + k) 1]
      ring
    rw [e]
    exact round32_two_pow _ (by omega) (by omega)
  -- the side length
  have hsq : Flt.fsqrt binary32 (Flt.fin (2 ^ k * 2 ^ k + 2 ^ k * 2 ^ k))
      = Flt.fin (2 ^ k * (11863283 / 8388608)) := by
    have e : (2 : ℚ) ^ k * 2 ^ k + 2 ^ k * 2 ^ k = 2 ^ (2 * k) * 2 := by
      rw [e2, two_mul k]
      ring
    have hL : flog2 2 = 1 := by decide!
    have hs := sqrtQ_scale binary32 2 k (by norm_num)
      (by rw [hL]; show (-149 : Int) ≤ 1 / 2 - ((24 - 1 : Nat) : Int); omega)
      (by rw [hL]; show (-149 : Int) ≤ 1 / 2 + k - ((24 - 1 : Nat) : Int); omega)
    have ha : sqrtQ binary32 2 = 11863283 / 8388608 := by decide!
    have hpos : (0 : ℚ) < 2 ^ (2 * k) * 2 := by positivity
    rw [e, Flt.fsqrt_fin_pos _ _ hpos, hs, ha]
  -- the cross-product magnitude
  have g4 : roundQ binary64 (2 ^ k * 2 ^ k * (2 ^ k * 2 ^ k))
      = Flt.fin (2 ^ k * 2 ^ k * (2 ^ k * 2 ^ k)) := by
    have h := round64_small 1 (k + k + (k + k)) (by norm_num) (by omega) (by omega)
    rw [e4]
    simpa using h
  have g8 : roundQ binary64 (2 ^ k * 2 ^ k * (2 ^ k * 2 ^ k) + 2 ^ k * 2 ^ k * (2 ^ k * 2 ^ k))
      = Flt.fin (2 ^ k * 2 ^ k * (2 ^ k * 2 ^ k) + 2 ^ k * 2 ^ k * (2 ^ k * 2 ^ k)) := by
    have h := round64_small 2 (k + k + (k + k)) (by norm_num) (by omega) (by omega)
    have e : (2 : ℚ) ^ k * 2 ^ k * (2 ^ k * 2 ^ k) + 2 ^ k * 2 ^ k * (2 ^ k * 2 ^ k)
        = ((2 : Int) : ℚ) * 2 ^ (k + k + (k + k)) := by
      rw [e4]
      push_cast
      ring
    rw [e]
    exact h
  have g12 : roundQ binary64 (2 ^ k * 2 ^ k * (2 ^ k * 2 ^ k) + 2 ^ k * 2 ^ k * (2 ^ k * 2 ^ k)
        + 2 ^ k * 2 ^ k * (2 ^ k * 2 ^ k))
      = Flt.fin (2 ^ k * 2 ^ k * (2 ^ k * 2 ^ k) + 2 ^ k * 2 ^ k * (2 ^ k * 2 ^ k)
        + 2 ^ k * 2 ^ k * (2 ^ k * 2 ^ k)) := by
    have h := round64_small 3 (k + k + (k + k)) (by norm_num) (by omega) (by omega)
    have e : (2 : ℚ) ^ k * 2 ^ k * (2 ^ k * 2 ^ k) + 2 ^ k * 2 ^ k * (2 ^ k * 2 ^ k)
          + 2 ^ k * 2 ^ k * (2 ^ k * 2 ^ k)
        = ((3 : Int) : ℚ) * 2 ^ (k + k + (k + k)) := by
      rw [e4]
      push_cast
      ring
    rw [e]
    exact h
  have hs3 : Flt.fsqrt binary64 (Flt.fin (2 ^ k * 2 ^ k * (2 ^ k * 2 ^ k)
        + 2 ^ k * 2 ^ k * (2 ^ k * 2 ^ k) + 2 ^ k * 2 ^ k * (2 ^ k * 2 ^ k)))
      = Flt.fin (2 ^ (k + k) * (3900231685776981 / 2251799813685248)) := by
    have e : (2 : ℚ) ^ k * 2 ^ k * (2 ^ k * 2 ^ k) + 2 ^ k * 2 ^ k * (2 ^ k * 2 ^ k)
          + 2 ^ k * 2 ^ k * (2 ^ k * 2 ^ k) = 2 ^ (2 * (k + k)) * 3 := by
      rw [e4, two_mul (k + k)]
      ring
    have hL : flog2 3 = 1 := by decide!
    have hs := sqrtQ_scale binary64 3 (k + k) (by norm_num)
      (by rw [hL]; show (-1074 : Int) ≤ 1 / 2 - ((53 - 1 : Nat) : Int); omega)
      (by rw [hL]; show (-1074 : Int) ≤ 1 / 2 + (k + k) - ((53 - 1 : Nat) : Int); omega)
    have ha : sqrtQ binary64 3 = 3900231685776981 / 2251799813685248 := by decide!
    have hpos : (0 : ℚ) < 2 ^ (2 * (k + k)) * 3 := by positivity
    rw [e, Flt.fsqrt_fin_pos _ _ hpos, hs, ha]
  have hd : roundQ binary32 (2 ^ (k + k) * (3900231685776981 / 2251799813685248))
      = Flt.fin (2 ^ (k + k) * (14529495 / 8388608)) :=
    roundQ32_scale _ _ 0 (k + k) (by norm_num) (by decide!) (by decide!) (by decide!)
      (by omega) (by omega) (by omega)
  -- the product of the side lengths
  have hp1 : roundQ binary32 (2 ^ k * (11863283 / 8388608) * (2 ^ k * (11863283 / 8388608)))
      = Flt.fin (2 ^ (k + k) * (16777215 / 8388608)) := by
    have e : (2 : ℚ) ^ k * (11863283 / 8388608) * (2 ^ k * (11863283 / 8388608))
        = 2 ^ (k + k) * (11863283 / 8388608 * (11863283 / 8388608)) := by
      rw [← e2]
      ring
    rw [e]
    exact roundQ32_scale _ _ 0 (k + k) (by norm_num) (by decide!) (by decide!) (by decide!)
      (by omega) (by omega) (by omega)
  have hp2 : roundQ binary32 (2 ^ (k + k) * (16777215 / 8388608) * (2 ^ k * (11863283 / 8388608)))
      = Flt.fin (2 ^ (k + k + k) * (5931641 / 2097152)) := by
    have e : (2 : ℚ) ^ (k + k) * (16777215 / 8388608) * (2 ^ k * (11863283 / 8388608))
        = 2 ^ (k + k + k) * (16777215 / 8388608 * (11863283 / 8388608)) := by
      rw [zpow_add₀ (by norm_num) (k + k) k]
      ring
    rw [e]
    exact roundQ32_scale _ _ 1 (k + k + k) (by norm_num) (by decide!) (by decide!)
      (by decide!) (by omega) (by omega) (by omega)
  have h2d : roundQ binary32 (2 * (2 ^ (k + k) * (14529495 / 8388608)))
      = Flt.fin (2 ^ (k + k) * (14529495 / 4194304)) := by
    have e : (2 : ℚ) * (2 ^ (k + k) * (14529495 / 8388608))
        = 2 ^ (k + k) * (14529495 / 4194304) := by ring
    rw [e]
    exact roundQ32_scale _ _ 1 (k + k) (by norm_num) (by decide!) (by decide!) (by decide!)
      (by omega) (by omega) (by omega)
  have hc : roundQ binary32 (2 ^ (k + k + k) * (5931641 / 2097152)
        / (2 ^ (k + k) * (14529495 / 4194304)))
      = Flt.fin (2 ^ k * (6849269 / 8388608)) := by
    have e : (2 : ℚ) ^ (k + k + k) * (5931641 / 2097152) / (2 ^ (k + k) * (14529495 / 4194304))
        = 2 ^ k * (5931641 / 2097152 / (14529495 / 4194304)) := by
      rw [zpow_add₀ (by norm_num) (k + k) k]
      field_simp
      ring
    rw [e]
    exact roundQ32_scale _ _ (-1) k (by norm_num) (by decide!) (by decide!) (by decide!)
      (by omega) (by omega) (by omega)
  have hr : roundQ binary32 (2 ^ k * (6849269 / 8388608) / (2 ^ k * (11863283 / 8388608)))
      = Flt.fin (9686329 / 16777216) := by
    have e : (2 : ℚ) ^ k * (6849269 / 8388608) / (2 ^ k * (11863283 / 8388608))
        = 6849269 / 8388608 / (11863283 / 8388608) := by
      field_simp
      ring
    rw [e]
    decide!
  -- the guard and the minimum
  have hlo : (2 : ℚ) ^ (-84 : Int) ≤ 2 ^ (k + k) := zpow_le_zpow_right₀ (by norm_num) (by omega)
  have hhi : (2 : ℚ) ^ k ≤ 2 ^ (42 : Int) := zpow_le_zpow_right₀ (by norm_num) h2
  have hguard : ¬ (2 : ℚ) ^ (k + k) * (14529495 / 8388608) < FLT_MIN := by
    rw [not_lt]
    calc (FLT_MIN : ℚ) ≤ 2 ^ (-84 : Int) * (14529495 / 8388608) := by
          unfold FLT_MIN
          norm_num
      _ ≤ 2 ^ (k + k) * (14529495 / 8388608) := mul_le_mul_of_nonneg_right hlo (by norm_num)
  have hmin : ¬ (FLT_MAX : ℚ) < 2 ^ k * (11863283 / 8388608) := by
    rw [not_lt]
    calc (2 : ℚ) ^ k * (11863283 / 8388608) ≤ 2 ^ (42 : Int) * (11863283 / 8388608) :=
          mul_le_mul_of_nonneg_right hhi (by norm_num)
      _ ≤ FLT_MAX := by
          unfold FLT_MAX
          norm_num
  have hd0 : (2 : ℚ) ^ (k + k) * (14529495 / 4194304) ≠ 0 := by positivity
  have ha0 : (2 : ℚ) ^ k * (11863283 / 8388608) ≠ 0 := by positivity
  -- the evaluation
  simp only [F32.triangle_quality, F32.quality_denom, Vec3.fsub, Vec3.fnorm, Vec3.ofNums,
    Flt.fsub, Flt.fadd, Flt.fmul, Flt.fin_sub_fin, Flt.fin_add_fin, Flt.fin_mul_fin, Flt.round,
    zero_sub, sub_zero, sub_self, neg_mul_neg, mul_neg, neg_mul, neg_neg, mul_zero, zero_mul,
    add_zero, zero_add, neg_zero, sub_neg_eq_add, roundQ_zero, ht, htn, htt, httn, h2tt, hsq,
    g4, g8, g12, hs3, hd, Flt.min, Flt.lt_fin_fin, decide_eq_true_eq, hguard, hmin, if_false,
    lt_irrefl, Flt.fdiv, hp1, hp2, h2d, Flt.fin_div_fin _ _ hd0, hc, Flt.fin_div_fin _ _ ha0, hr]

end CornerScaling

/-! ## Claims -/

section Claims

/-- C4: every edge weight stored by `calc_weights` is `>= 0` (a number or
`+inf`, never NaN), whatever the vertex positions and the connectivity are. -/
theorem calc_weights_eweight_nonneg {α : Type} [LinearOrderedField α] (M : MathFns α)
    (s : Viewer α) (e : Nat) (he : e < s.mesh.n_edges) :
    Flt.le (Flt.fin 0) ((calc_weights M s).eweight_ e) = true := by
  rw [calc_weights_eweight, if_pos he]
  exact Flt.zero_le_max_zero _

/-- Witness of C4 on the first edge of a right triangle. -/
theorem calc_weights_eweight_nonneg_witness :
    0 < (Viewer.init (triangle_mesh (Vec3.ofNums (0 : ℝ) 0 0) (Vec3.ofNums 1 0 0)
      (Vec3.ofNums 0 1 0))).mesh.n_edges ∧
    Flt.le (Flt.fin 0) ((calc_weights realMath (Viewer.init (triangle_mesh (Vec3.ofNums (0 : ℝ) 0 0)
      (Vec3.ofNums 1 0 0) (Vec3.ofNums 0 1 0)))).eweight_ 0) = true :=
  ⟨by decide, calc_weights_eweight_nonneg realMath _ 0 (by decide)⟩

/-- C6, refuted as stated: at a corner of the right triangle of area `1/2` the
stored weight is `1 / 0.3333`, not `1 / (2 * (1/3) * (1/2)) = 3`. -/
theorem calc_weights_vweight_not_third :
    (calc_weights realMath (Viewer.init right_triangle)).vweight_ 0
      ≠ third_area_weight realMath right_triangle 0 := by
  rw [right_triangle_vweight, third_area_weight, right_triangle_incident_area,
    Flt.fin_mul_fin, Flt.fin_div_fin _ _ (by norm_num)]
  intro hc
  injection hc with hc
  norm_num at hc

/-- C6 as amended: on a mesh with finite vertex positions, the weight stored
for a vertex is `1 / (2 * A)` with `A` equal to `0.3333` times the sum of the
areas of its incident triangles, each area half the norm of a cross product. -/
theorem calc_weights_vweight_scaled {α : Type} [LinearOrderedField α] (M : MathFns α)
    (s : Viewer α) (v : Nat) (hv : v < s.mesh.n_vertices)
    (hfin : ∀ u, (s.mesh.point u).isFinite = true) :
    (calc_weights M s).vweight_ v = scaled_area_weight M s.mesh v := by
  rw [calc_weights_vweight, if_pos hv, vertex_weight_finite M _ _ hfin]

/-- Witness of the amended C6 at a corner of the right triangle. -/
theorem calc_weights_vweight_scaled_witness :
    (calc_weights realMath (Viewer.init right_triangle)).vweight_ 0
      = scaled_area_weight realMath right_triangle 0 :=
  calc_weights_vweight_scaled realMath (Viewer.init right_triangle) 0 (by decide)
    right_triangle_finite

/-- C8, refuted as stated: at the right-angle corner of the right triangle,
after `calc_weights`, the angle sum is `pi` and the stored value is
`2 * w * (2 * 3.1415926 - pi)`, not `2 * w * (2 * pi - pi)`. -/
theorem calc_gauss_curvature_not_pi :
    (calc_gauss_curvature realMath
        (calc_weights realMath (Viewer.init right_triangle))).vgausscurvature_ 0
      ≠ gauss_curvature_pi realMath (calc_weights realMath (Viewer.init right_triangle)) 0 := by
  have hm := calc_weights_mesh realMath (Viewer.init (right_triangle : Mesh ℝ))
  have hm' : (calc_weights realMath (Viewer.init right_triangle)).mesh = right_triangle := hm
  rw [calc_gauss_curvature_at, if_pos (by rw [hm']; decide),
    gauss_curvature_at_finite _ _ _ (by rw [hm']; exact right_triangle_finite)
      (by rw [hm']; exact right_triangle_distances),
    gauss_curvature_literal, gauss_curvature_pi, hm', right_triangle_vweight,
    right_triangle_angle_sum]
  simp only [Flt.fin_mul_fin]
  intro hc
  injection hc with hc
  have hpi : realMath.pi = Real.pi := rfl
  rw [hpi] at hc
  linarith [Real.pi_gt_d20]

/-- C8 as amended: on a mesh with finite vertex positions, for a vertex `v`
whose one-ring neighbours are at non-zero distance, the stored Gaussian
curvature is `2 * vweight_(v) * (2 * 3.1415926 - S)`, with `S` the sum over the
pairs of consecutive one-ring neighbours of the inverse cosine of the clamped
dot product of the two unit vectors. -/
theorem calc_gauss_curvature_literal {α : Type} [LinearOrderedField α] (M : MathFns α)
    (s : Viewer α) (v : Nat) (hv : v < s.mesh.n_vertices)
    (hfin : ∀ u, (s.mesh.point u).isFinite = true)
    (hd : ∀ u ∈ s.mesh.vv v,
      Vec3.norm M (Vec3.sub (s.mesh.point u) (s.mesh.point v)) ≠ Flt.fin 0) :
    (calc_gauss_curvature M s).vgausscurvature_ v = gauss_curvature_literal M s v := by
  rw [calc_gauss_curvature_at, if_pos hv, gauss_curvature_at_finite M s v hfin hd]

/-- Witness of the amended C8 at the right-angle corner of the right triangle. -/
theorem calc_gauss_curvature_literal_witness :
    (calc_gauss_curvature realMath (Viewer.init right_triangle)).vgausscurvature_ 0
      = gauss_curvature_literal realMath (Viewer.init right_triangle) 0 :=
  calc_gauss_curvature_literal realMath (Viewer.init right_triangle) 0 (by decide)
    right_triangle_finite right_triangle_distances

/-- C1, refuted as stated: on the equilateral triangle with corners `(1,0,0)`,
`(0,1,0)`, `(0,0,1)` (all edges `sqrt 2` long), response field `(4, 0, 0)` and
one iteration, `detect_meshdog` leaves the response `0` at vertex 1, while the
synchronous update leaves a positive response there. -/
theorem detect_meshdog_not_synchronous :
    (detect_meshdog realMath (spike_state (Real.sqrt 2)) 1).map (fun t => t.vmeshdog_f_ 1)
      ≠ (detect_meshdog_sync realMath (spike_state (Real.sqrt 2)) 1).map (fun t => t.vmeshdog_f_ 1) := by
  obtain ⟨thr, -, h1⟩ := threshold_features_some
    (conv_round realMath (spike_state (Real.sqrt 2))) (by rw [conv_round_mesh]; decide)
  obtain ⟨thr2, -, h2⟩ := threshold_features_some
    (conv_round_sync realMath (spike_state (Real.sqrt 2))) (by decide)
  obtain ⟨c, hc, hsync⟩ := spike_sync
  have e1 : detect_meshdog realMath (spike_state (Real.sqrt 2)) 1 = _ := h1
  have e2 : detect_meshdog_sync realMath (spike_state (Real.sqrt 2)) 1 = _ := h2
  rw [e1, e2]
  simp only [Option.map_some', ne_eq, Option.some.injEq]
  rw [spike_in_place, hsync]
  intro h
  injection h with h
  linarith

/-- C1 as amended: a convolution round of `detect_meshdog` is a sequential
in-place sweep.  `detect_meshdog` with `i + 1` rounds is `detect_meshdog` with
`i` rounds after one sweep, and the sweep computes the new response of a
vertex `v` (of non-NaN `vcurvature_`) from the new responses of the neighbours
with a smaller index and the previous-round responses of the other
neighbours; its DoG delta is the new response minus the previous one; other
vertices keep both values. -/
theorem detect_meshdog_in_place {α : Type} [LinearOrderedField α] (M : MathFns α)
    (s : Viewer α) :
    (∀ i : Nat, detect_meshdog M s ((i : Int) + 1) = detect_meshdog M (conv_round M s) i) ∧
    ∀ v, (conv_round M s).vmeshdog_f_ v
        = (if v < s.mesh.n_vertices ∧ Flt.isnan (s.vcurvature_ v) = false then
            conv_value M s.mesh s.veavg_
              (fun u => if u < v then (conv_round M s).vmeshdog_f_ u else s.vmeshdog_f_ u) v
          else s.vmeshdog_f_ v) ∧
      (conv_round M s).vmeshdog_dog_ v
        = (if v < s.mesh.n_vertices ∧ Flt.isnan (s.vcurvature_ v) = false then
            (conv_round M s).vmeshdog_f_ v - s.vmeshdog_f_ v
          else s.vmeshdog_dog_ v) := by
  refine ⟨fun i => ?_, fun v => conv_round_gauss_seidel M s v⟩
  have hi : ((i : Int) + 1).toNat = i + 1 := by omega
  simp only [detect_meshdog, convolve, hi, Int.toNat_ofNat, Function.iterate_succ_apply]

/-- C2, refuted as stated: on the triangle with the collinear corners
`(0,0,0)`, `(1,0,0)`, `(2,0,0)`, after the computations of `open_mesh` and
`detect_meshdog(10)`, vertex 0 has a response that is not NaN and a DoG delta
`>=` the threshold, and it is not in the feature list: the test reads
`vcurvature_`, which is NaN there. -/
theorem feature_test_reads_vcurvature :
    ∃ t thr, detect_meshdog realMath
        (open_mesh_prepare realMath (Viewer.init (flat_triangle : Mesh ℝ))) 10 = some t ∧
      (sort_ascending (vec_dog t))[thresh_index t.mesh.n_vertices]? = some thr ∧
      Flt.isnan (t.vmeshdog_f_ 0) = false ∧ Flt.ge (t.vmeshdog_dog_ 0) thr = true ∧
      0 ∉ t._dog_feature_points := by
  obtain ⟨hn, hc, hf, hd⟩ := flat_prepared
  obtain ⟨thr, hthr, hdet⟩ := detect_all_nan realMath
    (open_mesh_prepare realMath (Viewer.init (flat_triangle : Mesh ℝ))) 10
    (by rw [hn]; decide) (by rw [hn]; exact hc)
  refine ⟨_, thr, hdet, hthr, hf, ?_, by simp⟩
  have hmem : thr ∈ vec_dog (open_mesh_prepare realMath (Viewer.init (flat_triangle : Mesh ℝ))) :=
    (sort_ascending_perm _).mem_iff.1 (List.getElem?_mem hthr)
  simp only [vec_dog, hd, List.mem_map] at hmem
  obtain ⟨_, -, rfl⟩ := hmem
  show Flt.ge ((open_mesh_prepare realMath
    (Viewer.init (flat_triangle : Mesh ℝ))).vmeshdog_dog_ 0) (Flt.fin 0) = true
  rw [hd]
  simp [Flt.ge]

/-- C2 as amended: on a mesh with at least one vertex whose final DoG deltas
are not NaN, `detect_meshdog` returns, and the feature list (the same sequence
in both vectors) holds, in index order, exactly the vertices `v` for which
`vcurvature_(v)` is not NaN and the final DoG delta of `v` is `>=` the
threshold; the threshold is the element of rank `floor(0.95 * n)` of every
ascending arrangement of the final DoG deltas. -/
theorem feature_list_iff {α : Type} [LinearOrderedField α] (M : MathFns α) (s : Viewer α)
    (_iters : Int) (hn : 0 < s.mesh.n_vertices)
    (hdog : ∀ v, v < s.mesh.n_vertices →
      Flt.isnan ((convolve M s _iters).vmeshdog_dog_ v) = false) :
    ∃ (t : Viewer α) (thr : Flt α), detect_meshdog M s _iters = some t ∧
      (sort_ascending (vec_dog t))[thresh_index s.mesh.n_vertices]? = some thr ∧
      (∀ L : List (Flt α), L.Perm (vec_dog t) → L.Sorted (fun a b => Flt.le a b = true) →
        L[thresh_index s.mesh.n_vertices]? = some thr) ∧
      t._dog_feature_points
        = (List.range s.mesh.n_vertices).filter (fun v =>
            !Flt.isnan (t.vcurvature_ v) && Flt.ge (t.vmeshdog_dog_ v) thr) ∧
      t._dog_feature_handles = t._dog_feature_points ∧
      ∀ v, v ∈ t._dog_feature_points ↔
        (v < s.mesh.n_vertices ∧ Flt.isnan (t.vcurvature_ v) = false ∧
          Flt.ge (t.vmeshdog_dog_ v) thr = true) := by
  have hN : (convolve M s _iters).mesh.n_vertices = s.mesh.n_vertices := by
    rw [(convolve_frame M s _iters).1]
  obtain ⟨thr, hthr, hsome⟩ := threshold_features_some (convolve M s _iters) (by rw [hN]; exact hn)
  rw [hN] at hthr
  have hnn : ∀ x ∈ vec_dog (convolve M s _iters), Flt.isnan x = false := by
    intro x hx
    simp only [vec_dog, List.mem_map, List.mem_range, hN] at hx
    obtain ⟨v, hv, rfl⟩ := hx
    exact hdog v hv
  have hfeat : (List.range (convolve M s _iters).mesh.n_vertices).filter
        (is_feature (convolve M s _iters) thr)
      = (List.range s.mesh.n_vertices).filter (fun v =>
          !Flt.isnan ((convolve M s _iters).vcurvature_ v)
            && Flt.ge ((convolve M s _iters).vmeshdog_dog_ v) thr) := by
    rw [hN]
    rfl
  refine ⟨_, thr, hsome, hthr, fun L hp hs => ?_, hfeat, rfl, fun v => ?_⟩
  · rw [sorted_perm_unique L _ (hp.trans (sort_ascending_perm _).symm) hs
      (sort_ascending_le _ hnn)]
    exact hthr
  · show v ∈ (List.range (convolve M s _iters).mesh.n_vertices).filter
      (is_feature (convolve M s _iters) thr) ↔ _
    rw [hN]
    simp only [List.mem_filter, List.mem_range, is_feature, Bool.and_eq_true,
      Bool.not_eq_true']

/-- Witness of the amended C2: the equilateral triangle with the response
`(4, 0, 0)` and one round. -/
theorem feature_list_iff_witness :
    ∃ (t : Viewer ℝ) (thr : Flt ℝ),
      detect_meshdog realMath (spike_state (Real.sqrt 2)) 1 = some t ∧
      (sort_ascending (vec_dog t))[thresh_index 3]? = some thr ∧
      (∀ L : List (Flt ℝ), L.Perm (vec_dog t) → L.Sorted (fun a b => Flt.le a b = true) →
        L[thresh_index 3]? = some thr) ∧
      t._dog_feature_points
        = (List.range 3).filter (fun v =>
            !Flt.isnan (t.vcurvature_ v) && Flt.ge (t.vmeshdog_dog_ v) thr) ∧
      t._dog_feature_handles = t._dog_feature_points ∧
      ∀ v, v ∈ t._dog_feature_points ↔
        (v < 3 ∧ Flt.isnan (t.vcurvature_ v) = false ∧ Flt.ge (t.vmeshdog_dog_ v) thr = true) :=
  feature_list_iff realMath (spike_state (Real.sqrt 2)) 1 (by decide)
    (fun v hv => (conv_round_finite (spike_state (Real.sqrt 2)) (fun _ => Real.sqrt 2)
      (corner_triangle_finite 1) (by decide) (by decide)
      (fun _ _ => ⟨rfl, Real.sqrt_pos.2 (by norm_num)⟩) (fun _ _ => ⟨_, rfl⟩) (fun _ _ => rfl)
      v hv).2)

/-- C3, refuted as stated: on the mesh of one isolated vertex (`n = 1`, rank
`floor(0.95 * 1) = 0`, a single DoG delta and so no tie) `open_mesh` and
`detect_meshdog(10)` report no feature point, not `1 - 0 = 1`: the vertex has
a NaN `vcurvature_` and fails the feature test. -/
theorem feature_count_isolated_vertex :
    ∃ t thr, detect_meshdog realMath (open_mesh_prepare realMath
        (Viewer.init (point_mesh (Vec3.ofNums (0 : ℝ) 0 0)))) 10 = some t ∧
      (sort_ascending (vec_dog t))[thresh_index t.mesh.n_vertices]? = some thr ∧
      (vec_dog t).count thr = 1 ∧
      t._dog_feature_points.length = 0 ∧
      t.mesh.n_vertices - thresh_index t.mesh.n_vertices = 1 := by
  obtain ⟨hn, hc, hd⟩ := point_prepared
  obtain ⟨thr, hthr, hdet⟩ := detect_all_nan realMath
    (open_mesh_prepare realMath (Viewer.init (point_mesh (Vec3.ofNums (0 : ℝ) 0 0)))) 10
    (by rw [hn]; decide) (by rw [hn]; exact hc)
  have hvd : vec_dog (open_mesh_prepare realMath
      (Viewer.init (point_mesh (Vec3.ofNums (0 : ℝ) 0 0)))) = [Flt.fin 0] := by
    simp only [vec_dog, hd, hn]
    rfl
  have hmem : thr ∈ vec_dog (open_mesh_prepare realMath
      (Viewer.init (point_mesh (Vec3.ofNums (0 : ℝ) 0 0)))) :=
    (sort_ascending_perm _).mem_iff.1 (List.getElem?_mem hthr)
  rw [hvd, List.mem_singleton] at hmem
  refine ⟨_, thr, hdet, hthr, ?_, rfl, ?_⟩
  · show (vec_dog (open_mesh_prepare realMath
      (Viewer.init (point_mesh (Vec3.ofNums (0 : ℝ) 0 0))))).count thr = 1
    rw [hvd, hmem]
    simp
  · show (open_mesh_prepare realMath
      (Viewer.init (point_mesh (Vec3.ofNums (0 : ℝ) 0 0)))).mesh.n_vertices
        - thresh_index _ = 1
    rw [hn]
    rfl

/-- C3 as amended: on a mesh with `n >= 1` vertices none of which has a NaN
`vcurvature_`, and whose final DoG deltas are not NaN, `detect_meshdog`
returns with at least `n - floor(0.95 * n)` feature points, and with exactly
that many when the threshold value (the sorted DoG delta of rank
`floor(0.95 * n)`) is the DoG delta of one vertex only. -/
theorem feature_count {α : Type} [LinearOrderedField α] (M : MathFns α) (s : Viewer α)
    (_iters : Int) (hn : 0 < s.mesh.n_vertices)
    (hcurv : ∀ v, v < s.mesh.n_vertices → Flt.isnan (s.vcurvature_ v) = false)
    (hdog : ∀ v, v < s.mesh.n_vertices →
      Flt.isnan ((convolve M s _iters).vmeshdog_dog_ v) = false) :
    ∃ t thr, detect_meshdog M s _iters = some t ∧
      (sort_ascending (vec_dog t))[thresh_index s.mesh.n_vertices]? = some thr ∧
      s.mesh.n_vertices - thresh_index s.mesh.n_vertices ≤ t._dog_feature_points.length ∧
      ((vec_dog t).count thr = 1 →
        t._dog_feature_points.length = s.mesh.n_vertices - thresh_index s.mesh.n_vertices) := by
  obtain ⟨hm, hc⟩ := convolve_frame M s _iters
  have hN : (convolve M s _iters).mesh.n_vertices = s.mesh.n_vertices := by rw [hm]
  obtain ⟨thr, hthr, hsome⟩ := threshold_features_some (convolve M s _iters) (by rw [hN]; exact hn)
  rw [hN] at hthr
  have hnn : ∀ x ∈ sort_ascending (vec_dog (convolve M s _iters)), Flt.isnan x = false := by
    intro x hx
    have hx' := (sort_ascending_perm _).mem_iff.1 hx
    simp only [vec_dog, List.mem_map, List.mem_range, hm] at hx'
    obtain ⟨v, hv, rfl⟩ := hx'
    exact hdog v hv
  obtain ⟨hge, heq⟩ := countP_ge_sorted _ _ thr (sort_ascending_sorted _) hnn hthr
  have hlen : ((List.range (convolve M s _iters).mesh.n_vertices).filter
        (is_feature (convolve M s _iters) thr)).length
      = (sort_ascending (vec_dog (convolve M s _iters))).countP (fun x => Flt.ge x thr) := by
    rw [(sort_ascending_perm _).countP_eq, ← List.countP_eq_length_filter, vec_dog,
      List.countP_map]
    apply List.countP_congr
    intro v hv
    rw [List.mem_range, hN] at hv
    simp [is_feature, hc, hcurv v hv]
  rw [sort_ascending_length, vec_dog_length, hN] at hge heq
  refine ⟨_, thr, hsome, hthr, ?_, fun hone => ?_⟩
  · show _ ≤ ((List.range (convolve M s _iters).mesh.n_vertices).filter
      (is_feature (convolve M s _iters) thr)).length
    rw [hlen]
    exact hge
  · show ((List.range (convolve M s _iters).mesh.n_vertices).filter
      (is_feature (convolve M s _iters) thr)).length = _
    rw [hlen]
    apply heq
    rw [(sort_ascending_perm _).count_eq]
    exact hone

/-- Witness of the amended C3: the equilateral triangle with the DoG deltas
`0, 1, 2` and no round; the threshold is a delta of one vertex only, and one
feature point is reported (`3 - floor(2.85) = 1`). -/
theorem feature_count_witness :
    ∃ t, detect_meshdog realMath (ramp_state : Viewer ℝ) 0 = some t ∧
      t._dog_feature_points.length = 3 - thresh_index 3 := by
  obtain ⟨t, thr, h1, h2, -, h4⟩ := feature_count realMath (ramp_state : Viewer ℝ) 0
    (by decide) (fun _ _ => rfl) (fun _ _ => rfl)
  refine ⟨t, h1, h4 ?_⟩
  have hmem : thr ∈ vec_dog t := (sort_ascending_perm _).mem_iff.1 (List.getElem?_mem h2)
  apply List.count_eq_one_of_mem _ hmem
  have ht : vec_dog t = vec_dog (ramp_state : Viewer ℝ) := by
    have := (Option.some.inj (h1.symm.trans
      (threshold_features_some (ramp_state : Viewer ℝ) (by decide)).choose_spec.2))
    rw [this]
    rfl
  rw [ht]
  have hv : vec_dog (ramp_state : Viewer ℝ)
      = [Flt.fin ((0 : Nat) : ℝ), Flt.fin ((1 : Nat) : ℝ), Flt.fin ((2 : Nat) : ℝ)] := rfl
  rw [hv]
  simp

/-- C11: on a mesh with at least one vertex, for `a >= 0` and `b >= 1`, the
call `detect_meshdog(a)` returns a state on which `detect_meshdog(b)` returns
the very state that a single `detect_meshdog(a + b)` returns from the initial
state: same response field, DoG field and feature list. -/
theorem detect_meshdog_continues {α : Type} [LinearOrderedField α] (M : MathFns α)
    (s : Viewer α) (a b : Int) (ha : 0 ≤ a) (hb : 1 ≤ b) (hn : 0 < s.mesh.n_vertices) :
    ∃ t1 t2, detect_meshdog M s a = some t1 ∧ detect_meshdog M t1 b = some t2 ∧
      detect_meshdog M s (a + b) = some t2 ∧
      t2.vmeshdog_f_ = (convolve M s (a + b)).vmeshdog_f_ ∧
      t2.vmeshdog_dog_ = (convolve M s (a + b)).vmeshdog_dog_ := by
  have hN : ∀ k : Int, (convolve M s k).mesh.n_vertices = s.mesh.n_vertices := fun k => by
    rw [(convolve_frame M s k).1]
  obtain ⟨thr1, -, h1⟩ := threshold_features_some (convolve M s a) (by rw [hN]; exact hn)
  obtain ⟨thr2, -, h2⟩ := threshold_features_some (convolve M s (a + b)) (by rw [hN]; exact hn)
  refine ⟨_, _, h1, ?_, h2, rfl, rfl⟩
  have hsum : (a + b).toNat = b.toNat + a.toNat := by omega
  have hcont : convolve M (convolve M s a) b = convolve M s (a + b) := by
    simp only [convolve, hsum, Function.iterate_add_apply]
  rw [detect_meshdog, convolve, conv_iterate_features, threshold_features_features]
  exact (congrArg threshold_features hcont).trans h2

/-- Witness of C11: the equilateral triangle with the response `(4, 0, 0)`,
two rounds followed by three. -/
theorem detect_meshdog_continues_witness :
    ∃ t1 t2, detect_meshdog realMath (spike_state (Real.sqrt 2)) 2 = some t1 ∧
      detect_meshdog realMath t1 3 = some t2 ∧
      detect_meshdog realMath (spike_state (Real.sqrt 2)) (2 + 3) = some t2 ∧
      t2.vmeshdog_f_ = (convolve realMath (spike_state (Real.sqrt 2)) (2 + 3)).vmeshdog_f_ ∧
      t2.vmeshdog_dog_ = (convolve realMath (spike_state (Real.sqrt 2)) (2 + 3)).vmeshdog_dog_ :=
  detect_meshdog_continues realMath (spike_state (Real.sqrt 2)) 2 3 (by decide) (by decide)
    (by decide)

/-- C12: `smooth(0)` and `uniform_smooth(0)` leave every vertex position (and
the whole state) unchanged. -/
theorem smooth_zero {α : Type} [LinearOrderedField α] (s : Viewer α) :
    (∀ v, (smooth s 0).mesh.point v = s.mesh.point v) ∧
    (∀ v, (uniform_smooth s 0).mesh.point v = s.mesh.point v) ∧
    smooth s 0 = s ∧ uniform_smooth s 0 = s :=
  ⟨fun _ => rfl, fun _ => rfl, rfl, rfl⟩

/-- C19: for every vertex count `n >= 1` the index `floor(0.95 * n)` is at most
`n - 1`, the lookup `vec_dog[thresh_index]` finds an element and
`detect_meshdog` returns; for `n = 0` the index is `0`, the sorted vector is
empty and the lookup is out of range. -/
theorem thresh_lookup_in_range {α : Type} [LinearOrderedField α] (M : MathFns α)
    (s : Viewer α) (_iters : Int) :
    (0 < s.mesh.n_vertices →
      thresh_index s.mesh.n_vertices ≤ s.mesh.n_vertices - 1 ∧
      (∃ thr, (sort_ascending (vec_dog (convolve M s _iters)))[thresh_index s.mesh.n_vertices]?
        = some thr) ∧
      (detect_meshdog M s _iters).isSome = true) ∧
    (s.mesh.n_vertices = 0 →
      thresh_index s.mesh.n_vertices = 0 ∧
      sort_ascending (vec_dog (convolve M s _iters)) = [] ∧
      (sort_ascending (vec_dog (convolve M s _iters)))[thresh_index s.mesh.n_vertices]? = none ∧
      detect_meshdog M s _iters = none) := by
  have hN : (convolve M s _iters).mesh.n_vertices = s.mesh.n_vertices := by
    rw [(convolve_frame M s _iters).1]
  constructor
  · intro hn
    obtain ⟨thr, hthr, hsome⟩ := threshold_features_some (convolve M s _iters)
      (by rw [hN]; exact hn)
    rw [hN] at hthr
    refine ⟨?_, ⟨thr, hthr⟩, ?_⟩
    · have := thresh_index_lt _ hn
      omega
    · rw [detect_meshdog, hsome]
      rfl
  · intro h0
    have hnil : sort_ascending (vec_dog (convolve M s _iters)) = [] := by
      apply List.eq_nil_of_length_eq_zero
      rw [sort_ascending_length, vec_dog_length, hN, h0]
    refine ⟨by rw [h0]; rfl, hnil, by rw [hnil]; rfl, ?_⟩
    rw [detect_meshdog, threshold_features, hnil]
    rfl

/-- Witness of C19: the equilateral triangle (`n = 3`, index 2) and the mesh
without any vertex. -/
theorem thresh_lookup_in_range_witness :
    (thresh_index 3 ≤ 3 - 1 ∧
      (∃ thr, (sort_ascending (vec_dog (convolve realMath (spike_state (Real.sqrt 2)) 1)))[
        thresh_index 3]? = some thr) ∧
      (detect_meshdog realMath (spike_state (Real.sqrt 2)) 1).isSome = true) ∧
    detect_meshdog realMath (Viewer.init (empty_mesh : Mesh ℝ)) 1 = none :=
  ⟨(thresh_lookup_in_range realMath (spike_state (Real.sqrt 2)) 1).1 (by decide),
    ((thresh_lookup_in_range realMath (Viewer.init (empty_mesh : Mesh ℝ)) 1).2 rfl).2.2.2⟩

/-- C13, refuted as stated: on the right triangle one iteration of
`uniform_smooth` moves vertex 1 to `(9/16, 5/16, 0)`, the whole-mesh
synchronous update moves it to `(1/2, 1/4, 0)`; with all edge weights `1` the
same holds of `smooth`. -/
theorem smoothing_not_synchronous :
    (uniform_smooth (Viewer.init (right_triangle : Mesh ℚ)) 1).mesh.point 1
        = Vec3.ofNums (9 / 16) (5 / 16) 0 ∧
      (uniform_smooth_round_sync^[1] (Viewer.init (right_triangle : Mesh ℚ))).mesh.point 1
        = Vec3.ofNums (1 / 2) (1 / 4) 0 ∧
      (uniform_smooth (Viewer.init (right_triangle : Mesh ℚ)) 1).mesh.point 1
        ≠ (uniform_smooth_round_sync^[1] (Viewer.init (right_triangle : Mesh ℚ))).mesh.point 1 ∧
      (smooth (unit_weights (right_triangle : Mesh ℚ)) 1).mesh.point 1
        = Vec3.ofNums (9 / 16) (5 / 16) 0 ∧
      (smooth_round_sync^[1] (unit_weights (right_triangle : Mesh ℚ))).mesh.point 1
        = Vec3.ofNums (1 / 2) (1 / 4) 0 ∧
      (smooth (unit_weights (right_triangle : Mesh ℚ)) 1).mesh.point 1
        ≠ (smooth_round_sync^[1] (unit_weights (right_triangle : Mesh ℚ))).mesh.point 1 := by
  have hne : Vec3.ofNums (9 / 16 : ℚ) (5 / 16) 0 ≠ Vec3.ofNums (1 / 2) (1 / 4) 0 := by
    intro h
    have := (ofNums_injective _ _ _ _ _ _ h).1
    norm_num at this
  have h1 : (uniform_smooth (Viewer.init (right_triangle : Mesh ℚ)) 1).mesh.point 1
      = Vec3.ofNums (9 / 16) (5 / 16) 0 := right_triangle_uniform_second
  have h2 : (uniform_smooth_round_sync^[1] (Viewer.init (right_triangle : Mesh ℚ))).mesh.point 1
      = Vec3.ofNums (1 / 2) (1 / 4) 0 := right_triangle_uniform_sync
  have h3 : (smooth (unit_weights (right_triangle : Mesh ℚ)) 1).mesh.point 1
      = Vec3.ofNums (9 / 16) (5 / 16) 0 := right_triangle_smooth_second
  have h4 : (smooth_round_sync^[1] (unit_weights (right_triangle : Mesh ℚ))).mesh.point 1
      = Vec3.ofNums (1 / 2) (1 / 4) 0 := right_triangle_smooth_sync
  exact ⟨h1, h2, by rw [h1, h2]; exact hne, h3, h4, by rw [h3, h4]; exact hne⟩

/-- C13 as amended: every iteration of `smooth` and of `uniform_smooth` is one
sequential in-place sweep in index order.  The position a vertex `v` gets is
computed from the mesh in which the vertices before `v` already have their
new positions of this iteration and `v` and the vertices after it still have
the positions of the iteration's start; `k + 1` iterations are one such sweep
followed by `k` iterations. -/
theorem smoothing_in_place {α : Type} [LinearOrderedField α] (s : Viewer α) (k v : Nat) :
    smooth s (k + 1) = smooth (smooth_round s) k ∧
    uniform_smooth s (k + 1) = uniform_smooth (uniform_smooth_round s) k ∧
    (smooth_round s).mesh.point v
      = (if v < s.mesh.n_vertices then
          smooth_point (s.mesh.withPoints (fun u =>
            if u < v then (smooth_round s).mesh.point u else s.mesh.point u)) s.eweight_ v
        else s.mesh.point v) ∧
    (uniform_smooth_round s).mesh.point v
      = (if v < s.mesh.n_vertices then
          uniform_smooth_point (s.mesh.withPoints (fun u =>
            if u < v then (uniform_smooth_round s).mesh.point u else s.mesh.point u)) v
        else s.mesh.point v) :=
  ⟨rfl, rfl, smooth_round_in_place s v, uniform_smooth_round_in_place s v⟩

/-- C15, refuted as stated: on the mesh of one isolated vertex (valence 0)
the response is `0` before `init_meshdog` and NaN, the uniform mean curvature
of that vertex, after it. -/
theorem init_meshdog_isolated_vertex_response :
    (calc_uniform_mean_curvature realMath
      (Viewer.init (point_mesh (Vec3.ofNums 0 0 0)))).mesh.vv 0 = [] ∧
    (calc_uniform_mean_curvature realMath
      (Viewer.init (point_mesh (Vec3.ofNums 0 0 0)))).vmeshdog_f_ 0 = Flt.fin 0 ∧
    (init_meshdog realMath (calc_uniform_mean_curvature realMath
      (Viewer.init (point_mesh (Vec3.ofNums 0 0 0))))).vmeshdog_f_ 0 = Flt.nan ∧
    (init_meshdog realMath (calc_uniform_mean_curvature realMath
      (Viewer.init (point_mesh (Vec3.ofNums 0 0 0))))).vmeshdog_f_ 0
      ≠ (calc_uniform_mean_curvature realMath
        (Viewer.init (point_mesh (Vec3.ofNums 0 0 0)))).vmeshdog_f_ 0 := by
  have h2 : (calc_uniform_mean_curvature realMath
      (Viewer.init (point_mesh (Vec3.ofNums 0 0 0)))).vmeshdog_f_ 0 = Flt.fin 0 := rfl
  have h3 : (init_meshdog realMath (calc_uniform_mean_curvature realMath
      (Viewer.init (point_mesh (Vec3.ofNums 0 0 0))))).vmeshdog_f_ 0 = Flt.nan := by
    rw [init_meshdog_f, if_pos (by decide), calc_uniform_mean_curvature_at, if_pos (by decide)]
    simp [uniform_mean_curvature_at, ring_sum, Mesh.vv, Viewer.init, point_mesh, Vec3.sdiv,
      Vec3.zero, Vec3.ofNums, Vec3.sub, Vec3.norm]
  refine ⟨rfl, h2, h3, ?_⟩
  rw [h2, h3]
  exact fun h => Flt.noConfusion h

/-- C15 as amended: `init_meshdog` sets the response of every vertex, of
valence zero or not, to the stored uniform mean curvature.  At a vertex of
valence zero the average edge length `veavg_` keeps its prior value and no
division is executed; at a vertex of valence `k >= 1` with finite positions
one division is executed and `veavg_` is the arithmetic mean of the `k`
distances to the one-ring neighbours. -/
theorem init_meshdog_vertex_state {α : Type} [LinearOrderedField α] (M : MathFns α)
    (s : Viewer α) (v : Nat) (hv : v < s.mesh.n_vertices) :
    (init_meshdog M s).vmeshdog_f_ v = s.vunicurvature_ v ∧
    (s.mesh.vv v = [] →
      (init_meshdog M s).veavg_ v = s.veavg_ v ∧ init_meshdog_divisions M s v = 0) ∧
    (s.mesh.vv v ≠ [] → (s.mesh.point v).isFinite = true →
      (∀ u ∈ s.mesh.vv v, (s.mesh.point u).isFinite = true) →
      (init_meshdog M s).veavg_ v = Flt.fin (mean_edge_length M s.mesh v) ∧
      init_meshdog_divisions M s v = 1) := by
  refine ⟨by rw [init_meshdog_f, if_pos hv], ?_, ?_⟩
  · intro h0
    have hk : (edge_length_sum M s.mesh v).1 = 0 := by rw [edge_length_sum_fst, h0]; rfl
    rw [init_meshdog_veavg, if_pos hv, if_pos hk, init_meshdog_divisions, if_pos hk]
    exact ⟨rfl, rfl⟩
  · intro hne hp hfin
    have hlen : 0 < (s.mesh.vv v).length := List.length_pos.2 hne
    have hk : (edge_length_sum M s.mesh v).1 ≠ 0 := by rw [edge_length_sum_fst]; omega
    rw [init_meshdog_veavg, if_pos hv, if_neg hk, init_meshdog_divisions, if_neg hk]
    refine ⟨?_, rfl⟩
    have h2 : (edge_length_sum M s.mesh v).2
        = Flt.fin (0 + ((s.mesh.vv v).map
            (fun u => side_length M (s.mesh.point u) (s.mesh.point v))).sum) :=
      edge_length_sum_loop_finite M s.mesh v hp (s.mesh.vv v) hfin 0 0
    rw [h2, edge_length_sum_fst, zero_add, Flt.fin_div_fin _ _ (by exact_mod_cast hlen.ne')]
    rfl

/-- Witness of C15: vertex 0 of the right triangle (valence 2) and the
isolated vertex of the one-point mesh (valence 0). -/
theorem init_meshdog_vertex_state_witness :
    ((init_meshdog realMath (Viewer.init (right_triangle : Mesh ℝ))).veavg_ 0
        = Flt.fin (mean_edge_length realMath right_triangle 0) ∧
      init_meshdog_divisions realMath (Viewer.init (right_triangle : Mesh ℝ)) 0 = 1) ∧
    ((init_meshdog realMath (Viewer.init (point_mesh (Vec3.ofNums (0 : ℝ) 0 0)))).veavg_ 0
        = Flt.fin 0 ∧
      init_meshdog_divisions realMath (Viewer.init (point_mesh (Vec3.ofNums (0 : ℝ) 0 0))) 0
        = 0) :=
  ⟨(init_meshdog_vertex_state realMath (Viewer.init (right_triangle : Mesh ℝ)) 0
      (by decide)).2.2 (by decide) (right_triangle_finite 0)
      (fun u _ => right_triangle_finite u),
    (init_meshdog_vertex_state realMath (Viewer.init (point_mesh (Vec3.ofNums (0 : ℝ) 0 0))) 0
      (by decide)).2.1 rfl⟩

/-- C16, code bug: `save_meshdog` appends the current feature positions to
the member `new_mesh` without emptying it first, so a second call exports the
points of the first call followed by the current feature positions; with one
feature vertex the second export holds two points. -/
theorem save_meshdog_accumulates {α : Type} [LinearOrderedField α] (s : Viewer α) :
    (save_meshdog s).new_mesh = s.new_mesh ++ feature_positions s ∧
    feature_positions (save_meshdog s) = feature_positions s ∧
    (save_meshdog (save_meshdog s)).new_mesh
      = s.new_mesh ++ feature_positions s ++ feature_positions s ∧
    ((save_meshdog (save_meshdog s)).new_mesh = feature_positions (save_meshdog s)
      ↔ s.new_mesh = [] ∧ s._dog_feature_handles = []) ∧
    feature_positions (save_meshdog (one_feature_state : Viewer α)) = [Vec3.ofNums 1 0 0] ∧
    (save_meshdog (save_meshdog (one_feature_state : Viewer α))).new_mesh
      = [Vec3.ofNums 1 0 0, Vec3.ofNums 1 0 0] := by
  obtain ⟨h1, h2, h3⟩ := save_meshdog_new_mesh s
  have hf : feature_positions (save_meshdog s) = feature_positions s := by
    simp only [feature_positions, h2, h3]
  have h4 : (save_meshdog (save_meshdog s)).new_mesh
      = s.new_mesh ++ feature_positions s ++ feature_positions s := by
    rw [(save_meshdog_new_mesh (save_meshdog s)).1, h1, hf]
  refine ⟨h1, hf, h4, ?_, rfl, rfl⟩
  rw [h4, hf]
  constructor
  · intro h
    have hl := congrArg List.length h
    simp only [List.length_append, feature_positions, List.length_map] at hl
    constructor
    · exact List.eq_nil_of_length_eq_zero (by omega)
    · exact List.eq_nil_of_length_eq_zero (by omega)
  · rintro ⟨h5, h6⟩
    simp [feature_positions, h5, h6]

/-- C18, refuted as stated: on the triangle with the collinear corners
`(0,0,0)`, `(1,0,0)`, `(2,0,0)` both cosines of edge 0 are `1` and are clamped
to `0.99f = 16609444 / 2^24`, which is above `0.99`; the stored weight is
above `2 * 0.99 / sqrt(1 - 0.99^2)`. -/
theorem calc_weights_eweight_exceeds :
    ∃ w : ℝ, (calc_weights realMath (Viewer.init (flat_triangle : Mesh ℝ))).eweight_ 0
        = Flt.fin w ∧
      2 * (99 / 100) / Real.sqrt (1 - (99 / 100) ^ 2) < w := by
  refine ⟨cot_bound realMath + cot_bound realMath, ?_, ?_⟩
  · rw [calc_weights_eweight, if_pos (by decide)]
    show Flt.max (Flt.fin 0) (Flt.fin 0
      + cot_term realMath (Vec3.ofNums 1 0 0) (Vec3.ofNums 0 0 0) (Vec3.ofNums 2 0 0)
      + cot_term realMath (Vec3.ofNums 1 0 0) (Vec3.ofNums 0 0 0) (Vec3.ofNums 2 0 0)) = _
    rw [cot_term_flat, Flt.fin_add_fin, Flt.fin_add_fin, zero_add]
    have hpos : 0 < cot_bound realMath + cot_bound realMath := by
      linarith [cot_bound_pos]
    simp [Flt.max, Flt.lt, hpos]
  · have := cot_bound_gt
    rw [mul_div_assoc]
    linarith

/-- C18 as amended: with real libm functions, every cotangent term of
`calc_weights` is a number of absolute value at most `7.02`, and the weight
stored for every edge, whatever the vertex positions are (NaN and infinite
ones included), is a number `w` with `0 <= w <= 14.04`. -/
theorem calc_weights_eweight_bounded (s : Viewer ℝ) (e : Nat) (he : e < s.mesh.n_edges) :
    (∀ p0 p1 p2 : Vec3 ℝ, ∃ t : ℝ, cot_term realMath p0 p1 p2 = Flt.fin t ∧ |t| ≤ 702 / 100) ∧
    ∃ w : ℝ, (calc_weights realMath s).eweight_ e = Flt.fin w ∧ 0 ≤ w ∧ w ≤ 1404 / 100 := by
  constructor
  · intro p0 p1 p2
    obtain ⟨t, ht, hb⟩ := cot_term_real p0 p1 p2
    exact ⟨t, ht, hb.trans cot_bound_lt.le⟩
  · rw [calc_weights_eweight, if_pos he]
    obtain ⟨w, hw, h0, h1⟩ := edge_weight_real s.mesh e
    exact ⟨w, hw, h0, by linarith [cot_bound_lt]⟩

/-- Witness of the amended C18: the first edge of the right triangle. -/
theorem calc_weights_eweight_bounded_witness :
    ∃ w : ℝ, (calc_weights realMath (Viewer.init (right_triangle : Mesh ℝ))).eweight_ 0
        = Flt.fin w ∧ 0 ≤ w ∧ w ≤ 1404 / 100 :=
  (calc_weights_eweight_bounded (Viewer.init (right_triangle : Mesh ℝ)) 0 (by decide)).2

/-- C17, refuted as stated: with a libm whose `exp` underflows as the double
`exp` does, `gaussian_conv(100, 1)` (bandwidth `theta = 1 > 0`) is `0`, not
strictly positive: `exp(-5000)` is `0`. -/
theorem gaussian_conv_underflow :
    gaussian_conv underflowMath (Flt.fin 100) (Flt.fin 1) = Flt.fin 0 ∧
    Flt.lt (Flt.fin 0) (gaussian_conv underflowMath (Flt.fin 100) (Flt.fin 1)) = false := by
  have hs : (0 : ℝ) < Real.sqrt (2 * Real.pi) := sqrt_two_pi_pos
  have h : gaussian_conv underflowMath (Flt.fin 100) (Flt.fin 1) = Flt.fin 0 := by
    simp only [gaussian_conv, Flt.fin_mul_fin, Flt.neg_fin]
    rw [Flt.fin_div_fin _ _ (by norm_num), Flt.sqrt_fin underflowMath _
      (show (0 : ℝ) ≤ 2 * underflowMath.pi from (mul_pos (by norm_num) Real.pi_pos).le),
      Flt.fin_mul_fin]
    show Flt.fin (if -(100 * 100) / (2 * (1 * 1)) < (-746 : ℝ) then 0
      else Real.exp (-(100 * 100) / (2 * (1 * 1)))) / Flt.fin (1 * Real.sqrt (2 * Real.pi)) = _
    rw [if_pos (by norm_num), Flt.fin_div_fin _ _ (by rw [one_mul]; exact hs.ne'), zero_div]
  exact ⟨h, by rw [h]; simp [Flt.lt]⟩

/-- C17 as amended: for every libm whose `exp` is never negative (it may be
`0`) and whose `sqrt(2 * pi)` is positive, on finite positions, at a vertex
`v` with bandwidth `cbrt2 * veavg_(v) > 0` and a non-NaN `vcurvature_`, every
kernel weight is a number `>= 0`, and the response `detect_meshdog` stores for
`v` keeps the sign of the responses read from the neighbours: it is `>= 0` or
NaN when they are all `>= 0`, and `<= 0` or NaN when they are all `<= 0`. -/
theorem conv_sign_principle {α : Type} [LinearOrderedField α] (M : MathFns α) (st : Viewer α)
    (v : Nat) (e : α) (g : Nat → α)
    (hexp : ∀ x, 0 ≤ M.exp x) (hpi : 0 ≤ 2 * M.pi) (hs : 0 < M.sqrt (2 * M.pi))
    (hc : Flt.isnan (st.vcurvature_ v) = false)
    (hfin : ∀ w, (st.mesh.point w).isFinite = true) (he : st.veavg_ v = Flt.fin e)
    (hpos : 0 < M.cbrt2 * e)
    (hf : ∀ u ∈ st.mesh.vv v, st.vmeshdog_f_ u = Flt.fin (g u)) :
    (∀ u, ∃ κ : α, kernel M st.mesh st.veavg_ v u = Flt.fin κ ∧ 0 ≤ κ) ∧
    ((∀ u ∈ st.mesh.vv v, 0 ≤ g u) →
      Flt.isnan ((conv_vertex M st v).vmeshdog_f_ v) = true
        ∨ Flt.le (Flt.fin 0) ((conv_vertex M st v).vmeshdog_f_ v) = true) ∧
    ((∀ u ∈ st.mesh.vv v, g u ≤ 0) →
      Flt.isnan ((conv_vertex M st v).vmeshdog_f_ v) = true
        ∨ Flt.le ((conv_vertex M st v).vmeshdog_f_ v) (Flt.fin 0) = true) := by
  have hk : ∀ u, kernel M st.mesh st.veavg_ v u = Flt.fin (kernel_num M st.mesh e v u) :=
    fun u => kernel_finite M st.mesh st.veavg_ v u e hfin he hpos.ne' hpi hs.ne'
  have hκ : ∀ u, 0 ≤ kernel_num M st.mesh e v u :=
    fun u => kernel_num_nonneg M st.mesh e v u hexp hs hpos
  have hnew : (conv_vertex M st v).vmeshdog_f_ v
      = conv_value M st.mesh st.veavg_ st.vmeshdog_f_ v := by
    rw [conv_vertex_f, if_pos ⟨rfl, hc⟩]
  rw [hnew]
  exact ⟨fun u => ⟨_, hk u, hκ u⟩,
    conv_value_sign M st.mesh st.veavg_ st.vmeshdog_f_ v _ g (fun u _ => hk u)
      (fun u _ => hκ u) hf⟩

/-- Witness of the amended C17: vertex 1 of the equilateral triangle with the
responses `(4, 0, 0)`, with the underflowing `exp`. -/
theorem conv_sign_principle_witness :
    Flt.isnan ((conv_vertex underflowMath (spike_state (Real.sqrt 2)) 1).vmeshdog_f_ 1) = true
      ∨ Flt.le (Flt.fin 0)
        ((conv_vertex underflowMath (spike_state (Real.sqrt 2)) 1).vmeshdog_f_ 1) = true :=
  (conv_sign_principle underflowMath (spike_state (Real.sqrt 2)) 1 (Real.sqrt 2)
    (fun w : Nat => if w = 0 then (4 : ℝ) else 0)
    (fun x => by
      show (0 : ℝ) ≤ if x < -746 then 0 else Real.exp x
      split
      · exact le_rfl
      · exact (Real.exp_pos x).le)
    (mul_pos (by norm_num) Real.pi_pos).le sqrt_two_pi_pos rfl (corner_triangle_finite 1) rfl
    (mul_pos cbrt2_pos (Real.sqrt_pos.2 (by norm_num))) (fun u _ => rfl)).2.1
    (fun u _ => by
      show (0 : ℝ) ≤ if u = 0 then 4 else 0
      split <;> norm_num)

/-- C14, refuted as stated: on the triangle with a degenerate flap, in the
state `open_mesh` computes (every vertex has valence `>= 1` and a positive
average edge length; `vcurvature_` is NaN at vertex 3 only) with the response
set to `0` at every vertex, `detect_meshdog(1)` reports the vertices 0, 1 and
2: neither none nor all four. -/
theorem constant_response_mixed_report :
    (∀ v, v < 4 →
      (zero_response (open_mesh_prepare realMath
        (Viewer.init (flap_mesh : Mesh ℝ)))).mesh.vv v ≠ [] ∧
      (∃ e : ℝ, (zero_response (open_mesh_prepare realMath
        (Viewer.init (flap_mesh : Mesh ℝ)))).veavg_ v = Flt.fin e ∧ 0 < e) ∧
      (zero_response (open_mesh_prepare realMath
        (Viewer.init (flap_mesh : Mesh ℝ)))).vmeshdog_f_ v = Flt.fin 0) ∧
    ∃ t : Viewer ℝ, detect_meshdog realMath (zero_response (open_mesh_prepare realMath
        (Viewer.init (flap_mesh : Mesh ℝ)))) 1 = some t ∧
      t.mesh.n_vertices = 4 ∧
      t._dog_feature_handles = [0, 1, 2] ∧ t._dog_feature_handles ≠ [] ∧
      t._dog_feature_handles ≠ List.range 4 := by
  obtain ⟨hm, hnan, hnum, hav, hd⟩ := flap_prepared
  have hmesh : (zero_response (open_mesh_prepare realMath
      (Viewer.init (flap_mesh : Mesh ℝ)))).mesh = flap_mesh := hm
  have hvv : ∀ v, v < 4 → (flap_mesh : Mesh ℝ).vv v ≠ [] := by decide
  have hwf : ∀ v, v < 4 → ∀ u ∈ (flap_mesh : Mesh ℝ).vv v, u < 4 := by decide
  refine ⟨fun v hv => ⟨by rw [hmesh]; exact hvv v hv, hav v hv, rfl⟩, ?_⟩
  obtain ⟨t, h1, -, -, h4, -⟩ := detect_zero realMath
    (zero_response (open_mesh_prepare realMath (Viewer.init (flap_mesh : Mesh ℝ))))
    (by rw [hmesh]; decide)
    (by rw [hmesh]; exact hwf)
    (fun v _ => rfl)
    (fun v hv _ => by
      rw [hmesh] at hv ⊢
      obtain ⟨e, he, hpos⟩ := hav v hv
      exact kernel_sum_real flap_mesh _ v e flap_mesh_finite he hpos (hvv v hv))
    (fun v _ _ => by
      show (open_mesh_prepare realMath (Viewer.init (flap_mesh : Mesh ℝ))).vmeshdog_dog_ v = _
      rw [hd])
  have hN : t.mesh.n_vertices = 4 := by
    have h5 := h1
    rw [detect_meshdog] at h5
    obtain ⟨thr, -, hs⟩ := threshold_features_some (convolve realMath
      (zero_response (open_mesh_prepare realMath (Viewer.init (flap_mesh : Mesh ℝ)))) 1)
      (by rw [(convolve_frame realMath _ 1).1, hmesh]; decide)
    rw [hs] at h5
    rw [← Option.some.inj h5]
    show (convolve realMath _ 1).mesh.n_vertices = 4
    rw [(convolve_frame realMath _ 1).1, hmesh]
    rfl
  have h5 : t._dog_feature_handles = [0, 1, 2] := by
    rw [h4, hmesh]
    show (List.range 4).filter (fun v => !Flt.isnan ((open_mesh_prepare realMath
      (Viewer.init (flap_mesh : Mesh ℝ))).vcurvature_ v)) = _
    have hr : List.range 4 = [0, 1, 2, 3] := by decide
    rw [hr]
    simp [List.filter, hnan, hnum 0 (by decide), hnum 1 (by decide), hnum 2 (by decide)]
  refine ⟨t, h1, hN, h5, ?_, ?_⟩
  · rw [h5]; decide
  · rw [h5]; decide

/-- C14 as amended: the zero response is a fixed point.  On a mesh with at
least one vertex whose response is `0` at every vertex, if at every vertex
that is not skipped (non-NaN `vcurvature_`) the kernel weights are numbers
with a non-zero sum, one round of `detect_meshdog` leaves every response `0`;
when the DoG delta of every skipped vertex was `0` before, all DoG deltas are
`0` afterwards and `detect_meshdog(1)` reports exactly the vertices whose
`vcurvature_` is not NaN: all vertices when no `vcurvature_` is NaN, none when
all are. -/
theorem zero_response_fixed_point {α : Type} [LinearOrderedField α] (M : MathFns α)
    (s : Viewer α) (hn : 0 < s.mesh.n_vertices)
    (hwf : ∀ v, v < s.mesh.n_vertices → ∀ u ∈ s.mesh.vv v, u < s.mesh.n_vertices)
    (hf : ∀ v, v < s.mesh.n_vertices → s.vmeshdog_f_ v = Flt.fin 0)
    (hk : ∀ v, v < s.mesh.n_vertices → Flt.isnan (s.vcurvature_ v) = false →
      ∃ κ : Nat → α, (∀ u ∈ s.mesh.vv v, kernel M s.mesh s.veavg_ v u = Flt.fin (κ u)) ∧
        ((s.mesh.vv v).map κ).sum ≠ 0)
    (hd : ∀ v, v < s.mesh.n_vertices → Flt.isnan (s.vcurvature_ v) = true →
      s.vmeshdog_dog_ v = Flt.fin 0) :
    ∃ t : Viewer α, detect_meshdog M s 1 = some t ∧
      (∀ v, v < s.mesh.n_vertices → t.vmeshdog_f_ v = Flt.fin 0) ∧
      (∀ v, v < s.mesh.n_vertices → t.vmeshdog_dog_ v = Flt.fin 0) ∧
      t._dog_feature_handles
        = (List.range s.mesh.n_vertices).filter (fun v => !Flt.isnan (s.vcurvature_ v)) ∧
      t._dog_feature_points = t._dog_feature_handles ∧
      ((∀ v, v < s.mesh.n_vertices → Flt.isnan (s.vcurvature_ v) = false) →
        t._dog_feature_handles = List.range s.mesh.n_vertices) ∧
      ((∀ v, v < s.mesh.n_vertices → Flt.isnan (s.vcurvature_ v) = true) →
        t._dog_feature_handles = []) :=
  detect_zero M s hn hwf hf hk hd

/-- Witness of the amended C14: the equilateral triangle with the response `0`
at every vertex and no NaN `vcurvature_`; all three vertices are reported. -/
theorem zero_response_fixed_point_witness :
    ∃ t : Viewer ℝ,
      detect_meshdog realMath
        (dog_state (corner_triangle 1) (fun _ => Real.sqrt 2) (fun _ => 0)) 1 = some t ∧
      (∀ v, v < 3 → t.vmeshdog_f_ v = Flt.fin 0) ∧
      (∀ v, v < 3 → t.vmeshdog_dog_ v = Flt.fin 0) ∧
      t._dog_feature_handles = List.range 3 := by
  obtain ⟨t, h1, h2, h3, -, -, h6, -⟩ := zero_response_fixed_point realMath
    (dog_state (corner_triangle 1) (fun _ => Real.sqrt 2) (fun _ => 0))
    (by decide) (by decide) (fun v _ => rfl)
    (fun v hv _ => kernel_sum_real (corner_triangle 1) _ v (Real.sqrt 2)
      (corner_triangle_finite 1) rfl (Real.sqrt_pos.2 (by norm_num))
      ((by decide : ∀ v, v < 3 → (corner_triangle (1 : ℝ)).vv v ≠ []) v hv))
    (fun v _ _ => rfl)
  exact ⟨t, h1, h2, h3, h6 (fun v _ => rfl)⟩

/-- C5, refuted as stated: in `float`, whatever the edge weights are, vertex 0
of the triangle with corners `(t,0,0)`, `(0,t,0)`, `(0,0,t)`, which has two
neighbours and one incident triangle of non-zero area, gets the weight `+inf`
for `t = 2^-40` (the squared cross product underflows and the area is `0`)
and the weight `0` for `t = 2^64` (the cross product overflows and the area
is `+inf`). -/
theorem calc_weights_vweight_not_pos :
    ((corner_triangle (1 / 2 ^ 40) : Mesh ℚ).vv 0 = [2, 1] ∧
      (corner_triangle (1 / 2 ^ 40) : Mesh ℚ).vf 0 = [0] ∧
      cross_sq (Vec3.ofNums ((1 : ℚ) / 2 ^ 40) 0 0) (Vec3.ofNums 0 (1 / 2 ^ 40) 0)
        (Vec3.ofNums 0 0 (1 / 2 ^ 40)) ≠ 0 ∧
      ∀ ew : Nat → Flt ℚ,
        (F32.calc_weights ew (Viewer.init (corner_triangle (1 / 2 ^ 40)))).vweight_ 0
          = Flt.pinf) ∧
    ((corner_triangle (2 ^ 64) : Mesh ℚ).vv 0 = [2, 1] ∧
      (corner_triangle (2 ^ 64) : Mesh ℚ).vf 0 = [0] ∧
      cross_sq (Vec3.ofNums ((2 : ℚ) ^ 64) 0 0) (Vec3.ofNums 0 (2 ^ 64) 0)
        (Vec3.ofNums 0 0 (2 ^ 64)) ≠ 0 ∧
      ∀ ew : Nat → Flt ℚ,
        (F32.calc_weights ew (Viewer.init (corner_triangle (2 ^ 64)))).vweight_ 0
          = Flt.fin 0) := by
  refine ⟨⟨by decide, by decide, by decide!, fun ew => ?_⟩,
    ⟨by decide, by decide, by decide!, fun ew => ?_⟩⟩
  · rw [F32.calc_weights_stored,
      if_pos (show 0 < (Viewer.init (corner_triangle ((1 : ℚ) / 2 ^ 40))).mesh.n_vertices
        from Nat.succ_pos 2)]
    decide!
  · rw [F32.calc_weights_stored,
      if_pos (show 0 < (Viewer.init (corner_triangle ((2 : ℚ) ^ 64))).mesh.n_vertices
        from Nat.succ_pos 2)]
    decide!

/-- C5 as amended: in `float`, whatever the edge weights are, a vertex whose
accumulated area (the sum over its incident triangles of
`|(Q-P) x (R-P)| * 0.5f * 0.3333f`) is a normal number,
`FLT_MIN <= area <= FLT_MAX`, gets a vertex weight that is a strictly positive
number (finite, not NaN). -/
theorem calc_weights_vweight_pos (ew : Nat → Flt ℚ) (s : Viewer ℚ) (v : Nat)
    (hv : v < s.mesh.n_vertices) (a : ℚ)
    (ha : F32.vertex_area s.mesh v = Flt.fin a) (h1 : FLT_MIN ≤ a) (h2 : a ≤ FLT_MAX) :
    ∃ w : ℚ, (F32.calc_weights ew s).vweight_ v = Flt.fin w ∧ 0 < w := by
  obtain ⟨w, hw, hw1, _⟩ := F32.vertex_weight_of_area s.mesh v a ha h1 h2
  rw [F32.calc_weights_stored, if_pos hv]
  exact ⟨w, hw, lt_of_lt_of_le (by positivity) hw1⟩

/-- Witness of the amended C5 at a corner of the triangle with corners
`(1,0,0)`, `(0,1,0)`, `(0,0,1)`, whose `float` area is `9685361 / 2^25`, with
the edge weights `0`. -/
theorem calc_weights_vweight_pos_witness :
    ∃ w : ℚ, (F32.calc_weights (fun _ => Flt.fin 0)
        (Viewer.init (corner_triangle 1))).vweight_ 0 = Flt.fin w ∧ 0 < w :=
  calc_weights_vweight_pos (fun _ => Flt.fin 0) (Viewer.init (corner_triangle 1)) 0 (by decide)
    (9685361 / 33554432) (by decide!) (by decide!) (by decide!)

/-- C9, refuted as stated: in `float`, the equilateral triangle with corners
`(t,0,0)`, `(0,t,0)`, `(0,0,t)` does not take the degenerate branch and gets
`9686329 / 2^24` for `t = 1`, the larger value `9686331 / 2^24` for `t = 5`
(so neither value is the same constant, and the value for `t = 5` is no lower
bound), `+inf` for `t = 2^43` (the product `a*b*c` overflows), again
`9686331 / 2^24` for `t = 2^-43` (the product is subnormal) and `0` for
`t = 2^-62` (the product underflows). -/
theorem equilateral_quality_not_constant :
    ((F32.calc_triangle_quality (Viewer.init (corner_triangle 1))).tshape_ 0
        = Flt.fin (9686329 / 16777216) ∧
      (F32.face_quality (corner_triangle 1) 0).divisions = 2) ∧
    ((F32.calc_triangle_quality (Viewer.init (corner_triangle 5))).tshape_ 0
        = Flt.fin (9686331 / 16777216) ∧
      (F32.face_quality (corner_triangle 5) 0).divisions = 2) ∧
    ((F32.calc_triangle_quality (Viewer.init (corner_triangle (2 ^ 43)))).tshape_ 0 = Flt.pinf ∧
      (F32.face_quality (corner_triangle (2 ^ 43)) 0).divisions = 2) ∧
    ((F32.calc_triangle_quality (Viewer.init (corner_triangle (1 / 2 ^ 43)))).tshape_ 0
        = Flt.fin (9686331 / 16777216) ∧
      (F32.face_quality (corner_triangle (1 / 2 ^ 43)) 0).divisions = 2) ∧
    ((F32.calc_triangle_quality (Viewer.init (corner_triangle (1 / 2 ^ 62)))).tshape_ 0
        = Flt.fin 0 ∧
      (F32.face_quality (corner_triangle (1 / 2 ^ 62)) 0).divisions = 2) := by
  decide!

/-- C9 as amended: in `float`, the equilateral triangle with corners
`(t,0,0)`, `(0,t,0)`, `(0,0,t)` gets the same value `9686329 / 2^24` for every
power of two `t = 2^k` with `-42 <= k <= 42`, without taking the degenerate
branch; that value lies below `1 / sqrt 3`, by less than two units in the last
place. -/
theorem equilateral_quality_scale (k : Int) (h1 : -42 ≤ k) (h2 : k ≤ 42) :
    (F32.calc_triangle_quality (Viewer.init (corner_triangle (2 ^ k)))).tshape_ 0
      = Flt.fin (9686329 / 16777216) ∧
    (F32.face_quality (corner_triangle (2 ^ k)) 0).divisions = 2 ∧
    3 * (9686329 / 16777216 : ℚ) ^ 2 < 1 ∧ 1 < 3 * (9686331 / 16777216 : ℚ) ^ 2 := by
  rw [F32.calc_triangle_quality_stored,
    if_pos (show 0 < (Viewer.init (corner_triangle ((2 : ℚ) ^ k))).mesh.n_faces from Nat.one_pos)]
  have h := corner_quality_pow k h1 h2
  exact ⟨congrArg QualityStep.tshape h, congrArg QualityStep.divisions h, by norm_num,
    by norm_num⟩

/-- Witness of the amended C9 for `t = 2^0 = 1`. -/
theorem equilateral_quality_scale_witness :
    (F32.calc_triangle_quality (Viewer.init (corner_triangle (2 ^ (0 : Int))))).tshape_ 0
      = Flt.fin (9686329 / 16777216) ∧
    (F32.face_quality (corner_triangle (2 ^ (0 : Int))) 0).divisions = 2 ∧
    3 * (9686329 / 16777216 : ℚ) ^ 2 < 1 ∧ 1 < 3 * (9686331 / 16777216 : ℚ) ^ 2 :=
  equilateral_quality_scale 0 (by decide) (by decide)

/-- C10, refuted as stated: the corners `(1,0,0)`, `(16777218,1,0)`,
`(50331652,3,0)` are `float` numbers and collinear, yet in `float` the edge
vectors round to `(16777216,1,0)` and `(50331652,3,0)`, the cross-product
magnitude is `4`, and `calc_triangle_quality` executes both divisions and
stores `211106249310208` instead of `FLT_MAX`. -/
theorem collinear_not_sentinel :
    collinear (Vec3.ofNums (1 : ℚ) 0 0) (Vec3.ofNums 16777218 1 0) (Vec3.ofNums 50331652 3 0) ∧
    roundQ binary32 16777218 = Flt.fin 16777218 ∧
    roundQ binary32 50331652 = Flt.fin 50331652 ∧
    F32.cross_norm (Vec3.ofNums 1 0 0) (Vec3.ofNums 16777218 1 0) (Vec3.ofNums 50331652 3 0)
      = Flt.fin 4 ∧
    (F32.calc_triangle_quality (Viewer.init (triangle_mesh (Vec3.ofNums 1 0 0)
      (Vec3.ofNums 16777218 1 0) (Vec3.ofNums 50331652 3 0)))).tshape_ 0
      = Flt.fin 211106249310208 ∧
    (F32.face_quality (triangle_mesh (Vec3.ofNums 1 0 0) (Vec3.ofNums 16777218 1 0)
      (Vec3.ofNums 50331652 3 0)) 0).divisions = 2 :=
  ⟨Or.inr ⟨3, by norm_num [Vec3.ofNums, Flt.toNum]⟩, by decide!, by decide!, by decide!,
    by decide!, by decide!⟩

/-- C10 as amended: in `float`, with `D` the cross-product magnitude the code
computes, a face with `D < FLT_MIN` gets `FLT_MAX` and the loop body executes
no division; this is the case when two corners coincide and the edge vectors
from the first corner have components of magnitude at most `2^63`; a face for
which `D < FLT_MIN` is false gets `(a*b*c)/(2*D)` divided by the minimum of
`a`, `b`, `c` and `FLT_MAX`, every operation rounded to `float`. -/
theorem triangle_quality_branches (s : Viewer ℚ) (f : Nat) (hf : f < s.mesh.n_faces) :
    (Flt.lt (F32.cross_norm (s.mesh.point (s.mesh.fv f).1) (s.mesh.point (s.mesh.fv f).2.1)
        (s.mesh.point (s.mesh.fv f).2.2)) (Flt.fin FLT_MIN) = true →
      (F32.calc_triangle_quality s).tshape_ f = Flt.fin FLT_MAX ∧
      (F32.face_quality s.mesh f).divisions = 0) ∧
    ((s.mesh.point (s.mesh.fv f).1 = s.mesh.point (s.mesh.fv f).2.1 ∨
        s.mesh.point (s.mesh.fv f).1 = s.mesh.point (s.mesh.fv f).2.2 ∨
        s.mesh.point (s.mesh.fv f).2.1 = s.mesh.point (s.mesh.fv f).2.2) →
      Vec3.within (2 ^ 63)
        (Vec3.fsub binary32 (s.mesh.point (s.mesh.fv f).2.1) (s.mesh.point (s.mesh.fv f).1))
        = true →
      Vec3.within (2 ^ 63)
        (Vec3.fsub binary32 (s.mesh.point (s.mesh.fv f).2.2) (s.mesh.point (s.mesh.fv f).1))
        = true →
      (F32.calc_triangle_quality s).tshape_ f = Flt.fin FLT_MAX ∧
      (F32.face_quality s.mesh f).divisions = 0) ∧
    (Flt.lt (F32.cross_norm (s.mesh.point (s.mesh.fv f).1) (s.mesh.point (s.mesh.fv f).2.1)
        (s.mesh.point (s.mesh.fv f).2.2)) (Flt.fin FLT_MIN) = false →
      (F32.calc_triangle_quality s).tshape_ f
        = Flt.fdiv binary32
            (Flt.fdiv binary32
              (Flt.fmul binary32
                (Flt.fmul binary32
                  (F32.side_length (s.mesh.point (s.mesh.fv f).1) (s.mesh.point (s.mesh.fv f).2.1))
                  (F32.side_length (s.mesh.point (s.mesh.fv f).1) (s.mesh.point (s.mesh.fv f).2.2)))
                (F32.side_length (s.mesh.point (s.mesh.fv f).2.2) (s.mesh.point (s.mesh.fv f).2.1)))
              (Flt.fmul binary32 (Flt.fin 2)
                (F32.cross_norm (s.mesh.point (s.mesh.fv f).1) (s.mesh.point (s.mesh.fv f).2.1)
                  (s.mesh.point (s.mesh.fv f).2.2))))
            (Flt.min
              (F32.side_length (s.mesh.point (s.mesh.fv f).2.2) (s.mesh.point (s.mesh.fv f).2.1))
              (Flt.min
                (F32.side_length (s.mesh.point (s.mesh.fv f).1) (s.mesh.point (s.mesh.fv f).2.2))
                (Flt.min
                  (F32.side_length (s.mesh.point (s.mesh.fv f).1) (s.mesh.point (s.mesh.fv f).2.1))
                  (Flt.fin FLT_MAX)))) ∧
      (F32.face_quality s.mesh f).divisions = 2) := by
  rw [F32.calc_triangle_quality_stored, if_pos hf]
  simp only [F32.face_quality]
  generalize s.mesh.point (s.mesh.fv f).1 = P
  generalize s.mesh.point (s.mesh.fv f).2.1 = Q
  generalize s.mesh.point (s.mesh.fv f).2.2 = R
  have hlt : ∀ h : Flt.lt (F32.cross_norm P Q R) (Flt.fin FLT_MIN) = true,
      (F32.triangle_quality P Q R).tshape = Flt.fin FLT_MAX ∧
      (F32.triangle_quality P Q R).divisions = 0 := by
    intro h
    rw [F32.triangle_quality_eq, if_pos h]
    exact ⟨rfl, rfl⟩
  refine ⟨hlt, fun hco h1 h2 => hlt ?_, fun h => ?_⟩
  · rw [F32.cross_norm_coincident P Q R hco h1 h2]
    decide!
  · rw [F32.triangle_quality_eq, if_neg (by rw [h]; exact Bool.false_ne_true)]
    exact ⟨rfl, rfl⟩

/-- Witness of the amended C10: the triangle with the corners `(0,0,0)`,
`(0,0,0)`, `(1,0,0)`, two of which coincide, for the first branch, and the
triangle with the corners `(1,0,0)`, `(0,1,0)`, `(0,0,1)`, which gets
`9686329 / 2^24`, for the second. -/
theorem triangle_quality_branches_witness :
    ((F32.calc_triangle_quality (Viewer.init (triangle_mesh (Vec3.ofNums 0 0 0)
        (Vec3.ofNums 0 0 0) (Vec3.ofNums 1 0 0)))).tshape_ 0 = Flt.fin FLT_MAX ∧
      (F32.face_quality (triangle_mesh (Vec3.ofNums 0 0 0) (Vec3.ofNums 0 0 0)
        (Vec3.ofNums 1 0 0)) 0).divisions = 0) ∧
    (F32.calc_triangle_quality (Viewer.init (corner_triangle 1))).tshape_ 0
      = Flt.fin (9686329 / 16777216) :=
  ⟨(triangle_quality_branches (Viewer.init (triangle_mesh (Vec3.ofNums 0 0 0)
      (Vec3.ofNums 0 0 0) (Vec3.ofNums 1 0 0))) 0 (by decide)).2.1 (Or.inl rfl)
      (by decide!) (by decide!),
    ((triangle_quality_branches (Viewer.init (corner_triangle 1)) 0 (by decide)).2.2
      (by decide!)).1.trans (by decide!)⟩

/-- C20, refuted as stated: on the wheel of five triangles whose six vertices
all have the height `z = 13456769 / 2^23` (a `float` number), every vertex has
a neighbour and the bounding box has the height `z` only, yet in `float` one
iteration of `uniform_smooth` moves the centre vertex to the height
`z + 2^-23`: the sum of the five heights and its fifth are rounded up. -/
theorem uniform_smooth_leaves_box :
    roundQ binary32 (13456769 / 8388608) = Flt.fin (13456769 / 8388608) ∧
    (∀ v, v < (fan_mesh (13456769 / 8388608) : Mesh ℚ).n_vertices →
      (fan_mesh (13456769 / 8388608) : Mesh ℚ).vv v ≠ []) ∧
    coord_min (fan_mesh (13456769 / 8388608) : Mesh ℚ) Vec3.z = 13456769 / 8388608 ∧
    coord_max (fan_mesh (13456769 / 8388608) : Mesh ℚ) Vec3.z = 13456769 / 8388608 ∧
    ((F32.uniform_smooth (Viewer.init (fan_mesh (13456769 / 8388608))) 1).mesh.point 0).z
      = Flt.fin (13456770 / 8388608) :=
  ⟨by decide!, by decide, by decide!, by decide!, by decide!⟩

/-- C20 as amended: in `float`, `uniform_smooth` never moves a vertex across a
coordinate plane that has the whole input mesh on one side.  On a mesh whose
neighbour lists name vertices of the mesh, for each coordinate: if that
coordinate is a `float` number `>= 0` at every input vertex, then after
`uniform_smooth(k)`, for every `k`, it is not negative at any vertex (a number
`>= 0`, or `+inf` or NaN after an overflow); and if it is a number `<= 0` at
every input vertex, it is not positive at any vertex afterwards. -/
theorem uniform_smooth_orthant (s : Viewer ℚ) (k : Nat)
    (hwf : ∀ v, v < s.mesh.n_vertices → ∀ u ∈ s.mesh.vv v, u < s.mesh.n_vertices)
    (sel : Vec3 ℚ → Flt ℚ) (hsel : sel = Vec3.x ∨ sel = Vec3.y ∨ sel = Vec3.z) :
    ((∀ u, u < s.mesh.n_vertices →
        ∃ r : ℚ, sel (s.mesh.point u) = Flt.fin r ∧ 0 ≤ r ∧ roundQ binary32 r = Flt.fin r) →
      ∀ v, v < s.mesh.n_vertices →
        Flt.lt (sel ((F32.uniform_smooth s k).mesh.point v)) (Flt.fin 0) = false) ∧
    ((∀ u, u < s.mesh.n_vertices →
        ∃ r : ℚ, sel (s.mesh.point u) = Flt.fin r ∧ r ≤ 0 ∧ roundQ binary32 r = Flt.fin r) →
      ∀ v, v < s.mesh.n_vertices →
        Flt.lt (Flt.fin 0) (sel ((F32.uniform_smooth s k).mesh.point v)) = false) := by
  constructor
  · intro h v hv
    apply F32.notNeg_lt
    refine (F32.uniform_smooth_inv sel hsel F32.NotNeg F32.smooth_coord_notNeg s hwf ?_ k).2.2 v hv
    intro u hu
    obtain ⟨r, h1, h2, h3⟩ := h u hu
    exact Or.inr (Or.inr ⟨r, h1, h2, roundQ_rep binary32 binary32_prec r r h3⟩)
  · intro h v hv
    apply F32.notPos_lt
    refine (F32.uniform_smooth_inv sel hsel F32.NotPos F32.smooth_coord_notPos s hwf ?_ k).2.2 v hv
    intro u hu
    obtain ⟨r, h1, h2, h3⟩ := h u hu
    refine Or.inr (Or.inr ⟨-r, ?_, by linarith, binary32.rep_neg _
      (roundQ_rep binary32 binary32_prec r r h3)⟩)
    rw [h1]
    rfl

/-- Witness of the amended C20: the first coordinate of vertex 1 of the right
triangle after ten iterations. -/
theorem uniform_smooth_orthant_witness :
    Flt.lt ((F32.uniform_smooth (Viewer.init (right_triangle : Mesh ℚ)) 10).mesh.point 1).x
      (Flt.fin 0) = false :=
  (uniform_smooth_orthant (Viewer.init (right_triangle : Mesh ℚ)) 10 (by decide) Vec3.x
    (Or.inl rfl)).1
    (fun u hu => by
      have hu3 : u < 3 := hu
      interval_cases u
      · exact ⟨0, rfl, le_rfl, by decide!⟩
      · exact ⟨1, rfl, zero_le_one, by decide!⟩
      · exact ⟨0, rfl, le_rfl, by decide!⟩)
    1 (by decide)

end Claims

end MeshDOG
